import Mathlib

/-!
# Upcall cache (lustre/obdclass/upcall_cache.c)

A shallow embedding of the supplementary-groups upcall cache.

* Entries live in a heap `Nat → Option upcall_cache_entry`; a pointer is a `Nat`,
  `none` is freed (or never allocated) memory.  Dereferencing a dead pointer and a
  failing `LASSERT` both make an operation return `none`.
* The hash table is a function from bucket index to the chain of entry pointers,
  head of the kernel list first.
* Everything between `spin_lock` and `spin_unlock` is one atomic segment.  At the
  places where the C code runs without the lock (allocation, the `do_upcall` hook,
  `schedule_timeout`, the `parse_downcall` hook, the tail of the downcall) other
  threads may run: an environment supplies, for each such place, an arbitrary
  function on the shared state together with the outcome of the blocking call.
  The `put_entry` that closes a downcall runs without the lock: its decrement, its
  test of the flags and its `free_entry` are separate moves, with the other threads
  in between.
* `ktime_get_seconds()` reads the field `now`; the clock only moves while the lock
  is released (the environment may change `now`).
* `trace` is a ghost log of what an operation itself did (lock, unlock, wake-ups,
  upcalls, allocations, frees); the environment cannot alter it.
* `LIBCFS_ALLOC` hands out the address `brk` and advances it: an address is never
  handed out twice.
-/

namespace UpcallCache

/-! ## Constants -/

/-- Linux errno values used by the source (`-ENOMEM` and friends). -/
def ENOMEM : Int := 12
/-- Linux errno `EINTR`. -/
def EINTR : Int := 4
/-- Linux errno `EINVAL`. -/
def EINVAL : Int := 22
/-- Linux errno `EIDRM`. -/
def EIDRM : Int := 43
/-- Linux errno `EREMCHG`. -/
def EREMCHG : Int := 78
/-- Linux errno `ETIMEDOUT`. -/
def ETIMEDOUT : Int := 110

/-- Modelled from the spec: the flag bits of `upcall_cache.h` (the header is not part of
the sources at hand).  The spec describes `flags` as a bit set drawn from NEW, ACQUIRING,
INVALID and EXPIRED, VALID being the state in which no flag bit is set. -/
def UC_CACHE_NEW : Nat := 1
/-- Modelled from the spec: flag bit ACQUIRING of `upcall_cache.h`. -/
def UC_CACHE_ACQUIRING : Nat := 2
/-- Modelled from the spec: flag bit INVALID of `upcall_cache.h`. -/
def UC_CACHE_INVALID : Nat := 4
/-- Modelled from the spec: flag bit EXPIRED of `upcall_cache.h`. -/
def UC_CACHE_EXPIRED : Nat := 8

/-! ## Data model -/

/-- One cache record (`struct upcall_cache_entry`).  `ue_hash` is represented by the
position of the entry's pointer in the table, `ue_waitq` by the `wake` events of the
trace, and the embedder's union `u` by the opaque `payload`. -/
structure upcall_cache_entry where
  ue_key : Nat
  ue_flags : Nat
  ue_refcount : Int
  ue_acquire_expire : Int
  ue_expire : Int
  payload : Nat
deriving DecidableEq, Repr

/-- Ghost events recorded by the operations. -/
inductive Event where
  | lock
  | unlock
  | wake (p : Nat)
  | upcall (p : Nat)
  | parse (p : Nat)
  | free (p : Nat) (refcount : Int)
  | alloc (p : Nat)
deriving DecidableEq, Repr

/-- The hooks of `struct upcall_cache_ops` that are pure functions of their arguments.
A hook that is `none` is a NULL function pointer.  `init_entry` fills in the payload.
`parse_downcall` is handed the entry: it returns its status, the payload and the
`ue_expire` it leaves in the entry (the value it found there when it does not supply an
expiry); flags, refcount, key and list linkage are the cache's own and a hook does not
write them.  `do_upcall` talks to the outside world: its return code is supplied by the
environment.  The `free_entry` hook only releases payload resources and has no effect
here. -/
structure upcall_cache_ops where
  init_entry : Option (upcall_cache_entry → Nat → Nat)
  upcall_compare : Option (upcall_cache_entry → Nat → Nat → Int)
  downcall_compare : Option (upcall_cache_entry → Nat → Nat → Int)
  parse_downcall : Option (upcall_cache_entry → Nat → Int × Nat × Int)

/-- The cache (`struct upcall_cache`) together with the memory it points into. -/
structure upcall_cache where
  uc_hashtable : Nat → List Nat
  uc_hashsize : Nat
  uc_entry_expire : Int
  uc_acquire_expire : Int
  uc_acquire_replay : Bool
  heap : Nat → Option upcall_cache_entry
  brk : Nat
  now : Int
  trace : List Event

/-! ## Flag macros -/

def UC_CACHE_IS_NEW (e : upcall_cache_entry) : Bool := e.ue_flags &&& UC_CACHE_NEW != 0
def UC_CACHE_IS_INVALID (e : upcall_cache_entry) : Bool := e.ue_flags &&& UC_CACHE_INVALID != 0
def UC_CACHE_IS_ACQUIRING (e : upcall_cache_entry) : Bool :=
  e.ue_flags &&& UC_CACHE_ACQUIRING != 0
def UC_CACHE_IS_EXPIRED (e : upcall_cache_entry) : Bool := e.ue_flags &&& UC_CACHE_EXPIRED != 0
def UC_CACHE_IS_VALID (e : upcall_cache_entry) : Bool := e.ue_flags == 0

/-- The C expression `flags &= ~bit` on a bit set held in a natural number. -/
def clear_bits (flags bit : Nat) : Nat := flags ^^^ (flags &&& bit)

def UC_CACHE_SET_NEW (e : upcall_cache_entry) : upcall_cache_entry :=
  { e with ue_flags := e.ue_flags ||| UC_CACHE_NEW }
def UC_CACHE_SET_INVALID (e : upcall_cache_entry) : upcall_cache_entry :=
  { e with ue_flags := e.ue_flags ||| UC_CACHE_INVALID }
def UC_CACHE_SET_ACQUIRING (e : upcall_cache_entry) : upcall_cache_entry :=
  { e with ue_flags := e.ue_flags ||| UC_CACHE_ACQUIRING }
def UC_CACHE_SET_EXPIRED (e : upcall_cache_entry) : upcall_cache_entry :=
  { e with ue_flags := e.ue_flags ||| UC_CACHE_EXPIRED }
def UC_CACHE_SET_VALID (e : upcall_cache_entry) : upcall_cache_entry :=
  { e with ue_flags := 0 }
def UC_CACHE_CLEAR_NEW (e : upcall_cache_entry) : upcall_cache_entry :=
  { e with ue_flags := clear_bits e.ue_flags UC_CACHE_NEW }
def UC_CACHE_CLEAR_ACQUIRING (e : upcall_cache_entry) : upcall_cache_entry :=
  { e with ue_flags := clear_bits e.ue_flags UC_CACHE_ACQUIRING }

/-- Modelled from the spec: `UC_CACHE_HASH_INDEX` of `upcall_cache.h`; the spec gives the
chain of a key as `hash(key) mod size` with a simple modulus as hash. -/
def UC_CACHE_HASH_INDEX (key size : Nat) : Nat := key % size

/-! ## Memory and list primitives -/

/-- Write `e` at address `p`. -/
def store (c : upcall_cache) (p : Nat) (e : upcall_cache_entry) : upcall_cache :=
  { c with heap := Function.update c.heap p (some e) }

/-- Append an event to the ghost trace. -/
def emit (c : upcall_cache) (ev : Event) : upcall_cache :=
  { c with trace := c.trace ++ [ev] }

/-- Kernel `list_del` / `list_del_init` on `ue_hash`: the entry leaves the chain it is on
(and nothing happens when it is on none). -/
def list_del (c : upcall_cache) (p : Nat) : upcall_cache :=
  { c with uc_hashtable := fun i => (c.uc_hashtable i).filter (fun q => q != p) }

/-- Kernel `list_add(&p->ue_hash, head)`: insert right after the list head. -/
def list_add (c : upcall_cache) (p : Nat) (head : Nat) : upcall_cache :=
  { c with uc_hashtable := Function.update c.uc_hashtable head (p :: c.uc_hashtable head) }

/-- Kernel `list_move`: delete, then add at the head. -/
def list_move (c : upcall_cache) (p : Nat) (head : Nat) : upcall_cache :=
  list_add (list_del c p) p head

/-! ## Static helpers of upcall_cache.c -/

/-- The object built by `alloc_entry`: zeroed memory, flag NEW, refcount 0, both
deadlines 0, payload from the `init_entry` hook when there is one. -/
def alloc_entry (ops : upcall_cache_ops) (key args : Nat) : upcall_cache_entry :=
  let e : upcall_cache_entry :=
    { ue_key := key, ue_flags := 0 ||| UC_CACHE_NEW, ue_refcount := 0,
      ue_acquire_expire := 0, ue_expire := 0, payload := 0 }
  match ops.init_entry with
  | some f => { e with payload := f e args }
  | none => e

/-- `free_entry` on an entry that is in shared memory: unlink and release. -/
def free_entry (c : upcall_cache) (p : Nat) : Option upcall_cache :=
  match c.heap p with
  | none => none
  | some e =>
    some { list_del c p with
            heap := Function.update c.heap p none
            trace := c.trace ++ [Event.free p e.ue_refcount] }

def upcall_compare (ops : upcall_cache_ops) (e : upcall_cache_entry) (key args : Nat) : Int :=
  if e.ue_key != key then -1
  else match ops.upcall_compare with
    | some f => f e key args
    | none => 0

def downcall_compare (ops : upcall_cache_ops) (e : upcall_cache_entry) (key args : Nat) : Int :=
  if e.ue_key != key then -1
  else match ops.downcall_compare with
    | some f => f e key args
    | none => 0

/-- `get_entry`: `atomic_inc(&entry->ue_refcount)`. -/
def get_entry (c : upcall_cache) (p : Nat) : Option upcall_cache :=
  match c.heap p with
  | none => none
  | some e => some (store c p { e with ue_refcount := e.ue_refcount + 1 })

/-- `put_entry`: decrement, and free when the count reached zero on an INVALID or
EXPIRED entry. -/
def put_entry (c : upcall_cache) (p : Nat) : Option upcall_cache :=
  match c.heap p with
  | none => none
  | some e =>
    let e1 := { e with ue_refcount := e.ue_refcount - 1 }
    let c1 := store c p e1
    if e1.ue_refcount == 0 && (UC_CACHE_IS_INVALID e1 || UC_CACHE_IS_EXPIRED e1) then
      free_entry c1 p
    else some c1

/-- `check_unlink_entry`; the Boolean is the C return value (1 = unlinked). -/
def check_unlink_entry (c : upcall_cache) (p : Nat) : Option (Bool × upcall_cache) :=
  match c.heap p with
  | none => none
  | some e =>
    let now := c.now
    if UC_CACHE_IS_VALID e && decide (now < e.ue_expire) then some (false, c)
    else if UC_CACHE_IS_ACQUIRING e &&
        (e.ue_acquire_expire == 0 || decide (now < e.ue_acquire_expire)) then some (false, c)
    else
      let c1 :=
        if UC_CACHE_IS_ACQUIRING e then emit (store c p (UC_CACHE_SET_EXPIRED e)) (Event.wake p)
        else if !UC_CACHE_IS_INVALID e then store c p (UC_CACHE_SET_EXPIRED e)
        else c
      let c2 := list_del c1 p
      if e.ue_refcount == 0 then (free_entry c2 p).map (fun c3 => (true, c3))
      else some (true, c2)

/-- `refresh_entry` only forwards to the `do_upcall` hook (the `LASSERT` that the hook
exists is a condition on the embedder); the call is recorded in the trace and its
return code comes from the environment. -/
def refresh_entry (c : upcall_cache) (p : Nat) : upcall_cache :=
  emit c (Event.upcall p)

/-! ## upcall_cache_get_entry -/

/-- What the environment does at one place where `upcall_cache_get_entry` runs without
the lock: other threads transform the shared state (`interfere`), and the blocking call
made there has an outcome: `alloc_ok` for `LIBCFS_ALLOC`, `rc` for `do_upcall`, and for
`schedule_timeout` the time `left` that remained on a timer when the sleeper was woken or
interrupted (zero or less: nobody woke it). -/
structure Susp where
  interfere : upcall_cache → upcall_cache
  alloc_ok : Bool
  rc : Int
  left : Int

/-- The shared state as found when the lock is taken again: whatever the other threads
made of it, with this operation's own trace. -/
def resume (f : upcall_cache → upcall_cache) (c : upcall_cache) : upcall_cache :=
  { f c with trace := c.trace }

/-- The kernel's `MAX_SCHEDULE_TIMEOUT` (`LONG_MAX`): sleep without a bound. -/
def MAX_SCHEDULE_TIMEOUT : Int := 2 ^ 63 - 1

/-- The kernel's tick rate; its value plays no role beyond being positive. -/
def HZ : Int := 1000

/-- Modelled from the spec: `cfs_time_seconds` of libcfs (not part of the sources at
hand), seconds to timer ticks. -/
def cfs_time_seconds (seconds : Int) : Int := seconds * HZ

/-- The kernel's `schedule_timeout(timeout)` as its documentation gives it: called with
`MAX_SCHEDULE_TIMEOUT` it sleeps until woken and returns `MAX_SCHEDULE_TIMEOUT`; called
with a timer it returns 0 when the timer ran out and else the time remaining, which is
never more than the timer.  `out` is the environment's part: the time that remained when
the sleeper was woken or interrupted (whether a sleeper is woken at all is the
environment's matter too: one that never is does not take its next step). -/
def schedule_timeout (timeout out : Int) : Int :=
  if timeout = MAX_SCHEDULE_TIMEOUT then MAX_SCHEDULE_TIMEOUT else max 0 (min out timeout)

/-- Lines 219-221: the `expiry` of the sleep on an ACQUIRING entry: the acquire timeout
for the call that created the entry (`entry == new`), no bound for every other call. -/
def wait_expiry (c : upcall_cache) (entry : Nat) (new : Option Nat) : Int :=
  if new = some entry then cfs_time_seconds c.uc_acquire_expire else MAX_SCHEDULE_TIMEOUT

/-- Line 228: the value `left` that `schedule_timeout(expiry)` hands back to the call
sleeping on `entry`, the environment's part being `out`. -/
def wait_left (c : upcall_cache) (entry : Nat) (new : Option Nat) (out : Int) : Int :=
  schedule_timeout (wait_expiry c entry new) out

/-- Where a running `upcall_cache_get_entry` stands when it does not hold the lock,
with the values of its local variables.  At `find_again` the variable `new` is NULL
(both `goto find_again` after a failure reset it; the jump taken right after a successful
allocation is part of the allocation step); after the search `new` is NULL or the
address of the entry this call linked. -/
inductive GetPC where
  | find_again (failedacquiring : Bool)
  | do_alloc (failedacquiring : Bool)
  | do_upcall (entry : Nat) (new : Option Nat) (failedacquiring : Bool)
  | do_wait (entry : Nat) (new : Option Nat) (failedacquiring : Bool)
  | ret (r : Except Int Nat)

/-- The `list_for_each_entry_safe` loop of lines 164-172 over the chain as it stood when
the loop began; returns the matching entry, if any. -/
def find_loop (ops : upcall_cache_ops) (key args : Nat) :
    List Nat → upcall_cache → Option (Option Nat × upcall_cache)
  | [], c => some (none, c)
  | p :: rest, c =>
    match check_unlink_entry c p with
    | none => none
    | some (true, c1) => find_loop ops key args rest c1
    | some (false, c1) =>
      match c1.heap p with
      | none => none
      | some e =>
        if upcall_compare ops e key args == 0 then some (some p, c1)
        else find_loop ops key args rest c1

/-- Lines 256-283, lock held: the INVALID test, the final expiry check, `out`. -/
def get_tail (c : upcall_cache) (entry : Nat) (new : Option Nat) (failedacquiring : Bool) :
    Option (GetPC × upcall_cache) :=
  match c.heap entry with
  | none => none
  | some e =>
    if UC_CACHE_IS_INVALID e then
      (put_entry c entry).map
        (fun c1 => (GetPC.ret (Except.error (-EIDRM)), emit c1 Event.unlock))
    else
      match check_unlink_entry c entry with
      | none => none
      | some (r, c1) =>
        if r && new != some entry then
          (put_entry c1 entry).map
            (fun c2 => (GetPC.find_again failedacquiring, emit c2 Event.unlock))
        else some (GetPC.ret (Except.ok entry), emit c1 Event.unlock)

/-- Lines 217-226, lock held: go to sleep on an ACQUIRING entry, else fall through. -/
def get_acquiring (c : upcall_cache) (entry : Nat) (new : Option Nat)
    (failedacquiring : Bool) : Option (GetPC × upcall_cache) :=
  match c.heap entry with
  | none => none
  | some e =>
    if UC_CACHE_IS_ACQUIRING e then
      some (GetPC.do_wait entry new failedacquiring, emit c Event.unlock)
    else get_tail c entry new failedacquiring

/-- Lines 202-214 and on: back from `refresh_entry` with return code `rc`. -/
def get_after_upcall (c : upcall_cache) (entry : Nat) (new : Option Nat)
    (failedacquiring : Bool) (rc : Int) : Option (GetPC × upcall_cache) :=
  let c := emit c Event.lock
  match c.heap entry with
  | none => none
  | some e =>
    let e1 := { e with ue_acquire_expire := c.now + c.uc_acquire_expire }
    if rc < 0 then
      let c1 := emit (store c entry (UC_CACHE_SET_INVALID (UC_CACHE_CLEAR_ACQUIRING e1)))
        (Event.wake entry)
      if rc == -EREMCHG then
        (put_entry c1 entry).map
          (fun c2 => (GetPC.ret (Except.error rc), emit c2 Event.unlock))
      else get_acquiring c1 entry new failedacquiring
    else get_acquiring (store c entry e1) entry new failedacquiring

/-- Lines 230-254 and on: back from `schedule_timeout`, which returned `left`. -/
def get_after_wait (c : upcall_cache) (entry : Nat) (new : Option Nat)
    (failedacquiring : Bool) (left : Int) : Option (GetPC × upcall_cache) :=
  let c := emit c Event.lock
  match c.heap entry with
  | none => none
  | some e =>
    if UC_CACHE_IS_ACQUIRING e then
      let rc : Int := if left > 0 then -EINTR else -ETIMEDOUT
      let failedacquiring1 :=
        if decide (left ≤ 0) && !c.uc_acquire_replay then true else failedacquiring
      match put_entry c entry with
      | none => none
      | some c1 =>
        if !failedacquiring1 then some (GetPC.find_again true, emit c1 Event.unlock)
        else some (GetPC.ret (Except.error rc), emit c1 Event.unlock)
    else get_tail c entry new failedacquiring

/-- Lines 194-200 and on, lock held: take the reference, start the acquisition of a NEW
entry (the lock is dropped and `refresh_entry` called), else continue at line 217. -/
def get_hold (c : upcall_cache) (entry : Nat) (new : Option Nat) (failedacquiring : Bool) :
    Option (GetPC × upcall_cache) :=
  match get_entry c entry with
  | none => none
  | some c1 =>
    match c1.heap entry with
    | none => none
    | some e =>
      if UC_CACHE_IS_NEW e then
        some (GetPC.do_upcall entry new failedacquiring,
          refresh_entry (emit (store c1 entry (UC_CACHE_CLEAR_NEW (UC_CACHE_SET_ACQUIRING e)))
            Event.unlock) entry)
      else get_acquiring c1 entry new failedacquiring

/-- Lines 161-193 and on: from `find_again` to the next place without the lock. -/
def get_find (ops : upcall_cache_ops) (c : upcall_cache) (key args : Nat)
    (new : Option (Nat × upcall_cache_entry)) (failedacquiring : Bool) :
    Option (GetPC × upcall_cache) :=
  let head := UC_CACHE_HASH_INDEX key c.uc_hashsize
  let c := emit c Event.lock
  match find_loop ops key args (c.uc_hashtable head) c with
  | none => none
  | some (none, c1) =>
    match new with
    | none => some (GetPC.do_alloc failedacquiring, emit c1 Event.unlock)
    | some (p, obj) => get_hold (list_add (store c1 p obj) p head) p (some p) failedacquiring
  | some (some entry, c1) =>
    match new with
    | some (p, obj) =>
      get_hold (list_move (emit c1 (Event.free p obj.ue_refcount)) entry head) entry none
        failedacquiring
    | none => get_hold (list_move c1 entry head) entry none failedacquiring

/-- One move of a `upcall_cache_get_entry` call from a place without the lock to the
next one: the blocking call made there ends with the outcome given in `s`, the lock is
taken and the code runs until it drops the lock again. -/
def get_step (ops : upcall_cache_ops) (key args : Nat) (s : Susp) :
    GetPC → upcall_cache → Option (GetPC × upcall_cache)
  | GetPC.ret r, c => some (GetPC.ret r, c)
  | GetPC.find_again fa, c => get_find ops c key args none fa
  | GetPC.do_alloc fa, c =>
    if s.alloc_ok then
      get_find ops (emit { c with brk := c.brk + 1 } (Event.alloc c.brk)) key args
        (some (c.brk, alloc_entry ops key args)) fa
    else some (GetPC.ret (Except.error (-ENOMEM)), c)
  | GetPC.do_upcall entry new fa, c => get_after_upcall c entry new fa s.rc
  | GetPC.do_wait entry new fa, c =>
    get_after_wait c entry new fa (wait_left c entry new s.left)

/-- Run a `upcall_cache_get_entry` call from a place without the lock; every such place
consumes one item of the environment: the other threads act first, then the call moves
on.  `none`: the call faulted or the environment was used up before the call
returned. -/
def get_run (ops : upcall_cache_ops) (key args : Nat) :
    List Susp → GetPC → upcall_cache → Option (Except Int Nat × upcall_cache)
  | _, GetPC.ret r, c => some (r, c)
  | [], _, _ => none
  | s :: env, pc, c =>
    match get_step ops key args s pc (resume s.interfere c) with
    | none => none
    | some (pc1, c1) => get_run ops key args env pc1 c1

/-- The function `upcall_cache_get_entry`: the entry pointer, or `ERR_PTR(rc)` as
`Except.error rc`. -/
def upcall_cache_get_entry (ops : upcall_cache_ops) (env : List Susp) (c : upcall_cache)
    (key args : Nat) : Option (Except Int Nat × upcall_cache) :=
  match get_find ops c key args none false with
  | none => none
  | some (pc, c1) => get_run ops key args env pc c1

/-- `upcall_cache_get_entry_raw`: one more reference on an entry already held. -/
def upcall_cache_get_entry_raw (c : upcall_cache) (entry : Nat) : Option upcall_cache :=
  get_entry c entry

/-- `upcall_cache_update_entry`; `state` is the C `int` restricted to bit sets. -/
def upcall_cache_update_entry (c : upcall_cache) (entry : Nat) (expire : Int) (state : Nat) :
    Option upcall_cache :=
  let c := emit c Event.lock
  match c.heap entry with
  | none => none
  | some e =>
    let e1 := { e with ue_expire := expire }
    let e2 := if state == 0 then UC_CACHE_SET_VALID e1
      else { e1 with ue_flags := e1.ue_flags ||| state }
    some (emit (store c entry e2) Event.unlock)

/-- `upcall_cache_put_entry`; a NULL entry is `none`, the `LASSERT` on the refcount
fails into `none`. -/
def upcall_cache_put_entry (c : upcall_cache) (entry : Option Nat) : Option upcall_cache :=
  match entry with
  | none => some c
  | some p =>
    match c.heap p with
    | none => none
    | some e =>
      if e.ue_refcount > 0 then
        (put_entry (emit c Event.lock) p).map (fun c1 => emit c1 Event.unlock)
      else none

/-! ## upcall_cache_downcall -/

/-- The value of a `__u32` read as an `int`. -/
def int_of_u32 (x : Nat) : Int :=
  if x % 2 ^ 32 < 2 ^ 31 then ((x % 2 ^ 32 : Nat) : Int) else ((x % 2 ^ 32 : Nat) : Int) - 2 ^ 32

/-- What other threads do at the places where `upcall_cache_downcall` runs without the
lock: while `parse_downcall` runs, between the final `spin_unlock` and the `put_entry`
that follows it, and inside that `put_entry`, which runs without the lock: between its
`atomic_dec_and_test` and its test of the flags, and between that test and
`free_entry`. -/
structure DownEnv where
  during_parse : upcall_cache → upcall_cache
  before_put : upcall_cache → upcall_cache
  before_test : upcall_cache → upcall_cache
  before_free : upcall_cache → upcall_cache

/-- The environment in which no other thread runs during a downcall. -/
def DownEnv.quiet : DownEnv :=
  { during_parse := id, before_put := id, before_test := id, before_free := id }

/-- Where a running `upcall_cache_downcall` stands when it does not hold the lock:
inside `parse_downcall`; after the final `spin_unlock` with `rc` decided; inside the
closing `put_entry` after its decrement reached zero, before the flags are tested; after
that test found INVALID or EXPIRED, before `free_entry`; or returned. -/
inductive DownPC where
  | do_parse (entry : Nat)
  | do_put (entry : Nat) (rc : Int)
  | do_test (entry : Nat) (rc : Int)
  | do_free (entry : Nat) (rc : Int)
  | ret (rc : Int)

/-- The `atomic_dec_and_test` of `put_entry`: the decrement, and whether it reached
zero. -/
def put_dec (c : upcall_cache) (p : Nat) : Option (Bool × upcall_cache) :=
  match c.heap p with
  | none => none
  | some e =>
    some (decide (e.ue_refcount - 1 = 0), store c p { e with ue_refcount := e.ue_refcount - 1 })

/-- The test of the flags in `put_entry`: INVALID or EXPIRED. -/
def put_test (c : upcall_cache) (p : Nat) : Option Bool :=
  match c.heap p with
  | none => none
  | some e => some (UC_CACHE_IS_INVALID e || UC_CACHE_IS_EXPIRED e)

/-- The `list_for_each_entry` loop of lines 339-345: the first entry of the chain for
which `downcall_compare` returns 0. -/
def downcall_loop (ops : upcall_cache_ops) (key args : Nat) (c : upcall_cache) :
    List Nat → Option (Option Nat)
  | [] => some none
  | p :: rest =>
    match c.heap p with
    | none => none
    | some e =>
      if downcall_compare ops e key args == 0 then some (some p)
      else downcall_loop ops key args c rest

/-- Label `out`, lines 385-391 (lock held, released at the end). -/
def downcall_out (c : upcall_cache) (entry : Nat) (rc : Int) : Option (DownPC × upcall_cache) :=
  match c.heap entry with
  | none => none
  | some e =>
    if rc != 0 then
      some (DownPC.do_put entry rc, emit (list_del (store c entry
        (UC_CACHE_CLEAR_ACQUIRING (UC_CACHE_SET_INVALID e))) entry) Event.unlock)
    else some (DownPC.do_put entry rc, emit (store c entry (UC_CACHE_CLEAR_ACQUIRING e))
      Event.unlock)

/-- Lines 333-373: the lookup and the tests made before the hook is called. -/
def downcall_start (ops : upcall_cache_ops) (c : upcall_cache) (err : Nat) (key args : Nat) :
    Option (DownPC × upcall_cache) :=
  let head := UC_CACHE_HASH_INDEX key c.uc_hashsize
  let c := emit c Event.lock
  match downcall_loop ops key args c (c.uc_hashtable head) with
  | none => none
  | some none => some (DownPC.ret (-EINVAL), emit c Event.unlock)
  | some (some entry) =>
    match get_entry c entry with
    | none => none
    | some c1 =>
      match c1.heap entry with
      | none => none
      | some e =>
        if err % 2 ^ 32 != 0 then downcall_out c1 entry (int_of_u32 err)
        else if !UC_CACHE_IS_ACQUIRING e then downcall_out c1 entry 0
        else if UC_CACHE_IS_INVALID e || UC_CACHE_IS_EXPIRED e then
          downcall_out c1 entry (-EINVAL)
        else some (DownPC.do_parse entry, emit c1 Event.unlock)

/-- Lines 374-391: the `parse_downcall` hook has run on the entry without the lock (it
wrote the payload and may have set `ue_expire`); the lock is taken again and, on success,
the entry gets the default expiry when `ue_expire` is still 0, and becomes VALID. -/
def downcall_parse (ops : upcall_cache_ops) (c : upcall_cache) (entry : Nat) (args : Nat) :
    Option (DownPC × upcall_cache) :=
  match c.heap entry with
  | none => none
  | some e =>
    let rc : Int :=
      match ops.parse_downcall with
      | some f => (f e args).1
      | none => 0
    let c1 :=
      match ops.parse_downcall with
      | some f =>
        emit (store c entry { e with payload := (f e args).2.1, ue_expire := (f e args).2.2 })
          (Event.parse entry)
      | none => c
    let c2 := emit c1 Event.lock
    if rc != 0 then downcall_out c2 entry rc
    else
      match c2.heap entry with
      | none => none
      | some e2 =>
        let e3 := if e2.ue_expire == 0 then
            { e2 with ue_expire := c2.now + c2.uc_entry_expire } else e2
        downcall_out (store c2 entry (UC_CACHE_SET_VALID e3)) entry 0

/-- Lines 392-393, first move without the lock: `wake_up`, and the decrement of
`put_entry`; the call is done unless the count reached zero. -/
def downcall_put (c : upcall_cache) (entry : Nat) (rc : Int) : Option (DownPC × upcall_cache) :=
  match put_dec (emit c (Event.wake entry)) entry with
  | none => none
  | some (true, c1) => some (DownPC.do_test entry rc, c1)
  | some (false, c1) => some (DownPC.ret rc, c1)

/-- Line 393, `put_entry` after its decrement reached zero: the test of the flags. -/
def downcall_test (c : upcall_cache) (entry : Nat) (rc : Int) : Option (DownPC × upcall_cache) :=
  match put_test c entry with
  | none => none
  | some true => some (DownPC.do_free entry rc, c)
  | some false => some (DownPC.ret rc, c)

/-- Line 393, `put_entry` after its test succeeded: `free_entry`, still without the
lock. -/
def downcall_free (c : upcall_cache) (entry : Nat) (rc : Int) : Option (DownPC × upcall_cache) :=
  (free_entry c entry).map (fun c1 => (DownPC.ret rc, c1))

/-- Lines 392-395, without the lock: wake the waiters, drop the reference, return.  The
other threads act between the decrement and the test of the flags (`before_test`) and
between that test and `free_entry` (`before_free`). -/
def downcall_finish (before_test before_free : upcall_cache → upcall_cache) (c : upcall_cache)
    (entry : Nat) (rc : Int) : Option (Int × upcall_cache) :=
  match put_dec (emit c (Event.wake entry)) entry with
  | none => none
  | some (false, c1) => some (rc, c1)
  | some (true, c1) =>
    match put_test (resume before_test c1) entry with
    | none => none
    | some false => some (rc, resume before_test c1)
    | some true =>
      (free_entry (resume before_free (resume before_test c1)) entry).map (fun c3 => (rc, c3))

/-- Run a downcall from the place where `downcall_start` left it (inside `parse_downcall`,
before the closing `put_entry`, or returned). -/
def downcall_run (ops : upcall_cache_ops) (env : DownEnv) (args : Nat) :
    DownPC → upcall_cache → Option (Int × upcall_cache)
  | DownPC.ret rc, c => some (rc, c)
  | DownPC.do_put entry rc, c =>
    downcall_finish env.before_test env.before_free (resume env.before_put c) entry rc
  | DownPC.do_test _ _, _ => none
  | DownPC.do_free _ _, _ => none
  | DownPC.do_parse entry, c =>
    match downcall_parse ops (resume env.during_parse c) entry args with
    | none => none
    | some (DownPC.do_put entry1 rc, c1) =>
      downcall_finish env.before_test env.before_free (resume env.before_put c1) entry1 rc
    | some (DownPC.ret rc, c1) => some (rc, c1)
    | some (_, _) => none

/-- The function `upcall_cache_downcall`; `err` is the `__u32` argument. -/
def upcall_cache_downcall (ops : upcall_cache_ops) (env : DownEnv) (c : upcall_cache)
    (err : Nat) (key args : Nat) : Option (Int × upcall_cache) :=
  match downcall_start ops c err key args with
  | none => none
  | some (pc, c1) => downcall_run ops env args pc c1

/-! ## Flushing -/

/-- The inner loop of `upcall_cache_flush` over one chain as it stood when the loop
began; the `LASSERT` on a referenced entry under `force` fails into `none`. -/
def flush_chain (force : Int) : List Nat → upcall_cache → Option upcall_cache
  | [], c => some c
  | p :: rest, c =>
    match c.heap p with
    | none => none
    | some e =>
      if force == 0 && e.ue_refcount != 0 then
        flush_chain force rest (store c p (UC_CACHE_SET_EXPIRED e))
      else if e.ue_refcount != 0 then none
      else
        match free_entry c p with
        | none => none
        | some c1 => flush_chain force rest c1

/-- The outer loop of `upcall_cache_flush` over the bucket indices. -/
def flush_buckets (force : Int) : List Nat → upcall_cache → Option upcall_cache
  | [], c => some c
  | i :: rest, c =>
    match flush_chain force (c.uc_hashtable i) c with
    | none => none
    | some c1 => flush_buckets force rest c1

/-- The function `upcall_cache_flush`. -/
def upcall_cache_flush (c : upcall_cache) (force : Int) : Option upcall_cache :=
  (flush_buckets force (List.range c.uc_hashsize) (emit c Event.lock)).map
    (fun c1 => emit c1 Event.unlock)

/-- The `list_for_each_entry` loop of `upcall_cache_flush_one`: the first entry of the
chain for which `upcall_compare` returns 0. -/
def flush_one_loop (ops : upcall_cache_ops) (key args : Nat) (c : upcall_cache) :
    List Nat → Option (Option Nat)
  | [] => some none
  | p :: rest =>
    match c.heap p with
    | none => none
    | some e =>
      if upcall_compare ops e key args == 0 then some (some p)
      else flush_one_loop ops key args c rest

/-- The function `upcall_cache_flush_one`. -/
def upcall_cache_flush_one (ops : upcall_cache_ops) (c : upcall_cache) (key args : Nat) :
    Option upcall_cache :=
  let head := UC_CACHE_HASH_INDEX key c.uc_hashsize
  let c := emit c Event.lock
  match flush_one_loop ops key args c (c.uc_hashtable head) with
  | none => none
  | some none => some (emit c Event.unlock)
  | some (some entry) =>
    match c.heap entry with
    | none => none
    | some e =>
      let c1 := store c entry (UC_CACHE_SET_EXPIRED e)
      if e.ue_refcount == 0 then (free_entry c1 entry).map (fun c2 => emit c2 Event.unlock)
      else some (emit c1 Event.unlock)

/-- Modelled from the spec: `upcall_cache_flush_all` of `upcall_cache.h`, used by
`upcall_cache_cleanup`; the spec describes cleanup as "flush all (forcing)". -/
def upcall_cache_flush_all (c : upcall_cache) : Option upcall_cache :=
  upcall_cache_flush c 1

/-- The function `upcall_cache_cleanup` on a non-NULL cache: what is left of the memory
once the table has been flushed (the table and the cache object are then released). -/
def upcall_cache_cleanup (c : upcall_cache) : Option upcall_cache :=
  upcall_cache_flush_all c

/-- The function `upcall_cache_init` when both allocations succeed: `hashsz` empty
chains.  `mem`, `brk` and `now` stand for the memory and clock the cache is created
in. -/
def upcall_cache_init (hashsz : Nat) (entry_expire acquire_expire : Int) (replayable : Bool)
    (mem : Nat → Option upcall_cache_entry) (brk : Nat) (now : Int) : upcall_cache :=
  { uc_hashtable := fun _ => [], uc_hashsize := hashsz, uc_entry_expire := entry_expire,
    uc_acquire_expire := acquire_expire, uc_acquire_replay := replayable,
    heap := mem, brk := brk, now := now, trace := [] }

/-! ## Predicates used in the statements -/

/-- The settled-bad test of `put_entry`: INVALID or EXPIRED. -/
def SettledBad (e : upcall_cache_entry) : Prop :=
  UC_CACHE_IS_INVALID e = true ∨ UC_CACHE_IS_EXPIRED e = true

/-- The entries on which the `do_upcall` hook was invoked, in order. -/
def upcalls : List Event → List Nat
  | [] => []
  | Event.upcall p :: tr => p :: upcalls tr
  | _ :: tr => upcalls tr

/-- The entries on which the `parse_downcall` hook was invoked, in order. -/
def parses : List Event → List Nat
  | [] => []
  | Event.parse p :: tr => p :: parses tr
  | _ :: tr => parses tr

/-- The frees of a trace: address and refcount at the moment `free_entry` ran. -/
def frees : List Event → List (Nat × Int)
  | [] => []
  | Event.free p r :: tr => (p, r) :: frees tr
  | _ :: tr => frees tr

/-- The addresses handed out by `LIBCFS_ALLOC` in `alloc_entry`. -/
def allocs : List Event → List Nat
  | [] => []
  | Event.alloc p :: tr => p :: allocs tr
  | _ :: tr => allocs tr

/-! ## Concrete states used to instantiate the statements -/

/-- No hook installed except the mandatory `do_upcall`. -/
def demo_ops : upcall_cache_ops :=
  { init_entry := none, upcall_compare := none, downcall_compare := none,
    parse_downcall := none }

/-- A VALID entry for key 42 held by one caller, good until time 2000. -/
def demo_valid : upcall_cache_entry :=
  { ue_key := 42, ue_flags := 0, ue_refcount := 1, ue_acquire_expire := 1005,
    ue_expire := 2000, payload := 7 }

/-- A four-bucket cache at time 1000 whose only entry sits at address 100. -/
def demo_cache_with (e : upcall_cache_entry) : upcall_cache :=
  { uc_hashtable := fun i => if i = 2 then [100] else [], uc_hashsize := 4,
    uc_entry_expire := 10, uc_acquire_expire := 5, uc_acquire_replay := false,
    heap := fun p => if p = 100 then some e else none, brk := 101, now := 1000, trace := [] }

/-- The cache holding `demo_valid`. -/
def demo_cache : upcall_cache := demo_cache_with demo_valid

/-- An empty four-bucket cache at time 1000. -/
def demo_empty : upcall_cache := upcall_cache_init 4 10 5 false (fun _ => none) 100 1000

/-- An entry for key 42 whose upcall is in flight, held by its creator. -/
def demo_acquiring : upcall_cache_entry :=
  { ue_key := 42, ue_flags := UC_CACHE_ACQUIRING, ue_refcount := 1, ue_acquire_expire := 1005,
    ue_expire := 0, payload := 0 }

/-- The two early returns of `check_unlink_entry`: the entry is VALID and not yet
expired, or ACQUIRING with no deadline yet or a deadline that has not passed. -/
def keep_entry (now : Int) (e : upcall_cache_entry) : Bool :=
  (UC_CACHE_IS_VALID e && decide (now < e.ue_expire)) ||
  (UC_CACHE_IS_ACQUIRING e &&
    (e.ue_acquire_expire == 0 || decide (now < e.ue_acquire_expire)))

/-- What `check_unlink_entry` leaves in an entry it unlinks: EXPIRED is added unless the
entry is INVALID and not ACQUIRING. -/
def expire_entry (e : upcall_cache_entry) : upcall_cache_entry :=
  if UC_CACHE_IS_ACQUIRING e then UC_CACHE_SET_EXPIRED e
  else if !UC_CACHE_IS_INVALID e then UC_CACHE_SET_EXPIRED e
  else e

/-- Two states that differ at most in memory, table and trace: the configuration, the
clock and the allocator are the same. -/
def SameFrame (c c' : upcall_cache) : Prop :=
  c'.now = c.now ∧ c'.brk = c.brk ∧ c'.uc_hashsize = c.uc_hashsize ∧
  c'.uc_entry_expire = c.uc_entry_expire ∧ c'.uc_acquire_expire = c.uc_acquire_expire ∧
  c'.uc_acquire_replay = c.uc_acquire_replay

/-- How far a `upcall_cache_get_entry` call gets on the environment `env`: the place where
it stands once `env` is used up (or where it returned), and the state there. -/
def get_reach (ops : upcall_cache_ops) (key args : Nat) :
    List Susp → GetPC → upcall_cache → Option (GetPC × upcall_cache)
  | _, GetPC.ret r, c => some (GetPC.ret r, c)
  | [], pc, c => some (pc, c)
  | s :: env, pc, c =>
    match get_step ops key args s pc (resume s.interfere c) with
    | none => none
    | some (pc1, c1) => get_reach ops key args env pc1 c1

/-- Where a call `upcall_cache_get_entry(cache, key, args)` stands after the environment
`env`. -/
def get_entry_reach (ops : upcall_cache_ops) (env : List Susp) (c : upcall_cache)
    (key args : Nat) : Option (GetPC × upcall_cache) :=
  match get_find ops c key args none false with
  | none => none
  | some (pc, c1) => get_reach ops key args env pc c1

/-- No other thread runs; allocation succeeds, `do_upcall` returns 0, and nobody wakes a
sleeper (a sleep on a timer runs out). -/
def Susp.quiet : Susp := { interfere := id, alloc_ok := true, rc := 0, left := 0 }

/-- Another thread delivers a whole downcall while this one is not holding the lock. -/
def downcall_by_other (ops : upcall_cache_ops) (err key args : Nat) (c : upcall_cache) :
    upcall_cache :=
  match upcall_cache_downcall ops DownEnv.quiet c err key args with
  | some (_, c1) => c1
  | none => c

/-- The entry at `p` is allocated and nobody holds it. -/
def zero_ref (c : upcall_cache) (p : Nat) : Bool :=
  match c.heap p with
  | some e => e.ue_refcount == 0
  | none => false

/-- What `upcall_cache_flush` makes of one entry: freed when unreferenced, marked EXPIRED
otherwise. -/
def flushed (o : Option upcall_cache_entry) : Option upcall_cache_entry :=
  match o with
  | some e => if e.ue_refcount = 0 then none else some (UC_CACHE_SET_EXPIRED e)
  | none => none

/-- All pointers on the chains of the buckets `is`, bucket after bucket. -/
def chain_ptrs (c : upcall_cache) : List Nat → List Nat
  | [] => []
  | i :: rest => c.uc_hashtable i ++ chain_ptrs c rest

/-- Well-formed table: the chains of the buckets `0 .. uc_hashsize - 1` hold pointers to
allocated entries, and no pointer occurs twice in them. -/
def TableOk (c : upcall_cache) : Prop :=
  (chain_ptrs c (List.range c.uc_hashsize)).Nodup ∧
  ∀ p ∈ chain_ptrs c (List.range c.uc_hashsize), ∃ e, c.heap p = some e

/-- The clock moves on by `dt` seconds. -/
def tick (dt : Int) (c : upcall_cache) : upcall_cache :=
  { c with now := c.now + dt }

/-- No entry of the memory has a negative refcount. -/
def RefsNonneg (c : upcall_cache) : Prop :=
  ∀ q e, c.heap q = some e → 0 ≤ e.ue_refcount

/-- The reference a sleeping or upcalling `upcall_cache_get_entry` holds is counted in the
entry it points to: the entry has a refcount of at least 1. -/
def HeldRef (pc : GetPC) (c : upcall_cache) : Prop :=
  match pc with
  | GetPC.do_upcall q _ _ => ∀ e, c.heap q = some e → 1 ≤ e.ue_refcount
  | GetPC.do_wait q _ _ => ∀ e, c.heap q = some e → 1 ≤ e.ue_refcount
  | _ => True

/-- The call standing at `pc` created the entry `p` (`entry == new` in the source). -/
def CreatedBy (pc : GetPC) (p : Nat) : Prop :=
  match pc with
  | GetPC.do_upcall q new _ => q = p ∧ new = some p
  | GetPC.do_wait q new _ => q = p ∧ new = some p
  | _ => False

/-- What a caller can rely on in an entry returned by `upcall_cache_get_entry`: it is
allocated, neither ACQUIRING nor INVALID, referenced at least once, and either VALID and
not yet expired, or EXPIRED in the one case `created` (the call made the entry itself). -/
def Usable (created : Prop) (c : upcall_cache) (p : Nat) : Prop :=
  ∃ e, c.heap p = some e ∧ UC_CACHE_IS_ACQUIRING e = false ∧ UC_CACHE_IS_INVALID e = false ∧
    1 ≤ e.ue_refcount ∧
    ((UC_CACHE_IS_VALID e = true ∧ c.now < e.ue_expire) ∨
      (UC_CACHE_IS_EXPIRED e = true ∧ created))

/-- The environment of a creator whose entry is completed and then outlives its expiry
before the creator runs again: allocation and upcall go through undisturbed; while the
creator sleeps another thread delivers the downcall for key 42 and 100 seconds pass. -/
def demo_late_env : List Susp :=
  [Susp.quiet, Susp.quiet,
    { interfere := fun c => tick 100 (downcall_by_other demo_ops 0 42 0 c),
      alloc_ok := true, rc := 0, left := 1 }]

/-! ## The cache shared by several threads -/

/-- A thread inside `upcall_cache_get_entry(cache, key, args)`, standing at `pc`. -/
structure GetThread where
  key : Nat
  args : Nat
  pc : GetPC

/-- A thread inside `upcall_cache_downcall(cache, err, key, args)`, standing at `pc`. -/
structure DownThread where
  args : Nat
  pc : DownPC

/-- The cache and the threads that are inside one of its two blocking operations. -/
structure Sys where
  cache : upcall_cache
  gets : List GetThread
  downs : List DownThread

/-- What can happen next: a thread enters an operation, a thread that had dropped the
lock takes it again (for a lookup with the outcome of its blocking call), an operation
that never drops the lock runs, or time passes. -/
inductive Action where
  | get_call (key args : Nat)
  | get_resume (t : Nat) (alloc_ok : Bool) (rc left : Int)
  | put (entry : Option Nat)
  | get_raw (entry : Nat)
  | update (entry : Nat) (expire : Int) (state : Nat)
  | down_call (err key args : Nat)
  | down_resume (t : Nat)
  | flush (force : Int)
  | flush_one (key args : Nat)
  | cleanup
  | tick (dt : Nat)

/-- A thread inside `upcall_cache_get_entry` takes the lock again, the blocking call it
made having the outcome `s`; a thread that has returned cannot move. -/
def get_resume_step (ops : upcall_cache_ops) (c : upcall_cache) (th : GetThread) (s : Susp) :
    Option (GetThread × upcall_cache) :=
  match th.pc with
  | GetPC.ret _ => none
  | GetPC.find_again fa =>
    (get_step ops th.key th.args s (GetPC.find_again fa) c).map
      (fun r => ({ th with pc := r.1 }, r.2))
  | GetPC.do_alloc fa =>
    (get_step ops th.key th.args s (GetPC.do_alloc fa) c).map
      (fun r => ({ th with pc := r.1 }, r.2))
  | GetPC.do_upcall entry new fa =>
    (get_step ops th.key th.args s (GetPC.do_upcall entry new fa) c).map
      (fun r => ({ th with pc := r.1 }, r.2))
  | GetPC.do_wait entry new fa =>
    (get_step ops th.key th.args s (GetPC.do_wait entry new fa) c).map
      (fun r => ({ th with pc := r.1 }, r.2))

/-- A thread inside `upcall_cache_downcall` moves on: from the `parse_downcall` hook
through the locked section that follows it, or by one move of the unlocked tail (the
decrement, the test of the flags, `free_entry`). -/
def down_resume_step (ops : upcall_cache_ops) (c : upcall_cache) (th : DownThread) :
    Option (DownThread × upcall_cache) :=
  match th.pc with
  | DownPC.ret _ => none
  | DownPC.do_parse entry =>
    (downcall_parse ops c entry th.args).map (fun r => ({ th with pc := r.1 }, r.2))
  | DownPC.do_put entry rc =>
    (downcall_put c entry rc).map (fun r => ({ th with pc := r.1 }, r.2))
  | DownPC.do_test entry rc =>
    (downcall_test c entry rc).map (fun r => ({ th with pc := r.1 }, r.2))
  | DownPC.do_free entry rc =>
    (downcall_free c entry rc).map (fun r => ({ th with pc := r.1 }, r.2))

/-- One locked section of one thread, or one move of the unlocked tail of a downcall.
`none`: the action is not possible (no such thread, or the thread has returned) or it
faults. -/
def sys_step (ops : upcall_cache_ops) (σ : Sys) : Action → Option Sys
  | Action.get_call key args =>
    (get_find ops σ.cache key args none false).map
      (fun r => { σ with cache := r.2, gets := σ.gets ++ [⟨key, args, r.1⟩] })
  | Action.get_resume t alloc_ok rc left =>
    (σ.gets.get? t).bind (fun th =>
      (get_resume_step ops σ.cache th ⟨id, alloc_ok, rc, left⟩).map
        (fun r => { σ with cache := r.2, gets := σ.gets.set t r.1 }))
  | Action.put entry =>
    (upcall_cache_put_entry σ.cache entry).map (fun c => { σ with cache := c })
  | Action.get_raw entry =>
    (upcall_cache_get_entry_raw σ.cache entry).map (fun c => { σ with cache := c })
  | Action.update entry expire state =>
    (upcall_cache_update_entry σ.cache entry expire state).map (fun c => { σ with cache := c })
  | Action.down_call err key args =>
    (downcall_start ops σ.cache err key args).map
      (fun r => { σ with cache := r.2, downs := σ.downs ++ [⟨args, r.1⟩] })
  | Action.down_resume t =>
    (σ.downs.get? t).bind (fun th =>
      (down_resume_step ops σ.cache th).map
        (fun r => { σ with cache := r.2, downs := σ.downs.set t r.1 }))
  | Action.flush force =>
    (upcall_cache_flush σ.cache force).map (fun c => { σ with cache := c })
  | Action.flush_one key args =>
    (upcall_cache_flush_one ops σ.cache key args).map (fun c => { σ with cache := c })
  | Action.cleanup =>
    (upcall_cache_cleanup σ.cache).map (fun c => { σ with cache := c })
  | Action.tick dt => some { σ with cache := tick dt σ.cache }

/-- A sequence of actions, in order. -/
def sys_run (ops : upcall_cache_ops) : Sys → List Action → Option Sys
  | σ, [] => some σ
  | σ, a :: rest =>
    match sys_step ops σ a with
    | none => none
    | some σ1 => sys_run ops σ1 rest

/-- How the flags of one entry can move in one step: NEW is never set, ACQUIRING is set
only on an entry that is NEW, and (when `strict`) an INVALID or EXPIRED entry stays
so. -/
def Evolves (strict : Bool) (e e1 : upcall_cache_entry) : Prop :=
  (UC_CACHE_IS_NEW e1 = true → UC_CACHE_IS_NEW e = true) ∧
  (UC_CACHE_IS_ACQUIRING e1 = true →
    UC_CACHE_IS_ACQUIRING e = true ∨ UC_CACHE_IS_NEW e = true) ∧
  (strict = true → SettledBad e → SettledBad e1)

/-- What every piece of code that runs on memory already allocated guarantees: the
allocator is not touched, allocated entries are freed or evolve, freed memory stays
freed, every free happens at refcount 0, and `do_upcall` is invoked only on entries that
were NEW and are not any more. -/
def Safe (strict : Bool) (c c1 : upcall_cache) : Prop :=
  c1.brk = c.brk ∧
  (∀ p e, c.heap p = some e → c1.heap p = none ∨ ∃ e1, c1.heap p = some e1 ∧ Evolves strict e e1) ∧
  (∀ p, c.heap p = none → c1.heap p = none) ∧
  (∃ fs, frees c1.trace = frees c.trace ++ fs ∧ ∀ x ∈ fs, x.2 = 0) ∧
  (∃ us, upcalls c1.trace = upcalls c.trace ++ us ∧ us.Nodup ∧
    (∀ p ∈ us, ∃ e, c.heap p = some e ∧ UC_CACHE_IS_NEW e = true) ∧
    (∀ p ∈ us, ∀ e1, c1.heap p = some e1 → UC_CACHE_IS_NEW e1 = false))

/-- No allocated entry carries the NEW flag. -/
def NoNew (c : upcall_cache) : Prop :=
  ∀ p e, c.heap p = some e → UC_CACHE_IS_NEW e = false

/-- Memory at and above the allocator's next address is unused. -/
def Fresh (c : upcall_cache) : Prop :=
  ∀ p, c.brk ≤ p → c.heap p = none

/-- Every `free_entry` recorded in the trace ran on an entry with refcount 0. -/
def FreedAtZero (tr : List Event) : Prop :=
  ∀ x ∈ frees tr, x.2 = 0

/-- The state of the single-flight argument: no allocated entry is NEW, memory above the
allocator is unused, no entry was upcalled twice, and every upcalled entry lies below
the allocator's next address. -/
def SingleFlight (c : upcall_cache) : Prop :=
  NoNew c ∧ Fresh c ∧ (upcalls c.trace).Nodup ∧ ∀ p ∈ upcalls c.trace, p < c.brk

/-- What a whole step of the shared cache guarantees (a step may allocate one entry, at
the allocator's next address): allocated entries are freed or evolve, unused memory
stays unused except for the entry born in this step, which is no longer NEW when the lock
is dropped, and `do_upcall` is invoked only on entries that were NEW or were born in this
step. -/
def Grows (strict : Bool) (c c1 : upcall_cache) : Prop :=
  (c1.brk = c.brk ∨ c1.brk = c.brk + 1) ∧
  (∀ p e, c.heap p = some e → c1.heap p = none ∨ ∃ e1, c1.heap p = some e1 ∧ Evolves strict e e1) ∧
  (∀ p, c.heap p = none → c1.heap p = none ∨
    (p = c.brk ∧ c1.brk = c.brk + 1 ∧ ∃ e1, c1.heap p = some e1 ∧ UC_CACHE_IS_NEW e1 = false)) ∧
  (∃ us, upcalls c1.trace = upcalls c.trace ++ us ∧ us.Nodup ∧
    ∀ p ∈ us, (∃ e, c.heap p = some e ∧ UC_CACHE_IS_NEW e = true) ∨
      (p = c.brk ∧ c1.brk = c.brk + 1))

/-- The frees a step adds to the trace all ran at refcount 0. -/
def FreesAtZero (c c1 : upcall_cache) : Prop :=
  ∃ fs, frees c1.trace = frees c.trace ++ fs ∧ ∀ x ∈ fs, x.2 = 0

/-- The condition on the callers of `upcall_cache_update_entry`: the `state` they pass
holds neither NEW nor ACQUIRING. -/
def OkAction : Action → Prop
  | Action.update _ _ state => state.testBit 0 = false ∧ state.testBit 1 = false
  | _ => True

/-- An entry that has left the acquisition phase: neither NEW nor ACQUIRING. -/
def Settled (e : upcall_cache_entry) : Prop :=
  UC_CACHE_IS_NEW e = false ∧ UC_CACHE_IS_ACQUIRING e = false

/-- The public operations, each run to completion with no other thread acting while it
runs; `outs` are the outcomes of the blocking calls of `upcall_cache_get_entry`
(allocation, upcall, wait), one per place where it drops the lock. -/
inductive Op where
  | get (key args : Nat) (outs : List (Bool × Int × Int))
  | put (entry : Option Nat)
  | update (entry : Nat) (expire : Int) (state : Nat)
  | downcall (err key args : Nat)
  | flush (force : Int)
  | flush_one (key args : Nat)

/-- The environment in which no other thread runs, with the given outcome of the
blocking call. -/
def Susp.alone (o : Bool × Int × Int) : Susp :=
  { interfere := id, alloc_ok := o.1, rc := o.2.1, left := o.2.2 }

/-- The state after a public operation that ran alone. -/
def run_op (ops : upcall_cache_ops) (c : upcall_cache) : Op → Option upcall_cache
  | Op.get key args outs =>
    (upcall_cache_get_entry ops (outs.map Susp.alone) c key args).map (fun r => r.2)
  | Op.put entry => upcall_cache_put_entry c entry
  | Op.update entry expire state => upcall_cache_update_entry c entry expire state
  | Op.downcall err key args =>
    (upcall_cache_downcall ops DownEnv.quiet c err key args).map (fun r => r.2)
  | Op.flush force => upcall_cache_flush c force
  | Op.flush_one key args => upcall_cache_flush_one ops c key args

/-- The shared cache `c` with no thread inside an operation. -/
def demo_sys (c : upcall_cache) : Sys := { cache := c, gets := [], downs := [] }

/-- Two lookups of key 42 in the empty demo cache and the downcall that answers them: the
first lookup allocates and upcalls, the second finds the ACQUIRING entry and sleeps, the
downcall completes the entry, the sleeper wakes. -/
def demo_episode : List Action :=
  [Action.get_call 42 0, Action.get_resume 0 true 0 0, Action.get_call 42 0,
    Action.get_resume 0 true 0 0, Action.down_call 0 42 0, Action.down_resume 0,
    Action.down_resume 0, Action.get_resume 1 true 0 1, Action.get_resume 0 true 0 1]

/-- A lookup of key 42 finds the ACQUIRING demo entry and sleeps on it; no downcall
arrives; at the acquire deadline (5 seconds) the lookup of another thread (key 6, same
chain) sweeps the overdue entry out and wakes the sleeper, which runs on: it searches
again, allocates, and links its own entry. -/
def demo_replay_run : List Action :=
  [Action.get_call 42 0, Action.tick 5, Action.get_call 6 0, Action.get_resume 0 true 0 1,
    Action.get_resume 0 true 0 0, Action.get_resume 0 true 0 0]

/-- A creator times out after its 5 seconds and leaves its ACQUIRING entry behind
unreferenced; the late downcall completes the entry and, in its closing `put_entry`,
brings the refcount to 0; before that `put_entry` tests the flags a lookup takes a
reference on the entry and a non-forced flush marks it EXPIRED; the `put_entry` then sees
EXPIRED and frees the entry. -/
def demo_race_run : List Action :=
  [Action.get_call 42 0, Action.get_resume 0 true 0 0, Action.get_resume 0 true 0 0,
    Action.tick 5, Action.get_resume 0 true 0 0,
    Action.down_call 0 42 0, Action.down_resume 0, Action.down_resume 0,
    Action.get_call 42 0, Action.flush 0, Action.down_resume 0, Action.down_resume 0]

/-- The `failedacquiring` flag of a lookup standing at `pc` (a lookup that has returned
retries no more: true). -/
def pc_failed : GetPC → Bool
  | GetPC.find_again fa => fa
  | GetPC.do_alloc fa => fa
  | GetPC.do_upcall _ _ fa => fa
  | GetPC.do_wait _ _ fa => fa
  | GetPC.ret _ => true

/-- The entry a lookup standing at `pc` holds a reference on (for a returned call: the
entry it returned). -/
def pc_entry : GetPC → Option Nat
  | GetPC.do_upcall entry _ _ => some entry
  | GetPC.do_wait entry _ _ => some entry
  | GetPC.ret (Except.ok entry) => some entry
  | _ => none

/-- The lookup stands at the label `find_again`. -/
def pc_is_find_again : GetPC → Bool
  | GetPC.find_again _ => true
  | _ => false

/-- A failed wait: the lookup comes back from its sleep on an entry and finds it still
ACQUIRING (line 231). -/
def failed_wait (pc : GetPC) (c : upcall_cache) : Bool :=
  match pc with
  | GetPC.do_wait entry _ _ =>
    match c.heap entry with
    | some e => UC_CACHE_IS_ACQUIRING e
    | none => false
  | _ => false

/-- How often a run of `upcall_cache_get_entry` on the environment `env` restarts the
lookup because of a failed wait (the `goto find_again` of line 246). -/
def wait_restarts (ops : upcall_cache_ops) (key args : Nat) :
    List Susp → GetPC → upcall_cache → Nat
  | _, GetPC.ret _, _ => 0
  | [], _, _ => 0
  | s :: env, pc, c =>
    match get_step ops key args s pc (resume s.interfere c) with
    | none => 0
    | some (pc1, c1) =>
      (if failed_wait pc (resume s.interfere c) && pc_is_find_again pc1 then 1 else 0) +
        wait_restarts ops key args env pc1 c1

/-- The outcomes met by a waiter whose sleep is cut short twice: the first time it looks
again and finds the same ACQUIRING entry, the second time it gives up. -/
def demo_two_waits : List Susp :=
  [{ interfere := id, alloc_ok := true, rc := 0, left := 1 }, Susp.quiet,
    { interfere := id, alloc_ok := true, rc := 0, left := 1 }]

/-- A waiter on the in-flight demo entry of key 42; at the acquire deadline the lookup of
another thread (key 6, same chain) sweeps the entry out and wakes the waiter, whose
unbounded sleep returns with time remaining. -/
def demo_deadline_run : List Action :=
  [Action.get_call 42 0, Action.tick 5, Action.get_call 6 0, Action.get_resume 0 true 0 1]

/-- The entry at `q` is allocated and `check_unlink_entry` would keep it now. -/
def kept (c : upcall_cache) (q : Nat) : Bool :=
  match c.heap q with
  | some e => keep_entry c.now e
  | none => false

/-- The entry at `q` would stop the lookup loop of lines 164-172: `check_unlink_entry`
keeps it and `upcall_compare` returns 0 on it. -/
def hits (ops : upcall_cache_ops) (key args : Nat) (c : upcall_cache) (q : Nat) : Bool :=
  match c.heap q with
  | some e => keep_entry c.now e && upcall_compare ops e key args == 0
  | none => false

/-- What `check_unlink_entry` makes of an entry: kept as it is, or freed when nobody holds
it, or left allocated with EXPIRED set (INVALID entries as they are). -/
def sweep_entry (now : Int) (o : Option upcall_cache_entry) : Option upcall_cache_entry :=
  match o with
  | some e =>
    if keep_entry now e then some e
    else if e.ue_refcount = 0 then none
    else some (expire_entry e)
  | none => none

/-- The part of a chain the lookup loop examines: the entries before the first hit. -/
def examined (ops : upcall_cache_ops) (key args : Nat) (c : upcall_cache) (l : List Nat) :
    List Nat :=
  l.takeWhile (fun q => !hits ops key args c q)

/-- The chain after the sweep: the examined entries that were not kept are gone. -/
def survivors (ops : upcall_cache_ops) (key args : Nat) (c : upcall_cache) (l : List Nat) :
    List Nat → List Nat :=
  List.filter (fun q => !(decide (q ∈ examined ops key args c l) && !kept c q))

/-- The demo cache at time 3000 with its entry unreferenced: the entry for key 42 is VALID
but its expiry (2000) has passed. -/
def demo_stale : upcall_cache :=
  tick 2000 (demo_cache_with { demo_valid with ue_refcount := 0 })

/-- The number of references a lookup standing at `pc` holds on the entry `q` (1 on the
entry it waits on, upcalls, or has returned; 0 on every other one). -/
def held (pc : GetPC) (q : Nat) : Int := if pc_entry pc = some q then 1 else 0

/-- The number of references a downcall standing at `pc` holds on the entry `q`. -/
def down_held : DownPC → Nat → Int
  | DownPC.do_parse entry, q => if q = entry then 1 else 0
  | DownPC.do_put entry _, q => if q = entry then 1 else 0
  | DownPC.do_test _ _, _ => 0
  | DownPC.do_free _ _, _ => 0
  | DownPC.ret _, _ => 0

/-- The refcounts after a step against those before it: every entry allocated after the
step was allocated before it, and its refcount has moved by `d`. -/
def RefShift (d : Nat → Int) (c c1 : upcall_cache) : Prop :=
  ∀ q e1, c1.heap q = some e1 → ∃ e, c.heap q = some e ∧ e1.ue_refcount = e.ue_refcount + d q

/-- The refcount of the entry at `q`, 0 where no entry is allocated. -/
def refcount_of (c : upcall_cache) (q : Nat) : Int :=
  match c.heap q with
  | some e => e.ue_refcount
  | none => 0

/-- The refcounts of a lookup in progress are in balance with the state `c0` it started
in: every allocated entry has the refcount it had in `c0` (0 if it did not exist) plus the
reference the lookup holds on it. -/
def Balanced (c0 : upcall_cache) (pc : GetPC) (c : upcall_cache) : Prop :=
  ∀ q e1, c.heap q = some e1 → e1.ue_refcount = refcount_of c0 q + held pc q

/-- The entry as the `parse_downcall` hook leaves it: payload and `ue_expire` are the
hook's; without a hook the entry is untouched. -/
def parsed (ops : upcall_cache_ops) (e : upcall_cache_entry) (args : Nat) : upcall_cache_entry :=
  match ops.parse_downcall with
  | some f => { e with payload := (f e args).2.1, ue_expire := (f e args).2.2 }
  | none => e

/-- The status the `parse_downcall` hook returns on the entry (0 without a hook). -/
def parse_rc (ops : upcall_cache_ops) (e : upcall_cache_entry) (args : Nat) : Int :=
  match ops.parse_downcall with
  | some f => (f e args).1
  | none => 0

/-- Hooks whose `parse_downcall` succeeds, stores its argument as payload and supplies
the expiry 5000. -/
def demo_parse_ops : upcall_cache_ops :=
  { init_entry := none, upcall_compare := none, downcall_compare := none,
    parse_downcall := some (fun _ a => (0, a, 5000)) }

/-- What the other threads do to the reference counts while a call is off the lock, when
they end up holding no more and no fewer references than before: every entry that is
allocated afterwards was allocated before and has the refcount it had (they may free
entries, change flags, expiry, payload and chains, deliver downcalls, look entries up and
put them again), and the allocator does not move backwards. -/
def KeepsRefs (f : upcall_cache → upcall_cache) : Prop :=
  ∀ c, c.brk ≤ (f c).brk ∧ RefShift (fun _ => 0) c (f c)

/-- The environment of a creator whose upcall is answered while it sleeps: allocation and
upcall go through undisturbed; during the sleep another thread delivers the downcall for
key 42 and the sleeper is woken with time remaining. -/
def demo_answered_env : List Susp :=
  [Susp.quiet, Susp.quiet,
    { interfere := downcall_by_other demo_ops 0 42 0, alloc_ok := true, rc := 0, left := 1 }]

/-- A chain of four entries in bucket 2 of the demo cache: at 100 a live entry for key 46,
at 101 an unreferenced entry for key 42 whose expiry has passed, at 102 and 103 two live
entries for key 42. -/
def demo_chain : upcall_cache :=
  { uc_hashtable := fun i => if i = 2 then [100, 101, 102, 103] else [], uc_hashsize := 4,
    uc_entry_expire := 10, uc_acquire_expire := 5, uc_acquire_replay := false,
    heap := fun p =>
      if p = 100 then some { demo_valid with ue_key := 46 }
      else if p = 101 then some { demo_valid with ue_refcount := 0, ue_expire := 900 }
      else if p = 102 then some demo_valid
      else if p = 103 then some demo_valid
      else none,
    brk := 104, now := 1000, trace := [] }

/-- An EXPIRED entry for key 42 that nobody holds. -/
def demo_idle_expired : upcall_cache_entry :=
  { demo_valid with ue_flags := UC_CACHE_EXPIRED, ue_refcount := 0 }

/-! ## Facts about the flag bits -/

theorem and_two_pow_ne_zero (f k : Nat) : (f &&& 2 ^ k != 0) = f.testBit k := by
  rw [Nat.and_two_pow]
  cases h : f.testBit k <;> simp

@[simp] theorem is_new_eq (e : upcall_cache_entry) :
    UC_CACHE_IS_NEW e = e.ue_flags.testBit 0 := and_two_pow_ne_zero _ 0
@[simp] theorem is_acquiring_eq (e : upcall_cache_entry) :
    UC_CACHE_IS_ACQUIRING e = e.ue_flags.testBit 1 := and_two_pow_ne_zero _ 1
@[simp] theorem is_invalid_eq (e : upcall_cache_entry) :
    UC_CACHE_IS_INVALID e = e.ue_flags.testBit 2 := and_two_pow_ne_zero _ 2
@[simp] theorem is_expired_eq (e : upcall_cache_entry) :
    UC_CACHE_IS_EXPIRED e = e.ue_flags.testBit 3 := and_two_pow_ne_zero _ 3
@[simp] theorem is_valid_eq (e : upcall_cache_entry) :
    UC_CACHE_IS_VALID e = (e.ue_flags == 0) := rfl

theorem testBit_bit (j k : Nat) : (2 ^ j).testBit k = decide (j = k) := Nat.testBit_two_pow

@[simp] theorem new_testBit (k : Nat) : UC_CACHE_NEW.testBit k = decide (0 = k) :=
  testBit_bit 0 k
@[simp] theorem acquiring_testBit (k : Nat) : UC_CACHE_ACQUIRING.testBit k = decide (1 = k) :=
  testBit_bit 1 k
@[simp] theorem invalid_testBit (k : Nat) : UC_CACHE_INVALID.testBit k = decide (2 = k) :=
  testBit_bit 2 k
@[simp] theorem expired_testBit (k : Nat) : UC_CACHE_EXPIRED.testBit k = decide (3 = k) :=
  testBit_bit 3 k

@[simp] theorem clear_bits_testBit (f b k : Nat) :
    (clear_bits f b).testBit k = (f.testBit k && !b.testBit k) := by
  unfold clear_bits
  rw [Nat.testBit_xor, Nat.testBit_and]
  cases f.testBit k <;> cases b.testBit k <;> rfl

theorem testBit_ne_zero {f k : Nat} (h : f.testBit k = true) : f ≠ 0 := by
  rintro rfl; simp at h

@[simp] theorem set_new_flags (e : upcall_cache_entry) :
    (UC_CACHE_SET_NEW e).ue_flags = e.ue_flags ||| UC_CACHE_NEW := rfl
@[simp] theorem set_invalid_flags (e : upcall_cache_entry) :
    (UC_CACHE_SET_INVALID e).ue_flags = e.ue_flags ||| UC_CACHE_INVALID := rfl
@[simp] theorem set_acquiring_flags (e : upcall_cache_entry) :
    (UC_CACHE_SET_ACQUIRING e).ue_flags = e.ue_flags ||| UC_CACHE_ACQUIRING := rfl
@[simp] theorem set_expired_flags (e : upcall_cache_entry) :
    (UC_CACHE_SET_EXPIRED e).ue_flags = e.ue_flags ||| UC_CACHE_EXPIRED := rfl
@[simp] theorem set_valid_flags (e : upcall_cache_entry) :
    (UC_CACHE_SET_VALID e).ue_flags = 0 := rfl
@[simp] theorem clear_new_flags (e : upcall_cache_entry) :
    (UC_CACHE_CLEAR_NEW e).ue_flags = clear_bits e.ue_flags UC_CACHE_NEW := rfl
@[simp] theorem clear_acquiring_flags (e : upcall_cache_entry) :
    (UC_CACHE_CLEAR_ACQUIRING e).ue_flags = clear_bits e.ue_flags UC_CACHE_ACQUIRING := rfl

/-! ## put_entry -/

theorem put_entry_isSome {c : upcall_cache} {p : Nat} {e : upcall_cache_entry}
    (h : c.heap p = some e) : ∃ c', put_entry c p = some c' := by
  simp only [put_entry, h, free_entry, store, Function.update_same]
  split <;> exact ⟨_, rfl⟩

theorem put_entry_facts {c c' : upcall_cache} {p : Nat} {e : upcall_cache_entry}
    (h : c.heap p = some e) (hp : put_entry c p = some c') :
    c'.now = c.now ∧ c'.brk = c.brk ∧ c'.uc_hashsize = c.uc_hashsize ∧
      c'.uc_entry_expire = c.uc_entry_expire ∧ c'.uc_acquire_expire = c.uc_acquire_expire ∧
      c'.uc_acquire_replay = c.uc_acquire_replay ∧
      (∀ q, q ≠ p → c'.heap q = c.heap q) ∧
      ((e.ue_refcount - 1 = 0 ∧ SettledBad e) →
        c'.heap p = none ∧
        (∀ i, c'.uc_hashtable i = (c.uc_hashtable i).filter (fun q => q != p)) ∧
        c'.trace = c.trace ++ [Event.free p 0]) ∧
      (¬ (e.ue_refcount - 1 = 0 ∧ SettledBad e) →
        c'.heap p = some { e with ue_refcount := e.ue_refcount - 1 } ∧
        c'.uc_hashtable = c.uc_hashtable ∧ c'.trace = c.trace) := by
  simp only [put_entry, h, free_entry, store, Function.update_same] at hp
  split at hp
  · rename_i hc
    cases hp
    have hc' : e.ue_refcount - 1 = 0 ∧ SettledBad e := by
      simpa [SettledBad] using hc
    simp [list_del, hc', hc'.1]
    intro q hq
    simp [Function.update, hq]
  · rename_i hc
    cases hp
    have hc' : ¬ (e.ue_refcount - 1 = 0 ∧ SettledBad e) := by
      simpa [SettledBad] using hc
    simp [hc']
    intro q hq
    simp [Function.update, hq]

/-- C9: `upcall_cache_put_entry` on an entry with refcount at least 1 lowers the refcount
by exactly 1.  The entry is freed (deallocated and taken off its chain, its refcount
being 0 at the moment of the free) exactly when the new refcount is 0 and the entry is
INVALID or EXPIRED; otherwise it stays where it is with only the refcount changed.  In
particular a VALID entry and an entry that is only ACQUIRING are kept with flags and
expiry unchanged.  No other entry is touched. -/
theorem put_entry_frees_iff_settled_bad (c : upcall_cache) (p : Nat) (e : upcall_cache_entry)
    (h : c.heap p = some e) (hr : 1 ≤ e.ue_refcount) :
    ∃ c', upcall_cache_put_entry c (some p) = some c' ∧
      (∀ q, q ≠ p → c'.heap q = c.heap q) ∧
      ((e.ue_refcount - 1 = 0 ∧ SettledBad e) →
        c'.heap p = none ∧ (∀ i, p ∉ c'.uc_hashtable i) ∧
        (∀ i, c'.uc_hashtable i = (c.uc_hashtable i).filter (fun q => q != p)) ∧
        c'.trace = c.trace ++ [Event.lock, Event.free p 0, Event.unlock]) ∧
      (¬ (e.ue_refcount - 1 = 0 ∧ SettledBad e) →
        c'.heap p = some { e with ue_refcount := e.ue_refcount - 1 } ∧
        c'.uc_hashtable = c.uc_hashtable ∧
        c'.trace = c.trace ++ [Event.lock, Event.unlock]) ∧
      ((e.ue_flags = 0 ∨ e.ue_flags = UC_CACHE_ACQUIRING) →
        c'.heap p = some { e with ue_refcount := e.ue_refcount - 1 } ∧
        c'.uc_hashtable = c.uc_hashtable) := by
  have hpos : e.ue_refcount > 0 := by omega
  have h1 : (emit c Event.lock).heap p = some e := h
  obtain ⟨c1, hc1⟩ := put_entry_isSome h1
  obtain ⟨-, -, -, -, -, -, hq, hbad, hgood⟩ := put_entry_facts h1 hc1
  refine ⟨emit c1 Event.unlock, ?_, hq, ?_, ?_, ?_⟩
  · simp [upcall_cache_put_entry, h, hpos, hc1]
  · intro hc
    obtain ⟨a, b, d⟩ := hbad hc
    refine ⟨a, ?_, b, ?_⟩
    · intro i
      simp [emit, b i]
    · simp [emit, d]
  · intro hc
    obtain ⟨a, b, d⟩ := hgood hc
    exact ⟨a, b, by simp [emit, d]⟩
  · intro hf
    have hc : ¬ (e.ue_refcount - 1 = 0 ∧ SettledBad e) := by
      rintro ⟨-, hs⟩
      rcases hf with hf | hf <;> rcases hs with hs | hs <;> simp [hf] at hs
    obtain ⟨a, b, -⟩ := hgood hc
    exact ⟨a, b⟩


/-- Witness for C9: releasing the only reference on a VALID entry keeps the entry. -/
theorem put_entry_frees_iff_settled_bad_witness :
    ∃ c', upcall_cache_put_entry demo_cache (some 100) = some c' ∧
      c'.heap 100 = some { demo_valid with ue_refcount := 0 } ∧
      c'.uc_hashtable = demo_cache.uc_hashtable := by
  obtain ⟨c', h1, -, -, -, h5⟩ :=
    put_entry_frees_iff_settled_bad demo_cache 100 demo_valid rfl (by decide)
  exact ⟨c', h1, h5 (Or.inl rfl)⟩

/-! ## upcall_cache_downcall -/

theorem downcall_loop_none {ops : upcall_cache_ops} {key args : Nat} {c : upcall_cache}
    {l : List Nat}
    (h : ∀ q ∈ l, ∃ eq, c.heap q = some eq ∧ downcall_compare ops eq key args ≠ 0) :
    downcall_loop ops key args c l = some none := by
  induction l with
  | nil => rfl
  | cons q rest ih =>
    obtain ⟨eq, hq, hne⟩ := h q (List.mem_cons_self _ _)
    simp only [downcall_loop, hq]
    simp only [beq_iff_eq, hne, if_false]
    exact ih (fun q' hq' => h q' (List.mem_cons_of_mem _ hq'))

theorem downcall_loop_found {ops : upcall_cache_ops} {key args : Nat} {c : upcall_cache}
    {pre post : List Nat} {p : Nat} {e : upcall_cache_entry}
    (hpre : ∀ q ∈ pre, ∃ eq, c.heap q = some eq ∧ downcall_compare ops eq key args ≠ 0)
    (hp : c.heap p = some e) (hm : downcall_compare ops e key args = 0) :
    downcall_loop ops key args c (pre ++ p :: post) = some (some p) := by
  induction pre with
  | nil => simp [downcall_loop, hp, hm]
  | cons q rest ih =>
    obtain ⟨eq, hq, hne⟩ := hpre q (List.mem_cons_self _ _)
    simp only [List.cons_append, downcall_loop, hq]
    simp only [beq_iff_eq, hne, if_false]
    exact ih (fun q' hq' => hpre q' (List.mem_cons_of_mem _ hq'))

/-- C5: a downcall for which no entry of the key's chain satisfies `downcall_compare`
returns `-EINVAL` (the not-found error); it does not call `parse_downcall`, allocates
nothing, frees nothing, and leaves the table, every entry, the allocator and the clock
as they were: the only thing it did was to take and release the lock.  This holds
whatever other threads would do at the places where a downcall runs unlocked, because
this path reaches none of them. -/
theorem downcall_unknown_key (ops : upcall_cache_ops) (env : DownEnv) (c : upcall_cache)
    (err key args : Nat)
    (h : ∀ q ∈ c.uc_hashtable (UC_CACHE_HASH_INDEX key c.uc_hashsize),
      ∃ eq, c.heap q = some eq ∧ downcall_compare ops eq key args ≠ 0) :
    upcall_cache_downcall ops env c err key args =
      some (-EINVAL, { c with trace := c.trace ++ [Event.lock, Event.unlock] }) := by
  have h' : downcall_loop ops key args (emit c Event.lock)
      ((emit c Event.lock).uc_hashtable (UC_CACHE_HASH_INDEX key c.uc_hashsize)) = some none :=
    downcall_loop_none h
  simp only [upcall_cache_downcall, downcall_start, h', downcall_run]
  simp [emit]

/-- Witness for C5: a downcall for key 46 on the demo cache; the chain of key 46 holds
the entry of key 42, which does not match. -/
theorem downcall_unknown_key_witness :
    demo_cache.uc_hashtable (UC_CACHE_HASH_INDEX 46 demo_cache.uc_hashsize) = [100] ∧
    upcall_cache_downcall demo_ops DownEnv.quiet demo_cache 0 46 0 =
      some (-EINVAL, { demo_cache with trace := [Event.lock, Event.unlock] }) :=
  ⟨rfl, downcall_unknown_key demo_ops DownEnv.quiet demo_cache 0 46 0 (by
    intro q hq
    have hq1 : q = 100 := by
      simpa [demo_cache, demo_cache_with, UC_CACHE_HASH_INDEX] using hq
    subst hq1
    exact ⟨demo_valid, rfl, by decide⟩)⟩

@[simp] theorem clear_bits_zero (b : Nat) : clear_bits 0 b = 0 := by
  simp [clear_bits]

@[simp] theorem set_new_ue_key (e : upcall_cache_entry) :
    (UC_CACHE_SET_NEW e).ue_key = e.ue_key := rfl
@[simp] theorem set_new_ue_refcount (e : upcall_cache_entry) :
    (UC_CACHE_SET_NEW e).ue_refcount = e.ue_refcount := rfl
@[simp] theorem set_new_ue_acquire_expire (e : upcall_cache_entry) :
    (UC_CACHE_SET_NEW e).ue_acquire_expire = e.ue_acquire_expire := rfl
@[simp] theorem set_new_ue_expire (e : upcall_cache_entry) :
    (UC_CACHE_SET_NEW e).ue_expire = e.ue_expire := rfl
@[simp] theorem set_new_payload (e : upcall_cache_entry) :
    (UC_CACHE_SET_NEW e).payload = e.payload := rfl
@[simp] theorem set_invalid_ue_key (e : upcall_cache_entry) :
    (UC_CACHE_SET_INVALID e).ue_key = e.ue_key := rfl
@[simp] theorem set_invalid_ue_refcount (e : upcall_cache_entry) :
    (UC_CACHE_SET_INVALID e).ue_refcount = e.ue_refcount := rfl
@[simp] theorem set_invalid_ue_acquire_expire (e : upcall_cache_entry) :
    (UC_CACHE_SET_INVALID e).ue_acquire_expire = e.ue_acquire_expire := rfl
@[simp] theorem set_invalid_ue_expire (e : upcall_cache_entry) :
    (UC_CACHE_SET_INVALID e).ue_expire = e.ue_expire := rfl
@[simp] theorem set_invalid_payload (e : upcall_cache_entry) :
    (UC_CACHE_SET_INVALID e).payload = e.payload := rfl
@[simp] theorem set_acquiring_ue_key (e : upcall_cache_entry) :
    (UC_CACHE_SET_ACQUIRING e).ue_key = e.ue_key := rfl
@[simp] theorem set_acquiring_ue_refcount (e : upcall_cache_entry) :
    (UC_CACHE_SET_ACQUIRING e).ue_refcount = e.ue_refcount := rfl
@[simp] theorem set_acquiring_ue_acquire_expire (e : upcall_cache_entry) :
    (UC_CACHE_SET_ACQUIRING e).ue_acquire_expire = e.ue_acquire_expire := rfl
@[simp] theorem set_acquiring_ue_expire (e : upcall_cache_entry) :
    (UC_CACHE_SET_ACQUIRING e).ue_expire = e.ue_expire := rfl
@[simp] theorem set_acquiring_payload (e : upcall_cache_entry) :
    (UC_CACHE_SET_ACQUIRING e).payload = e.payload := rfl
@[simp] theorem set_expired_ue_key (e : upcall_cache_entry) :
    (UC_CACHE_SET_EXPIRED e).ue_key = e.ue_key := rfl
@[simp] theorem set_expired_ue_refcount (e : upcall_cache_entry) :
    (UC_CACHE_SET_EXPIRED e).ue_refcount = e.ue_refcount := rfl
@[simp] theorem set_expired_ue_acquire_expire (e : upcall_cache_entry) :
    (UC_CACHE_SET_EXPIRED e).ue_acquire_expire = e.ue_acquire_expire := rfl
@[simp] theorem set_expired_ue_expire (e : upcall_cache_entry) :
    (UC_CACHE_SET_EXPIRED e).ue_expire = e.ue_expire := rfl
@[simp] theorem set_expired_payload (e : upcall_cache_entry) :
    (UC_CACHE_SET_EXPIRED e).payload = e.payload := rfl
@[simp] theorem set_valid_ue_key (e : upcall_cache_entry) :
    (UC_CACHE_SET_VALID e).ue_key = e.ue_key := rfl
@[simp] theorem set_valid_ue_refcount (e : upcall_cache_entry) :
    (UC_CACHE_SET_VALID e).ue_refcount = e.ue_refcount := rfl
@[simp] theorem set_valid_ue_acquire_expire (e : upcall_cache_entry) :
    (UC_CACHE_SET_VALID e).ue_acquire_expire = e.ue_acquire_expire := rfl
@[simp] theorem set_valid_ue_expire (e : upcall_cache_entry) :
    (UC_CACHE_SET_VALID e).ue_expire = e.ue_expire := rfl
@[simp] theorem set_valid_payload (e : upcall_cache_entry) :
    (UC_CACHE_SET_VALID e).payload = e.payload := rfl
@[simp] theorem clear_new_ue_key (e : upcall_cache_entry) :
    (UC_CACHE_CLEAR_NEW e).ue_key = e.ue_key := rfl
@[simp] theorem clear_new_ue_refcount (e : upcall_cache_entry) :
    (UC_CACHE_CLEAR_NEW e).ue_refcount = e.ue_refcount := rfl
@[simp] theorem clear_new_ue_acquire_expire (e : upcall_cache_entry) :
    (UC_CACHE_CLEAR_NEW e).ue_acquire_expire = e.ue_acquire_expire := rfl
@[simp] theorem clear_new_ue_expire (e : upcall_cache_entry) :
    (UC_CACHE_CLEAR_NEW e).ue_expire = e.ue_expire := rfl
@[simp] theorem clear_new_payload (e : upcall_cache_entry) :
    (UC_CACHE_CLEAR_NEW e).payload = e.payload := rfl
@[simp] theorem clear_acquiring_ue_key (e : upcall_cache_entry) :
    (UC_CACHE_CLEAR_ACQUIRING e).ue_key = e.ue_key := rfl
@[simp] theorem clear_acquiring_ue_refcount (e : upcall_cache_entry) :
    (UC_CACHE_CLEAR_ACQUIRING e).ue_refcount = e.ue_refcount := rfl
@[simp] theorem clear_acquiring_ue_acquire_expire (e : upcall_cache_entry) :
    (UC_CACHE_CLEAR_ACQUIRING e).ue_acquire_expire = e.ue_acquire_expire := rfl
@[simp] theorem clear_acquiring_ue_expire (e : upcall_cache_entry) :
    (UC_CACHE_CLEAR_ACQUIRING e).ue_expire = e.ue_expire := rfl
@[simp] theorem clear_acquiring_payload (e : upcall_cache_entry) :
    (UC_CACHE_CLEAR_ACQUIRING e).payload = e.payload := rfl

theorem clear_bits_of_not_set {f b : Nat} (h : f &&& b = 0) : clear_bits f b = f := by
  simp [clear_bits, h]

theorem downcall_start_found {ops : upcall_cache_ops} {key args : Nat} {c : upcall_cache}
    {pre post : List Nat} {p : Nat} {e : upcall_cache_entry} (err : Nat)
    (hchain : c.uc_hashtable (UC_CACHE_HASH_INDEX key c.uc_hashsize) = pre ++ p :: post)
    (hpre : ∀ q ∈ pre, ∃ eq, c.heap q = some eq ∧ downcall_compare ops eq key args ≠ 0)
    (hp : c.heap p = some e) (hm : downcall_compare ops e key args = 0) :
    downcall_start ops c err key args =
      if err % 2 ^ 32 != 0 then
        downcall_out (store (emit c Event.lock) p { e with ue_refcount := e.ue_refcount + 1 })
          p (int_of_u32 err)
      else if !UC_CACHE_IS_ACQUIRING e then
        downcall_out (store (emit c Event.lock) p { e with ue_refcount := e.ue_refcount + 1 })
          p 0
      else if UC_CACHE_IS_INVALID e || UC_CACHE_IS_EXPIRED e then
        downcall_out (store (emit c Event.lock) p { e with ue_refcount := e.ue_refcount + 1 })
          p (-EINVAL)
      else some (DownPC.do_parse p,
        emit (store (emit c Event.lock) p { e with ue_refcount := e.ue_refcount + 1 })
          Event.unlock) := by
  have h' : downcall_loop ops key args (emit c Event.lock)
      ((emit c Event.lock).uc_hashtable (UC_CACHE_HASH_INDEX key c.uc_hashsize)) =
      some (some p) := by
    show downcall_loop ops key args (emit c Event.lock)
      (c.uc_hashtable (UC_CACHE_HASH_INDEX key c.uc_hashsize)) = some (some p)
    rw [hchain]
    exact downcall_loop_found hpre hp hm
  have h2 : (emit c Event.lock).heap p = some e := hp
  simp only [downcall_start, h', get_entry, h2, store, Function.update_same]
  simp

theorem resume_id (c : upcall_cache) : resume id c = c := rfl

theorem downcall_finish_quiet (c : upcall_cache) (entry : Nat) (rc : Int) :
    downcall_finish id id c entry rc =
      (put_entry (emit c (Event.wake entry)) entry).map (fun c1 => (rc, c1)) := by
  cases hp : (emit c (Event.wake entry)).heap entry with
  | none => simp [downcall_finish, put_dec, put_entry, hp]
  | some e =>
    by_cases hz : e.ue_refcount - 1 = 0
    · cases h2 : e.ue_flags.testBit 2 <;> cases h3 : e.ue_flags.testBit 3 <;>
        simp [downcall_finish, put_dec, put_entry, hp, resume_id, put_test, store, hz, h2, h3]
    · simp [downcall_finish, put_dec, put_entry, hp, hz]

theorem max_schedule_timeout_pos : 0 < MAX_SCHEDULE_TIMEOUT := by
  unfold MAX_SCHEDULE_TIMEOUT; norm_num

theorem schedule_timeout_waiter {c : upcall_cache} {q : Nat} {new : Option Nat}
    (h : new ≠ some q) (out : Int) :
    wait_left c q new out = MAX_SCHEDULE_TIMEOUT := by
  simp [wait_left, schedule_timeout, wait_expiry, h]

theorem schedule_timeout_creator (c : upcall_cache) (q : Nat) (out : Int) :
    wait_left c q (some q) out =
      max 0 (min out (cfs_time_seconds c.uc_acquire_expire)) := by
  have hne : cfs_time_seconds c.uc_acquire_expire ≠ MAX_SCHEDULE_TIMEOUT := by
    unfold cfs_time_seconds HZ MAX_SCHEDULE_TIMEOUT
    norm_num
    omega
  simp [wait_left, schedule_timeout, wait_expiry, hne]

theorem schedule_timeout_nonneg (t out : Int) : 0 ≤ schedule_timeout t out := by
  unfold schedule_timeout
  split_ifs
  · exact le_of_lt max_schedule_timeout_pos
  · exact le_max_left _ _

/-- The locked section of a downcall that follows a successful `parse_downcall`, from any
state in which the entry is allocated: the entry as the hook left it gets the default
expiry when its `ue_expire` is 0, all flags are cleared, and the call goes on to its
closing `put_entry`. -/
theorem downcall_parse_ok {ops : upcall_cache_ops} {c : upcall_cache} {p args : Nat}
    {e : upcall_cache_entry} (hp : c.heap p = some e) (hrc : parse_rc ops e args = 0) :
    ∃ c1 e1, downcall_parse ops c p args = some (DownPC.do_put p 0, c1) ∧
      c1.heap p = some e1 ∧ e1.ue_flags = 0 ∧
      c1.uc_hashtable = c.uc_hashtable ∧
      e1.ue_expire = (if (parsed ops e args).ue_expire = 0 then c.now + c.uc_entry_expire
        else (parsed ops e args).ue_expire) ∧
      e1.ue_refcount = e.ue_refcount ∧ e1.ue_key = e.ue_key ∧
      e1.payload = (parsed ops e args).payload ∧
      e1.ue_acquire_expire = e.ue_acquire_expire ∧
      (∀ q, q ≠ p → c1.heap q = c.heap q) := by
  cases hpd : ops.parse_downcall with
  | none =>
    simp [downcall_parse, hpd, hp, emit, store, downcall_out, parsed]
    repeat' apply And.intro
    all_goals first
      | (intro q hq; simp [Function.update, hq])
      | (split_ifs <;> simp)
  | some f =>
    have hf : (f e args).1 = 0 := by simpa [parse_rc, hpd] using hrc
    simp [downcall_parse, hpd, hp, emit, store, downcall_out, parsed, hf]
    repeat' apply And.intro
    all_goals first
      | (intro q hq; simp [Function.update, hq])
      | (split_ifs <;> simp)

/-- C4: a downcall with `err = 0` that matches an entry which is ACQUIRING and neither
INVALID nor EXPIRED.  Its first locked section takes a reference and drops the lock to
call `parse_downcall`.  Whatever the other threads do meanwhile, if the entry is still
allocated when the hook has run and the hook is absent or returned 0, the locked section
that follows leaves the entry VALID (no flag set, so ACQUIRING is cleared), linked as it
was, and with `ue_expire` equal to the value found in the entry at that point (set by the
hook, or the earlier value when the hook supplies none) if that is non-zero, and to
`now + uc_entry_expire` if it is zero.  When no other thread runs during the call, the
call as a whole returns 0 and leaves the entry so, the table unchanged, the refcount what
it was before the call, and every other entry untouched. -/
theorem downcall_success (ops : upcall_cache_ops) (c : upcall_cache) (key args : Nat)
    (pre post : List Nat) (p : Nat) (e : upcall_cache_entry)
    (hchain : c.uc_hashtable (UC_CACHE_HASH_INDEX key c.uc_hashsize) = pre ++ p :: post)
    (hpre : ∀ q ∈ pre, ∃ eq, c.heap q = some eq ∧ downcall_compare ops eq key args ≠ 0)
    (hp : c.heap p = some e) (hm : downcall_compare ops e key args = 0)
    (hacq : UC_CACHE_IS_ACQUIRING e = true) (hinv : UC_CACHE_IS_INVALID e = false)
    (hexp : UC_CACHE_IS_EXPIRED e = false) :
    downcall_start ops c 0 key args = some (DownPC.do_parse p,
      emit (store (emit c Event.lock) p { e with ue_refcount := e.ue_refcount + 1 })
        Event.unlock) ∧
    (∀ (c2 : upcall_cache) (e2 : upcall_cache_entry), c2.heap p = some e2 →
      parse_rc ops e2 args = 0 →
      ∃ c3 e3, downcall_parse ops c2 p args = some (DownPC.do_put p 0, c3) ∧
        c3.heap p = some e3 ∧
        UC_CACHE_IS_VALID e3 = true ∧ UC_CACHE_IS_ACQUIRING e3 = false ∧
        c3.uc_hashtable = c2.uc_hashtable ∧
        e3.ue_expire = (if (parsed ops e2 args).ue_expire = 0
          then c2.now + c2.uc_entry_expire else (parsed ops e2 args).ue_expire) ∧
        e3.ue_refcount = e2.ue_refcount ∧ e3.ue_key = e2.ue_key ∧
        (∀ q, q ≠ p → c3.heap q = c2.heap q)) ∧
    (parse_rc ops { e with ue_refcount := e.ue_refcount + 1 } args = 0 →
      ∃ c' e', upcall_cache_downcall ops DownEnv.quiet c 0 key args = some (0, c') ∧
        c'.heap p = some e' ∧
        UC_CACHE_IS_VALID e' = true ∧ UC_CACHE_IS_ACQUIRING e' = false ∧
        c'.uc_hashtable = c.uc_hashtable ∧
        e'.ue_expire =
          (if (parsed ops { e with ue_refcount := e.ue_refcount + 1 } args).ue_expire = 0
            then c.now + c.uc_entry_expire
            else (parsed ops { e with ue_refcount := e.ue_refcount + 1 } args).ue_expire) ∧
        e'.ue_refcount = e.ue_refcount ∧ e'.ue_key = e.ue_key ∧
        (∀ q, q ≠ p → c'.heap q = c.heap q)) := by
  have hs := downcall_start_found 0 hchain hpre hp hm
  have hacq0 := hacq
  simp only [is_acquiring_eq, is_invalid_eq, is_expired_eq] at hacq hinv hexp
  simp [hacq, hinv, hexp] at hs
  refine ⟨hs, fun c2 e2 h2 hrc => ?_, fun hrc => ?_⟩
  · obtain ⟨c3, e3, h3, h4, h5, h6, h7, h8, h9, -, -, h12⟩ := downcall_parse_ok h2 hrc
    exact ⟨c3, e3, h3, h4, by simp [UC_CACHE_IS_VALID, h5], by simp [h5],
      h6, h7, h8, h9, h12⟩
  · have hp1 : (emit (store (emit c Event.lock) p { e with ue_refcount := e.ue_refcount + 1 })
        Event.unlock).heap p = some { e with ue_refcount := e.ue_refcount + 1 } := by
      simp [emit, store]
    obtain ⟨c3, e3, h3, h4, h5, h6, h7, h8, h9, -, -, h12⟩ := downcall_parse_ok hp1 hrc
    have hput : put_entry (emit c3 (Event.wake p)) p =
        some (store (emit c3 (Event.wake p)) p { e3 with ue_refcount := e3.ue_refcount - 1 }) := by
      have h4w : (emit c3 (Event.wake p)).heap p = some e3 := h4
      simp [put_entry, h4w, UC_CACHE_IS_INVALID, UC_CACHE_IS_EXPIRED, h5]
    refine ⟨store (emit c3 (Event.wake p)) p { e3 with ue_refcount := e3.ue_refcount - 1 },
      { e3 with ue_refcount := e3.ue_refcount - 1 }, ?_, by simp [store], ?_, ?_, ?_,
      h7, ?_, h9, fun q hq => ?_⟩
    · simp only [upcall_cache_downcall, hs, downcall_run, DownEnv.quiet, resume_id, h3,
        downcall_finish_quiet, hput, Option.map_some']
    · simp [UC_CACHE_IS_VALID, h5]
    · simp [h5]
    · show c3.uc_hashtable = c.uc_hashtable
      rw [h6]; rfl
    · simp [h8]
    · simp only [store, emit, Function.update_noteq hq]
      rw [h12 q hq]
      simp [emit, store, Function.update_noteq hq]

/-- Witness for C4: the downcall for key 42 completes the acquisition of the demo entry;
the hook of `demo_parse_ops` supplies the expiry 5000, which is kept. -/
theorem downcall_success_witness :
    ∃ c' e', upcall_cache_downcall demo_parse_ops DownEnv.quiet (demo_cache_with demo_acquiring)
        0 42 0 = some (0, c') ∧
      c'.heap 100 = some e' ∧ UC_CACHE_IS_VALID e' = true ∧ e'.ue_expire = 5000 := by
  obtain ⟨c', e', h1, h2, h3, -, -, h6, -⟩ :=
    (downcall_success demo_parse_ops (demo_cache_with demo_acquiring) 42 0 [] [] 100
      demo_acquiring rfl (by simp) rfl rfl rfl rfl rfl).2.2 rfl
  exact ⟨c', e', h1, h2, h3, by rw [h6]; rfl⟩

@[simp] theorem upcalls_append (a b : List Event) : upcalls (a ++ b) = upcalls a ++ upcalls b := by
  induction a with
  | nil => rfl
  | cons ev tr ih => cases ev <;> simp [upcalls, ih]

@[simp] theorem parses_append (a b : List Event) : parses (a ++ b) = parses a ++ parses b := by
  induction a with
  | nil => rfl
  | cons ev tr ih => cases ev <;> simp [parses, ih]

@[simp] theorem frees_append (a b : List Event) : frees (a ++ b) = frees a ++ frees b := by
  induction a with
  | nil => rfl
  | cons ev tr ih => cases ev <;> simp [frees, ih]

@[simp] theorem allocs_append (a b : List Event) : allocs (a ++ b) = allocs a ++ allocs b := by
  induction a with
  | nil => rfl
  | cons ev tr ih => cases ev <;> simp [allocs, ih]

theorem clear_acquiring_of_not {f : Nat} (h : f.testBit 1 = false) :
    clear_bits f UC_CACHE_ACQUIRING = f := by
  apply Nat.eq_of_testBit_eq
  intro k
  simp only [clear_bits_testBit, acquiring_testBit]
  by_cases hk : 1 = k
  · subst hk; simp [h]
  · simp [hk]

theorem int_of_u32_ne_zero {err : Nat} (h : err % 2 ^ 32 ≠ 0) : int_of_u32 err ≠ 0 := by
  unfold int_of_u32
  have : err % 2 ^ 32 < 2 ^ 32 := Nat.mod_lt _ (by norm_num)
  split <;> omega

theorem int_of_u32_small {err : Nat} (h : err < 2 ^ 31) : int_of_u32 err = err := by
  unfold int_of_u32
  have : err % 2 ^ 32 = err := Nat.mod_eq_of_lt (by omega)
  rw [this, if_pos h]

/-- A downcall with `err != 0` on a matched entry, run with no other thread acting: the
entry is unlinked, marked INVALID with ACQUIRING cleared, and freed when nobody else
holds it. -/
theorem downcall_error_effect {ops : upcall_cache_ops} {c : upcall_cache} {key args : Nat}
    {pre post : List Nat} {p : Nat} {e : upcall_cache_entry}
    (hchain : c.uc_hashtable (UC_CACHE_HASH_INDEX key c.uc_hashsize) = pre ++ p :: post)
    (hpre : ∀ q ∈ pre, ∃ eq, c.heap q = some eq ∧ downcall_compare ops eq key args ≠ 0)
    (hp : c.heap p = some e) (hm : downcall_compare ops e key args = 0)
    (err : Nat) (herr : err % 2 ^ 32 ≠ 0) :
    ∃ c', upcall_cache_downcall ops DownEnv.quiet c err key args =
        some (int_of_u32 err, c') ∧
      int_of_u32 err ≠ 0 ∧ (err < 2 ^ 31 → int_of_u32 err = err) ∧
      parses c'.trace = parses c.trace ∧
      (∀ i, p ∉ c'.uc_hashtable i) ∧
      (∀ i, c'.uc_hashtable i = (c.uc_hashtable i).filter (fun q => q != p)) ∧
      c'.heap p = (if e.ue_refcount = 0 then none
        else some (UC_CACHE_CLEAR_ACQUIRING (UC_CACHE_SET_INVALID e))) ∧
      UC_CACHE_IS_INVALID (UC_CACHE_CLEAR_ACQUIRING (UC_CACHE_SET_INVALID e)) = true ∧
      UC_CACHE_IS_ACQUIRING (UC_CACHE_CLEAR_ACQUIRING (UC_CACHE_SET_INVALID e)) = false := by
  have hs := downcall_start_found err hchain hpre hp hm
  have hne := int_of_u32_ne_zero herr
  have herr' : ¬ err % 4294967296 = 0 := by simpa using herr
  simp [herr', downcall_out, store, hne] at hs
  by_cases hr : e.ue_refcount = 0
  · simp [upcall_cache_downcall, hs, downcall_run, downcall_finish_quiet, put_entry, resume,
      DownEnv.quiet, emit, list_del, store, free_entry, hr, hne, parses]
    intro h
    exact int_of_u32_small (by simpa using h)
  · simp [upcall_cache_downcall, hs, downcall_run, downcall_finish_quiet, put_entry, resume,
      DownEnv.quiet, emit, list_del, store, free_entry, hr, hne, parses]
    repeat' apply And.intro
    all_goals first
      | rfl
      | (intro h; exact int_of_u32_small (by simpa using h))

/-- C6: a downcall that reports an error.  (1) With `err != 0` on any matched entry,
whatever its state, the call returns `err` (read as an `int`, hence non-zero, and equal
to `err` itself below 2^31) without calling `parse_downcall`; the entry is taken off its
chain and marked INVALID with ACQUIRING cleared; the final `put_entry` then frees it
when nobody else holds it (refcount 0 before the call) and otherwise leaves it in that
state with its refcount unchanged.  (2) The same final state results (the entry holding
what the hook wrote), with the hook's code as return value, when `err = 0`, the entry is
ACQUIRING and neither INVALID nor EXPIRED, and `parse_downcall` returns a non-zero code.
(Stated for a downcall during which no other thread runs.) -/
theorem downcall_failure (ops : upcall_cache_ops) (c : upcall_cache) (key args : Nat)
    (pre post : List Nat) (p : Nat) (e : upcall_cache_entry)
    (hchain : c.uc_hashtable (UC_CACHE_HASH_INDEX key c.uc_hashsize) = pre ++ p :: post)
    (hpre : ∀ q ∈ pre, ∃ eq, c.heap q = some eq ∧ downcall_compare ops eq key args ≠ 0)
    (hp : c.heap p = some e) (hm : downcall_compare ops e key args = 0) :
    (∀ err, err % 2 ^ 32 ≠ 0 →
      ∃ c', upcall_cache_downcall ops DownEnv.quiet c err key args =
          some (int_of_u32 err, c') ∧
        int_of_u32 err ≠ 0 ∧ (err < 2 ^ 31 → int_of_u32 err = err) ∧
        parses c'.trace = parses c.trace ∧
        (∀ i, p ∉ c'.uc_hashtable i) ∧
        (∀ i, c'.uc_hashtable i = (c.uc_hashtable i).filter (fun q => q != p)) ∧
        c'.heap p = (if e.ue_refcount = 0 then none
          else some (UC_CACHE_CLEAR_ACQUIRING (UC_CACHE_SET_INVALID e))) ∧
        UC_CACHE_IS_INVALID (UC_CACHE_CLEAR_ACQUIRING (UC_CACHE_SET_INVALID e)) = true ∧
        UC_CACHE_IS_ACQUIRING (UC_CACHE_CLEAR_ACQUIRING (UC_CACHE_SET_INVALID e)) = false) ∧
    (∀ f, ops.parse_downcall = some f →
      (f { e with ue_refcount := e.ue_refcount + 1 } args).1 ≠ 0 →
      UC_CACHE_IS_ACQUIRING e = true → UC_CACHE_IS_INVALID e = false →
      UC_CACHE_IS_EXPIRED e = false →
      ∃ c', upcall_cache_downcall ops DownEnv.quiet c 0 key args =
          some ((f { e with ue_refcount := e.ue_refcount + 1 } args).1, c') ∧
        (∀ i, p ∉ c'.uc_hashtable i) ∧
        (∀ i, c'.uc_hashtable i = (c.uc_hashtable i).filter (fun q => q != p)) ∧
        c'.heap p = (if e.ue_refcount = 0 then none
          else some (UC_CACHE_CLEAR_ACQUIRING (UC_CACHE_SET_INVALID
            { e with payload := (f { e with ue_refcount := e.ue_refcount + 1 } args).2.1,
                     ue_expire := (f { e with ue_refcount := e.ue_refcount + 1 } args).2.2 })))) := by
  constructor
  · exact fun err herr => downcall_error_effect hchain hpre hp hm err herr
  · intro f hpd hrc hacq hinv hexp
    simp only [is_acquiring_eq, is_invalid_eq, is_expired_eq] at hacq hinv hexp
    have hs := downcall_start_found 0 hchain hpre hp hm
    simp [hacq, hinv, hexp] at hs
    generalize hfe : f { e with ue_refcount := e.ue_refcount + 1 } args = r at hrc ⊢
    obtain ⟨rc, pl, ex⟩ := r
    simp only at hrc
    simp only [upcall_cache_downcall, hs, downcall_run, downcall_parse, hpd, resume,
      DownEnv.quiet, id, emit, store, Function.update_same, hfe]
    simp only [bne_iff_ne, ne_eq, hrc, not_false_eq_true, if_true, downcall_out, store, emit,
      Function.update_same, list_del, downcall_finish_quiet, put_entry, free_entry]
    by_cases hr : e.ue_refcount = 0
    · simp [hr]
    · simp [hr]
      rfl


/-- Witness for C6: the resolver reports error 13 for the in-flight entry of key 42. -/
theorem downcall_failure_witness :
    ∃ c', upcall_cache_downcall demo_ops DownEnv.quiet (demo_cache_with demo_acquiring)
        13 42 0 = some (13, c') ∧
      (∀ i, 100 ∉ c'.uc_hashtable i) ∧
      c'.heap 100 = some { demo_acquiring with ue_flags := UC_CACHE_INVALID } := by
  obtain ⟨c', h1, -, h3, -, h5, -, h7, -⟩ :=
    (downcall_failure demo_ops (demo_cache_with demo_acquiring) 42 0 [] [] 100 demo_acquiring
      rfl (by simp) rfl rfl).1 13 (by decide)
  refine ⟨c', ?_, h5, ?_⟩
  · rw [h1, h3 (by decide)]; rfl
  · rw [h7]; rfl

/-- C20 (amended): a late downcall.  With `err = 0` on a matched entry that is not
ACQUIRING (VALID, INVALID or EXPIRED), `upcall_cache_downcall` returns 0 without calling
`parse_downcall`.  It leaves every entry (flags, expiry, payload and refcount of the
matched one included) and every chain exactly as they were, with one exception: a matched
entry that is INVALID or EXPIRED and that nobody holds (refcount 0 before the call) is
freed, at refcount 0, by the closing `put_entry` and is on no chain afterwards, the other
entries being untouched.  (Stated for a downcall during which no other thread runs.) -/
theorem downcall_late_effect (ops : upcall_cache_ops) (c : upcall_cache) (key args : Nat)
    (pre post : List Nat) (p : Nat) (e : upcall_cache_entry)
    (hchain : c.uc_hashtable (UC_CACHE_HASH_INDEX key c.uc_hashsize) = pre ++ p :: post)
    (hpre : ∀ q ∈ pre, ∃ eq, c.heap q = some eq ∧ downcall_compare ops eq key args ≠ 0)
    (hp : c.heap p = some e) (hm : downcall_compare ops e key args = 0)
    (hacq : UC_CACHE_IS_ACQUIRING e = false) :
    ∃ c', upcall_cache_downcall ops DownEnv.quiet c 0 key args = some (0, c') ∧
      parses c'.trace = parses c.trace ∧
      (¬ (SettledBad e ∧ e.ue_refcount = 0) →
        c'.heap = c.heap ∧ c'.uc_hashtable = c.uc_hashtable ∧
        c'.trace = c.trace ++ [Event.lock, Event.unlock, Event.wake p]) ∧
      (SettledBad e ∧ e.ue_refcount = 0 →
        c'.heap p = none ∧ (∀ q, q ≠ p → c'.heap q = c.heap q) ∧
        (∀ i, c'.uc_hashtable i = (c.uc_hashtable i).filter (fun q => q != p)) ∧
        frees c'.trace = frees c.trace ++ [(p, 0)]) := by
  simp only [is_acquiring_eq] at hacq
  have hs := downcall_start_found 0 hchain hpre hp hm
  simp [hacq, downcall_out, store, clear_acquiring_of_not hacq, UC_CACHE_CLEAR_ACQUIRING] at hs
  have hself : Function.update c.heap p (some e) = c.heap := by
    rw [← hp]; exact Function.update_eq_self p c.heap
  by_cases hk : e.ue_refcount = 0 ∧ (e.ue_flags.testBit 2 = true ∨ e.ue_flags.testBit 3 = true)
  · have hsb : SettledBad e ∧ e.ue_refcount = 0 := ⟨by simpa [SettledBad] using hk.2, hk.1⟩
    simp only [upcall_cache_downcall, hs, downcall_run, downcall_finish_quiet, put_entry, resume,
      DownEnv.quiet, id, emit, store, Function.update_same]
    simp [hk, hk.1, parses, free_entry, list_del, frees, hsb]
    intro q hq
    simp [Function.update, hq]
  · have hsb : ¬ (SettledBad e ∧ e.ue_refcount = 0) := by
      rintro ⟨h1, h2⟩
      exact hk ⟨h2, by simpa [SettledBad] using h1⟩
    simp only [upcall_cache_downcall, hs, downcall_run, downcall_finish_quiet, put_entry, resume,
      DownEnv.quiet, id, emit, store, Function.update_same]
    simp [hk, parses, hself, hsb]

/-- Witness for C20 (amended): a downcall for the demo entry, EXPIRED and held by one
thread, changes nothing. -/
theorem downcall_late_effect_witness :
    ∃ c', upcall_cache_downcall demo_ops DownEnv.quiet
        (demo_cache_with (UC_CACHE_SET_EXPIRED demo_valid)) 0 42 0 = some (0, c') ∧
      c'.heap = (demo_cache_with (UC_CACHE_SET_EXPIRED demo_valid)).heap ∧
      c'.uc_hashtable = (demo_cache_with (UC_CACHE_SET_EXPIRED demo_valid)).uc_hashtable := by
  obtain ⟨c', h1, -, h3, -⟩ :=
    downcall_late_effect demo_ops (demo_cache_with (UC_CACHE_SET_EXPIRED demo_valid)) 42 0 [] []
      100 (UC_CACHE_SET_EXPIRED demo_valid) rfl (by simp) rfl rfl rfl
  have h4 := h3 (by rintro ⟨-, h⟩; exact absurd h (by decide))
  exact ⟨c', h1, h4.1, h4.2.1⟩

/-- Counterexample to C20 as stated: the entry for key 42 is linked, EXPIRED and held by
nobody; the downcall returns 0, and afterwards the entry is freed and its chain is
empty. -/
theorem late_downcall_frees :
    (upcall_cache_downcall demo_ops DownEnv.quiet (demo_cache_with demo_idle_expired) 0 42 0).map
      (fun r => (r.1, r.2.heap 100, r.2.uc_hashtable 2, frees r.2.trace)) =
      some (0, none, [], [(100, 0)]) ∧
    (demo_cache_with demo_idle_expired).heap 100 = some demo_idle_expired ∧
    (demo_cache_with demo_idle_expired).uc_hashtable 2 = [100] ∧
    UC_CACHE_IS_ACQUIRING demo_idle_expired = false ∧
    UC_CACHE_IS_EXPIRED demo_idle_expired = true :=
  ⟨rfl, rfl, rfl, rfl, rfl⟩

/-! ## upcall_cache_update_entry and upcall_cache_flush_one -/

/-- C14: `upcall_cache_update_entry` on a live entry sets `ue_expire` to `expire`; with
`state == 0` the entry becomes VALID (all flag bits cleared), with `state != 0` the flags
become the old flags OR `state`.  Key, refcount, `ue_acquire_expire` and payload of the
entry, every other entry and every chain are unchanged. -/
theorem update_entry_effect (c : upcall_cache) (entry : Nat) (e : upcall_cache_entry)
    (expire : Int) (state : Nat) (h : c.heap entry = some e) :
    ∃ c' e', upcall_cache_update_entry c entry expire state = some c' ∧
      c'.heap entry = some e' ∧
      e'.ue_expire = expire ∧
      (state = 0 → e'.ue_flags = 0 ∧ UC_CACHE_IS_VALID e' = true) ∧
      (state ≠ 0 → e'.ue_flags = e.ue_flags ||| state) ∧
      e'.ue_refcount = e.ue_refcount ∧ e'.ue_key = e.ue_key ∧
      e'.ue_acquire_expire = e.ue_acquire_expire ∧ e'.payload = e.payload ∧
      c'.uc_hashtable = c.uc_hashtable ∧ (∀ q, q ≠ entry → c'.heap q = c.heap q) := by
  have h1 : (emit c Event.lock).heap entry = some e := h
  by_cases hs : state = 0
  · simp only [upcall_cache_update_entry, h1]
    simp [hs, store, emit]
    intro q hq
    simp [Function.update, hq]
  · simp only [upcall_cache_update_entry, h1]
    simp [hs, store, emit]
    intro q hq
    simp [Function.update, hq]

/-- Witness for C14: marking the VALID demo entry with the EXPIRED bit. -/
theorem update_entry_effect_witness :
    ∃ c' e', upcall_cache_update_entry demo_cache 100 5 UC_CACHE_EXPIRED = some c' ∧
      c'.heap 100 = some e' ∧ e'.ue_expire = 5 ∧ e'.ue_flags = UC_CACHE_EXPIRED := by
  obtain ⟨c', e', h1, h2, h3, -, h5, -⟩ :=
    update_entry_effect demo_cache 100 demo_valid 5 UC_CACHE_EXPIRED rfl
  exact ⟨c', e', h1, h2, h3, by rw [h5 (by decide)]; rfl⟩

theorem flush_one_loop_none {ops : upcall_cache_ops} {key args : Nat} {c : upcall_cache}
    {l : List Nat}
    (h : ∀ q ∈ l, ∃ eq, c.heap q = some eq ∧ upcall_compare ops eq key args ≠ 0) :
    flush_one_loop ops key args c l = some none := by
  induction l with
  | nil => rfl
  | cons q rest ih =>
    obtain ⟨eq, hq, hne⟩ := h q (List.mem_cons_self _ _)
    simp only [flush_one_loop, hq]
    simp only [beq_iff_eq, hne, if_false]
    exact ih (fun q' hq' => h q' (List.mem_cons_of_mem _ hq'))

theorem flush_one_loop_found {ops : upcall_cache_ops} {key args : Nat} {c : upcall_cache}
    {pre post : List Nat} {p : Nat} {e : upcall_cache_entry}
    (hpre : ∀ q ∈ pre, ∃ eq, c.heap q = some eq ∧ upcall_compare ops eq key args ≠ 0)
    (hp : c.heap p = some e) (hm : upcall_compare ops e key args = 0) :
    flush_one_loop ops key args c (pre ++ p :: post) = some (some p) := by
  induction pre with
  | nil => simp [flush_one_loop, hp, hm]
  | cons q rest ih =>
    obtain ⟨eq, hq, hne⟩ := hpre q (List.mem_cons_self _ _)
    simp only [List.cons_append, flush_one_loop, hq]
    simp only [beq_iff_eq, hne, if_false]
    exact ih (fun q' hq' => hpre q' (List.mem_cons_of_mem _ hq'))

theorem filter_ne_of_not_mem {l : List Nat} {p : Nat} (h : p ∉ l) :
    l.filter (fun q => q != p) = l := by
  rw [List.filter_eq_self]
  intro q hq
  simp only [bne_iff_ne, ne_eq]
  rintro rfl
  exact h hq

/-- C13: `upcall_cache_flush_one`.  (1) When the key's chain holds an entry matching under
`upcall_compare`, the first such entry gets the EXPIRED flag; it is freed and unlinked
if and only if its refcount is 0, and otherwise it stays in its place with refcount and
all other fields unchanged; every other entry and every chain not containing it are
unchanged.  (2) When no entry of the chain matches, nothing changes (the lock was taken
and released). -/
theorem flush_one_effect (ops : upcall_cache_ops) (c : upcall_cache) (key args : Nat) :
    (∀ pre post p e,
      c.uc_hashtable (UC_CACHE_HASH_INDEX key c.uc_hashsize) = pre ++ p :: post →
      (∀ q ∈ pre, ∃ eq, c.heap q = some eq ∧ upcall_compare ops eq key args ≠ 0) →
      c.heap p = some e → upcall_compare ops e key args = 0 →
      ∃ c', upcall_cache_flush_one ops c key args = some c' ∧
        (∀ q, q ≠ p → c'.heap q = c.heap q) ∧
        (e.ue_refcount = 0 →
          c'.heap p = none ∧
          (∀ i, c'.uc_hashtable i = (c.uc_hashtable i).filter (fun q => q != p)) ∧
          frees c'.trace = frees c.trace ++ [(p, 0)]) ∧
        (e.ue_refcount ≠ 0 →
          c'.heap p = some (UC_CACHE_SET_EXPIRED e) ∧
          UC_CACHE_IS_EXPIRED (UC_CACHE_SET_EXPIRED e) = true ∧
          (UC_CACHE_SET_EXPIRED e).ue_refcount = e.ue_refcount ∧
          c'.uc_hashtable = c.uc_hashtable ∧ frees c'.trace = frees c.trace) ∧
        (∀ i, p ∉ c.uc_hashtable i → c'.uc_hashtable i = c.uc_hashtable i)) ∧
    ((∀ q ∈ c.uc_hashtable (UC_CACHE_HASH_INDEX key c.uc_hashsize),
        ∃ eq, c.heap q = some eq ∧ upcall_compare ops eq key args ≠ 0) →
      upcall_cache_flush_one ops c key args =
        some { c with trace := c.trace ++ [Event.lock, Event.unlock] }) := by
  constructor
  · intro pre post p e hchain hpre hp hm
    have h' : flush_one_loop ops key args (emit c Event.lock)
        ((emit c Event.lock).uc_hashtable (UC_CACHE_HASH_INDEX key c.uc_hashsize)) =
        some (some p) := by
      show flush_one_loop ops key args (emit c Event.lock)
        (c.uc_hashtable (UC_CACHE_HASH_INDEX key c.uc_hashsize)) = some (some p)
      rw [hchain]
      exact flush_one_loop_found hpre hp hm
    have h2 : (emit c Event.lock).heap p = some e := hp
    simp only [upcall_cache_flush_one, h', h2]
    by_cases hr : e.ue_refcount = 0
    · simp [hr, free_entry, store, list_del, emit, frees]
      refine ⟨?_, ?_⟩
      · intro q hq
        simp [Function.update, hq]
      · intro i hi a ha hap
        exact hi (hap ▸ ha)
    · simp [hr, store, emit, frees]
      intro q hq
      simp [Function.update, hq]
  · intro h
    have h' : flush_one_loop ops key args (emit c Event.lock)
        ((emit c Event.lock).uc_hashtable (UC_CACHE_HASH_INDEX key c.uc_hashsize)) = some none :=
      flush_one_loop_none h
    simp only [upcall_cache_flush_one, h']
    simp [emit]

/-- Witness for C13: flushing key 42 from the demo cache marks the held entry EXPIRED. -/
theorem flush_one_effect_witness :
    ∃ c', upcall_cache_flush_one demo_ops demo_cache 42 0 = some c' ∧
      c'.heap 100 = some (UC_CACHE_SET_EXPIRED demo_valid) ∧
      c'.uc_hashtable = demo_cache.uc_hashtable := by
  obtain ⟨c', h1, -, -, h4, -⟩ :=
    (flush_one_effect demo_ops demo_cache 42 0).1 [] [] 100 demo_valid rfl (by simp) rfl rfl
  obtain ⟨h5, -, -, h6, -⟩ := h4 (by decide)
  exact ⟨c', h1, h5, h6⟩

/-! ## check_unlink_entry -/

theorem SameFrame.refl (c : upcall_cache) : SameFrame c c := ⟨rfl, rfl, rfl, rfl, rfl, rfl⟩

theorem SameFrame.trans {a b c : upcall_cache} (h1 : SameFrame a b) (h2 : SameFrame b c) :
    SameFrame a c := by
  unfold SameFrame at h1 h2 ⊢
  refine ⟨h2.1.trans h1.1, h2.2.1.trans h1.2.1, h2.2.2.1.trans h1.2.2.1, ?_⟩
  exact ⟨h2.2.2.2.1.trans h1.2.2.2.1, h2.2.2.2.2.1.trans h1.2.2.2.2.1,
    h2.2.2.2.2.2.trans h1.2.2.2.2.2⟩

theorem check_unlink_entry_eq {c : upcall_cache} {p : Nat} {e : upcall_cache_entry}
    (h : c.heap p = some e) :
    check_unlink_entry c p =
      if keep_entry c.now e then some (false, c)
      else if e.ue_refcount == 0 then
        (free_entry (list_del
          (if UC_CACHE_IS_ACQUIRING e then
            emit (store c p (UC_CACHE_SET_EXPIRED e)) (Event.wake p)
          else if !UC_CACHE_IS_INVALID e then store c p (UC_CACHE_SET_EXPIRED e)
          else c) p) p).map (fun c3 => (true, c3))
      else some (true, list_del
          (if UC_CACHE_IS_ACQUIRING e then
            emit (store c p (UC_CACHE_SET_EXPIRED e)) (Event.wake p)
          else if !UC_CACHE_IS_INVALID e then store c p (UC_CACHE_SET_EXPIRED e)
          else c) p) := by
  simp only [check_unlink_entry, h, keep_entry]
  by_cases hv : (UC_CACHE_IS_VALID e && decide (c.now < e.ue_expire)) = true <;>
    by_cases ha : (UC_CACHE_IS_ACQUIRING e &&
      (e.ue_acquire_expire == 0 || decide (c.now < e.ue_acquire_expire))) = true <;>
    simp only [hv, ha, Bool.or_eq_true, true_or, or_true, or_self, if_true, if_false,
      Bool.false_eq_true]

theorem check_unlink_entry_keep {c : upcall_cache} {p : Nat} {e : upcall_cache_entry}
    (h : c.heap p = some e) (hk : keep_entry c.now e = true) :
    check_unlink_entry c p = some (false, c) := by
  rw [check_unlink_entry_eq h, hk]; rfl

theorem check_unlink_entry_evict {c : upcall_cache} {p : Nat} {e : upcall_cache_entry}
    (h : c.heap p = some e) (hk : keep_entry c.now e = false) :
    ∃ c', check_unlink_entry c p = some (true, c') ∧ SameFrame c c' ∧
      (∀ q, q ≠ p → c'.heap q = c.heap q) ∧
      (∀ i, c'.uc_hashtable i = (c.uc_hashtable i).filter (fun q => q != p)) ∧
      upcalls c'.trace = upcalls c.trace ∧ parses c'.trace = parses c.trace ∧
      allocs c'.trace = allocs c.trace ∧
      (e.ue_refcount = 0 → c'.heap p = none ∧ frees c'.trace = frees c.trace ++ [(p, 0)]) ∧
      (e.ue_refcount ≠ 0 → c'.heap p = some (expire_entry e) ∧
        frees c'.trace = frees c.trace) := by
  rw [check_unlink_entry_eq h, hk]
  have hne : ∀ (f : Nat → Option upcall_cache_entry) (v : Option upcall_cache_entry) (q : Nat),
      q ≠ p → Function.update f p v q = f q := fun f v q hq => Function.update_noteq hq v f
  by_cases hr : e.ue_refcount = 0 <;> by_cases ha : e.ue_flags.testBit 1 = true <;>
    by_cases hi : e.ue_flags.testBit 2 = true <;>
    simp [hr, ha, hi, expire_entry, free_entry, list_del, store, emit, SameFrame, h, upcalls,
      parses, allocs, frees] <;>
    exact fun q hq => hne _ _ q hq

/-! ## The lookup loop and the cache hit -/

theorem check_unlink_entry_cases {c : upcall_cache} {p : Nat} {e : upcall_cache_entry}
    (h : c.heap p = some e) :
    ∃ r c', check_unlink_entry c p = some (r, c') ∧ SameFrame c c' ∧
      (∀ q, q ≠ p → c'.heap q = c.heap q) ∧
      upcalls c'.trace = upcalls c.trace ∧ parses c'.trace = parses c.trace ∧
      allocs c'.trace = allocs c.trace ∧
      (r = false → c' = c ∧ keep_entry c.now e = true) ∧
      (r = true → keep_entry c.now e = false) := by
  cases hk : keep_entry c.now e
  · obtain ⟨c', h1, h2, h3, -, h5, h6, h7, -⟩ := check_unlink_entry_evict h hk
    exact ⟨true, c', h1, h2, h3, h5, h6, h7, by simp, by simp⟩
  · exact ⟨false, c, check_unlink_entry_keep h hk, SameFrame.refl c, fun _ _ => rfl, rfl, rfl,
      rfl, by simp, by simp⟩

theorem find_loop_hit {ops : upcall_cache_ops} {key args : Nat} {pre : List Nat}
    (post : List Nat) {p : Nat} {e : upcall_cache_entry} :
    ∀ {c : upcall_cache}, pre.Nodup →
      (∀ q ∈ pre, ∃ eq, c.heap q = some eq ∧ upcall_compare ops eq key args ≠ 0) →
      c.heap p = some e → keep_entry c.now e = true → upcall_compare ops e key args = 0 →
      ∃ c', find_loop ops key args (pre ++ p :: post) c = some (some p, c') ∧ SameFrame c c' ∧
        c'.heap p = some e ∧ (∀ q, q ∉ pre → c'.heap q = c.heap q) ∧
        upcalls c'.trace = upcalls c.trace ∧ parses c'.trace = parses c.trace ∧
        allocs c'.trace = allocs c.trace := by
  induction pre with
  | nil =>
    intro c _ _ hp hk hm
    refine ⟨c, ?_, SameFrame.refl c, hp, fun _ _ => rfl, rfl, rfl, rfl⟩
    simp [find_loop, check_unlink_entry_keep hp hk, hp, hm]
  | cons q rest ih =>
    intro c hnd hpre hp hk hm
    obtain ⟨eq, hq, hne⟩ := hpre q (List.mem_cons_self _ _)
    have hqp : p ≠ q := by
      rintro rfl
      rw [hp] at hq
      cases hq
      exact hne hm
    obtain ⟨hqrest, hndrest⟩ := List.nodup_cons.1 hnd
    obtain ⟨r, c1, h1, hsf, hother, hu, hpa, hal, hfalse, -⟩ := check_unlink_entry_cases hq
    have hnow : c1.now = c.now := hsf.1
    have hrest : ∀ q' ∈ rest, ∃ eq', c1.heap q' = some eq' ∧
        upcall_compare ops eq' key args ≠ 0 := by
      intro q' hq'
      obtain ⟨eq', h1', h2'⟩ := hpre q' (List.mem_cons_of_mem _ hq')
      have : q' ≠ q := by rintro rfl; exact hqrest hq'
      exact ⟨eq', by rw [hother q' this]; exact h1', h2'⟩
    have hp1 : c1.heap p = some e := by rw [hother p hqp]; exact hp
    have hk1 : keep_entry c1.now e = true := by rw [hnow]; exact hk
    obtain ⟨c', h2, hsf2, hp2, hoth2, hu2, hpa2, hal2⟩ := ih hndrest hrest hp1 hk1 hm
    refine ⟨c', ?_, hsf.trans hsf2, hp2, ?_, hu2.trans hu, hpa2.trans hpa, hal2.trans hal⟩
    · cases r with
      | true => simp only [List.cons_append, find_loop, h1]; exact h2
      | false =>
        obtain ⟨hc1, -⟩ := hfalse rfl
        subst hc1
        simp only [List.cons_append, find_loop, h1, hq]
        simp only [beq_iff_eq, hne, if_false]
        exact h2
    · intro q' hq'
      have h3 : q' ∉ rest := fun h => hq' (List.mem_cons_of_mem _ h)
      have h4 : q' ≠ q := by rintro rfl; exact hq' (List.mem_cons_self _ _)
      rw [hoth2 q' h3, hother q' h4]


theorem get_hold_valid {c : upcall_cache} {p : Nat} {e : upcall_cache_entry} (new : Option Nat)
    (fa : Bool) (hp : c.heap p = some e) (hv : e.ue_flags = 0) (hx : c.now < e.ue_expire) :
    get_hold c p new fa = some (GetPC.ret (Except.ok p),
      emit (store c p { e with ue_refcount := e.ue_refcount + 1 }) Event.unlock) := by
  have hk : keep_entry (store c p { e with ue_refcount := e.ue_refcount + 1 }).now
      { e with ue_refcount := e.ue_refcount + 1 } = true := by
    simp [keep_entry, hv, store, hx]
  have hh : (store c p { e with ue_refcount := e.ue_refcount + 1 }).heap p =
      some { e with ue_refcount := e.ue_refcount + 1 } := by simp [store]
  simp only [get_hold, get_entry, hp, hh, get_acquiring, get_tail, check_unlink_entry_keep hh hk]
  simp [hv]

/-- C1: cache hit.  When the chain of `key` holds an entry `p` that matches `(key, args)`,
is VALID and not yet expired, and no entry before it in the chain matches,
`upcall_cache_get_entry` returns `p` itself, whatever the environment would do (the call
never drops the lock before it returns).  The entry is the old one with its refcount
raised by exactly 1 (flags, expiry and all other fields unchanged), it now heads its
chain, and `do_upcall` was not invoked: the trace holds no new upcall and no new
allocation. -/
theorem get_entry_cache_hit (ops : upcall_cache_ops) (env : List Susp) (c : upcall_cache)
    (key args : Nat) (pre post : List Nat) (p : Nat) (e : upcall_cache_entry)
    (hchain : c.uc_hashtable (UC_CACHE_HASH_INDEX key c.uc_hashsize) = pre ++ p :: post)
    (hnd : pre.Nodup)
    (hpre : ∀ q ∈ pre, ∃ eq, c.heap q = some eq ∧ upcall_compare ops eq key args ≠ 0)
    (hp : c.heap p = some e) (hm : upcall_compare ops e key args = 0)
    (hvalid : UC_CACHE_IS_VALID e = true) (hfresh : c.now < e.ue_expire) :
    ∃ c', upcall_cache_get_entry ops env c key args = some (Except.ok p, c') ∧
      c'.heap p = some { e with ue_refcount := e.ue_refcount + 1 } ∧
      (c'.uc_hashtable (UC_CACHE_HASH_INDEX key c.uc_hashsize)).head? = some p ∧
      upcalls c'.trace = upcalls c.trace ∧ allocs c'.trace = allocs c.trace := by
  have hv : e.ue_flags = 0 := by simpa using hvalid
  have hk : keep_entry (emit c Event.lock).now e = true := by
    simp [keep_entry, hv, emit, hfresh]
  obtain ⟨c1, h1, hsf, hp1, -, hu, -, hal⟩ :=
    find_loop_hit post (c := emit c Event.lock) hnd hpre hp hk hm
  have hchain' : (emit c Event.lock).uc_hashtable (UC_CACHE_HASH_INDEX key c.uc_hashsize) =
      pre ++ p :: post := hchain
  have hp2 : (list_move c1 p (UC_CACHE_HASH_INDEX key c.uc_hashsize)).heap p = some e := hp1
  have hx2 : (list_move c1 p (UC_CACHE_HASH_INDEX key c.uc_hashsize)).now < e.ue_expire := by
    show c1.now < e.ue_expire
    rw [hsf.1]; exact hfresh
  refine ⟨emit (store (list_move c1 p (UC_CACHE_HASH_INDEX key c.uc_hashsize)) p
    { e with ue_refcount := e.ue_refcount + 1 }) Event.unlock, ?_, ?_, ?_, ?_, ?_⟩
  · simp only [upcall_cache_get_entry, get_find, hchain', h1, get_hold_valid none false hp2 hv hx2]
    cases env <;> rfl
  · simp [emit, store]
  · simp [emit, store, list_move, list_add]
  · simp [emit, store, list_move, list_add, list_del, hu, upcalls]
  · simp [emit, store, list_move, list_add, list_del, hal, allocs]

/-- Witness for C1: looking up key 42 in the demo cache is a hit on the entry at 100. -/
theorem get_entry_cache_hit_witness :
    ∃ c', upcall_cache_get_entry demo_ops [] demo_cache 42 0 = some (Except.ok 100, c') ∧
      c'.heap 100 = some { demo_valid with ue_refcount := 2 } ∧
      upcalls c'.trace = [] := by
  obtain ⟨c', h1, h2, -, h4, -⟩ :=
    get_entry_cache_hit demo_ops [] demo_cache 42 0 [] [] 100 demo_valid rfl List.nodup_nil
      (by simp) rfl rfl rfl (by decide)
  exact ⟨c', h1, h2, h4⟩

/-! ## Continuations of upcall_cache_get_entry -/

theorem get_run_append (ops : upcall_cache_ops) (key args : Nat) (env1 env2 : List Susp) :
    ∀ (pc : GetPC) (c : upcall_cache),
      get_run ops key args (env1 ++ env2) pc c =
        match get_reach ops key args env1 pc c with
        | none => none
        | some (pc1, c1) => get_run ops key args env2 pc1 c1 := by
  induction env1 with
  | nil =>
    intro pc c
    cases pc <;> simp [get_reach]
  | cons s env ih =>
    intro pc c
    cases pc with
    | ret r => simp [get_run, get_reach]
    | find_again fa =>
      simp only [List.cons_append, get_run, get_reach]
      cases get_step ops key args s (GetPC.find_again fa) (resume s.interfere c) with
      | none => rfl
      | some x => exact ih x.1 x.2
    | do_alloc fa =>
      simp only [List.cons_append, get_run, get_reach]
      cases get_step ops key args s (GetPC.do_alloc fa) (resume s.interfere c) with
      | none => rfl
      | some x => exact ih x.1 x.2
    | do_upcall entry new fa =>
      simp only [List.cons_append, get_run, get_reach]
      cases get_step ops key args s (GetPC.do_upcall entry new fa) (resume s.interfere c) with
      | none => rfl
      | some x => exact ih x.1 x.2
    | do_wait entry new fa =>
      simp only [List.cons_append, get_run, get_reach]
      cases get_step ops key args s (GetPC.do_wait entry new fa) (resume s.interfere c) with
      | none => rfl
      | some x => exact ih x.1 x.2

theorem get_entry_of_reach {ops : upcall_cache_ops} {key args : Nat} {env1 : List Susp}
    {c c1 : upcall_cache} {pc : GetPC} (env2 : List Susp)
    (h : get_entry_reach ops env1 c key args = some (pc, c1)) :
    upcall_cache_get_entry ops (env1 ++ env2) c key args = get_run ops key args env2 pc c1 := by
  simp only [get_entry_reach] at h
  simp only [upcall_cache_get_entry]
  cases hf : get_find ops c key args none false with
  | none => simp [hf] at h
  | some x =>
    simp only [hf] at h
    simp only [get_run_append, h]

theorem get_tail_invalid {c : upcall_cache} {p : Nat} {e : upcall_cache_entry}
    (new : Option Nat) (fa : Bool) (hp : c.heap p = some e)
    (hi : UC_CACHE_IS_INVALID e = true) :
    get_tail c p new fa = (put_entry c p).map
      (fun c1 => (GetPC.ret (Except.error (-EIDRM)), emit c1 Event.unlock)) := by
  simp only [get_tail, hp, hi, if_true]

theorem get_after_wait_settled {c : upcall_cache} {p : Nat} {e : upcall_cache_entry}
    (new : Option Nat) (fa : Bool) (left : Int) (hp : c.heap p = some e)
    (ha : UC_CACHE_IS_ACQUIRING e = false) :
    get_after_wait c p new fa left = get_tail (emit c Event.lock) p new fa := by
  have hp' : (emit c Event.lock).heap p = some e := hp
  simp only [get_after_wait, hp', ha]
  simp

theorem get_after_wait_acquiring {c : upcall_cache} {p : Nat} {e : upcall_cache_entry}
    (new : Option Nat) (fa : Bool) (left : Int) (hp : c.heap p = some e)
    (ha : UC_CACHE_IS_ACQUIRING e = true) :
    get_after_wait c p new fa left =
      (put_entry (emit c Event.lock) p).map (fun c1 =>
        (if !fa && (c.uc_acquire_replay || decide (0 < left)) then GetPC.find_again true
          else GetPC.ret (Except.error (if 0 < left then -EINTR else -ETIMEDOUT)),
         emit c1 Event.unlock)) := by
  have hp' : (emit c Event.lock).heap p = some e := hp
  simp only [get_after_wait, hp', ha, if_true]
  cases hput : put_entry (emit c Event.lock) p with
  | none => rfl
  | some c1 =>
    have hrep : (emit c Event.lock).uc_acquire_replay = c.uc_acquire_replay := rfl
    simp only [hrep, Option.map_some']
    by_cases hl : 0 < left
    · have hl' : ¬ left ≤ 0 := by omega
      cases fa <;> cases c.uc_acquire_replay <;> simp [hl, hl']
    · have hl' : left ≤ 0 := by omega
      cases fa <;> cases c.uc_acquire_replay <;> simp [hl, hl']


@[simp] theorem get_run_ret (ops : upcall_cache_ops) (key args : Nat) (env : List Susp)
    (r : Except Int Nat) (c : upcall_cache) :
    get_run ops key args env (GetPC.ret r) c = some (r, c) := by
  cases env <;> rfl

theorem get_run_step_ret {ops : upcall_cache_ops} {key args : Nat} {s : Susp} {pc : GetPC}
    {c c' : upcall_cache} {r : Except Int Nat} (env : List Susp)
    (hpc : ∀ r0, pc ≠ GetPC.ret r0)
    (h : get_step ops key args s pc (resume s.interfere c) = some (GetPC.ret r, c')) :
    get_run ops key args (s :: env) pc c = some (r, c') := by
  cases pc with
  | ret r0 => exact absurd rfl (hpc r0)
  | find_again fa => simp only [get_run, h, get_run_ret]
  | do_alloc fa => simp only [get_run, h, get_run_ret]
  | do_upcall entry new fa => simp only [get_run, h, get_run_ret]
  | do_wait entry new fa => simp only [get_run, h, get_run_ret]

/-- C16 (as amended): when a wait ends with the entry still ACQUIRING, the call drops its
reference and restarts the lookup if and only if this is its first failed attempt and
either `uc_acquire_replay` is set or the wait was interrupted (`left > 0`, `left` being
what `schedule_timeout` returned); in every other case it returns `-EINTR` (interrupted)
or `-ETIMEDOUT` (timed out).  So without replay a timeout is final, but a first interrupt
is still retried once. -/
theorem wait_failed_restart_iff (ops : upcall_cache_ops) (key args : Nat) (s : Susp)
    (c : upcall_cache) (p : Nat) (new : Option Nat) (fa : Bool) (e : upcall_cache_entry)
    (hp : c.heap p = some e) (ha : UC_CACHE_IS_ACQUIRING e = true) :
    ∃ c', get_step ops key args s (GetPC.do_wait p new fa) c =
      some (if fa = false ∧ (c.uc_acquire_replay = true ∨ 0 < wait_left c p new s.left)
          then GetPC.find_again true
          else GetPC.ret (Except.error
            (if 0 < wait_left c p new s.left then -EINTR else -ETIMEDOUT)), c') := by
  have hp' : (emit c Event.lock).heap p = some e := hp
  obtain ⟨c1, hc1⟩ := put_entry_isSome hp'
  refine ⟨emit c1 Event.unlock, ?_⟩
  simp only [get_step, get_after_wait_acquiring new fa (wait_left c p new s.left) hp ha, hc1,
    Option.map_some']
  cases fa <;> cases c.uc_acquire_replay <;>
    by_cases hl : 0 < wait_left c p new s.left <;> simp [hl]

/-- Witness for C16 (amended): a timeout without replay is final. -/
theorem wait_failed_restart_iff_witness :
    ∃ c', get_step demo_ops 42 0 Susp.quiet (GetPC.do_wait 100 (some 100) false)
        (demo_cache_with demo_acquiring) =
      some (GetPC.ret (Except.error (-ETIMEDOUT)), c') := by
  obtain ⟨c', h⟩ := wait_failed_restart_iff demo_ops 42 0 Susp.quiet
    (demo_cache_with demo_acquiring) 100 (some 100) false demo_acquiring rfl rfl
  exact ⟨c', h⟩

/-- Counterexample to C16 as stated: `uc_acquire_replay` is false and the wait of the
creator is interrupted (`schedule_timeout` returns 1) with the entry still ACQUIRING;
the call does not return INTERRUPTED but goes back to `find_again`. -/
theorem interrupt_without_replay_restarts :
    (get_step demo_ops 42 0 { Susp.quiet with left := 1 } (GetPC.do_wait 100 (some 100) false)
        (demo_cache_with demo_acquiring)).map Prod.fst =
      some (GetPC.find_again true) ∧
    (demo_cache_with demo_acquiring).uc_acquire_replay = false := by
  constructor <;> rfl

/-- C15 (as amended): with `uc_acquire_replay` false, when the wait of a call ends by
timeout (`schedule_timeout` returned `left <= 0`) with the entry still ACQUIRING, the
call returns `-ETIMEDOUT`.  It only drops its reference: if the entry was not INVALID or
EXPIRED when the wait ended, then at the return the entry is still allocated and still
linked, with the very same flags (still ACQUIRING, EXPIRED not set) and the refcount
lowered by 1, and nothing was freed.  Marking it EXPIRED and freeing it is left to a
later `check_unlink_entry`. -/
theorem acquire_timeout_no_replay (ops : upcall_cache_ops) (env1 env2 : List Susp) (s : Susp)
    (c c1 : upcall_cache) (key args : Nat) (p : Nat) (new : Option Nat) (fa : Bool)
    (e : upcall_cache_entry)
    (hreach : get_entry_reach ops env1 c key args = some (GetPC.do_wait p new fa, c1))
    (hrep : (resume s.interfere c1).uc_acquire_replay = false)
    (hleft : wait_left (resume s.interfere c1) p new s.left ≤ 0)
    (hp : (resume s.interfere c1).heap p = some e)
    (ha : UC_CACHE_IS_ACQUIRING e = true) :
    ∃ c', upcall_cache_get_entry ops (env1 ++ s :: env2) c key args =
        some (Except.error (-ETIMEDOUT), c') ∧
      (¬ SettledBad e →
        c'.heap p = some { e with ue_refcount := e.ue_refcount - 1 } ∧
        UC_CACHE_IS_ACQUIRING { e with ue_refcount := e.ue_refcount - 1 } = true ∧
        UC_CACHE_IS_EXPIRED { e with ue_refcount := e.ue_refcount - 1 } = false ∧
        c'.uc_hashtable = (resume s.interfere c1).uc_hashtable ∧
        frees c'.trace = frees c1.trace) := by
  have hp' : (emit (resume s.interfere c1) Event.lock).heap p = some e := hp
  obtain ⟨c2, hc2⟩ := put_entry_isSome hp'
  obtain ⟨-, -, -, -, -, -, -, -, hgood⟩ := put_entry_facts hp' hc2
  have hl : ¬ 0 < wait_left (resume s.interfere c1) p new s.left := by omega
  have hstep : get_step ops key args s (GetPC.do_wait p new fa) (resume s.interfere c1) =
      some (GetPC.ret (Except.error (-ETIMEDOUT)), emit c2 Event.unlock) := by
    simp only [get_step, get_after_wait_acquiring new fa _ hp ha, hc2, Option.map_some',
      hrep]
    simp [hl]
  refine ⟨emit c2 Event.unlock, ?_, ?_⟩
  · rw [get_entry_of_reach (s :: env2) hreach]
    exact get_run_step_ret env2 (fun r0 => by simp) hstep
  · intro hsb
    obtain ⟨h1, h2, h3⟩ := hgood (fun h => hsb h.2)
    have hexp : e.ue_flags.testBit 3 = false := by
      cases hb : e.ue_flags.testBit 3
      · rfl
      · exact absurd (Or.inr (by simpa using hb)) hsb
    refine ⟨h1, by simpa using ha, by simpa using hexp, h2, ?_⟩
    simp [emit, h3, frees, resume]

/-- Witness for C15 (amended): a lone creator times out on the empty demo cache. -/
theorem acquire_timeout_no_replay_witness :
    ∃ c', upcall_cache_get_entry demo_ops ([Susp.quiet, Susp.quiet] ++ Susp.quiet :: [])
        demo_empty 42 0 = some (Except.error (-ETIMEDOUT), c') := by
  obtain ⟨c', h, -⟩ := acquire_timeout_no_replay demo_ops [Susp.quiet, Susp.quiet] []
    Susp.quiet demo_empty _ 42 0 100 (some 100) false
    { ue_key := 42, ue_flags := UC_CACHE_ACQUIRING, ue_refcount := 1, ue_acquire_expire := 1005,
      ue_expire := 0, payload := 0 } rfl rfl (by decide) rfl rfl
  exact ⟨c', h⟩

/-- Counterexample to C15 as stated: a lone creator on the empty demo cache (replay off,
no downcall ever arrives) gets `-ETIMEDOUT`, yet at that return its entry, at address
100, is not EXPIRED and not freed: it is still allocated and linked, flagged ACQUIRING
only, with refcount 0. -/
theorem timed_out_entry_not_expired :
    (upcall_cache_get_entry demo_ops [Susp.quiet, Susp.quiet, Susp.quiet] demo_empty 42 0).map
        (fun r => (r.1, (r.2.heap 100).map (fun e => (e.ue_flags, e.ue_refcount)),
          r.2.uc_hashtable 2, frees r.2.trace)) =
      some (Except.error (-ETIMEDOUT), some (UC_CACHE_ACQUIRING, 0), [100], []) := by
  rfl

/-- C8: remove-upstream.  A call that stands in `do_upcall` on the entry `p` it created
(`new == entry`), and whose hook returns `-EREMCHG`, returns exactly `-EREMCHG` at once:
the rest of the environment is not consulted, so the call does not wait.  The entry, which
other threads may have touched but which is still allocated because the call holds a
reference, gets ACQUIRING cleared and INVALID set, its waiters are woken, and the call's
reference is dropped: with no other holder (refcount 1 when the hook returned) the entry
is freed with refcount 0 and is in no chain any more; otherwise it stays allocated,
INVALID and not ACQUIRING, with the refcount lowered by 1. -/
theorem remove_upstream (ops : upcall_cache_ops) (env1 env2 : List Susp) (s : Susp)
    (c c1 : upcall_cache) (key args : Nat) (p : Nat) (fa : Bool) (e : upcall_cache_entry)
    (hreach : get_entry_reach ops env1 c key args = some (GetPC.do_upcall p (some p) fa, c1))
    (hrc : s.rc = -EREMCHG)
    (hp : (resume s.interfere c1).heap p = some e) :
    ∃ c', upcall_cache_get_entry ops (env1 ++ s :: env2) c key args =
        some (Except.error (-EREMCHG), c') ∧
      Event.wake p ∈ c'.trace ∧
      (e.ue_refcount = 1 →
        c'.heap p = none ∧ (∀ i, p ∉ c'.uc_hashtable i) ∧
        frees c'.trace = frees c1.trace ++ [(p, 0)]) ∧
      (e.ue_refcount ≠ 1 →
        ∃ e', c'.heap p = some e' ∧ UC_CACHE_IS_INVALID e' = true ∧
          UC_CACHE_IS_ACQUIRING e' = false ∧ e'.ue_refcount = e.ue_refcount - 1 ∧
          frees c'.trace = frees c1.trace) := by
  have hneg : (-EREMCHG : Int) < 0 := by decide
  let e1 : upcall_cache_entry := UC_CACHE_SET_INVALID (UC_CACHE_CLEAR_ACQUIRING
    { e with ue_acquire_expire := (resume s.interfere c1).now +
      (resume s.interfere c1).uc_acquire_expire })
  let c2 := emit (store (emit (resume s.interfere c1) Event.lock) p e1) (Event.wake p)
  have hp2 : c2.heap p = some e1 := by simp [c2, emit, store]
  obtain ⟨c3, hc3⟩ := put_entry_isSome hp2
  obtain ⟨-, -, -, -, -, -, -, hbad, hgood⟩ := put_entry_facts hp2 hc3
  have hinv : UC_CACHE_IS_INVALID e1 = true := by simp [e1]
  have hacq : UC_CACHE_IS_ACQUIRING e1 = false := by simp [e1]
  have hrc1 : e1.ue_refcount = e.ue_refcount := by simp [e1]
  have hstep : get_step ops key args s (GetPC.do_upcall p (some p) fa) (resume s.interfere c1) =
      some (GetPC.ret (Except.error (-EREMCHG)), emit c3 Event.unlock) := by
    have hp' : (emit (resume s.interfere c1) Event.lock).heap p = some e := hp
    simp only [get_step, get_after_upcall, hp', hrc, hneg, if_true, beq_self_eq_true]
    have : put_entry c2 p = some c3 := hc3
    simp only [c2, e1] at this
    simp only [emit, store] at this ⊢
    rw [this]
    rfl
  have htr2 : c2.trace = c1.trace ++ [Event.lock, Event.wake p] := by
    simp [c2, emit, store, resume]
  refine ⟨emit c3 Event.unlock, ?_, ?_, ?_, ?_⟩
  · rw [get_entry_of_reach (s :: env2) hreach]
    exact get_run_step_ret env2 (fun r0 => by simp) hstep
  · by_cases hc : e1.ue_refcount - 1 = 0 ∧ SettledBad e1
    · obtain ⟨-, -, h3⟩ := hbad hc
      simp [emit, h3, htr2]
    · obtain ⟨-, -, h3⟩ := hgood hc
      simp [emit, h3, htr2]
  · intro hr
    have hc : e1.ue_refcount - 1 = 0 ∧ SettledBad e1 := ⟨by rw [hrc1, hr]; rfl, Or.inl hinv⟩
    obtain ⟨h1, h2, h3⟩ := hbad hc
    refine ⟨h1, ?_, ?_⟩
    · intro i
      simp [emit, h2 i]
    · simp [emit, h3, htr2, frees]
  · intro hr
    have hc : ¬ (e1.ue_refcount - 1 = 0 ∧ SettledBad e1) := by
      rintro ⟨h0, -⟩
      rw [hrc1] at h0
      exact hr (by omega)
    obtain ⟨h1, -, h3⟩ := hgood hc
    refine ⟨{ e1 with ue_refcount := e1.ue_refcount - 1 }, h1, hinv, hacq, by simp [hrc1], ?_⟩
    simp [emit, h3, htr2, frees]

/-- Witness for C8: the creator of the entry for key 42 is told `-EREMCHG` by its hook; the
entry is freed. -/
theorem remove_upstream_witness :
    ∃ c', upcall_cache_get_entry demo_ops ([Susp.quiet] ++ { Susp.quiet with rc := -EREMCHG } :: [])
        demo_empty 42 0 = some (Except.error (-EREMCHG), c') ∧
      c'.heap 100 = none ∧ (∀ i, 100 ∉ c'.uc_hashtable i) := by
  obtain ⟨c', h, -, h3, -⟩ := remove_upstream demo_ops [Susp.quiet] []
    { Susp.quiet with rc := -EREMCHG } demo_empty _ 42 0 100 false
    { ue_key := 42, ue_flags := UC_CACHE_ACQUIRING, ue_refcount := 1, ue_acquire_expire := 0,
      ue_expire := 0, payload := 0 } rfl rfl rfl
  exact ⟨c', h, (h3 rfl).1, (h3 rfl).2.1⟩

theorem get_step_wait_invalid (ops : upcall_cache_ops) (key args : Nat) (s : Susp)
    {c : upcall_cache} {p : Nat} {e : upcall_cache_entry} (new : Option Nat) (fa : Bool)
    (hp : c.heap p = some e) (ha : UC_CACHE_IS_ACQUIRING e = false)
    (hi : UC_CACHE_IS_INVALID e = true) :
    ∃ c', get_step ops key args s (GetPC.do_wait p new fa) c =
      some (GetPC.ret (Except.error (-EIDRM)), c') := by
  have hp' : (emit c Event.lock).heap p = some e := hp
  obtain ⟨c2, hc2⟩ := put_entry_isSome hp'
  refine ⟨emit c2 Event.unlock, ?_⟩
  simp only [get_step, get_after_wait_settled new fa _ hp ha,
    get_tail_invalid new fa hp' hi, hc2, Option.map_some']

theorem get_step_upcall_failed (ops : upcall_cache_ops) (key args : Nat) (s : Susp)
    {c : upcall_cache} {p : Nat} {e : upcall_cache_entry} (new : Option Nat) (fa : Bool)
    (hp : c.heap p = some e) (hneg : s.rc < 0) (hne : s.rc ≠ -EREMCHG) :
    ∃ c', get_step ops key args s (GetPC.do_upcall p new fa) c =
      some (GetPC.ret (Except.error (-EIDRM)), c') := by
  have hp' : (emit c Event.lock).heap p = some e := hp
  let e1 : upcall_cache_entry := UC_CACHE_SET_INVALID (UC_CACHE_CLEAR_ACQUIRING
    { e with ue_acquire_expire := c.now + c.uc_acquire_expire })
  let c2 := emit (store (emit c Event.lock) p e1) (Event.wake p)
  have hp2 : c2.heap p = some e1 := by simp [c2, emit, store]
  have hinv : UC_CACHE_IS_INVALID e1 = true := by simp [e1]
  have hacq : UC_CACHE_IS_ACQUIRING e1 = false := by simp [e1]
  obtain ⟨c3, hc3⟩ := put_entry_isSome hp2
  refine ⟨emit c3 Event.unlock, ?_⟩
  have hb : (s.rc == -EREMCHG) = false := by simpa using hne
  simp only [get_step, get_after_upcall, hp', hneg, if_true, hb]
  have h1 : get_acquiring c2 p new fa = some (GetPC.ret (Except.error (-EIDRM)),
      emit c3 Event.unlock) := by
    simp only [get_acquiring, hp2, hacq, get_tail_invalid new fa hp2 hinv, hc3,
      Option.map_some']
    rfl
  exact h1

/-- C7 (as amended): the error of a failed acquisition is not handed to the waiters.
(1) When a call sleeping on entry `p` resumes after another thread delivered a downcall
with `err != 0` for that entry (the downcall returned `err` and left the entry INVALID
with ACQUIRING cleared), the call returns `-EIDRM`, whatever `err` was.  (2) Likewise,
when the `do_upcall` hook itself fails with a negative code other than `-EREMCHG`, the
call returns `-EIDRM` and not that code.  In both cases the call does not wait or retry:
the rest of the environment is not consulted. -/
theorem waiter_gets_eidrm (ops : upcall_cache_ops) (env1 env2 : List Susp) (s : Susp)
    (c c1 : upcall_cache) (key args : Nat) (p : Nat) (new : Option Nat) (fa : Bool) :
    (∀ (e : upcall_cache_entry) (err dkey dargs : Nat) (pre post : List Nat),
      get_entry_reach ops env1 c key args = some (GetPC.do_wait p new fa, c1) →
      s.interfere = downcall_by_other ops err dkey dargs →
      err % 2 ^ 32 ≠ 0 →
      c1.uc_hashtable (UC_CACHE_HASH_INDEX dkey c1.uc_hashsize) = pre ++ p :: post →
      (∀ q ∈ pre, ∃ eq, c1.heap q = some eq ∧ downcall_compare ops eq dkey dargs ≠ 0) →
      c1.heap p = some e → downcall_compare ops e dkey dargs = 0 →
      e.ue_refcount ≠ 0 →
      (upcall_cache_downcall ops DownEnv.quiet c1 err dkey dargs).map Prod.fst =
          some (int_of_u32 err) ∧
        ∃ c', upcall_cache_get_entry ops (env1 ++ s :: env2) c key args =
          some (Except.error (-EIDRM), c')) ∧
    (∀ (e : upcall_cache_entry),
      get_entry_reach ops env1 c key args = some (GetPC.do_upcall p new fa, c1) →
      (resume s.interfere c1).heap p = some e → s.rc < 0 → s.rc ≠ -EREMCHG →
      ∃ c', upcall_cache_get_entry ops (env1 ++ s :: env2) c key args =
        some (Except.error (-EIDRM), c')) := by
  constructor
  · intro e err dkey dargs pre post hreach hint herr hchain hpre hp hm hr
    obtain ⟨c2, hd, -, -, -, -, -, hheap, hinv, hacq⟩ :=
      downcall_error_effect hchain hpre hp hm err herr
    rw [if_neg hr] at hheap
    refine ⟨by rw [hd]; rfl, ?_⟩
    have hres : (resume s.interfere c1).heap p =
        some (UC_CACHE_CLEAR_ACQUIRING (UC_CACHE_SET_INVALID e)) := by
      rw [hint]
      simp only [resume, downcall_by_other, hd]
      exact hheap
    obtain ⟨c', hstep⟩ := get_step_wait_invalid ops key args s new fa hres hacq hinv
    refine ⟨c', ?_⟩
    rw [get_entry_of_reach (s :: env2) hreach]
    exact get_run_step_ret env2 (fun r0 => by simp) hstep
  · intro e hreach hp hneg hne
    obtain ⟨c', hstep⟩ := get_step_upcall_failed ops key args s new fa hp hneg hne
    refine ⟨c', ?_⟩
    rw [get_entry_of_reach (s :: env2) hreach]
    exact get_run_step_ret env2 (fun r0 => by simp) hstep

/-- Witness for C7 (amended): the creator of the entry for key 42 sleeps, the resolver
reports error 13, the creator returns `-EIDRM`. -/
theorem waiter_gets_eidrm_witness :
    ∃ c', upcall_cache_get_entry demo_ops
        ([Susp.quiet, Susp.quiet] ++
          { Susp.quiet with interfere := downcall_by_other demo_ops 13 42 0, left := 1 } :: [])
        demo_empty 42 0 = some (Except.error (-EIDRM), c') :=
  ((waiter_gets_eidrm demo_ops [Susp.quiet, Susp.quiet] []
    { Susp.quiet with interfere := downcall_by_other demo_ops 13 42 0, left := 1 }
    demo_empty _ 42 0 100 (some 100) false).1
    { ue_key := 42, ue_flags := UC_CACHE_ACQUIRING, ue_refcount := 1, ue_acquire_expire := 1005,
      ue_expire := 0, payload := 0 } 13 42 0 [] [] rfl rfl (by decide) rfl (by simp) rfl rfl
    (by decide)).2

/-- Counterexample to C7 as stated: the creator of the entry for key 42 sleeps, another
thread delivers `downcall(err = 13)`, which returns 13; the sleeping call then returns
`-EIDRM` (-43), neither 13 nor -13. -/
theorem waiter_does_not_get_err :
    (upcall_cache_get_entry demo_ops
        [Susp.quiet, Susp.quiet,
          { Susp.quiet with interfere := downcall_by_other demo_ops 13 42 0, left := 1 }]
        demo_empty 42 0).map Prod.fst = some (Except.error (-43)) ∧
    ((get_entry_reach demo_ops [Susp.quiet, Susp.quiet] demo_empty 42 0).bind
        (fun r => upcall_cache_downcall demo_ops DownEnv.quiet r.2 13 42 0)).map Prod.fst =
      some 13 := by
  constructor <;> rfl

/-! ## upcall_cache_flush -/

theorem zero_ref_store_ne {c : upcall_cache} {p q : Nat} {e : upcall_cache_entry} (h : q ≠ p) :
    zero_ref (store c p e) q = zero_ref c q := by
  simp [zero_ref, store, Function.update, h]

theorem flush_chain_spec (force : Int) :
    ∀ (l : List Nat) (c : upcall_cache), l.Nodup → (∀ p ∈ l, ∃ e, c.heap p = some e) →
      (force ≠ 0 → ∀ p ∈ l, zero_ref c p = true) →
      ∃ c', flush_chain force l c = some c' ∧ SameFrame c c' ∧
        (∀ j, c'.uc_hashtable j =
          (c.uc_hashtable j).filter (fun q => !(decide (q ∈ l) && zero_ref c q))) ∧
        (∀ p ∈ l, c'.heap p = flushed (c.heap p)) ∧
        (∀ p, p ∉ l → c'.heap p = c.heap p) ∧
        frees c'.trace = frees c.trace ++ (l.filter (zero_ref c)).map (fun p => (p, 0)) ∧
        upcalls c'.trace = upcalls c.trace ∧ parses c'.trace = parses c.trace ∧
        allocs c'.trace = allocs c.trace := by
  intro l
  induction l with
  | nil =>
    intro c _ _ _
    exact ⟨c, rfl, SameFrame.refl c, by simp, by simp, by simp, by simp, rfl, rfl, rfl⟩
  | cons p rest ih =>
    intro c hnd halive hforce
    obtain ⟨hprest, hndrest⟩ := List.nodup_cons.1 hnd
    obtain ⟨e, he⟩ := halive p (List.mem_cons_self _ _)
    by_cases hr : e.ue_refcount = 0
    · -- freed
      have hz : zero_ref c p = true := by simp [zero_ref, he, hr]
      let c1 : upcall_cache :=
        { list_del c p with
          heap := Function.update c.heap p none
          trace := c.trace ++ [Event.free p e.ue_refcount] }
      have hfree : free_entry c p = some c1 := by simp [free_entry, he, c1]
      have hz1 : ∀ q, q ≠ p → zero_ref c1 q = zero_ref c q := by
        intro q hq
        simp [zero_ref, c1, Function.update, hq]
      have halive1 : ∀ q ∈ rest, ∃ e', c1.heap q = some e' := by
        intro q hq
        have hqp : q ≠ p := by rintro rfl; exact hprest hq
        obtain ⟨e', he'⟩ := halive q (List.mem_cons_of_mem _ hq)
        exact ⟨e', by simp [c1, Function.update, hqp, he']⟩
      have hforce1 : force ≠ 0 → ∀ q ∈ rest, zero_ref c1 q = true := by
        intro hf q hq
        have hqp : q ≠ p := by rintro rfl; exact hprest hq
        rw [hz1 q hqp]
        exact hforce hf q (List.mem_cons_of_mem _ hq)
      obtain ⟨c', h1, hsf, htab, hheap, hoth, hfr, hu, hpa, hal⟩ :=
        ih c1 hndrest halive1 hforce1
      refine ⟨c', ?_, ?_, ?_, ?_, ?_, ?_, ?_, ?_, ?_⟩
      · simp only [flush_chain, he, hfree]
        simp [hr, h1]
      · exact SameFrame.trans ⟨rfl, rfl, rfl, rfl, rfl, rfl⟩ hsf
      · intro j
        rw [htab j]
        have : c1.uc_hashtable j = (c.uc_hashtable j).filter (fun q => q != p) := rfl
        rw [this, List.filter_filter]
        apply List.filter_congr
        intro q _
        by_cases hqp : q = p
        · subst hqp; simp [hz]
        · simp [hqp, hz1 q hqp]
      · intro q hq
        rcases List.mem_cons.1 hq with rfl | hq'
        · rw [hoth q hprest]
          simp [c1, flushed, he, hr]
        · have hqp : q ≠ p := by rintro rfl; exact hprest hq'
          rw [hheap q hq']
          simp [c1, Function.update, hqp]
      · intro q hq
        have hqp : q ≠ p := by rintro rfl; exact hq (List.mem_cons_self _ _)
        have hqr : q ∉ rest := fun h => hq (List.mem_cons_of_mem _ h)
        rw [hoth q hqr]
        simp [c1, Function.update, hqp]
      · rw [hfr]
        have : List.filter (zero_ref c1) rest = List.filter (zero_ref c) rest := by
          apply List.filter_congr
          intro q hq
          have hqp : q ≠ p := by rintro rfl; exact hprest hq
          exact hz1 q hqp
        have htr : c1.trace = c.trace ++ [Event.free p 0] := by simp [c1, hr]
        rw [this, htr]
        simp [frees, List.filter_cons, hz]
      · rw [hu]
        have htr : c1.trace = c.trace ++ [Event.free p 0] := by simp [c1, hr]
        simp [htr, upcalls]
      · rw [hpa]
        have htr : c1.trace = c.trace ++ [Event.free p 0] := by simp [c1, hr]
        simp [htr, parses]
      · rw [hal]
        have htr : c1.trace = c.trace ++ [Event.free p 0] := by simp [c1, hr]
        simp [htr, allocs]
    · -- kept, marked EXPIRED
      have hz : zero_ref c p = false := by simp [zero_ref, he, hr]
      have hf0 : force = 0 := by
        by_contra hf
        have := hforce hf p (List.mem_cons_self _ _)
        rw [hz] at this
        exact absurd this (by simp)
      let c1 := store c p (UC_CACHE_SET_EXPIRED e)
      have hz1 : ∀ q, zero_ref c1 q = zero_ref c q := by
        intro q
        by_cases hq : q = p
        · subst hq; simp [zero_ref, c1, store, he, hr]
        · exact zero_ref_store_ne hq
      have halive1 : ∀ q ∈ rest, ∃ e', c1.heap q = some e' := by
        intro q hq
        have hqp : q ≠ p := by rintro rfl; exact hprest hq
        obtain ⟨e', he'⟩ := halive q (List.mem_cons_of_mem _ hq)
        exact ⟨e', by simp [c1, store, Function.update, hqp, he']⟩
      obtain ⟨c', h1, hsf, htab, hheap, hoth, hfr, hu, hpa, hal⟩ :=
        ih c1 hndrest halive1 (fun hf => absurd hf0 hf)
      refine ⟨c', ?_, ?_, ?_, ?_, ?_, ?_, ?_, ?_, ?_⟩
      · simp only [flush_chain, he]
        simp [hr, hf0]
        rw [← hf0]
        exact h1
      · exact SameFrame.trans ⟨rfl, rfl, rfl, rfl, rfl, rfl⟩ hsf
      · intro j
        rw [htab j]
        apply List.filter_congr
        intro q _
        by_cases hqp : q = p
        · subst hqp; simp [hz1, hz]
        · simp [hqp, hz1]
      · intro q hq
        rcases List.mem_cons.1 hq with rfl | hq'
        · rw [hoth q hprest]
          simp [c1, store, flushed, he, hr]
        · have hqp : q ≠ p := by rintro rfl; exact hprest hq'
          rw [hheap q hq']
          simp [c1, store, Function.update, hqp]
      · intro q hq
        have hqp : q ≠ p := by rintro rfl; exact hq (List.mem_cons_self _ _)
        have hqr : q ∉ rest := fun h => hq (List.mem_cons_of_mem _ h)
        rw [hoth q hqr]
        simp [c1, store, Function.update, hqp]
      · rw [hfr]
        have : List.filter (zero_ref c1) rest = List.filter (zero_ref c) rest := by
          apply List.filter_congr
          intro q _
          exact hz1 q
        have htr : c1.trace = c.trace := rfl
        rw [this, htr]
        simp [List.filter_cons, hz]
      · rw [hu]; rfl
      · rw [hpa]; rfl
      · rw [hal]; rfl


theorem zero_ref_congr {c c1 : upcall_cache} {q : Nat} (h : c1.heap q = c.heap q) :
    zero_ref c1 q = zero_ref c q := by
  simp [zero_ref, h]

theorem mem_chain_ptrs {c : upcall_cache} {q : Nat} :
    ∀ {is : List Nat}, q ∈ chain_ptrs c is ↔ ∃ i ∈ is, q ∈ c.uc_hashtable i := by
  intro is
  induction is with
  | nil => simp [chain_ptrs]
  | cons i rest ih => simp [chain_ptrs, ih]

theorem chain_ptrs_congr {c c1 : upcall_cache} :
    ∀ {is : List Nat}, (∀ j ∈ is, c1.uc_hashtable j = c.uc_hashtable j) →
      chain_ptrs c1 is = chain_ptrs c is := by
  intro is
  induction is with
  | nil => intro _; rfl
  | cons i rest ih =>
    intro h
    simp only [chain_ptrs]
    rw [h i (List.mem_cons_self _ _), ih (fun j hj => h j (List.mem_cons_of_mem _ hj))]

theorem flush_buckets_spec (force : Int) :
    ∀ (is : List Nat) (c : upcall_cache), (chain_ptrs c is).Nodup →
      (∀ p ∈ chain_ptrs c is, ∃ e, c.heap p = some e) →
      (force ≠ 0 → ∀ p ∈ chain_ptrs c is, zero_ref c p = true) →
      ∃ c', flush_buckets force is c = some c' ∧ SameFrame c c' ∧
        (∀ j, c'.uc_hashtable j =
          (c.uc_hashtable j).filter
            (fun q => !(decide (q ∈ chain_ptrs c is) && zero_ref c q))) ∧
        (∀ p ∈ chain_ptrs c is, c'.heap p = flushed (c.heap p)) ∧
        (∀ p, p ∉ chain_ptrs c is → c'.heap p = c.heap p) ∧
        frees c'.trace =
          frees c.trace ++ ((chain_ptrs c is).filter (zero_ref c)).map (fun p => (p, 0)) ∧
        upcalls c'.trace = upcalls c.trace ∧ parses c'.trace = parses c.trace ∧
        allocs c'.trace = allocs c.trace := by
  intro is
  induction is with
  | nil =>
    intro c _ _ _
    exact ⟨c, rfl, SameFrame.refl c, by simp [chain_ptrs], by simp [chain_ptrs],
      by simp [chain_ptrs], by simp [chain_ptrs], rfl, rfl, rfl⟩
  | cons i rest ih =>
    intro c hnd halive hforce
    simp only [chain_ptrs] at hnd halive hforce
    obtain ⟨hnd1, hnd2, hdisj⟩ := List.nodup_append.1 hnd
    obtain ⟨c1, h1, hsf1, htab1, hheap1, hoth1, hfr1, hu1, hpa1, hal1⟩ :=
      flush_chain_spec force (c.uc_hashtable i) c hnd1
        (fun p hp => halive p (List.mem_append_left _ hp))
        (fun hf p hp => hforce hf p (List.mem_append_left _ hp))
    have hnot1 : ∀ q, q ∈ chain_ptrs c rest → q ∉ c.uc_hashtable i :=
      fun q hq h => hdisj h hq
    have htabrest : ∀ j ∈ rest, c1.uc_hashtable j = c.uc_hashtable j := by
      intro j hj
      rw [htab1 j, List.filter_eq_self]
      intro q hq
      have : q ∉ c.uc_hashtable i := hnot1 q (mem_chain_ptrs.2 ⟨j, hj, hq⟩)
      simp [this]
    have hcp : chain_ptrs c1 rest = chain_ptrs c rest := chain_ptrs_congr htabrest
    have hz1 : ∀ q, q ∉ c.uc_hashtable i → zero_ref c1 q = zero_ref c q :=
      fun q hq => zero_ref_congr (hoth1 q hq)
    obtain ⟨c', h2, hsf2, htab2, hheap2, hoth2, hfr2, hu2, hpa2, hal2⟩ :=
      ih c1 (by rw [hcp]; exact hnd2)
        (by
          intro p hp
          rw [hcp] at hp
          rw [hoth1 p (hnot1 p hp)]
          exact halive p (List.mem_append_right _ hp))
        (by
          intro hf p hp
          rw [hcp] at hp
          rw [hz1 p (hnot1 p hp)]
          exact hforce hf p (List.mem_append_right _ hp))
    rw [hcp] at htab2 hheap2 hoth2 hfr2
    refine ⟨c', ?_, hsf1.trans hsf2, ?_, ?_, ?_, ?_, hu2.trans hu1, hpa2.trans hpa1,
      hal2.trans hal1⟩
    · simp only [flush_buckets, h1, h2]
    · intro j
      rw [htab2 j, htab1 j, List.filter_filter]
      apply List.filter_congr
      intro q _
      simp only [chain_ptrs, List.mem_append]
      by_cases hq1 : q ∈ c.uc_hashtable i
      · have hq2 : q ∉ chain_ptrs c rest := fun h => hnot1 q h hq1
        simp [hq1, hq2]
      · simp [hq1, hz1 q hq1]
    · intro p hp
      simp only [chain_ptrs] at hp
      rcases List.mem_append.1 hp with hp1 | hp2
      · have hq2 : p ∉ chain_ptrs c rest := fun h => hnot1 p h hp1
        rw [hoth2 p hq2, hheap1 p hp1]
      · rw [hheap2 p hp2, hoth1 p (hnot1 p hp2)]
    · intro p hp
      simp only [chain_ptrs, List.mem_append, not_or] at hp
      rw [hoth2 p hp.2, hoth1 p hp.1]
    · rw [hfr2, hfr1]
      have : List.filter (zero_ref c1) (chain_ptrs c rest) =
          List.filter (zero_ref c) (chain_ptrs c rest) := by
        apply List.filter_congr
        intro q hq
        exact hz1 q (hnot1 q hq)
      simp [chain_ptrs, List.filter_append, this]


theorem flush_buckets_empty (force : Int) :
    ∀ (is : List Nat) (c : upcall_cache), (∀ i ∈ is, c.uc_hashtable i = []) →
      flush_buckets force is c = some c := by
  intro is
  induction is with
  | nil => intro c _; rfl
  | cons i rest ih =>
    intro c h
    simp only [flush_buckets, h i (List.mem_cons_self _ _), flush_chain]
    exact ih c (fun j hj => h j (List.mem_cons_of_mem _ hj))

/-- C11: non-forced flush of a well-formed table (`TableOk`: live pointers, none twice).
`upcall_cache_flush(cache, 0)` completes; afterwards every chain holds exactly its former
entries with a non-zero refcount, in their former order; each of them carries the EXPIRED
flag and is otherwise unchanged (refcount included); every entry whose refcount was 0 has
been freed, with refcount 0 at the free, and is off its chain; entries outside the table
are untouched. -/
theorem flush_unforced (c : upcall_cache) (hok : TableOk c) :
    ∃ c', upcall_cache_flush c 0 = some c' ∧
      (∀ i, i < c.uc_hashsize →
        c'.uc_hashtable i = (c.uc_hashtable i).filter (fun q => !zero_ref c q)) ∧
      (∀ i, i < c.uc_hashsize → ∀ p ∈ c.uc_hashtable i, ∀ e, c.heap p = some e →
        (e.ue_refcount ≠ 0 →
          c'.heap p = some (UC_CACHE_SET_EXPIRED e) ∧
          UC_CACHE_IS_EXPIRED (UC_CACHE_SET_EXPIRED e) = true ∧
          (UC_CACHE_SET_EXPIRED e).ue_refcount = e.ue_refcount) ∧
        (e.ue_refcount = 0 → c'.heap p = none ∧ (p, 0) ∈ frees c'.trace)) ∧
      (∀ p, p ∉ chain_ptrs c (List.range c.uc_hashsize) → c'.heap p = c.heap p) ∧
      frees c'.trace = frees c.trace ++
        ((chain_ptrs c (List.range c.uc_hashsize)).filter (zero_ref c)).map (fun p => (p, 0)) := by
  obtain ⟨hnd, halive⟩ := hok
  have hcp : chain_ptrs (emit c Event.lock) (List.range c.uc_hashsize) =
      chain_ptrs c (List.range c.uc_hashsize) := chain_ptrs_congr (fun _ _ => rfl)
  have hzf : zero_ref (emit c Event.lock) = zero_ref c := rfl
  obtain ⟨c1, h1, -, htab, hheap, hoth, hfr, -, -, -⟩ :=
    flush_buckets_spec 0 (List.range c.uc_hashsize) (emit c Event.lock) (by rw [hcp]; exact hnd)
      (by rw [hcp]; exact halive) (fun h => absurd rfl h)
  simp only [hcp, hzf] at htab hheap hoth hfr
  have hmem : ∀ i, i < c.uc_hashsize → ∀ p ∈ c.uc_hashtable i,
      p ∈ chain_ptrs c (List.range c.uc_hashsize) :=
    fun i hi p hp => mem_chain_ptrs.2 ⟨i, List.mem_range.2 hi, hp⟩
  refine ⟨emit c1 Event.unlock, ?_, ?_, ?_, ?_, ?_⟩
  · simp only [upcall_cache_flush]
    have : (emit c Event.lock).uc_hashsize = c.uc_hashsize := rfl
    rw [h1]; rfl
  · intro i hi
    show c1.uc_hashtable i = _
    rw [htab i]
    apply List.filter_congr
    intro q hq
    have := hmem i hi q hq
    simp [this]
  · intro i hi p hp e he
    have hh : (emit c1 Event.unlock).heap p = flushed (c.heap p) := hheap p (hmem i hi p hp)
    constructor
    · intro hr
      refine ⟨by rw [hh, he]; simp [flushed, hr], by simp, by simp⟩
    · intro hr
      refine ⟨by rw [hh, he]; simp [flushed, hr], ?_⟩
      have hz : zero_ref c p = true := by
        simp [zero_ref, he, hr]
      have : frees (emit c1 Event.unlock).trace = frees c1.trace := by simp [emit, frees]
      rw [this, hfr]
      apply List.mem_append_right
      exact List.mem_map.2 ⟨p, List.mem_filter.2 ⟨hmem i hi p hp, hz⟩, rfl⟩
  · intro p hp
    exact hoth p hp
  · have : frees (emit c1 Event.unlock).trace = frees c1.trace := by simp [emit, frees]
    rw [this, hfr]
    have h2 : frees (emit c Event.lock).trace = frees c.trace := by simp [emit, frees]
    rw [h2]

/-- Witness for C11: the demo cache is well formed; its only entry is held, so the
non-forced flush keeps it and marks it EXPIRED. -/
theorem flush_unforced_witness :
    ∃ c', upcall_cache_flush demo_cache 0 = some c' ∧ c'.uc_hashtable 2 = [100] ∧
      c'.heap 100 = some (UC_CACHE_SET_EXPIRED demo_valid) := by
  have hok : TableOk demo_cache := by
    constructor
    · decide
    · intro p hp
      have : p = 100 := by
        simpa [chain_ptrs, demo_cache, demo_cache_with, List.range, List.range.loop] using hp
      subst this
      exact ⟨demo_valid, rfl⟩
  obtain ⟨c', h1, h2, h3, -⟩ := flush_unforced demo_cache hok
  refine ⟨c', h1, ?_, ?_⟩
  · rw [h2 2 (by decide)]; rfl
  · exact ((h3 2 (by decide) 100 (by decide) demo_valid rfl).1 (by decide)).1

/-- C12: forced flush of a well-formed table in which no linked entry is referenced.
`upcall_cache_flush(cache, 1)`, which is also what `upcall_cache_cleanup` runs, completes
and leaves every chain empty, every formerly linked entry freed.  A second forced flush
of the result completes as well, frees nothing and changes nothing in the cache: it only
takes and releases the lock. -/
theorem flush_forced_idempotent (c : upcall_cache) (hok : TableOk c)
    (hzero : ∀ p ∈ chain_ptrs c (List.range c.uc_hashsize), zero_ref c p = true) :
    ∃ c', upcall_cache_flush c 1 = some c' ∧ upcall_cache_cleanup c = some c' ∧
      (∀ i, i < c.uc_hashsize → c'.uc_hashtable i = []) ∧
      (∀ p ∈ chain_ptrs c (List.range c.uc_hashsize), c'.heap p = none) ∧
      upcall_cache_flush c' 1 =
        some { c' with trace := c'.trace ++ [Event.lock, Event.unlock] } ∧
      frees (c'.trace ++ [Event.lock, Event.unlock]) = frees c'.trace := by
  obtain ⟨hnd, halive⟩ := hok
  have hcp : chain_ptrs (emit c Event.lock) (List.range c.uc_hashsize) =
      chain_ptrs c (List.range c.uc_hashsize) := chain_ptrs_congr (fun _ _ => rfl)
  have hzf : zero_ref (emit c Event.lock) = zero_ref c := rfl
  obtain ⟨c1, h1, hsf, htab, hheap, -, -, -, -, -⟩ :=
    flush_buckets_spec 1 (List.range c.uc_hashsize) (emit c Event.lock) (by rw [hcp]; exact hnd)
      (by rw [hcp]; exact halive) (by rw [hcp, hzf]; exact fun _ => hzero)
  simp only [hcp, hzf] at htab hheap
  have hflush : upcall_cache_flush c 1 = some (emit c1 Event.unlock) := by
    simp only [upcall_cache_flush]
    rw [h1]; rfl
  have hempty : ∀ i, i < c.uc_hashsize → (emit c1 Event.unlock).uc_hashtable i = [] := by
    intro i hi
    show c1.uc_hashtable i = []
    rw [htab i, List.filter_eq_nil_iff]
    intro q hq
    have hm : q ∈ chain_ptrs c (List.range c.uc_hashsize) :=
      mem_chain_ptrs.2 ⟨i, List.mem_range.2 hi, hq⟩
    simp [hm, hzero q hm]
  have hsize : (emit c1 Event.unlock).uc_hashsize = c.uc_hashsize := hsf.2.2.1
  refine ⟨emit c1 Event.unlock, hflush, hflush, hempty, ?_, ?_, by simp [frees]⟩
  · intro p hp
    obtain ⟨e, he⟩ := halive p hp
    have hz := hzero p hp
    simp only [zero_ref, he, beq_iff_eq] at hz
    show c1.heap p = none
    rw [hheap p hp]
    show flushed (c.heap p) = none
    simp [he, flushed, hz]
  · simp only [upcall_cache_flush]
    rw [flush_buckets_empty 1 _ _ (by
      intro i hi
      rw [show (emit c1 Event.unlock).uc_hashsize = c.uc_hashsize from hsize] at hi
      exact hempty i (List.mem_range.1 hi))]
    simp [emit]

/-- Witness for C12: the demo cache once its only entry has been released. -/
theorem flush_forced_idempotent_witness :
    ∃ c', upcall_cache_flush (demo_cache_with { demo_valid with ue_refcount := 0 }) 1 = some c' ∧
      c'.uc_hashtable 2 = [] ∧ c'.heap 100 = none := by
  have hp : ∀ p ∈ chain_ptrs (demo_cache_with { demo_valid with ue_refcount := 0 })
      (List.range (demo_cache_with { demo_valid with ue_refcount := 0 }).uc_hashsize),
      p = 100 := by
    intro p hp
    simpa [chain_ptrs, demo_cache_with, List.range, List.range.loop] using hp
  have hok : TableOk (demo_cache_with { demo_valid with ue_refcount := 0 }) := by
    constructor
    · decide
    · intro p h
      rw [hp p h]
      exact ⟨_, rfl⟩
  obtain ⟨c', h1, -, h3, h4, -⟩ :=
    flush_forced_idempotent (demo_cache_with { demo_valid with ue_refcount := 0 }) hok
      (by intro p h; rw [hp p h]; rfl)
  exact ⟨c', h1, h3 2 (by decide), h4 100 (by decide)⟩

/-! ## Wake-ups and the lock -/

theorem downcall_out_trace {c c2 : upcall_cache} {p : Nat} {rc : Int} {pc : DownPC}
    (h : downcall_out c p rc = some (pc, c2)) :
    pc = DownPC.do_put p rc ∧ c2.trace = c.trace ++ [Event.unlock] := by
  unfold downcall_out at h
  cases hp : c.heap p with
  | none => simp [hp] at h
  | some e =>
    simp only [hp] at h
    split at h <;> cases h <;> exact ⟨rfl, rfl⟩

theorem put_entry_trace {c c' : upcall_cache} {p : Nat} (h : put_entry c p = some c') :
    c'.trace = c.trace ∨ c'.trace = c.trace ++ [Event.free p 0] := by
  cases hp : c.heap p with
  | none => simp [put_entry, hp] at h
  | some e =>
    obtain ⟨-, -, -, -, -, -, -, hbad, hgood⟩ := put_entry_facts hp h
    by_cases hc : e.ue_refcount - 1 = 0 ∧ SettledBad e
    · exact Or.inr (hbad hc).2.2
    · exact Or.inl (hgood hc).2.2

theorem downcall_finish_trace {c c3 : upcall_cache} {p : Nat} {rc r : Int}
    (h : downcall_finish id id c p rc = some (r, c3)) :
    r = rc ∧ ∃ F, c3.trace = c.trace ++ [Event.wake p] ++ F ∧ (F = [] ∨ F = [Event.free p 0]) := by
  rw [downcall_finish_quiet] at h
  cases hput : put_entry (emit c (Event.wake p)) p with
  | none => simp [hput] at h
  | some c4 =>
    simp only [hput, Option.map_some', Option.some.injEq, Prod.mk.injEq] at h
    obtain ⟨h1, h2⟩ := h
    subst h2
    refine ⟨h1.symm, ?_⟩
    rcases put_entry_trace hput with ht | ht
    · exact ⟨[], by rw [ht]; simp [emit], Or.inl rfl⟩
    · exact ⟨[Event.free p 0], by rw [ht]; simp [emit], Or.inr rfl⟩

theorem downcall_parse_trace {ops : upcall_cache_ops} {c c3 : upcall_cache} {p args : Nat}
    {pc : DownPC} (h : downcall_parse ops c p args = some (pc, c3)) :
    ∃ rc D, pc = DownPC.do_put p rc ∧ c3.trace = c.trace ++ D ++ [Event.unlock] ∧
      (∀ q, Event.wake q ∉ D) := by
  unfold downcall_parse at h
  cases hp : c.heap p with
  | none => simp [hp] at h
  | some e =>
    simp only [hp] at h
    cases hpd : ops.parse_downcall with
    | none =>
      simp only [hpd] at h
      simp at h
      cases hp2 : (emit c Event.lock).heap p with
      | none => simp [hp2] at h
      | some e2 =>
        simp only [hp2] at h
        obtain ⟨h1, h2⟩ := downcall_out_trace h
        exact ⟨0, [Event.lock], h1, by rw [h2]; simp [store, emit], by simp⟩
    | some f =>
      simp only [hpd] at h
      split at h
      · obtain ⟨h1, h2⟩ := downcall_out_trace h
        exact ⟨_, [Event.parse p, Event.lock], h1, by rw [h2]; simp [store, emit], by simp⟩
      · split at h
        · simp at h
        · obtain ⟨h1, h2⟩ := downcall_out_trace h
          exact ⟨0, [Event.parse p, Event.lock], h1, by rw [h2]; simp [store, emit], by simp⟩

theorem downcall_start_trace {ops : upcall_cache_ops} {c c2 : upcall_cache}
    {err key args p : Nat} {pc : DownPC}
    (hfound : downcall_loop ops key args (emit c Event.lock)
      (c.uc_hashtable (UC_CACHE_HASH_INDEX key c.uc_hashsize)) = some (some p))
    (h : downcall_start ops c err key args = some (pc, c2)) :
    c2.trace = c.trace ++ [Event.lock, Event.unlock] ∧
      ((∃ rc, pc = DownPC.do_put p rc) ∨ pc = DownPC.do_parse p) := by
  unfold downcall_start at h
  have hfound' : downcall_loop ops key args (emit c Event.lock)
      ((emit c Event.lock).uc_hashtable (UC_CACHE_HASH_INDEX key c.uc_hashsize)) =
      some (some p) := hfound
  simp only [hfound'] at h
  cases hg : get_entry (emit c Event.lock) p with
  | none => simp [hg] at h
  | some c1 =>
    have htr1 : c1.trace = c.trace ++ [Event.lock] := by
      unfold get_entry at hg
      cases hp : (emit c Event.lock).heap p with
      | none => simp [hp] at hg
      | some e => simp only [hp, Option.some.injEq] at hg; subst hg; rfl
    simp only [hg] at h
    cases hp1 : c1.heap p with
    | none => simp [hp1] at h
    | some e =>
      simp only [hp1] at h
      split at h
      · obtain ⟨h1, h2⟩ := downcall_out_trace h
        exact ⟨by rw [h2, htr1]; simp, Or.inl ⟨_, h1⟩⟩
      · split at h
        · obtain ⟨h1, h2⟩ := downcall_out_trace h
          exact ⟨by rw [h2, htr1]; simp, Or.inl ⟨_, h1⟩⟩
        · split at h
          · obtain ⟨h1, h2⟩ := downcall_out_trace h
            exact ⟨by rw [h2, htr1]; simp, Or.inl ⟨_, h1⟩⟩
          · simp only [Option.some.injEq, Prod.mk.injEq] at h
            obtain ⟨h1, h2⟩ := h
            subst h2
            exact ⟨by simp [emit, htr1], Or.inr h1.symm⟩


theorem get_tail_invalid_trace {c c' : upcall_cache} {p : Nat} {e : upcall_cache_entry}
    {new : Option Nat} {fa : Bool} {pc : GetPC} (hp : c.heap p = some e)
    (hi : UC_CACHE_IS_INVALID e = true) (h : get_tail c p new fa = some (pc, c')) :
    ∃ F, c'.trace = c.trace ++ F ++ [Event.unlock] ∧ (F = [] ∨ F = [Event.free p 0]) := by
  rw [get_tail_invalid new fa hp hi] at h
  cases hput : put_entry c p with
  | none => simp [hput] at h
  | some c1 =>
    simp only [hput, Option.map_some', Option.some.injEq, Prod.mk.injEq] at h
    obtain ⟨-, h2⟩ := h
    subst h2
    rcases put_entry_trace hput with ht | ht
    · exact ⟨[], by simp [emit, ht], Or.inl rfl⟩
    · exact ⟨[Event.free p 0], by simp [emit, ht], Or.inr rfl⟩

/-- C19 (as amended): where the wake-up stands relative to the lock in the operations
that end an acquisition.
(1) `upcall_cache_get_entry`, back from a failed `do_upcall` (rc < 0): the lock is taken,
ACQUIRING is cleared and the waiters are woken before the lock is released.
(2) `upcall_cache_downcall` on a matched entry: ACQUIRING is cleared under the lock, the
lock is released, and only then are the waiters woken (`spin_unlock` precedes `wake_up`);
no wake-up happens before that unlock.
(3) `upcall_cache_update_entry` takes and releases the lock and wakes nobody.
(4) `check_unlink_entry` on an ACQUIRING entry whose deadline has passed wakes the
waiters at once, inside the locked section of its caller. -/
theorem wake_order (ops : upcall_cache_ops) :
    (∀ (key args : Nat) (s : Susp) (c c' : upcall_cache) (p : Nat) (new : Option Nat)
        (fa : Bool) (e : upcall_cache_entry) (pc : GetPC),
      c.heap p = some e → s.rc < 0 →
      get_step ops key args s (GetPC.do_upcall p new fa) c = some (pc, c') →
      ∃ F, c'.trace = c.trace ++ [Event.lock, Event.wake p] ++ F ++ [Event.unlock] ∧
        (F = [] ∨ F = [Event.free p 0])) ∧
    (∀ (c c' : upcall_cache) (err key args p : Nat) (rc : Int),
      downcall_loop ops key args (emit c Event.lock)
        (c.uc_hashtable (UC_CACHE_HASH_INDEX key c.uc_hashsize)) = some (some p) →
      upcall_cache_downcall ops DownEnv.quiet c err key args = some (rc, c') →
      ∃ D F, c'.trace = c.trace ++ D ++ [Event.unlock, Event.wake p] ++ F ∧
        (∀ q, Event.wake q ∉ D) ∧ (F = [] ∨ F = [Event.free p 0])) ∧
    (∀ (c c' : upcall_cache) (entry : Nat) (expire : Int) (state : Nat),
      upcall_cache_update_entry c entry expire state = some c' →
      c'.trace = c.trace ++ [Event.lock, Event.unlock]) ∧
    (∀ (c : upcall_cache) (p : Nat) (e : upcall_cache_entry),
      c.heap p = some e → keep_entry c.now e = false → UC_CACHE_IS_ACQUIRING e = true →
      ∃ c' F, check_unlink_entry c p = some (true, c') ∧
        c'.trace = c.trace ++ [Event.wake p] ++ F ∧ (F = [] ∨ F = [Event.free p 0])) := by
  refine ⟨?_, ?_, ?_, ?_⟩
  · intro key args s c c' p new fa e pc hp hneg h
    have hp' : (emit c Event.lock).heap p = some e := hp
    simp only [get_step, get_after_upcall, hp', hneg, if_true] at h
    let e1 : upcall_cache_entry := UC_CACHE_SET_INVALID (UC_CACHE_CLEAR_ACQUIRING
      { e with ue_acquire_expire := (emit c Event.lock).now +
        (emit c Event.lock).uc_acquire_expire })
    let c2 := emit (store (emit c Event.lock) p e1) (Event.wake p)
    have hp2 : c2.heap p = some e1 := by simp [c2, emit, store]
    have hinv : UC_CACHE_IS_INVALID e1 = true := by simp [e1]
    have hacq : UC_CACHE_IS_ACQUIRING e1 = false := by simp [e1]
    have htr2 : c2.trace = c.trace ++ [Event.lock, Event.wake p] := by simp [c2, emit, store]
    have hfin : ∀ x, (put_entry c2 p).map
        (fun c3 => (x, emit c3 Event.unlock)) = some (pc, c') →
        ∃ F, c'.trace = c.trace ++ [Event.lock, Event.wake p] ++ F ++ [Event.unlock] ∧
          (F = [] ∨ F = [Event.free p 0]) := by
      intro x hx
      cases hput : put_entry c2 p with
      | none => simp [hput] at hx
      | some c3 =>
        simp only [hput, Option.map_some', Option.some.injEq, Prod.mk.injEq] at hx
        obtain ⟨-, hx2⟩ := hx
        subst hx2
        rcases put_entry_trace hput with ht | ht
        · exact ⟨[], by simp [emit, ht, htr2], Or.inl rfl⟩
        · exact ⟨[Event.free p 0], by simp [emit, ht, htr2], Or.inr rfl⟩
    split at h
    · exact hfin _ h
    · have h' : get_acquiring c2 p new fa = some (pc, c') := h
      simp only [get_acquiring, hp2, hacq] at h'
      obtain ⟨F, hF, hF2⟩ := get_tail_invalid_trace hp2 hinv h'
      exact ⟨F, by rw [hF, htr2], hF2⟩
  · intro c c' err key args p rc hfound h
    simp only [upcall_cache_downcall] at h
    cases hs : downcall_start ops c err key args with
    | none => simp [hs] at h
    | some x =>
      obtain ⟨pc, c2⟩ := x
      simp only [hs] at h
      obtain ⟨htr, hpc⟩ := downcall_start_trace hfound hs
      rcases hpc with ⟨rc0, rfl⟩ | rfl
      · simp only [downcall_run, resume, DownEnv.quiet, id] at h
        obtain ⟨-, F, hF, hF2⟩ := downcall_finish_trace h
        refine ⟨[Event.lock], F, ?_, by simp, hF2⟩
        rw [hF]
        simp [htr]
      · simp only [downcall_run, resume, DownEnv.quiet, id] at h
        cases hpar : downcall_parse ops { c2 with trace := c2.trace } p args with
        | none => simp [hpar] at h
        | some y =>
          obtain ⟨pc3, c3⟩ := y
          obtain ⟨rc3, D, hpc3, htr3, hD⟩ := downcall_parse_trace hpar
          subst hpc3
          simp only [hpar] at h
          obtain ⟨-, F, hF, hF2⟩ := downcall_finish_trace h
          refine ⟨[Event.lock, Event.unlock] ++ D, F, ?_, ?_, hF2⟩
          · rw [hF]
            simp [htr3, htr]
          · intro q hq
            simp only [List.mem_append, List.mem_cons, List.mem_singleton] at hq
            rcases hq with (hq | hq | hq) | hq
            · cases hq
            · cases hq
            · simp at hq
            · exact hD q hq
  · intro c c' entry expire state h
    unfold upcall_cache_update_entry at h
    cases hp : (emit c Event.lock).heap entry with
    | none => simp [hp] at h
    | some e =>
      simp only [hp, Option.some.injEq] at h
      subst h
      simp [emit, store]
  · intro c p e hp hk ha
    rw [check_unlink_entry_eq hp, hk]
    have ha' : e.ue_flags.testBit 1 = true := by simpa using ha
    by_cases hr : e.ue_refcount = 0
    · simp [hr, ha', free_entry, list_del, store, emit]
    · simp [hr, ha', free_entry, list_del, store, emit]


/-- Witness for C19 (amended): the downcall that completes the demo acquisition wakes the
waiters of entry 100 after its last unlock. -/
theorem wake_order_witness :
    ∃ c' D F, upcall_cache_downcall demo_ops DownEnv.quiet (demo_cache_with demo_acquiring)
        0 42 0 = some (0, c') ∧
      c'.trace = (demo_cache_with demo_acquiring).trace ++ D ++
        [Event.unlock, Event.wake 100] ++ F ∧ (∀ q, Event.wake q ∉ D) := by
  obtain ⟨c', h1⟩ : ∃ c', upcall_cache_downcall demo_ops DownEnv.quiet
      (demo_cache_with demo_acquiring) 0 42 0 = some (0, c') := ⟨_, rfl⟩
  obtain ⟨D, F, h2, h3, -⟩ :=
    (wake_order demo_ops).2.1 (demo_cache_with demo_acquiring) c' 0 42 0 100 0 rfl h1
  exact ⟨c', D, F, h1, h2, h3⟩

/-- Counterexample to C19 as stated.  (1) The downcall that completes the acquisition of
the demo entry clears ACQUIRING in its second locked section and wakes the waiters of
entry 100 only after the lock has been released: the trace ends `unlock, wake 100`.
(2) `upcall_cache_update_entry` with `state = 0` takes the same entry out of ACQUIRING
and wakes nobody. -/
theorem wake_after_unlock :
    (upcall_cache_downcall demo_ops DownEnv.quiet (demo_cache_with demo_acquiring) 0 42 0).map
        (fun r => (r.2.trace, (r.2.heap 100).map UC_CACHE_IS_ACQUIRING)) =
      some ([Event.lock, Event.unlock, Event.lock, Event.unlock, Event.wake 100], some false) ∧
    (upcall_cache_update_entry (demo_cache_with demo_acquiring) 100 2000 0).map
        (fun c => (c.trace, (c.heap 100).map UC_CACHE_IS_ACQUIRING)) =
      some ([Event.lock, Event.unlock], some false) := by
  constructor <;> rfl

/-! ## What upcall_cache_get_entry returns -/

@[simp] theorem expire_entry_refcount (e : upcall_cache_entry) :
    (expire_entry e).ue_refcount = e.ue_refcount := by
  unfold expire_entry
  split_ifs <;> simp

theorem check_unlink_entry_nonneg {c c1 : upcall_cache} {q : Nat} {r : Bool}
    (hnn : RefsNonneg c) (h : check_unlink_entry c q = some (r, c1)) : RefsNonneg c1 := by
  cases hq : c.heap q with
  | none => simp [check_unlink_entry, hq] at h
  | some e =>
    cases hk : keep_entry c.now e with
    | true =>
      rw [check_unlink_entry_keep hq hk] at h
      cases h
      exact hnn
    | false =>
      obtain ⟨c', h1, -, hoth, -, -, -, -, hz, hnz⟩ := check_unlink_entry_evict hq hk
      rw [h1] at h
      cases h
      intro q' e' he'
      by_cases hqq : q' = q
      · subst hqq
        by_cases hr : e.ue_refcount = 0
        · rw [(hz hr).1] at he'
          cases he'
        · rw [(hnz hr).1] at he'
          cases he'
          rw [expire_entry_refcount]
          exact hnn _ _ hq
      · rw [hoth q' hqq] at he'
        exact hnn _ _ he'

theorem find_loop_induct {ops : upcall_cache_ops} {key args : Nat} (P : upcall_cache → Prop)
    (hP : ∀ c q r c1, P c → check_unlink_entry c q = some (r, c1) → P c1) :
    ∀ (l : List Nat) (c c1 : upcall_cache) (res : Option Nat), P c →
      find_loop ops key args l c = some (res, c1) → P c1 := by
  intro l
  induction l with
  | nil =>
    intro c c1 res hc h
    simp only [find_loop, Option.some.injEq, Prod.mk.injEq] at h
    rw [← h.2]; exact hc
  | cons q rest ih =>
    intro c c1 res hc h
    simp only [find_loop] at h
    cases hcu : check_unlink_entry c q with
    | none => simp [hcu] at h
    | some x =>
      obtain ⟨r, c2⟩ := x
      have hc2 := hP c q r c2 hc hcu
      cases r with
      | true =>
        simp only [hcu] at h
        exact ih c2 c1 res hc2 h
      | false =>
        simp only [hcu] at h
        cases hq : c2.heap q with
        | none => simp [hq] at h
        | some e =>
          simp only [hq] at h
          split at h
          · simp only [Option.some.injEq, Prod.mk.injEq] at h
            rw [← h.2]; exact hc2
          · exact ih c2 c1 res hc2 h

theorem find_loop_found_alive {ops : upcall_cache_ops} {key args : Nat} :
    ∀ (l : List Nat) (c c1 : upcall_cache) (p : Nat),
      find_loop ops key args l c = some (some p, c1) → ∃ e, c1.heap p = some e := by
  intro l
  induction l with
  | nil => intro c c1 p h; simp [find_loop] at h
  | cons q rest ih =>
    intro c c1 p h
    simp only [find_loop] at h
    cases hcu : check_unlink_entry c q with
    | none => simp [hcu] at h
    | some x =>
      obtain ⟨r, c2⟩ := x
      cases r with
      | true =>
        simp only [hcu] at h
        exact ih c2 c1 p h
      | false =>
        simp only [hcu] at h
        cases hq : c2.heap q with
        | none => simp [hq] at h
        | some e =>
          simp only [hq] at h
          split at h
          · simp only [Option.some.injEq, Prod.mk.injEq] at h
            obtain ⟨h1, h2⟩ := h
            cases h1
            subst h2
            exact ⟨e, hq⟩
          · exact ih c2 c1 p h


theorem get_tail_ok {c c' : upcall_cache} {q p : Nat} {new : Option Nat} {fa : Bool}
    {e : upcall_cache_entry} (h : get_tail c q new fa = some (GetPC.ret (Except.ok p), c'))
    (hq : c.heap q = some e) (hacq : UC_CACHE_IS_ACQUIRING e = false)
    (hr : 1 ≤ e.ue_refcount) : p = q ∧ Usable (new = some p) c' p := by
  unfold get_tail at h
  simp only [hq] at h
  split at h
  · cases hput : put_entry c q with
    | none => simp [hput] at h
    | some c1 => simp [hput] at h
  · rename_i hinv
    have hinv' : UC_CACHE_IS_INVALID e = false := by simpa using hinv
    cases hk : keep_entry c.now e with
    | true =>
      rw [check_unlink_entry_keep hq hk] at h
      simp only [Bool.false_and, Bool.false_eq_true, if_false, Option.some.injEq,
        Prod.mk.injEq, GetPC.ret.injEq, Except.ok.injEq] at h
      obtain ⟨h1, h2⟩ := h
      subst h1 h2
      refine ⟨rfl, e, hq, hacq, hinv', hr, Or.inl ?_⟩
      simp only [keep_entry, hacq, Bool.false_and, Bool.or_false, Bool.and_eq_true,
        decide_eq_true_eq] at hk
      exact hk
    | false =>
      obtain ⟨c1, h1, hsf, -, -, -, -, -, -, hnz⟩ := check_unlink_entry_evict hq hk
      rw [h1] at h
      have hr0 : e.ue_refcount ≠ 0 := by omega
      obtain ⟨hheap, -⟩ := hnz hr0
      simp only [Bool.true_and] at h
      split at h
      · cases hput : put_entry c1 q with
        | none => simp [hput] at h
        | some c2 => simp [hput] at h
      · rename_i hcond
        simp only [Option.some.injEq, Prod.mk.injEq, GetPC.ret.injEq, Except.ok.injEq] at h
        obtain ⟨h1, h2⟩ := h
        subst h1 h2
        have hnew : new = some q := by simpa using hcond
        have hacq' : e.ue_flags.testBit 1 = false := by simpa using hacq
        have hinv'' : e.ue_flags.testBit 2 = false := by simpa using hinv'
        have hee : expire_entry e = UC_CACHE_SET_EXPIRED e := by
          simp [expire_entry, hacq', hinv'']
        refine ⟨rfl, UC_CACHE_SET_EXPIRED e, by rw [← hee]; exact hheap, by simpa using hacq',
          by simpa using hinv'', by simpa using hr, Or.inr ⟨by simp, hnew⟩⟩

theorem get_acquiring_ok {c c' : upcall_cache} {q p : Nat} {new : Option Nat} {fa : Bool}
    {e : upcall_cache_entry}
    (h : get_acquiring c q new fa = some (GetPC.ret (Except.ok p), c'))
    (hq : c.heap q = some e) (hr : 1 ≤ e.ue_refcount) :
    p = q ∧ Usable (new = some p) c' p := by
  unfold get_acquiring at h
  simp only [hq] at h
  split at h
  · simp at h
  · rename_i hacq
    exact get_tail_ok h hq (by simpa using hacq) hr

theorem get_hold_ok {c c' : upcall_cache} {q p : Nat} {new : Option Nat} {fa : Bool}
    (h : get_hold c q new fa = some (GetPC.ret (Except.ok p), c')) (hnn : RefsNonneg c) :
    p = q ∧ Usable (new = some p) c' p := by
  unfold get_hold get_entry at h
  cases hq : c.heap q with
  | none => simp [hq] at h
  | some e =>
    simp only [hq, store, Function.update_same] at h
    split at h
    · simp at h
    · have := hnn q e hq
      exact get_acquiring_ok (e := { e with ue_refcount := e.ue_refcount + 1 }) h
        (Function.update_same _ _ _) (by show 1 ≤ e.ue_refcount + 1; omega)


theorem Usable.mono {a b : Prop} {c : upcall_cache} {p : Nat} (hab : a → b)
    (h : Usable a c p) : Usable b c p := by
  obtain ⟨e, h1, h2, h3, h4, h5⟩ := h
  exact ⟨e, h1, h2, h3, h4, h5.imp id (fun x => ⟨x.1, hab x.2⟩)⟩

theorem refsNonneg_of_heap_eq {c c1 : upcall_cache} (h : c1.heap = c.heap)
    (hnn : RefsNonneg c) : RefsNonneg c1 := by
  intro q e he
  rw [h] at he
  exact hnn q e he

theorem find_loop_nonneg {ops : upcall_cache_ops} {key args : Nat} {l : List Nat}
    {c c1 : upcall_cache} {res : Option Nat} (hnn : RefsNonneg c)
    (h : find_loop ops key args l c = some (res, c1)) : RefsNonneg c1 :=
  find_loop_induct RefsNonneg (fun _ _ _ _ hc hcu => check_unlink_entry_nonneg hc hcu)
    l c c1 res hnn h

theorem alloc_entry_is_new (ops : upcall_cache_ops) (key args : Nat) :
    UC_CACHE_IS_NEW (alloc_entry ops key args) = true := by
  unfold alloc_entry
  cases ops.init_entry <;> simp [UC_CACHE_NEW]

theorem get_hold_new {c : upcall_cache} {q : Nat} {new : Option Nat} {fa : Bool}
    {e : upcall_cache_entry} (hq : c.heap q = some e) (hn : UC_CACHE_IS_NEW e = true) :
    ∃ c', get_hold c q new fa = some (GetPC.do_upcall q new fa, c') := by
  have hn' : e.ue_flags.testBit 0 = true := by simpa using hn
  simp [get_hold, get_entry, hq, store, hn']

theorem get_find_ok {ops : upcall_cache_ops} {c c' : upcall_cache} {key args p : Nat}
    {new : Option (Nat × upcall_cache_entry)} {fa : Bool}
    (h : get_find ops c key args new fa = some (GetPC.ret (Except.ok p), c'))
    (hnn : RefsNonneg c) (hnew : ∀ x, new = some x → UC_CACHE_IS_NEW x.2 = true) :
    Usable False c' p := by
  unfold get_find at h
  cases hfl : find_loop ops key args
      ((emit c Event.lock).uc_hashtable (UC_CACHE_HASH_INDEX key c.uc_hashsize))
      (emit c Event.lock) with
  | none => simp [hfl] at h
  | some x =>
    obtain ⟨res, c1⟩ := x
    have hnn0 : RefsNonneg (emit c Event.lock) := refsNonneg_of_heap_eq rfl hnn
    have hnn1 : RefsNonneg c1 := find_loop_nonneg hnn0 hfl
    simp only [hfl] at h
    cases res with
    | none =>
      cases new with
      | none => simp at h
      | some x =>
        obtain ⟨q, obj⟩ := x
        simp only at h
        have hq : (list_add (store c1 q obj) q (UC_CACHE_HASH_INDEX key c.uc_hashsize)).heap q =
            some obj := by simp [list_add, store]
        obtain ⟨c2, h2⟩ := @get_hold_new _ _ (some q) fa _ hq (hnew _ rfl)
        rw [h2] at h
        simp at h
    | some q =>
      cases new with
      | none =>
        simp only at h
        exact (get_hold_ok h (refsNonneg_of_heap_eq rfl hnn1)).2.mono (by simp)
      | some x =>
        simp only at h
        exact (get_hold_ok h (refsNonneg_of_heap_eq rfl hnn1)).2.mono (by simp)

theorem get_step_ok {ops : upcall_cache_ops} {key args : Nat} {s : Susp} {pc : GetPC}
    {c c' : upcall_cache} {p : Nat}
    (h : get_step ops key args s pc c = some (GetPC.ret (Except.ok p), c'))
    (hpc : ∀ r, pc ≠ GetPC.ret r) (hnn : RefsNonneg c) (hheld : HeldRef pc c) :
    Usable (CreatedBy pc p) c' p := by
  cases pc with
  | ret r => exact absurd rfl (hpc r)
  | find_again fa =>
    simp only [get_step] at h
    exact (get_find_ok h hnn (by simp)).mono False.elim
  | do_alloc fa =>
    simp only [get_step] at h
    split at h
    · refine (get_find_ok h (refsNonneg_of_heap_eq rfl hnn) ?_).mono False.elim
      intro x hx
      cases hx
      exact alloc_entry_is_new ops key args
    · simp at h
  | do_upcall q new fa =>
    simp only [get_step, get_after_upcall] at h
    cases hq : (emit c Event.lock).heap q with
    | none => simp [hq] at h
    | some e =>
      have hr : 1 ≤ e.ue_refcount := hheld e hq
      simp only [hq] at h
      split at h
      · split at h
        · cases hput : put_entry (emit (store (emit c Event.lock) q
              (UC_CACHE_SET_INVALID (UC_CACHE_CLEAR_ACQUIRING
                { e with ue_acquire_expire := (emit c Event.lock).now +
                  (emit c Event.lock).uc_acquire_expire }))) (Event.wake q)) q with
          | none => simp [hput] at h
          | some c2 => simp [hput] at h
        · obtain ⟨h1, h2⟩ := get_acquiring_ok h
            (by simp [emit, store] : _ = some (UC_CACHE_SET_INVALID (UC_CACHE_CLEAR_ACQUIRING
                { e with ue_acquire_expire := (emit c Event.lock).now +
                  (emit c Event.lock).uc_acquire_expire }))) (by simpa using hr)
          exact h2.mono (fun hn => ⟨h1.symm, hn⟩)
      · obtain ⟨h1, h2⟩ := get_acquiring_ok h
          (by simp [emit, store] : _ = some ({ e with ue_acquire_expire :=
              (emit c Event.lock).now + (emit c Event.lock).uc_acquire_expire })) (by simpa using hr)
        exact h2.mono (fun hn => ⟨h1.symm, hn⟩)
  | do_wait q new fa =>
    simp only [get_step, get_after_wait] at h
    cases hq : (emit c Event.lock).heap q with
    | none => simp [hq] at h
    | some e =>
      have hr : 1 ≤ e.ue_refcount := hheld e hq
      simp only [hq] at h
      split at h
      · cases hput : put_entry (emit c Event.lock) q with
        | none => simp [hput] at h
        | some c2 =>
          simp only [hput] at h
          split at h
          · simp at h
          · cases fa <;> simp at h
      · rename_i hacq
        obtain ⟨h1, h2⟩ := get_tail_ok h hq (by simpa using hacq) hr
        exact h2.mono (fun hn => ⟨h1.symm, hn⟩)


theorem get_run_last {ops : upcall_cache_ops} {key args : Nat} :
    ∀ (env : List Susp) (pc : GetPC) (c c' : upcall_cache) (r : Except Int Nat),
      get_run ops key args env pc c = some (r, c') → (∀ r0, pc ≠ GetPC.ret r0) →
      ∃ env1 s env2 pc1 c1, env = env1 ++ s :: env2 ∧
        get_reach ops key args env1 pc c = some (pc1, c1) ∧ (∀ r0, pc1 ≠ GetPC.ret r0) ∧
        get_step ops key args s pc1 (resume s.interfere c1) = some (GetPC.ret r, c') := by
  intro env
  induction env with
  | nil =>
    intro pc c c' r h hpc
    cases pc with
    | ret r0 => exact absurd rfl (hpc r0)
    | find_again fa => simp [get_run] at h
    | do_alloc fa => simp [get_run] at h
    | do_upcall q new fa => simp [get_run] at h
    | do_wait q new fa => simp [get_run] at h
  | cons s rest ih =>
    intro pc c c' r h hpc
    have hrun : get_run ops key args (s :: rest) pc c =
        match get_step ops key args s pc (resume s.interfere c) with
        | none => none
        | some (pc1, c1) => get_run ops key args rest pc1 c1 := by
      cases pc with
      | ret r0 => exact absurd rfl (hpc r0)
      | find_again fa => rfl
      | do_alloc fa => rfl
      | do_upcall q new fa => rfl
      | do_wait q new fa => rfl
    have hreach : ∀ env1, get_reach ops key args (s :: env1) pc c =
        match get_step ops key args s pc (resume s.interfere c) with
        | none => none
        | some (pc1, c1) => get_reach ops key args env1 pc1 c1 := by
      intro env1
      cases pc with
      | ret r0 => exact absurd rfl (hpc r0)
      | find_again fa => rfl
      | do_alloc fa => rfl
      | do_upcall q new fa => rfl
      | do_wait q new fa => rfl
    have hreach0 : get_reach ops key args [] pc c = some (pc, c) := by
      cases pc with
      | ret r0 => exact absurd rfl (hpc r0)
      | find_again fa => rfl
      | do_alloc fa => rfl
      | do_upcall q new fa => rfl
      | do_wait q new fa => rfl
    rw [hrun] at h
    cases hst : get_step ops key args s pc (resume s.interfere c) with
    | none => simp [hst] at h
    | some x =>
      obtain ⟨pc2, c2⟩ := x
      simp only [hst] at h
      by_cases hret : ∃ r2, pc2 = GetPC.ret r2
      · obtain ⟨r2, rfl⟩ := hret
        simp only [get_run_ret, Option.some.injEq, Prod.mk.injEq] at h
        obtain ⟨h1, h2⟩ := h
        subst h1 h2
        exact ⟨[], s, rest, pc, c, rfl, hreach0, hpc, hst⟩
      · have hpc2 : ∀ r0, pc2 ≠ GetPC.ret r0 := fun r0 hr => hret ⟨r0, hr⟩
        obtain ⟨env1, s1, env2, pc1, c1, he, hr1, hp1, hs1⟩ := ih pc2 c2 c' r h hpc2
        refine ⟨s :: env1, s1, env2, pc1, c1, by rw [he]; rfl, ?_, hp1, hs1⟩
        rw [hreach env1, hst]
        exact hr1

/-- C2 (as amended): whenever `upcall_cache_get_entry` returns an entry, for every
environment, the result comes out of a last locked section of the call, entered either
at the very start (`find_again`, state `c`) or after the other threads acted on the
state the call had left (`resume`).  If, when that section began, no refcount was
negative and the entry the call slept on still counted the call's reference (refcount at
least 1), then the returned entry is allocated, has refcount at least 1, is neither
ACQUIRING nor INVALID, and is either VALID and not yet expired, or else it is the entry
this very call created and it carries the EXPIRED flag (the creator's one chance). -/
theorem get_entry_returns_usable (ops : upcall_cache_ops) (env : List Susp) (c c' : upcall_cache)
    (key args p : Nat)
    (h : upcall_cache_get_entry ops env c key args = some (Except.ok p, c')) :
    ∃ s pc c1, (∀ r, pc ≠ GetPC.ret r) ∧
      get_step ops key args s pc c1 = some (GetPC.ret (Except.ok p), c') ∧
      ((pc = GetPC.find_again false ∧ c1 = c) ∨
        ∃ env1 env2 c0, env = env1 ++ s :: env2 ∧
          get_entry_reach ops env1 c key args = some (pc, c0) ∧ c1 = resume s.interfere c0) ∧
      (RefsNonneg c1 → HeldRef pc c1 → Usable (CreatedBy pc p) c' p) := by
  unfold upcall_cache_get_entry at h
  cases hf : get_find ops c key args none false with
  | none => simp [hf] at h
  | some x =>
    obtain ⟨pc0, c0⟩ := x
    simp only [hf] at h
    by_cases hret : ∃ r, pc0 = GetPC.ret r
    · obtain ⟨r, rfl⟩ := hret
      simp only [get_run_ret, Option.some.injEq, Prod.mk.injEq] at h
      obtain ⟨h1, h2⟩ := h
      subst h1 h2
      have hst : get_step ops key args Susp.quiet (GetPC.find_again false) c =
          some (GetPC.ret (Except.ok p), c0) := hf
      exact ⟨Susp.quiet, GetPC.find_again false, c, by simp, hst, Or.inl ⟨rfl, rfl⟩,
        fun hnn hheld => get_step_ok hst (by simp) hnn hheld⟩
    · have hpc0 : ∀ r0, pc0 ≠ GetPC.ret r0 := fun r0 hr => hret ⟨r0, hr⟩
      obtain ⟨env1, s, env2, pc1, c1, he, hr1, hp1, hs1⟩ := get_run_last env pc0 c0 c' _ h hpc0
      refine ⟨s, pc1, resume s.interfere c1, hp1, hs1, Or.inr ⟨env1, env2, c1, he, ?_, rfl⟩,
        fun hnn hheld => get_step_ok hs1 hp1 hnn hheld⟩
      simp only [get_entry_reach, hf]
      exact hr1


/-- Witness for C2 (amended): the late creator of the demo run gets its entry back from
the step that follows its sleep. -/
theorem get_entry_returns_usable_witness :
    ∃ c' s pc c1, upcall_cache_get_entry demo_ops demo_late_env demo_empty 42 0 =
        some (Except.ok 100, c') ∧ (∀ r, pc ≠ GetPC.ret r) ∧
      get_step demo_ops 42 0 s pc c1 = some (GetPC.ret (Except.ok 100), c') := by
  obtain ⟨s, pc, c1, h1, h2, -⟩ :=
    get_entry_returns_usable demo_ops demo_late_env demo_empty _ 42 0 100 rfl
  exact ⟨_, s, pc, c1, rfl, h1, h2⟩

/-- Counterexample to C2 as stated: a thread looks up key 42 in the empty demo cache,
creates the entry at address 100 and sleeps; the downcall arrives (expiry 1000 + 10) and
100 seconds pass before the thread runs again.  The call returns the entry it created,
which is not VALID: it carries the EXPIRED flag. -/
theorem creator_gets_expired_entry :
    (upcall_cache_get_entry demo_ops demo_late_env demo_empty 42 0).map
        (fun r => (r.1, (r.2.heap 100).map
          (fun e => (UC_CACHE_IS_VALID e, UC_CACHE_IS_EXPIRED e, e.ue_refcount)))) =
      some (Except.ok 100, some (false, true, 1)) := by
  rfl

/-! ## Steps on allocated memory -/

theorem Evolves.evolves_refl (s : Bool) (e : upcall_cache_entry) : Evolves s e e :=
  ⟨id, Or.inl, fun _ h => h⟩

theorem Evolves.evolves_trans {s : Bool} {a b c : upcall_cache_entry} (h1 : Evolves s a b)
    (h2 : Evolves s b c) : Evolves s a c := by
  refine ⟨fun h => h1.1 (h2.1 h), fun h => ?_, fun hs h => h2.2.2 hs (h1.2.2 hs h)⟩
  rcases h2.2.1 h with h | h
  · exact h1.2.1 h
  · exact Or.inr (h1.1 h)

theorem Evolves.evolves_weaken {s : Bool} {a b : upcall_cache_entry} (h : Evolves true a b) :
    Evolves s a b :=
  ⟨h.1, h.2.1, fun _ => h.2.2 rfl⟩

/-- A change that leaves the flags alone. -/
theorem Evolves.of_flags {s : Bool} {a b : upcall_cache_entry} (h : b.ue_flags = a.ue_flags) :
    Evolves s a b := by
  unfold Evolves SettledBad UC_CACHE_IS_NEW UC_CACHE_IS_ACQUIRING UC_CACHE_IS_INVALID
    UC_CACHE_IS_EXPIRED
  rw [h]
  exact ⟨id, Or.inl, fun _ h => h⟩

/-- Setting EXPIRED or INVALID, and clearing NEW or ACQUIRING. -/
theorem Evolves.of_bits {s : Bool} {a b : upcall_cache_entry}
    (h0 : b.ue_flags.testBit 0 = true → a.ue_flags.testBit 0 = true)
    (h1 : b.ue_flags.testBit 1 = true → a.ue_flags.testBit 1 = true ∨ a.ue_flags.testBit 0 = true)
    (h2 : a.ue_flags.testBit 2 = true → b.ue_flags.testBit 2 = true)
    (h3 : a.ue_flags.testBit 3 = true → b.ue_flags.testBit 3 = true) :
    Evolves s a b := by
  refine ⟨by simpa using h0, by simpa using h1, fun _ h => ?_⟩
  rcases h with h | h
  · exact Or.inl (by simpa using h2 (by simpa using h))
  · exact Or.inr (by simpa using h3 (by simpa using h))

theorem Safe.safe_refl (s : Bool) (c : upcall_cache) : Safe s c c :=
  ⟨rfl, fun _ e h => Or.inr ⟨e, h, Evolves.evolves_refl s e⟩, fun _ h => h, ⟨[], by simp, by simp⟩,
    ⟨[], by simp, by simp, by simp, by simp⟩⟩

theorem Safe.back {s : Bool} {a b : upcall_cache} (h : Safe s a b) {p : Nat}
    {e1 : upcall_cache_entry} (hp : b.heap p = some e1) :
    ∃ e, a.heap p = some e ∧ Evolves s e e1 := by
  cases ha : a.heap p with
  | none => rw [h.2.2.1 p ha] at hp; cases hp
  | some e =>
    rcases h.2.1 p e ha with h1 | ⟨e2, h1, hev⟩
    · rw [h1] at hp; cases hp
    · rw [h1] at hp; cases hp; exact ⟨e, rfl, hev⟩

theorem Safe.safe_trans {s : Bool} {a b c : upcall_cache} (h1 : Safe s a b) (h2 : Safe s b c) :
    Safe s a c := by
  have hback := fun p e1 (hp : b.heap p = some e1) => Safe.back h1 hp
  obtain ⟨hb1, hh1, hd1, ⟨fs1, hf1, hz1⟩, ⟨us1, hu1, hn1, hnew1, hold1⟩⟩ := h1
  obtain ⟨hb2, hh2, hd2, ⟨fs2, hf2, hz2⟩, ⟨us2, hu2, hn2, hnew2, hold2⟩⟩ := h2
  refine ⟨hb2.trans hb1, ?_, fun p h => hd2 p (hd1 p h), ⟨fs1 ++ fs2, ?_, ?_⟩,
    ⟨us1 ++ us2, ?_, ?_, ?_, ?_⟩⟩
  · intro p e hp
    rcases hh1 p e hp with h | ⟨e1, h, hev⟩
    · exact Or.inl (hd2 p h)
    · rcases hh2 p e1 h with h' | ⟨e2, h', hev'⟩
      · exact Or.inl h'
      · exact Or.inr ⟨e2, h', hev.evolves_trans hev'⟩
  · rw [hf2, hf1, List.append_assoc]
  · intro x hx
    rcases List.mem_append.1 hx with h | h
    · exact hz1 x h
    · exact hz2 x h
  · rw [hu2, hu1, List.append_assoc]
  · rw [List.nodup_append]
    refine ⟨hn1, hn2, ?_⟩
    intro p hp1 hp2
    obtain ⟨e, he, hnew⟩ := hnew2 p hp2
    rw [hold1 p hp1 e he] at hnew
    cases hnew
  · intro p hp
    rcases List.mem_append.1 hp with h | h
    · exact hnew1 p h
    · obtain ⟨e1, he1, hn⟩ := hnew2 p h
      obtain ⟨e, he, hev⟩ := hback p e1 he1
      exact ⟨e, he, hev.1 hn⟩
  · intro p hp e2 he2
    rcases List.mem_append.1 hp with h | h
    · obtain ⟨e1, he1, hev⟩ := Safe.back ⟨hb2, hh2, hd2, ⟨fs2, hf2, hz2⟩, ⟨us2, hu2, hn2, hnew2, hold2⟩⟩ he2
      have := hold1 p h e1 he1
      cases hh : UC_CACHE_IS_NEW e2 with
      | false => rfl
      | true => rw [hev.1 hh] at this; cases this
    · exact hold2 p h e2 he2

theorem Safe.safe_weaken {s : Bool} {a b : upcall_cache} (h : Safe true a b) : Safe s a b := by
  obtain ⟨hb, hh, hd, hf, hu⟩ := h
  refine ⟨hb, fun p e hp => ?_, hd, hf, hu⟩
  rcases hh p e hp with h | ⟨e1, h, hev⟩
  · exact Or.inl h
  · exact Or.inr ⟨e1, h, hev.evolves_weaken⟩

/-- A step that touches neither memory, nor the allocator, nor the frees and upcalls of
the trace. -/
theorem Safe.of_same {s : Bool} {c c1 : upcall_cache} (hb : c1.brk = c.brk)
    (hh : c1.heap = c.heap) (hf : frees c1.trace = frees c.trace)
    (hu : upcalls c1.trace = upcalls c.trace) : Safe s c c1 :=
  ⟨hb, fun p e h => Or.inr ⟨e, by rw [hh, h], Evolves.evolves_refl s e⟩, fun p h => by rw [hh, h],
    ⟨[], by simp [hf], by simp⟩, ⟨[], by simp [hu], by simp, by simp, by simp⟩⟩

theorem Safe.of_store {s : Bool} {c : upcall_cache} {p : Nat} {e e1 : upcall_cache_entry}
    (h : c.heap p = some e) (hev : Evolves s e e1) : Safe s c (store c p e1) := by
  refine ⟨rfl, fun q e2 hq => Or.inr ?_, fun q hq => ?_, ⟨[], by simp [store], by simp⟩,
    ⟨[], by simp [store], by simp, by simp, by simp⟩⟩
  · by_cases hqp : q = p
    · subst hqp
      rw [h] at hq; cases hq
      exact ⟨e1, by simp [store], hev⟩
    · exact ⟨e2, by simp [store, Function.update, hqp, hq], Evolves.evolves_refl s e2⟩
  · by_cases hqp : q = p
    · subst hqp; rw [h] at hq; cases hq
    · simp [store, Function.update, hqp, hq]

theorem Safe.of_free {s : Bool} {c c1 : upcall_cache} {p : Nat} {e : upcall_cache_entry}
    (h : c.heap p = some e) (h0 : e.ue_refcount = 0) (hf : free_entry c p = some c1) :
    Safe s c c1 := by
  simp only [free_entry, h, Option.some.injEq] at hf
  subst hf
  refine ⟨rfl, fun q e2 hq => ?_, fun q hq => ?_, ⟨[(p, 0)], by simp [frees, h0], by simp⟩,
    ⟨[], by simp [upcalls], by simp, by simp, by simp⟩⟩
  · by_cases hqp : q = p
    · subst hqp; exact Or.inl (by simp)
    · exact Or.inr ⟨e2, by simp [Function.update, hqp, hq], Evolves.evolves_refl s e2⟩
  · by_cases hqp : q = p
    · subst hqp; simp
    · simp [Function.update, hqp, hq]

theorem Safe.of_emit {s : Bool} (c : upcall_cache) (ev : Event)
    (hf : frees [ev] = []) (hu : upcalls [ev] = []) : Safe s c (emit c ev) :=
  Safe.of_same rfl rfl (by simp [emit, hf]) (by simp [emit, hu])

theorem Safe.of_list_del {s : Bool} (c : upcall_cache) (p : Nat) : Safe s c (list_del c p) :=
  Safe.of_same rfl rfl rfl rfl

theorem Safe.of_list_move {s : Bool} (c : upcall_cache) (p head : Nat) :
    Safe s c (list_move c p head) :=
  Safe.of_same rfl rfl rfl rfl

theorem Safe.of_get_entry {s : Bool} {c c1 : upcall_cache} {p : Nat}
    (h : get_entry c p = some c1) : Safe s c c1 := by
  cases hp : c.heap p with
  | none => simp [get_entry, hp] at h
  | some e =>
    simp only [get_entry, hp, Option.some.injEq] at h
    subst h
    exact Safe.of_store hp (Evolves.of_flags rfl)

theorem Safe.of_put_entry {s : Bool} {c c1 : upcall_cache} {p : Nat}
    (h : put_entry c p = some c1) : Safe s c c1 := by
  cases hp : c.heap p with
  | none => simp [put_entry, hp] at h
  | some e =>
    have h1 : Safe s c (store c p { e with ue_refcount := e.ue_refcount - 1 }) :=
      Safe.of_store hp (Evolves.of_flags rfl)
    simp only [put_entry, hp] at h
    split at h
    · rename_i hc
      simp only [Bool.and_eq_true, beq_iff_eq] at hc
      exact h1.safe_trans (Safe.of_free (e := { e with ue_refcount := e.ue_refcount - 1 })
        (by simp [store]) hc.1 h)
    · cases h
      exact h1

theorem Safe.of_check_unlink_entry {s : Bool} {c c1 : upcall_cache} {p : Nat} {r : Bool}
    (h : check_unlink_entry c p = some (r, c1)) : Safe s c c1 := by
  cases hp : c.heap p with
  | none => simp [check_unlink_entry, hp] at h
  | some e =>
    have hexp : Evolves s e (UC_CACHE_SET_EXPIRED e) :=
      Evolves.of_bits (by simp [UC_CACHE_EXPIRED]) (by simp; tauto) (by simp) (by simp)
    have hmid : ∃ c2, Safe s c c2 ∧ (∃ e2, c2.heap p = some e2 ∧ e2.ue_refcount = e.ue_refcount) ∧
        (if UC_CACHE_IS_ACQUIRING e then emit (store c p (UC_CACHE_SET_EXPIRED e)) (Event.wake p)
          else if !UC_CACHE_IS_INVALID e then store c p (UC_CACHE_SET_EXPIRED e) else c) = c2 := by
      split
      · exact ⟨_, (Safe.of_store hp hexp).safe_trans (Safe.of_emit _ (Event.wake p) rfl rfl),
          ⟨UC_CACHE_SET_EXPIRED e, by simp [emit, store], by simp⟩, rfl⟩
      · split
        · exact ⟨_, Safe.of_store hp hexp, ⟨UC_CACHE_SET_EXPIRED e, by simp [store], by simp⟩,
            rfl⟩
        · exact ⟨_, Safe.safe_refl s c, ⟨e, hp, rfl⟩, rfl⟩
    obtain ⟨c2, hs2, ⟨e2, he2, hr2⟩, hc2⟩ := hmid
    rw [check_unlink_entry_eq hp, hc2] at h
    split at h
    · cases h; exact Safe.safe_refl s c
    · split at h
      · rename_i hz
        simp only [beq_iff_eq] at hz
        cases hfe : free_entry (list_del c2 p) p with
        | none => simp [hfe] at h
        | some c3 =>
          simp only [hfe, Option.map_some', Option.some.injEq, Prod.mk.injEq] at h
          rw [← h.2]
          exact hs2.safe_trans ((Safe.of_list_del c2 p).safe_trans
            (Safe.of_free (e := e2) (by simpa [list_del] using he2) (hr2.trans hz) hfe))
      · simp only [Option.some.injEq, Prod.mk.injEq] at h
        rw [← h.2]
        exact hs2.safe_trans (Safe.of_list_del c2 p)

theorem Safe.of_find_loop {s : Bool} {ops : upcall_cache_ops} {key args : Nat} {l : List Nat}
    {c c1 : upcall_cache} {res : Option Nat}
    (h : find_loop ops key args l c = some (res, c1)) : Safe s c c1 :=
  find_loop_induct (fun x => Safe s c x)
    (fun _ _ _ _ hx hcu => hx.safe_trans (Safe.of_check_unlink_entry hcu)) l c c1 res
    (Safe.safe_refl s c) h

theorem Evolves.set_expired (s : Bool) (e : upcall_cache_entry) :
    Evolves s e (UC_CACHE_SET_EXPIRED e) := by
  unfold Evolves SettledBad
  simp [-Nat.testBit_zero]
  tauto

theorem Evolves.set_invalid (s : Bool) (e : upcall_cache_entry) :
    Evolves s e (UC_CACHE_SET_INVALID e) := by
  unfold Evolves SettledBad
  simp [-Nat.testBit_zero]
  tauto

theorem Evolves.clear_acquiring (s : Bool) (e : upcall_cache_entry) :
    Evolves s e (UC_CACHE_CLEAR_ACQUIRING e) := by
  unfold Evolves SettledBad
  simp [-Nat.testBit_zero]

theorem Evolves.start (s : Bool) {e : upcall_cache_entry} (h : UC_CACHE_IS_NEW e = true) :
    Evolves s e (UC_CACHE_CLEAR_NEW (UC_CACHE_SET_ACQUIRING e)) := by
  have h0 : e.ue_flags.testBit 0 = true := by simpa [-Nat.testBit_zero] using h
  unfold Evolves SettledBad
  simp [-Nat.testBit_zero, h0]

theorem start_not_new (e : upcall_cache_entry) :
    UC_CACHE_IS_NEW (UC_CACHE_CLEAR_NEW (UC_CACHE_SET_ACQUIRING e)) = false := by
  simp [-Nat.testBit_zero]

theorem start_acquiring (e : upcall_cache_entry) :
    UC_CACHE_IS_ACQUIRING (UC_CACHE_CLEAR_NEW (UC_CACHE_SET_ACQUIRING e)) = true := by
  simp [-Nat.testBit_zero]

theorem Safe.of_get_tail {s : Bool} {c c1 : upcall_cache} {entry : Nat} {new : Option Nat}
    {fa : Bool} {pc : GetPC} (h : get_tail c entry new fa = some (pc, c1)) : Safe s c c1 := by
  cases hp : c.heap entry with
  | none => simp [get_tail, hp] at h
  | some e =>
    simp only [get_tail, hp] at h
    split at h
    · cases hpe : put_entry c entry with
      | none => simp [hpe] at h
      | some c2 =>
        simp only [hpe, Option.map_some', Option.some.injEq, Prod.mk.injEq] at h
        rw [← h.2]
        exact (Safe.of_put_entry hpe).safe_trans (Safe.of_emit _ Event.unlock rfl rfl)
    · cases hcu : check_unlink_entry c entry with
      | none => simp [hcu] at h
      | some x =>
        obtain ⟨r, c2⟩ := x
        simp only [hcu] at h
        have h2 : Safe s c c2 := Safe.of_check_unlink_entry hcu
        split at h
        · cases hpe : put_entry c2 entry with
          | none => simp [hpe] at h
          | some c3 =>
            simp only [hpe, Option.map_some', Option.some.injEq, Prod.mk.injEq] at h
            rw [← h.2]
            exact h2.safe_trans ((Safe.of_put_entry hpe).safe_trans (Safe.of_emit _ Event.unlock rfl rfl))
        · simp only [Option.some.injEq, Prod.mk.injEq] at h
          rw [← h.2]
          exact h2.safe_trans (Safe.of_emit _ Event.unlock rfl rfl)

theorem Safe.of_get_acquiring {s : Bool} {c c1 : upcall_cache} {entry : Nat} {new : Option Nat}
    {fa : Bool} {pc : GetPC} (h : get_acquiring c entry new fa = some (pc, c1)) :
    Safe s c c1 := by
  cases hp : c.heap entry with
  | none => simp [get_acquiring, hp] at h
  | some e =>
    simp only [get_acquiring, hp] at h
    split at h
    · simp only [Option.some.injEq, Prod.mk.injEq] at h
      rw [← h.2]
      exact Safe.of_emit _ Event.unlock rfl rfl
    · exact Safe.of_get_tail h

theorem Safe.of_get_after_wait {s : Bool} {c c1 : upcall_cache} {entry : Nat} {new : Option Nat}
    {fa : Bool} {left : Int} {pc : GetPC}
    (h : get_after_wait c entry new fa left = some (pc, c1)) : Safe s c c1 := by
  have h0 : Safe s c (emit c Event.lock) := Safe.of_emit _ Event.lock rfl rfl
  cases hp : (emit c Event.lock).heap entry with
  | none => simp [get_after_wait, hp] at h
  | some e =>
    simp only [get_after_wait, hp] at h
    split at h
    · cases hpe : put_entry (emit c Event.lock) entry with
      | none => simp [hpe] at h
      | some c2 =>
        simp only [hpe] at h
        have h2 : Safe s c (emit c2 Event.unlock) :=
          h0.safe_trans ((Safe.of_put_entry hpe).safe_trans (Safe.of_emit _ Event.unlock rfl rfl))
        have hc1 : c1 = emit c2 Event.unlock := by
          split_ifs at h <;> simp only [Option.some.injEq, Prod.mk.injEq] at h <;>
            exact h.2.symm
        rw [hc1]
        exact h2
    · exact h0.safe_trans (Safe.of_get_tail h)

theorem Safe.of_get_after_upcall {s : Bool} {c c1 : upcall_cache} {entry : Nat}
    {new : Option Nat} {fa : Bool} {rc : Int} {pc : GetPC}
    (h : get_after_upcall c entry new fa rc = some (pc, c1)) : Safe s c c1 := by
  have h0 : Safe s c (emit c Event.lock) := Safe.of_emit _ Event.lock rfl rfl
  cases hp : (emit c Event.lock).heap entry with
  | none => simp [get_after_upcall, hp] at h
  | some e =>
    simp only [get_after_upcall, hp] at h
    split at h
    · have hev : Evolves s e (UC_CACHE_SET_INVALID (UC_CACHE_CLEAR_ACQUIRING
          { e with ue_acquire_expire := (emit c Event.lock).now +
            (emit c Event.lock).uc_acquire_expire })) :=
        (Evolves.of_flags rfl).evolves_trans
          ((Evolves.clear_acquiring s _).evolves_trans (Evolves.set_invalid s _))
      have h1 := (Safe.of_store hp hev).safe_trans (Safe.of_emit _ (Event.wake entry) rfl rfl)
      split at h
      · cases hpe : put_entry (emit (store (emit c Event.lock) entry (UC_CACHE_SET_INVALID
            (UC_CACHE_CLEAR_ACQUIRING { e with ue_acquire_expire := (emit c Event.lock).now +
              (emit c Event.lock).uc_acquire_expire }))) (Event.wake entry)) entry with
        | none => simp [hpe] at h
        | some c2 =>
          simp only [hpe, Option.map_some', Option.some.injEq, Prod.mk.injEq] at h
          rw [← h.2]
          exact h0.safe_trans (h1.safe_trans ((Safe.of_put_entry hpe).safe_trans
            (Safe.of_emit _ Event.unlock rfl rfl)))
      · exact h0.safe_trans (h1.safe_trans (Safe.of_get_acquiring h))
    · have hev : Evolves s e { e with ue_acquire_expire := (emit c Event.lock).now +
          (emit c Event.lock).uc_acquire_expire } := Evolves.of_flags rfl
      exact h0.safe_trans ((Safe.of_store hp hev).safe_trans (Safe.of_get_acquiring h))

/-- The start of an acquisition: the entry at `p` is NEW, it is rewritten without the NEW
flag, the lock is dropped and `do_upcall` is called on it. -/
theorem Safe.of_upcall {s : Bool} {c : upcall_cache} {p : Nat} {e e1 : upcall_cache_entry}
    (h : c.heap p = some e) (hn : UC_CACHE_IS_NEW e = true) (hev : Evolves s e e1)
    (hn1 : UC_CACHE_IS_NEW e1 = false) :
    Safe s c (refresh_entry (emit (store c p e1) Event.unlock) p) := by
  obtain ⟨hb, hh, hd, hf, -⟩ := Safe.of_store (s := s) h hev
  refine ⟨hb, hh, hd, ?_, ⟨[p], by simp [refresh_entry, emit, store, upcalls], by simp, ?_, ?_⟩⟩
  · obtain ⟨fs, hfs, hz⟩ := hf
    exact ⟨fs, by simpa [refresh_entry, emit, frees] using hfs, hz⟩
  · intro q hq
    simp only [List.mem_singleton] at hq
    subst hq
    exact ⟨e, h, hn⟩
  · intro q hq e2 he2
    simp only [List.mem_singleton] at hq
    subst hq
    simp only [refresh_entry, emit, store, Function.update_same, Option.some.injEq] at he2
    rw [← he2]; exact hn1

theorem Safe.of_get_hold {s : Bool} {c c1 : upcall_cache} {entry : Nat} {new : Option Nat}
    {fa : Bool} {pc : GetPC} (h : get_hold c entry new fa = some (pc, c1)) : Safe s c c1 := by
  cases hge : get_entry c entry with
  | none => simp [get_hold, hge] at h
  | some c2 =>
    have h2 : Safe s c c2 := Safe.of_get_entry hge
    cases hp : c2.heap entry with
    | none => simp [get_hold, hge, hp] at h
    | some e =>
      simp only [get_hold, hge, hp] at h
      split at h
      · rename_i hn
        simp only [Option.some.injEq, Prod.mk.injEq] at h
        rw [← h.2]
        exact h2.safe_trans (Safe.of_upcall hp hn (Evolves.start s hn) (start_not_new e))
      · exact h2.safe_trans (Safe.of_get_acquiring h)

theorem Safe.of_get_find {s : Bool} {ops : upcall_cache_ops} {c c1 : upcall_cache}
    {key args : Nat} {fa : Bool} {pc : GetPC}
    (h : get_find ops c key args none fa = some (pc, c1)) : Safe s c c1 := by
  have h0 : Safe s c (emit c Event.lock) := Safe.of_emit _ Event.lock rfl rfl
  simp only [get_find] at h
  cases hfl : find_loop ops key args
      ((emit c Event.lock).uc_hashtable (UC_CACHE_HASH_INDEX key c.uc_hashsize))
      (emit c Event.lock) with
  | none => simp [hfl] at h
  | some x =>
    obtain ⟨res, c2⟩ := x
    have h2 : Safe s c c2 := h0.safe_trans (Safe.of_find_loop hfl)
    cases res with
    | none =>
      simp only [hfl, Option.some.injEq, Prod.mk.injEq] at h
      rw [← h.2]
      exact h2.safe_trans (Safe.of_emit _ Event.unlock rfl rfl)
    | some entry =>
      simp only [hfl] at h
      exact h2.safe_trans ((Safe.of_list_move c2 entry _).safe_trans (Safe.of_get_hold h))

theorem Safe.of_downcall_out {s : Bool} {c c1 : upcall_cache} {entry : Nat} {rc : Int}
    {pc : DownPC} (h : downcall_out c entry rc = some (pc, c1)) : Safe s c c1 := by
  cases hp : c.heap entry with
  | none => simp [downcall_out, hp] at h
  | some e =>
    simp only [downcall_out, hp] at h
    split at h <;> simp only [Option.some.injEq, Prod.mk.injEq] at h <;> rw [← h.2]
    · exact (Safe.of_store hp ((Evolves.set_invalid s e).evolves_trans
        (Evolves.clear_acquiring s _))).safe_trans
          ((Safe.of_list_del _ entry).safe_trans (Safe.of_emit _ Event.unlock rfl rfl))
    · exact (Safe.of_store hp (Evolves.clear_acquiring s e)).safe_trans
        (Safe.of_emit _ Event.unlock rfl rfl)

theorem Safe.of_downcall_start {s : Bool} {ops : upcall_cache_ops} {c c1 : upcall_cache}
    {err key args : Nat} {pc : DownPC}
    (h : downcall_start ops c err key args = some (pc, c1)) : Safe s c c1 := by
  have h0 : Safe s c (emit c Event.lock) := Safe.of_emit _ Event.lock rfl rfl
  simp only [downcall_start] at h
  cases hl : downcall_loop ops key args (emit c Event.lock)
      ((emit c Event.lock).uc_hashtable (UC_CACHE_HASH_INDEX key c.uc_hashsize)) with
  | none => simp [hl] at h
  | some res =>
    cases res with
    | none =>
      simp only [hl, Option.some.injEq, Prod.mk.injEq] at h
      rw [← h.2]
      exact h0.safe_trans (Safe.of_emit _ Event.unlock rfl rfl)
    | some entry =>
      simp only [hl] at h
      cases hge : get_entry (emit c Event.lock) entry with
      | none => simp [hge] at h
      | some c2 =>
        have h2 : Safe s c c2 := h0.safe_trans (Safe.of_get_entry hge)
        simp only [hge] at h
        cases hp : c2.heap entry with
        | none => simp [hp] at h
        | some e =>
          simp only [hp] at h
          split at h
          · exact h2.safe_trans (Safe.of_downcall_out h)
          · split at h
            · exact h2.safe_trans (Safe.of_downcall_out h)
            · split at h
              · exact h2.safe_trans (Safe.of_downcall_out h)
              · simp only [Option.some.injEq, Prod.mk.injEq] at h
                rw [← h.2]
                exact h2.safe_trans (Safe.of_emit _ Event.unlock rfl rfl)

theorem Safe.of_downcall_finish {s : Bool} {c c1 : upcall_cache} {entry : Nat} {rc r : Int}
    (h : downcall_finish id id c entry rc = some (r, c1)) : Safe s c c1 := by
  rw [downcall_finish_quiet] at h
  cases hpe : put_entry (emit c (Event.wake entry)) entry with
  | none => simp [hpe] at h
  | some c2 =>
    simp only [hpe, Option.map_some', Option.some.injEq, Prod.mk.injEq] at h
    rw [← h.2]
    exact (Safe.of_emit _ (Event.wake entry) rfl rfl).safe_trans (Safe.of_put_entry hpe)

theorem Safe.of_flush_chain {s : Bool} (force : Int) :
    ∀ (l : List Nat) (c c1 : upcall_cache), flush_chain force l c = some c1 → Safe s c c1 := by
  intro l
  induction l with
  | nil => intro c c1 h; cases h; exact Safe.safe_refl s c
  | cons p rest ih =>
    intro c c1 h
    cases hp : c.heap p with
    | none => simp [flush_chain, hp] at h
    | some e =>
      simp only [flush_chain, hp] at h
      split at h
      · exact (Safe.of_store hp (Evolves.set_expired s e)).safe_trans (ih _ _ h)
      · split at h
        · cases h
        · rename_i hr
          cases hfe : free_entry c p with
          | none => simp [hfe] at h
          | some c2 =>
            simp only [hfe] at h
            exact (Safe.of_free hp (by simpa using hr) hfe).safe_trans (ih _ _ h)

theorem Safe.of_flush_buckets {s : Bool} (force : Int) :
    ∀ (l : List Nat) (c c1 : upcall_cache), flush_buckets force l c = some c1 → Safe s c c1 := by
  intro l
  induction l with
  | nil => intro c c1 h; cases h; exact Safe.safe_refl s c
  | cons i rest ih =>
    intro c c1 h
    simp only [flush_buckets] at h
    cases hfc : flush_chain force (c.uc_hashtable i) c with
    | none => simp [hfc] at h
    | some c2 =>
      simp only [hfc] at h
      exact (Safe.of_flush_chain force _ _ _ hfc).safe_trans (ih _ _ h)

theorem Safe.of_flush {s : Bool} {c c1 : upcall_cache} {force : Int}
    (h : upcall_cache_flush c force = some c1) : Safe s c c1 := by
  simp only [upcall_cache_flush] at h
  cases hfb : flush_buckets force (List.range c.uc_hashsize) (emit c Event.lock) with
  | none => simp [hfb] at h
  | some c2 =>
    simp only [hfb, Option.map_some', Option.some.injEq] at h
    rw [← h]
    exact (Safe.of_emit _ Event.lock rfl rfl).safe_trans
      ((Safe.of_flush_buckets force _ _ _ hfb).safe_trans (Safe.of_emit _ Event.unlock rfl rfl))

theorem Safe.of_flush_one {s : Bool} {ops : upcall_cache_ops} {c c1 : upcall_cache}
    {key args : Nat} (h : upcall_cache_flush_one ops c key args = some c1) : Safe s c c1 := by
  have h0 : Safe s c (emit c Event.lock) := Safe.of_emit _ Event.lock rfl rfl
  simp only [upcall_cache_flush_one] at h
  cases hl : flush_one_loop ops key args (emit c Event.lock)
      ((emit c Event.lock).uc_hashtable (UC_CACHE_HASH_INDEX key c.uc_hashsize)) with
  | none => simp [hl] at h
  | some res =>
    cases res with
    | none =>
      simp only [hl, Option.some.injEq] at h
      rw [← h]
      exact h0.safe_trans (Safe.of_emit _ Event.unlock rfl rfl)
    | some entry =>
      simp only [hl] at h
      cases hp : (emit c Event.lock).heap entry with
      | none => simp [hp] at h
      | some e =>
        simp only [hp] at h
        have h1 := h0.safe_trans (Safe.of_store hp (Evolves.set_expired s e))
        split at h
        · rename_i hr
          cases hfe : free_entry (store (emit c Event.lock) entry (UC_CACHE_SET_EXPIRED e))
              entry with
          | none => simp [hfe] at h
          | some c2 =>
            simp only [hfe, Option.map_some', Option.some.injEq] at h
            rw [← h]
            have hz : (UC_CACHE_SET_EXPIRED e).ue_refcount = 0 := by simpa using hr
            exact h1.safe_trans ((Safe.of_free (by simp [store]) hz hfe).safe_trans
              (Safe.of_emit _ Event.unlock rfl rfl))
        · simp only [Option.some.injEq] at h
          rw [← h]
          exact h1.safe_trans (Safe.of_emit _ Event.unlock rfl rfl)

theorem Safe.of_put {s : Bool} {c c1 : upcall_cache} {entry : Option Nat}
    (h : upcall_cache_put_entry c entry = some c1) : Safe s c c1 := by
  cases entry with
  | none => cases h; exact Safe.safe_refl s c
  | some p =>
    cases hp : c.heap p with
    | none => simp [upcall_cache_put_entry, hp] at h
    | some e =>
      simp only [upcall_cache_put_entry, hp] at h
      split at h
      · cases hpe : put_entry (emit c Event.lock) p with
        | none => simp [hpe] at h
        | some c2 =>
          simp only [hpe, Option.map_some', Option.some.injEq] at h
          rw [← h]
          exact (Safe.of_emit _ Event.lock rfl rfl).safe_trans
            ((Safe.of_put_entry hpe).safe_trans (Safe.of_emit _ Event.unlock rfl rfl))
      · cases h

theorem Evolves.set_valid {e e1 : upcall_cache_entry} :
    Evolves false e (UC_CACHE_SET_VALID e1) := by
  unfold Evolves SettledBad
  simp [-Nat.testBit_zero]

theorem Evolves.set_valid_of_good {s : Bool} {e e1 : upcall_cache_entry} (h : ¬ SettledBad e) :
    Evolves s e (UC_CACHE_SET_VALID e1) := by
  refine ⟨?_, ?_, fun _ hb => absurd hb h⟩ <;> simp [-Nat.testBit_zero]

/-- The locked tail of a downcall after `parse_downcall`: safe, and strictly so when the
entry is not INVALID or EXPIRED when the hook returns. -/
theorem Safe.of_downcall_parse {s : Bool} {ops : upcall_cache_ops} {c c1 : upcall_cache}
    {entry args : Nat} {pc : DownPC} {e : upcall_cache_entry} (hp : c.heap entry = some e)
    (hs : s = true → ¬ SettledBad e)
    (h : downcall_parse ops c entry args = some (pc, c1)) : Safe s c c1 := by
  have tail : ∀ (c2 : upcall_cache) (e2 : upcall_cache_entry) (rc : Int),
      c2.heap entry = some e2 → (s = true → ¬ SettledBad e2) →
      (if rc != 0 then downcall_out (emit c2 Event.lock) entry rc
        else match (emit c2 Event.lock).heap entry with
          | none => none
          | some e2 =>
            downcall_out (store (emit c2 Event.lock) entry (UC_CACHE_SET_VALID
              (if e2.ue_expire == 0 then
                { e2 with ue_expire := (emit c2 Event.lock).now +
                    (emit c2 Event.lock).uc_entry_expire } else e2))) entry 0) =
        some (pc, c1) → Safe s c2 c1 := by
    intro c2 e2 rc he2 hgood h
    have h3 : Safe s c2 (emit c2 Event.lock) := Safe.of_emit _ Event.lock rfl rfl
    split at h
    · exact h3.safe_trans (Safe.of_downcall_out h)
    · have he3 : (emit c2 Event.lock).heap entry = some e2 := he2
      simp only [he3] at h
      have hev : ∀ e3 : upcall_cache_entry, Evolves s e2 (UC_CACHE_SET_VALID e3) := by
        intro e3
        cases s with
        | false => exact Evolves.set_valid
        | true => exact Evolves.set_valid_of_good (hgood rfl)
      exact h3.safe_trans ((Safe.of_store he3 (hev _)).safe_trans (Safe.of_downcall_out h))
  cases hpd : ops.parse_downcall with
  | none =>
    simp only [downcall_parse, hp, hpd] at h
    exact tail c e 0 hp hs h
  | some f =>
    simp only [downcall_parse, hp, hpd] at h
    have hev : Evolves s e { e with payload := (f e args).2.1, ue_expire := (f e args).2.2 } :=
      Evolves.of_flags rfl
    refine ((Safe.of_store hp hev).safe_trans (Safe.of_emit _ (Event.parse entry) rfl rfl)).safe_trans
      (tail _ { e with payload := (f e args).2.1, ue_expire := (f e args).2.2 } (f e args).1
        (by simp [emit, store]) ?_ h)
    intro hst hb
    exact hs hst hb

theorem Safe.of_get_raw {s : Bool} {c c1 : upcall_cache} {entry : Nat}
    (h : upcall_cache_get_entry_raw c entry = some c1) : Safe s c c1 :=
  Safe.of_get_entry h

/-- The bits `upcall_cache_update_entry` may be asked to set without harm: neither NEW nor
ACQUIRING. -/
theorem Safe.of_update {s : Bool} {c c1 : upcall_cache} {entry : Nat} {expire : Int}
    {state : Nat} (h0 : state.testBit 0 = false) (h1 : state.testBit 1 = false)
    (hs : s = true → state ≠ 0)
    (h : upcall_cache_update_entry c entry expire state = some c1) : Safe s c c1 := by
  simp only [upcall_cache_update_entry] at h
  cases hp : (emit c Event.lock).heap entry with
  | none => simp [hp] at h
  | some e =>
    simp only [hp, Option.some.injEq] at h
    rw [← h]
    refine (Safe.of_emit _ Event.lock rfl rfl).safe_trans
      ((Safe.of_store hp ?_).safe_trans (Safe.of_emit _ Event.unlock rfl rfl))
    split
    · rename_i hz
      cases s with
      | false => exact Evolves.set_valid
      | true => exact absurd (by simpa using hz) (hs rfl)
    · unfold Evolves SettledBad
      simp [-Nat.testBit_zero, h0, h1]
      tauto

/-! ## Steps of the shared cache -/

theorem Safe.freesAtZero {s : Bool} {c c1 : upcall_cache} (h : Safe s c c1) :
    FreesAtZero c c1 := h.2.2.2.1

theorem FreesAtZero.freed {c c1 : upcall_cache} (h : FreesAtZero c c1)
    (hf : FreedAtZero c.trace) : FreedAtZero c1.trace := by
  obtain ⟨fs, hfs, hz⟩ := h
  intro x hx
  rw [hfs] at hx
  rcases List.mem_append.1 hx with h1 | h1
  · exact hf x h1
  · exact hz x h1

theorem Safe.safe_noNew {s : Bool} {c c1 : upcall_cache} (h : Safe s c c1) (hn : NoNew c) :
    NoNew c1 := by
  intro p e1 hp
  obtain ⟨e, he, hev⟩ := Safe.back h hp
  cases hh : UC_CACHE_IS_NEW e1 with
  | false => rfl
  | true =>
    have h1 := hev.1 hh
    rw [hn p e he] at h1
    cases h1

theorem Safe.upcalls_eq {s : Bool} {c c1 : upcall_cache} (h : Safe s c c1) (hn : NoNew c) :
    upcalls c1.trace = upcalls c.trace := by
  obtain ⟨-, -, -, -, ⟨us, hus, -, hnew, -⟩⟩ := h
  cases us with
  | nil => simpa using hus
  | cons p rest =>
    obtain ⟨e, he, hne⟩ := hnew p (by simp)
    rw [hn p e he] at hne
    cases hne

theorem Safe.grows {s : Bool} {c c1 : upcall_cache} (h : Safe s c c1) : Grows s c c1 := by
  obtain ⟨hb, hh, hd, -, ⟨us, hus, hnd, hnew, -⟩⟩ := h
  exact ⟨Or.inl hb, hh, fun p hp => Or.inl (hd p hp),
    ⟨us, hus, hnd, fun p hp => Or.inl (hnew p hp)⟩⟩

/-- The search made with a freshly allocated object `obj` in hand: either an entry is
found (the object is released again, at refcount 0), or the object is linked at `p` and
its acquisition starts at once. -/
theorem get_find_new_cases {s : Bool} {ops : upcall_cache_ops} {c0 c1 : upcall_cache}
    {key args p : Nat} {obj : upcall_cache_entry} {fa : Bool} {pc : GetPC}
    (hn : UC_CACHE_IS_NEW obj = true) (hz : obj.ue_refcount = 0)
    (h : get_find ops c0 key args (some (p, obj)) fa = some (pc, c1)) :
    Safe s c0 c1 ∨
    ∃ c2, Safe s c0 c2 ∧ pc = GetPC.do_upcall p (some p) fa ∧ c1.brk = c2.brk ∧
      (∀ q, q ≠ p → c1.heap q = c2.heap q) ∧
      c1.heap p = some (UC_CACHE_CLEAR_NEW (UC_CACHE_SET_ACQUIRING
        { obj with ue_refcount := obj.ue_refcount + 1 })) ∧
      upcalls c1.trace = upcalls c2.trace ++ [p] ∧ frees c1.trace = frees c2.trace := by
  have h0 : Safe s c0 (emit c0 Event.lock) := Safe.of_emit _ Event.lock rfl rfl
  simp only [get_find] at h
  cases hfl : find_loop ops key args
      ((emit c0 Event.lock).uc_hashtable (UC_CACHE_HASH_INDEX key c0.uc_hashsize))
      (emit c0 Event.lock) with
  | none => simp [hfl] at h
  | some x =>
    obtain ⟨res, c2⟩ := x
    have h2 : Safe s c0 c2 := h0.safe_trans (Safe.of_find_loop hfl)
    cases res with
    | some entry =>
      simp only [hfl] at h
      left
      have h3 : Safe s c2 (emit c2 (Event.free p obj.ue_refcount)) :=
        ⟨rfl, fun q e hq => Or.inr ⟨e, hq, Evolves.evolves_refl s e⟩, fun q hq => hq,
          ⟨[(p, 0)], by simp [emit, frees, hz], by simp⟩,
          ⟨[], by simp [emit, upcalls], by simp, by simp, by simp⟩⟩
      exact h2.safe_trans (h3.safe_trans ((Safe.of_list_move _ entry _).safe_trans (Safe.of_get_hold h)))
    | none =>
      simp only [hfl] at h
      right
      have hn0 : obj.ue_flags.testBit 0 = true := by simpa [-Nat.testBit_zero] using hn
      simp [-Nat.testBit_zero, get_hold, get_entry, store, list_add, hn0] at h
      obtain ⟨hpc, hc1⟩ := h
      subst hc1
      refine ⟨c2, h2, hpc.symm, rfl, fun q hq => ?_, ?_, ?_, ?_⟩
      · simp [refresh_entry, emit, Function.update, hq]
      · simp [refresh_entry, emit]
      · simp [refresh_entry, emit, upcalls]
      · simp [refresh_entry, emit, frees]

theorem alloc_step_frees {ops : upcall_cache_ops} {c c1 : upcall_cache} {key args : Nat}
    {fa : Bool} {pc : GetPC}
    (h : get_find ops (emit { c with brk := c.brk + 1 } (Event.alloc c.brk)) key args
      (some (c.brk, alloc_entry ops key args)) fa = some (pc, c1)) : FreesAtZero c c1 := by
  have hz : (alloc_entry ops key args).ue_refcount = 0 := by
    unfold alloc_entry; cases ops.init_entry <;> rfl
  have hc0 : frees (emit { c with brk := c.brk + 1 } (Event.alloc c.brk)).trace =
      frees c.trace := by simp [emit, frees]
  rcases get_find_new_cases (s := false) (alloc_entry_is_new ops key args) hz h with
    h1 | ⟨c2, h2, -, -, -, -, -, hfr⟩
  · obtain ⟨fs, hfs, hzz⟩ := h1.freesAtZero
    exact ⟨fs, by rw [hfs, hc0], hzz⟩
  · obtain ⟨fs, hfs, hzz⟩ := h2.freesAtZero
    exact ⟨fs, by rw [hfr, hfs, hc0], hzz⟩

theorem alloc_step_grows {s : Bool} {ops : upcall_cache_ops} {c c1 : upcall_cache}
    {key args : Nat} {fa : Bool} {pc : GetPC} (hf : Fresh c)
    (h : get_find ops (emit { c with brk := c.brk + 1 } (Event.alloc c.brk)) key args
      (some (c.brk, alloc_entry ops key args)) fa = some (pc, c1)) : Grows s c c1 := by
  have hz : (alloc_entry ops key args).ue_refcount = 0 := by
    unfold alloc_entry; cases ops.init_entry <;> rfl
  have hup : upcalls (emit { c with brk := c.brk + 1 } (Event.alloc c.brk)).trace =
      upcalls c.trace := by simp [emit, upcalls]
  have hdead : c.heap c.brk = none := hf c.brk (le_refl _)
  rcases get_find_new_cases (s := s) (alloc_entry_is_new ops key args) hz h with
    h1 | ⟨c2, h2, -, hbrk, hoth, hnew, hus, -⟩
  · obtain ⟨hb, hh, hd, -, ⟨us, hu, hnd, hn, -⟩⟩ := h1
    exact ⟨Or.inr hb, hh, fun p hp => Or.inl (hd p hp),
      ⟨us, by rw [hu, hup], hnd, fun p hp => Or.inl (hn p hp)⟩⟩
  · obtain ⟨hb, hh, hd, -, ⟨us, hu, hnd, hn, -⟩⟩ := h2
    refine ⟨Or.inr (hbrk.trans hb), fun p e hp => ?_, fun p hp => ?_,
      ⟨us ++ [c.brk], by rw [hus, hu, hup, List.append_assoc], ?_, fun p hp => ?_⟩⟩
    · have hne : p ≠ c.brk := by
        rintro rfl
        rw [hdead] at hp; cases hp
      rw [hoth p hne]
      exact hh p e hp
    · by_cases hpb : p = c.brk
      · subst hpb
        exact Or.inr ⟨rfl, hbrk.trans hb, _, hnew, start_not_new _⟩
      · rw [hoth p hpb]
        exact Or.inl (hd p hp)
    · rw [List.nodup_append]
      refine ⟨hnd, by simp, ?_⟩
      intro p hp1 hp2
      simp only [List.mem_singleton] at hp2
      subst hp2
      obtain ⟨e, he, -⟩ := hn _ hp1
      have : c.heap c.brk = some e := he
      rw [hdead] at this; cases this
    · rcases List.mem_append.1 hp with h1 | h1
      · exact Or.inl (hn p h1)
      · simp only [List.mem_singleton] at h1
        exact Or.inr ⟨h1, hbrk.trans hb⟩

theorem Safe.of_tick {s : Bool} (dt : Int) (c : upcall_cache) : Safe s c (tick dt c) :=
  Safe.of_same rfl rfl rfl rfl

/-- One move of a lookup, by cases: it runs on allocated memory only, or it is the move in
which the lookup comes back from a successful allocation. -/
theorem get_resume_step_cases {s : Bool} {ops : upcall_cache_ops} {c c1 : upcall_cache}
    {th th1 : GetThread} {e : Susp} (h : get_resume_step ops c th e = some (th1, c1)) :
    Safe s c c1 ∨
    ∃ fa, th.pc = GetPC.do_alloc fa ∧ e.alloc_ok = true ∧
      get_find ops (emit { c with brk := c.brk + 1 } (Event.alloc c.brk))
        th.key th.args (some (c.brk, alloc_entry ops th.key th.args)) fa = some (th1.pc, c1) ∧
      th1 = { th with pc := th1.pc } := by
  unfold get_resume_step at h
  cases hpc : th.pc with
  | ret r => simp [hpc] at h
  | find_again fa =>
    simp only [hpc, get_step] at h
    cases hg : get_find ops c th.key th.args none fa with
    | none => simp [hg] at h
    | some x =>
      simp only [hg, Option.map_some', Option.some.injEq, Prod.mk.injEq] at h
      rw [← h.2]
      exact Or.inl (Safe.of_get_find hg)
  | do_alloc fa =>
    simp only [hpc, get_step] at h
    cases hok : e.alloc_ok with
    | false =>
      simp only [hok, Bool.false_eq_true, if_false, Option.map_some', Option.some.injEq,
        Prod.mk.injEq] at h
      rw [← h.2]
      exact Or.inl (Safe.safe_refl s c)
    | true =>
      simp only [hok, if_true] at h
      cases hg : get_find ops (emit { c with brk := c.brk + 1 } (Event.alloc c.brk))
          th.key th.args (some (c.brk, alloc_entry ops th.key th.args)) fa with
      | none => simp [hg] at h
      | some x =>
        obtain ⟨pc1, c2⟩ := x
        simp only [hg, Option.map_some', Option.some.injEq, Prod.mk.injEq] at h
        obtain ⟨h1, h2⟩ := h
        subst h1 h2
        exact Or.inr ⟨fa, rfl, rfl, hg, rfl⟩
  | do_upcall entry new fa =>
    simp only [hpc, get_step] at h
    cases hg : get_after_upcall c entry new fa e.rc with
    | none => simp [hg] at h
    | some x =>
      simp only [hg, Option.map_some', Option.some.injEq, Prod.mk.injEq] at h
      rw [← h.2]
      exact Or.inl (Safe.of_get_after_upcall hg)
  | do_wait entry new fa =>
    simp only [hpc, get_step] at h
    cases hg : get_after_wait c entry new fa (wait_left c entry new e.left) with
    | none => simp [hg] at h
    | some x =>
      simp only [hg, Option.map_some', Option.some.injEq, Prod.mk.injEq] at h
      rw [← h.2]
      exact Or.inl (Safe.of_get_after_wait hg)

theorem Safe.of_downcall_put {s : Bool} {c c1 : upcall_cache} {entry : Nat} {rc : Int}
    {pc : DownPC} (h : downcall_put c entry rc = some (pc, c1)) : Safe s c c1 := by
  have h0 : Safe s c (emit c (Event.wake entry)) := Safe.of_emit _ _ rfl rfl
  cases hp : (emit c (Event.wake entry)).heap entry with
  | none => simp [downcall_put, put_dec, hp] at h
  | some e =>
    have h1 : Safe s (emit c (Event.wake entry))
        (store (emit c (Event.wake entry)) entry { e with ue_refcount := e.ue_refcount - 1 }) :=
      Safe.of_store hp (Evolves.of_flags rfl)
    cases hd : decide (e.ue_refcount - 1 = 0) <;>
      simp only [downcall_put, put_dec, hp, hd, Option.some.injEq, Prod.mk.injEq] at h <;>
      rw [← h.2] <;> exact h0.safe_trans h1

theorem downcall_test_state {c c1 : upcall_cache} {entry : Nat} {rc : Int} {pc : DownPC}
    (h : downcall_test c entry rc = some (pc, c1)) : c1 = c := by
  cases hq : put_test c entry with
  | none => simp [downcall_test, hq] at h
  | some b =>
    cases b <;> simp only [downcall_test, hq, Option.some.injEq, Prod.mk.injEq] at h <;>
      exact h.2.symm

theorem free_entry_grows {s : Bool} {c c1 : upcall_cache} {p : Nat}
    (hf : free_entry c p = some c1) : Grows s c c1 := by
  cases hp : c.heap p with
  | none => simp [free_entry, hp] at hf
  | some e =>
    simp only [free_entry, hp, Option.some.injEq] at hf
    subst hf
    refine ⟨Or.inl rfl, fun q e2 hq => ?_, fun q hq => Or.inl ?_,
      ⟨[], by simp [upcalls], by simp, by simp⟩⟩
    · by_cases hqp : q = p
      · subst hqp; exact Or.inl (by simp)
      · exact Or.inr ⟨e2, by simp [Function.update, hqp, hq], Evolves.evolves_refl s e2⟩
    · by_cases hqp : q = p
      · subst hqp; simp
      · simp [Function.update, hqp, hq]

theorem free_entry_upcalls {c c1 : upcall_cache} {p : Nat}
    (hf : free_entry c p = some c1) : upcalls c1.trace = upcalls c.trace := by
  cases hp : c.heap p with
  | none => simp [free_entry, hp] at hf
  | some e =>
    simp only [free_entry, hp, Option.some.injEq] at hf
    subst hf
    simp [upcalls]

/-- One move of a downcall thread runs on allocated memory only and frees nothing, except
the `free_entry` that `put_entry` calls without the lock. -/
theorem Safe.of_down_resume_step {ops : upcall_cache_ops} {c c1 : upcall_cache}
    {th th1 : DownThread} (h : down_resume_step ops c th = some (th1, c1)) :
    Safe false c c1 ∨
      ∃ entry rc, th.pc = DownPC.do_free entry rc ∧ free_entry c entry = some c1 := by
  unfold down_resume_step at h
  cases hpc : th.pc with
  | ret r => simp [hpc] at h
  | do_parse entry =>
    simp only [hpc] at h
    cases hg : downcall_parse ops c entry th.args with
    | none => simp [hg] at h
    | some x =>
      simp only [hg, Option.map_some', Option.some.injEq, Prod.mk.injEq] at h
      rw [← h.2]
      cases hp : c.heap entry with
      | none => simp [downcall_parse, hp] at hg
      | some e => exact Or.inl (Safe.of_downcall_parse hp (by simp) hg)
  | do_put entry rc =>
    simp only [hpc] at h
    cases hg : downcall_put c entry rc with
    | none => simp [hg] at h
    | some x =>
      simp only [hg, Option.map_some', Option.some.injEq, Prod.mk.injEq] at h
      rw [← h.2]
      exact Or.inl (Safe.of_downcall_put hg)
  | do_test entry rc =>
    simp only [hpc] at h
    cases hg : downcall_test c entry rc with
    | none => simp [hg] at h
    | some x =>
      simp only [hg, Option.map_some', Option.some.injEq, Prod.mk.injEq] at h
      rw [← h.2, downcall_test_state hg]
      exact Or.inl (Safe.safe_refl false c)
  | do_free entry rc =>
    simp only [hpc] at h
    cases hg : free_entry c entry with
    | none => simp [downcall_free, hg] at h
    | some x =>
      simp only [downcall_free, hg, Option.map_some', Option.some.injEq, Prod.mk.injEq] at h
      rw [← h.2]
      exact Or.inr ⟨entry, rc, rfl, hg⟩

/-- One step of the shared cache, by cases: it runs on allocated memory only, or it is
the step in which the lookup of thread `t` comes back from a successful allocation. -/
theorem sys_step_cases {ops : upcall_cache_ops} {σ σ1 : Sys} {a : Action} (hok : OkAction a)
    (h : sys_step ops σ a = some σ1) :
    Safe false σ.cache σ1.cache ∨
    (∃ t th th1 fa rc left, a = Action.get_resume t true rc left ∧ σ.gets.get? t = some th ∧
      th.pc = GetPC.do_alloc fa ∧
      get_find ops (emit { σ.cache with brk := σ.cache.brk + 1 } (Event.alloc σ.cache.brk))
        th.key th.args (some (σ.cache.brk, alloc_entry ops th.key th.args)) fa =
          some (th1.pc, σ1.cache) ∧
      th1 = { th with pc := th1.pc } ∧ σ1.gets = σ.gets.set t th1) ∨
    ∃ t th entry rc, a = Action.down_resume t ∧ σ.downs.get? t = some th ∧
      th.pc = DownPC.do_free entry rc ∧ free_entry σ.cache entry = some σ1.cache := by
  cases a with
  | get_call key args =>
    simp only [sys_step] at h
    cases hg : get_find ops σ.cache key args none false with
    | none => simp [hg] at h
    | some x =>
      simp only [hg, Option.map_some', Option.some.injEq] at h
      subst h
      exact Or.inl (Safe.of_get_find hg)
  | get_resume t alloc_ok rc left =>
    simp only [sys_step] at h
    cases ht : σ.gets.get? t with
    | none => simp only [ht, Option.none_bind] at h; cases h
    | some th =>
      cases hg : get_resume_step ops σ.cache th ⟨id, alloc_ok, rc, left⟩ with
      | none => simp only [ht, hg, Option.some_bind, Option.map_none'] at h; cases h
      | some x =>
        obtain ⟨th1, c1⟩ := x
        simp only [ht, hg, Option.some_bind, Option.map_some', Option.some.injEq] at h
        subst h
        rcases get_resume_step_cases (s := false) hg with h1 | ⟨fa, h1, h2, h3, h4⟩
        · exact Or.inl h1
        · simp only at h2
          subst h2
          exact Or.inr (Or.inl ⟨t, th, th1, fa, rc, left, rfl, ht, h1, h3, h4, rfl⟩)
  | put entry =>
    simp only [sys_step] at h
    cases hg : upcall_cache_put_entry σ.cache entry with
    | none => simp [hg] at h
    | some c =>
      simp only [hg, Option.map_some', Option.some.injEq] at h
      subst h
      exact Or.inl (Safe.of_put hg)
  | get_raw entry =>
    simp only [sys_step] at h
    cases hg : upcall_cache_get_entry_raw σ.cache entry with
    | none => simp [hg] at h
    | some c =>
      simp only [hg, Option.map_some', Option.some.injEq] at h
      subst h
      exact Or.inl (Safe.of_get_raw hg)
  | update entry expire state =>
    simp only [sys_step] at h
    cases hg : upcall_cache_update_entry σ.cache entry expire state with
    | none => simp [hg] at h
    | some c =>
      simp only [hg, Option.map_some', Option.some.injEq] at h
      subst h
      exact Or.inl (Safe.of_update hok.1 hok.2 (by simp) hg)
  | down_call err key args =>
    simp only [sys_step] at h
    cases hg : downcall_start ops σ.cache err key args with
    | none => simp [hg] at h
    | some x =>
      simp only [hg, Option.map_some', Option.some.injEq] at h
      subst h
      exact Or.inl (Safe.of_downcall_start hg)
  | down_resume t =>
    simp only [sys_step] at h
    cases ht : σ.downs.get? t with
    | none => simp only [ht, Option.none_bind] at h; cases h
    | some th =>
      cases hg : down_resume_step ops σ.cache th with
      | none => simp only [ht, hg, Option.some_bind, Option.map_none'] at h; cases h
      | some x =>
        obtain ⟨th1, c1⟩ := x
        simp only [ht, hg, Option.some_bind, Option.map_some', Option.some.injEq] at h
        subst h
        rcases Safe.of_down_resume_step hg with h1 | ⟨entry, rc, h1, h2⟩
        · exact Or.inl h1
        · exact Or.inr (Or.inr ⟨t, th, entry, rc, rfl, ht, h1, h2⟩)
  | flush force =>
    simp only [sys_step] at h
    cases hg : upcall_cache_flush σ.cache force with
    | none => simp [hg] at h
    | some c =>
      simp only [hg, Option.map_some', Option.some.injEq] at h
      subst h
      exact Or.inl (Safe.of_flush hg)
  | flush_one key args =>
    simp only [sys_step] at h
    cases hg : upcall_cache_flush_one ops σ.cache key args with
    | none => simp [hg] at h
    | some c =>
      simp only [hg, Option.map_some', Option.some.injEq] at h
      subst h
      exact Or.inl (Safe.of_flush_one hg)
  | cleanup =>
    simp only [sys_step] at h
    cases hg : upcall_cache_cleanup σ.cache with
    | none => simp [hg] at h
    | some c =>
      simp only [hg, Option.map_some', Option.some.injEq] at h
      subst h
      exact Or.inl (Safe.of_flush hg)
  | tick dt =>
    simp only [sys_step, Option.some.injEq] at h
    subst h
    exact Or.inl (Safe.of_tick _ _)

/-! ## Frees happen at refcount 0 -/

theorem FreesAtZero.frees_refl (c : upcall_cache) : FreesAtZero c c := ⟨[], by simp, by simp⟩

theorem FreesAtZero.frees_trans {a b c : upcall_cache} (h1 : FreesAtZero a b)
    (h2 : FreesAtZero b c) : FreesAtZero a c := by
  obtain ⟨fs1, hf1, hz1⟩ := h1
  obtain ⟨fs2, hf2, hz2⟩ := h2
  refine ⟨fs1 ++ fs2, by rw [hf2, hf1, List.append_assoc], fun x hx => ?_⟩
  rcases List.mem_append.1 hx with h | h
  · exact hz1 x h
  · exact hz2 x h

theorem update_entry_frees {c c1 : upcall_cache} {entry : Nat} {expire : Int} {state : Nat}
    (h : upcall_cache_update_entry c entry expire state = some c1) : FreesAtZero c c1 := by
  simp only [upcall_cache_update_entry] at h
  cases hp : (emit c Event.lock).heap entry with
  | none => simp [hp] at h
  | some e =>
    simp only [hp, Option.some.injEq] at h
    rw [← h]
    exact ⟨[], by simp [emit, store, frees], by simp⟩

/-- Every step of the shared cache frees at refcount 0, except the `free_entry` that the
`put_entry` closing a downcall calls without the lock. -/
theorem sys_step_frees {ops : upcall_cache_ops} {σ σ1 : Sys} {a : Action}
    (h : sys_step ops σ a = some σ1) :
    FreesAtZero σ.cache σ1.cache ∨
      ∃ t th entry rc, a = Action.down_resume t ∧ σ.downs.get? t = some th ∧
        th.pc = DownPC.do_free entry rc ∧ free_entry σ.cache entry = some σ1.cache := by
  by_cases hok : OkAction a
  · rcases sys_step_cases hok h with h1 | ⟨t, th, th1, fa, rc, left, -, -, -, h4, -, -⟩ | h5
    · exact Or.inl h1.freesAtZero
    · exact Or.inl (alloc_step_frees h4)
    · exact Or.inr h5
  · left
    cases a with
    | update entry expire state =>
      simp only [sys_step] at h
      cases hg : upcall_cache_update_entry σ.cache entry expire state with
      | none => simp [hg] at h
      | some c =>
        simp only [hg, Option.map_some', Option.some.injEq] at h
        subst h
        exact update_entry_frees hg
    | _ => exact absurd trivial hok

/-- C10 (the code breaks the claim): `upcall_cache_downcall` calls its closing `put_entry`
after `spin_unlock`, so other threads run between the decrement and the test of the
flags.  In the run `demo_race_run` on the empty demo cache the downcall's decrement
brings the refcount of the entry at 100 to 0; a lookup then takes a reference on the entry
and returns it, and a non-forced flush marks the referenced entry EXPIRED; the downcall's
`put_entry` now finds EXPIRED and calls `free_entry` on an entry whose refcount is 1.  No
assertion fails; the lookup holds a pointer to freed memory. -/
theorem downcall_put_frees_held_entry :
    (sys_run demo_ops (demo_sys demo_empty) (demo_race_run.take 10)).map
      (fun σ => (σ.gets.map (fun t => t.pc),
        (σ.cache.heap 100).map (fun e => (e.ue_refcount, UC_CACHE_IS_EXPIRED e)),
        frees σ.cache.trace)) =
      some ([GetPC.ret (Except.error (-ETIMEDOUT)), GetPC.ret (Except.ok 100)],
        some (1, true), []) ∧
    (sys_run demo_ops (demo_sys demo_empty) demo_race_run).map
      (fun σ => (σ.gets.map (fun t => t.pc), σ.cache.heap 100, frees σ.cache.trace)) =
      some ([GetPC.ret (Except.error (-ETIMEDOUT)), GetPC.ret (Except.ok 100)],
        none, [(100, 1)]) :=
  ⟨rfl, rfl⟩

theorem sys_step_grows {ops : upcall_cache_ops} {σ σ1 : Sys} {a : Action} (hok : OkAction a)
    (hf : Fresh σ.cache) (h : sys_step ops σ a = some σ1) : Grows false σ.cache σ1.cache := by
  rcases sys_step_cases hok h with h1 | ⟨t, th, th1, fa, rc, left, -, -, -, h4, -, -⟩ |
    ⟨t, th, entry, rc, -, -, -, h4⟩
  · exact h1.grows
  · exact alloc_step_grows hf h4
  · exact free_entry_grows h4

theorem Grows.fresh {s : Bool} {c c1 : upcall_cache} (h : Grows s c c1) (hf : Fresh c) :
    Fresh c1 := by
  obtain ⟨hb, -, hd, -⟩ := h
  intro p hp
  have hp0 : c.brk ≤ p := by rcases hb with hb | hb <;> omega
  rcases hd p (hf p hp0) with h1 | ⟨h1, h2, -⟩
  · exact h1
  · omega

theorem Grows.grows_noNew {s : Bool} {c c1 : upcall_cache} (h : Grows s c c1) (hn : NoNew c) :
    NoNew c1 := by
  obtain ⟨-, hh, hd, -⟩ := h
  intro p e1 hp
  cases hc : c.heap p with
  | none =>
    rcases hd p hc with h1 | ⟨-, -, e2, h2, h3⟩
    · rw [h1] at hp; cases hp
    · rw [h2] at hp; cases hp; exact h3
  | some e =>
    rcases hh p e hc with h1 | ⟨e2, h2, hev⟩
    · rw [h1] at hp; cases hp
    · rw [h2] at hp; cases hp
      cases hnew : UC_CACHE_IS_NEW e1 with
      | false => rfl
      | true =>
        have h3 := hev.1 hnew
        rw [hn p e hc] at h3
        cases h3

theorem Grows.settled {s : Bool} {c c1 : upcall_cache} (h : Grows s c c1) {p : Nat}
    (hp : p < c.brk)
    (hs : c.heap p = none ∨ ∃ e, c.heap p = some e ∧ Settled e) :
    p < c1.brk ∧ (c1.heap p = none ∨ ∃ e, c1.heap p = some e ∧ Settled e) := by
  obtain ⟨hb, hh, hd, -⟩ := h
  refine ⟨by rcases hb with hb | hb <;> omega, ?_⟩
  rcases hs with hs | ⟨e, he, hse⟩
  · rcases hd p hs with h1 | ⟨h1, -, -⟩
    · exact Or.inl h1
    · omega
  · rcases hh p e he with h1 | ⟨e1, h1, hev⟩
    · exact Or.inl h1
    · refine Or.inr ⟨e1, h1, ?_, ?_⟩
      · cases hnew : UC_CACHE_IS_NEW e1 with
        | false => rfl
        | true =>
          have h3 := hev.1 hnew
          rw [hse.1] at h3
          cases h3
      · cases hacq : UC_CACHE_IS_ACQUIRING e1 with
        | false => rfl
        | true =>
          rcases hev.2.1 hacq with h3 | h3
          · rw [hse.2] at h3; cases h3
          · rw [hse.1] at h3; cases h3

theorem Grows.singleFlight {s : Bool} {c c1 : upcall_cache} (h : Grows s c c1)
    (hsf : SingleFlight c) : SingleFlight c1 := by
  obtain ⟨hn, hf, hnd, hlt⟩ := hsf
  refine ⟨h.grows_noNew hn, h.fresh hf, ?_, ?_⟩ <;> obtain ⟨hb, -, -, ⟨us, hus, hund, hmem⟩⟩ := h
  · rw [hus, List.nodup_append]
    refine ⟨hnd, hund, ?_⟩
    intro p hp1 hp2
    rcases hmem p hp2 with ⟨e, he, hne⟩ | ⟨h1, -⟩
    · rw [hn p e he] at hne; cases hne
    · have := hlt p hp1
      omega
  · intro p hp
    rw [hus] at hp
    rcases List.mem_append.1 hp with h1 | h1
    · have := hlt p h1
      rcases hb with hb | hb <;> omega
    · rcases hmem p h1 with ⟨e, he, hne⟩ | ⟨h2, h3⟩
      · rw [hn p e he] at hne; cases hne
      · omega

theorem sys_run_induct {ops : upcall_cache_ops} (P : Sys → Prop)
    (hP : ∀ σ a σ1, OkAction a → P σ → sys_step ops σ a = some σ1 → P σ1) :
    ∀ (acts : List Action) (σ0 σ : Sys), (∀ a ∈ acts, OkAction a) → P σ0 →
      sys_run ops σ0 acts = some σ → P σ := by
  intro acts
  induction acts with
  | nil =>
    intro σ0 σ _ h0 h
    simp only [sys_run, Option.some.injEq] at h
    rw [← h]; exact h0
  | cons a rest ih =>
    intro σ0 σ hok h0 h
    simp only [sys_run] at h
    cases hs : sys_step ops σ0 a with
    | none => simp [hs] at h
    | some σ1 =>
      simp only [hs] at h
      exact ih σ1 σ (fun b hb => hok b (List.mem_cons_of_mem _ hb))
        (hP σ0 a σ1 (hok a (List.mem_cons_self _ _)) h0 hs) h

theorem valid_settled {e : upcall_cache_entry} (h : UC_CACHE_IS_VALID e = true) : Settled e := by
  have h0 : e.ue_flags = 0 := by simpa using h
  simp [Settled, h0]

/-! ## Monotonic settling -/

theorem demo_cache_fresh (e : upcall_cache_entry) : Fresh (demo_cache_with e) := by
  intro p hp
  have hp1 : 101 ≤ p := hp
  have hne : p ≠ 100 := by omega
  simp [demo_cache_with, hne]

/-- C18 (amended): monotonic settling, for callers of `upcall_cache_update_entry` that
pass a `state` holding neither NEW nor ACQUIRING.  In every interleaving of steps of the
cache operations that starts in a state whose memory above the allocator is unused, an
entry that is VALID at the start is at the end either freed or still carries neither NEW
nor ACQUIRING (and the end state again has its memory above the allocator unused, so the
same holds from any later moment on).  No step sets NEW on an allocated entry: an entry
that is NEW after a step was NEW before it, and the object `alloc_entry` builds is NEW.
An entry that is ACQUIRING after a step was ACQUIRING or NEW before it, or did not exist
before the step and sits at the address the allocator handed out in this step. -/
theorem monotonic_settling (ops : upcall_cache_ops) (σ0 σ : Sys) (acts : List Action)
    (p : Nat) (e : upcall_cache_entry) (hfresh : Fresh σ0.cache)
    (hok : ∀ a ∈ acts, OkAction a) (hrun : sys_run ops σ0 acts = some σ)
    (hp : σ0.cache.heap p = some e) (hv : UC_CACHE_IS_VALID e = true) :
    Fresh σ.cache ∧
    (σ.cache.heap p = none ∨ ∃ e1, σ.cache.heap p = some e1 ∧
      UC_CACHE_IS_NEW e1 = false ∧ UC_CACHE_IS_ACQUIRING e1 = false) ∧
    (∀ a σ1 q e1, OkAction a → sys_step ops σ a = some σ1 → σ1.cache.heap q = some e1 →
      (UC_CACHE_IS_NEW e1 = true → ∃ e0, σ.cache.heap q = some e0 ∧ UC_CACHE_IS_NEW e0 = true) ∧
      (UC_CACHE_IS_ACQUIRING e1 = true →
        (∃ e0, σ.cache.heap q = some e0 ∧
          (UC_CACHE_IS_ACQUIRING e0 = true ∨ UC_CACHE_IS_NEW e0 = true)) ∨
        (σ.cache.heap q = none ∧ q = σ.cache.brk ∧ σ1.cache.brk = σ.cache.brk + 1))) ∧
    (∀ key args, UC_CACHE_IS_NEW (alloc_entry ops key args) = true) := by
  have hp0 : p < σ0.cache.brk := by
    by_contra hlt
    rw [hfresh p (by omega)] at hp
    cases hp
  have hinv := sys_run_induct
    (fun τ => Fresh τ.cache ∧ p < τ.cache.brk ∧
      (τ.cache.heap p = none ∨ ∃ e1, τ.cache.heap p = some e1 ∧ Settled e1))
    (fun τ a τ1 ha hτ hs => by
      have hg := sys_step_grows ha hτ.1 hs
      exact ⟨hg.fresh hτ.1, hg.settled hτ.2.1 hτ.2.2⟩)
    acts σ0 σ hok ⟨hfresh, hp0, Or.inr ⟨e, hp, valid_settled hv⟩⟩ hrun
  obtain ⟨hf, -, hs⟩ := hinv
  refine ⟨hf, ?_, ?_, alloc_entry_is_new ops⟩
  · rcases hs with h1 | ⟨e1, h1, h2⟩
    · exact Or.inl h1
    · exact Or.inr ⟨e1, h1, h2.1, h2.2⟩
  · intro a σ1 q e1 ha hstep hq
    obtain ⟨-, hh, hd, -⟩ := sys_step_grows ha hf hstep
    cases hc : σ.cache.heap q with
    | none =>
      rcases hd q hc with h1 | ⟨h1, h2, e2, h3, h4⟩
      · rw [h1] at hq; cases hq
      · rw [h3] at hq; cases hq
        refine ⟨fun hn => ?_, fun _ => Or.inr ⟨rfl, h1, h2⟩⟩
        rw [h4] at hn; cases hn
    | some e0 =>
      rcases hh q e0 hc with h1 | ⟨e2, h1, hev⟩
      · rw [h1] at hq; cases hq
      · rw [h1] at hq; cases hq
        exact ⟨fun hn => ⟨e0, rfl, hev.1 hn⟩, fun ha => Or.inl ⟨e0, rfl, hev.2.1 ha⟩⟩

/-- Witness for C18 (amended): the VALID demo entry is marked by a flush, 5000 seconds
pass, and a lookup unlinks it: it ends EXPIRED, neither NEW nor ACQUIRING. -/
theorem monotonic_settling_witness :
    ∃ σ, sys_run demo_ops (demo_sys demo_cache)
        [Action.flush 0, Action.tick 5000, Action.get_call 42 0] = some σ ∧
      (σ.cache.heap 100 = none ∨ ∃ e1, σ.cache.heap 100 = some e1 ∧
        UC_CACHE_IS_NEW e1 = false ∧ UC_CACHE_IS_ACQUIRING e1 = false) :=
  ⟨_, rfl, (monotonic_settling demo_ops (demo_sys demo_cache) _
    [Action.flush 0, Action.tick 5000, Action.get_call 42 0] 100 demo_valid
    (demo_cache_fresh demo_valid) (by intro a ha; fin_cases ha <;> trivial) rfl rfl rfl).2.1⟩

/-- Counterexample to C18 as stated: `upcall_cache_update_entry` called on the VALID demo
entry with `state = UC_CACHE_ACQUIRING` leaves it ACQUIRING, and called with
`state = UC_CACHE_NEW` leaves it NEW, although `alloc_entry` did not run and the entry was
not NEW. -/
theorem update_entry_unsettles :
    UC_CACHE_IS_VALID demo_valid = true ∧
    (upcall_cache_update_entry demo_cache 100 2000 UC_CACHE_ACQUIRING).map
      (fun c => (c.heap 100).map
        (fun e => (UC_CACHE_IS_NEW e, UC_CACHE_IS_ACQUIRING e))) = some (some (false, true)) ∧
    (upcall_cache_update_entry demo_cache 100 2000 UC_CACHE_NEW).map
      (fun c => (c.heap 100).map
        (fun e => (UC_CACHE_IS_NEW e, UC_CACHE_IS_ACQUIRING e))) = some (some (true, false)) := by
  refine ⟨rfl, ?_, ?_⟩ <;> decide

/-! ## Single flight -/

theorem get_hold_acquiring {c : upcall_cache} {p : Nat} {e : upcall_cache_entry}
    (new : Option Nat) (fa : Bool) (hp : c.heap p = some e)
    (hn : UC_CACHE_IS_NEW e = false) (ha : UC_CACHE_IS_ACQUIRING e = true) :
    get_hold c p new fa = some (GetPC.do_wait p new fa,
      emit (store c p { e with ue_refcount := e.ue_refcount + 1 }) Event.unlock) := by
  have hn0 : e.ue_flags.testBit 0 = false := by simpa [-Nat.testBit_zero] using hn
  have ha1 : e.ue_flags.testBit 1 = true := by simpa using ha
  simp [-Nat.testBit_zero, get_hold, get_entry, hp, store, get_acquiring, hn0, ha1]

/-- A lookup that finds a matching ACQUIRING entry whose deadline has not passed goes to
sleep on it: it takes a reference, drops the lock and invokes no upcall. -/
theorem get_find_acquiring_hit {ops : upcall_cache_ops} {c : upcall_cache} {key args : Nat}
    {pre post : List Nat} {p : Nat} {e : upcall_cache_entry} (fa : Bool)
    (hchain : c.uc_hashtable (UC_CACHE_HASH_INDEX key c.uc_hashsize) = pre ++ p :: post)
    (hnd : pre.Nodup)
    (hpre : ∀ q ∈ pre, ∃ eq, c.heap q = some eq ∧ upcall_compare ops eq key args ≠ 0)
    (hp : c.heap p = some e) (hm : upcall_compare ops e key args = 0)
    (hn : UC_CACHE_IS_NEW e = false) (ha : UC_CACHE_IS_ACQUIRING e = true)
    (hdl : e.ue_acquire_expire = 0 ∨ c.now < e.ue_acquire_expire) :
    ∃ c1, get_find ops c key args none fa = some (GetPC.do_wait p none fa, c1) ∧
      upcalls c1.trace = upcalls c.trace ∧
      c1.heap p = some { e with ue_refcount := e.ue_refcount + 1 } := by
  have ha1 : e.ue_flags.testBit 1 = true := by simpa using ha
  have hk : keep_entry (emit c Event.lock).now e = true := by
    rcases hdl with h | h <;> simp [keep_entry, ha1, emit, h]
  obtain ⟨c1, h1, -, hp1, -, hu, -, -⟩ :=
    find_loop_hit post (c := emit c Event.lock) hnd hpre hp hk hm
  have hchain1 : (emit c Event.lock).uc_hashtable (UC_CACHE_HASH_INDEX key c.uc_hashsize) =
      pre ++ p :: post := hchain
  have hp2 : (list_move c1 p (UC_CACHE_HASH_INDEX key c.uc_hashsize)).heap p = some e := hp1
  refine ⟨emit (store (list_move c1 p (UC_CACHE_HASH_INDEX key c.uc_hashsize)) p
    { e with ue_refcount := e.ue_refcount + 1 }) Event.unlock, ?_, ?_, ?_⟩
  · simp only [get_find, hchain1, h1]
    exact get_hold_acquiring none fa hp2 hn ha
  · simp [emit, store, list_move, list_add, list_del, hu, upcalls]
  · simp [emit, store]

/-- The step in which a lookup comes back from a successful allocation, in a state
without NEW entries: no upcall, or exactly one, on the entry the step created. -/
theorem alloc_step_upcall {ops : upcall_cache_ops} {c c1 : upcall_cache} {key args : Nat}
    {fa : Bool} {pc : GetPC} (hn : NoNew c)
    (h : get_find ops (emit { c with brk := c.brk + 1 } (Event.alloc c.brk)) key args
      (some (c.brk, alloc_entry ops key args)) fa = some (pc, c1)) :
    upcalls c1.trace = upcalls c.trace ∨
    (upcalls c1.trace = upcalls c.trace ++ [c.brk] ∧ pc = GetPC.do_upcall c.brk (some c.brk) fa ∧
      ∃ e1, c1.heap c.brk = some e1 ∧ UC_CACHE_IS_ACQUIRING e1 = true ∧
        UC_CACHE_IS_NEW e1 = false ∧ e1.ue_key = key) := by
  have hz : (alloc_entry ops key args).ue_refcount = 0 := by
    unfold alloc_entry; cases ops.init_entry <;> rfl
  have hkey : (alloc_entry ops key args).ue_key = key := by
    unfold alloc_entry; cases ops.init_entry <;> rfl
  have hup : upcalls (emit { c with brk := c.brk + 1 } (Event.alloc c.brk)).trace =
      upcalls c.trace := by simp [emit, upcalls]
  have hn0 : NoNew (emit { c with brk := c.brk + 1 } (Event.alloc c.brk)) := hn
  rcases get_find_new_cases (s := false) (alloc_entry_is_new ops key args) hz h with
    h1 | ⟨c2, h2, hpc, -, -, hnew, hus, -⟩
  · exact Or.inl ((h1.upcalls_eq hn0).trans hup)
  · refine Or.inr ⟨by rw [hus, h2.upcalls_eq hn0, hup], hpc, _, hnew, start_acquiring _,
      start_not_new _, ?_⟩
    simp [hkey]

theorem demo_empty_singleFlight : SingleFlight demo_empty := by
  refine ⟨fun p e h => ?_, fun p _ => rfl, by simp [demo_empty, upcall_cache_init, upcalls],
    fun p hp => ?_⟩
  · simp [demo_empty, upcall_cache_init] at h
  · simp [demo_empty, upcall_cache_init, upcalls] at hp

/-- C3 (amended): single flight.  Take any interleaving of steps of lookups, puts,
downcalls, flushes (and `get_raw`, `flush_one`, cleanup, clock ticks, and
`upcall_cache_update_entry` with a `state` holding neither NEW nor ACQUIRING) that starts
in a state with no NEW entry, unused memory above the allocator, and no entry upcalled
twice.  Then (1) in the trace of the whole run `do_upcall` is invoked at most once per
entry, and the end state again satisfies the starting condition.  (2) Any further step
either invokes no upcall or is the step of a lookup coming back from a successful
allocation: it invokes exactly one upcall, on the entry at the address just allocated,
which did not exist before, which this very step linked and moved to ACQUIRING (no longer
NEW), and the lookup then stands in `do_upcall` on its own entry.  (3) A lookup that finds
a matching ACQUIRING entry whose deadline has not passed invokes no upcall in that pass:
it goes to sleep on the entry.  By (2) an upcall it may invoke after the sleep is on
another entry, one it creates itself. -/
theorem single_flight (ops : upcall_cache_ops) (σ0 σ : Sys) (acts : List Action)
    (h0 : SingleFlight σ0.cache) (hok : ∀ a ∈ acts, OkAction a)
    (hrun : sys_run ops σ0 acts = some σ) :
    (upcalls σ.cache.trace).Nodup ∧ SingleFlight σ.cache ∧
    (∀ a σ1, OkAction a → sys_step ops σ a = some σ1 →
      upcalls σ1.cache.trace = upcalls σ.cache.trace ∨
      ∃ t th fa rc left e1, a = Action.get_resume t true rc left ∧
        σ.gets.get? t = some th ∧ th.pc = GetPC.do_alloc fa ∧
        σ.cache.heap σ.cache.brk = none ∧
        upcalls σ1.cache.trace = upcalls σ.cache.trace ++ [σ.cache.brk] ∧
        σ1.gets = σ.gets.set t
          { th with pc := GetPC.do_upcall σ.cache.brk (some σ.cache.brk) fa } ∧
        σ1.cache.heap σ.cache.brk = some e1 ∧ UC_CACHE_IS_ACQUIRING e1 = true ∧
        UC_CACHE_IS_NEW e1 = false ∧ e1.ue_key = th.key) ∧
    (∀ key args pre post p e,
      σ.cache.uc_hashtable (UC_CACHE_HASH_INDEX key σ.cache.uc_hashsize) = pre ++ p :: post →
      pre.Nodup →
      (∀ q ∈ pre, ∃ eq, σ.cache.heap q = some eq ∧ upcall_compare ops eq key args ≠ 0) →
      σ.cache.heap p = some e → upcall_compare ops e key args = 0 →
      UC_CACHE_IS_ACQUIRING e = true →
      (e.ue_acquire_expire = 0 ∨ σ.cache.now < e.ue_acquire_expire) →
      ∃ σ1, sys_step ops σ (Action.get_call key args) = some σ1 ∧
        σ1.gets = σ.gets ++ [⟨key, args, GetPC.do_wait p none false⟩] ∧
        upcalls σ1.cache.trace = upcalls σ.cache.trace) := by
  have hsf : SingleFlight σ.cache := sys_run_induct (fun τ => SingleFlight τ.cache)
    (fun τ a τ1 ha hτ hs => (sys_step_grows ha hτ.2.1 hs).singleFlight hτ)
    acts σ0 σ hok h0 hrun
  refine ⟨hsf.2.2.1, hsf, ?_, ?_⟩
  · intro a σ1 ha hstep
    rcases sys_step_cases ha hstep with h1 | ⟨t, th, th1, fa, rc, left, h1, h2, h3, h4, h5, h6⟩ |
      ⟨t, th, entry, rc, -, -, -, h4⟩
    · exact Or.inl (h1.upcalls_eq hsf.1)
    · rcases alloc_step_upcall hsf.1 h4 with h7 | ⟨h7, h8, e1, h9, h10, h11, h12⟩
      · exact Or.inl h7
      · refine Or.inr ⟨t, th, fa, rc, left, e1, h1, h2, h3, hsf.2.1 _ (le_refl _), h7, ?_,
          h9, h10, h11, h12⟩
        rw [h6, h5, h8]
    · exact Or.inl (free_entry_upcalls h4)
  · intro key args pre post p e hchain hnd hpre hp hm ha hdl
    obtain ⟨c1, h1, h2, -⟩ :=
      get_find_acquiring_hit false hchain hnd hpre hp hm (hsf.1 p e hp) ha hdl
    exact ⟨{ σ with cache := c1,
                      gets := σ.gets ++ [⟨key, args, GetPC.do_wait p none false⟩] },
      by simp only [sys_step, h1, Option.map_some'], rfl, h2⟩

/-- Witness for C3 (amended): in the demo episode (two lookups of key 42, one downcall)
the hook is invoked once, on the entry at address 100. -/
theorem single_flight_witness :
    ∃ σ, sys_run demo_ops (demo_sys demo_empty) demo_episode = some σ ∧
      upcalls σ.cache.trace = [100] ∧ (upcalls σ.cache.trace).Nodup :=
  ⟨_, rfl, rfl, (single_flight demo_ops (demo_sys demo_empty) _ demo_episode
    demo_empty_singleFlight (by intro a ha; simp only [demo_episode] at ha; fin_cases ha <;> trivial)
    rfl).1⟩

/-- Counterexample to C3 as stated (last part): a lookup of key 42 finds the ACQUIRING entry
at 100 before its deadline and goes to sleep on it; no downcall arrives; at the deadline
the lookup of another thread sweeps the overdue entry out of the chain and wakes the
sleeper, whose sleep returns with time remaining; the entry being still ACQUIRING, the
woken lookup searches again, finds nothing, allocates a new entry at 101 and invokes
`do_upcall` on it.  The call that found an ACQUIRING entry has invoked an upcall. -/
theorem waiter_replays_upcall :
    (sys_run demo_ops (demo_sys (demo_cache_with demo_acquiring)) [Action.get_call 42 0]).map
      (fun σ => (σ.gets.map (fun t => t.pc), upcalls σ.cache.trace)) =
        some ([GetPC.do_wait 100 none false], []) ∧
    (sys_run demo_ops (demo_sys (demo_cache_with demo_acquiring)) demo_replay_run).map
      (fun σ => (σ.gets.map (fun t => t.pc), upcalls σ.cache.trace)) =
        some ([GetPC.do_upcall 101 (some 101) true, GetPC.do_alloc false], [101]) :=
  ⟨rfl, rfl⟩

/-! ## Settled-bad entries -/

theorem Grows.grows_bad {c c1 : upcall_cache} (h : Grows true c c1) {p : Nat} (hp : p < c.brk)
    (hs : c.heap p = none ∨ ∃ e, c.heap p = some e ∧ SettledBad e) :
    p < c1.brk ∧ (c1.heap p = none ∨ ∃ e, c1.heap p = some e ∧ SettledBad e) := by
  obtain ⟨hb, hh, hd, -⟩ := h
  refine ⟨by rcases hb with hb | hb <;> omega, ?_⟩
  rcases hs with hs | ⟨e, he, hse⟩
  · rcases hd p hs with h1 | ⟨h1, -, -⟩
    · exact Or.inl h1
    · omega
  · rcases hh p e he with h1 | ⟨e1, h1, hev⟩
    · exact Or.inl h1
    · exact Or.inr ⟨e1, h1, hev.2.2 rfl hse⟩

theorem get_step_grows {ops : upcall_cache_ops} {key args : Nat} {e : Susp} {pc pc1 : GetPC}
    {c c1 : upcall_cache} (hf : Fresh c) (h : get_step ops key args e pc c = some (pc1, c1)) :
    Grows true c c1 := by
  cases pc with
  | ret r =>
    simp only [get_step, Option.some.injEq, Prod.mk.injEq] at h
    rw [← h.2]; exact (Safe.safe_refl true c).grows
  | find_again fa => exact (Safe.of_get_find h).grows
  | do_alloc fa =>
    simp only [get_step] at h
    split at h
    · exact alloc_step_grows hf h
    · simp only [Option.some.injEq, Prod.mk.injEq] at h
      rw [← h.2]; exact (Safe.safe_refl true c).grows
  | do_upcall entry new fa => exact (Safe.of_get_after_upcall h).grows
  | do_wait entry new fa => exact (Safe.of_get_after_wait h).grows

theorem get_run_alone {ops : upcall_cache_ops} {key args p : Nat} :
    ∀ (outs : List (Bool × Int × Int)) (pc : GetPC) (c c1 : upcall_cache) (r : Except Int Nat),
      Fresh c → p < c.brk → (c.heap p = none ∨ ∃ e, c.heap p = some e ∧ SettledBad e) →
      get_run ops key args (outs.map Susp.alone) pc c = some (r, c1) →
      c1.heap p = none ∨ ∃ e, c1.heap p = some e ∧ SettledBad e := by
  intro outs
  induction outs with
  | nil =>
    intro pc c c1 r _ _ hs h
    cases pc with
    | ret r0 =>
      simp only [List.map_nil, get_run, Option.some.injEq, Prod.mk.injEq] at h
      rw [← h.2]; exact hs
    | _ => simp [get_run] at h
  | cons o rest ih =>
    intro pc c c1 r hf hp hs h
    by_cases hret : ∃ r0, pc = GetPC.ret r0
    · obtain ⟨r0, rfl⟩ := hret
      simp only [List.map_cons, get_run, Option.some.injEq, Prod.mk.injEq] at h
      rw [← h.2]; exact hs
    · have hstep : get_run ops key args (List.map Susp.alone (o :: rest)) pc c =
          match get_step ops key args (Susp.alone o) pc c with
          | none => none
          | some (pc1, c2) => get_run ops key args (rest.map Susp.alone) pc1 c2 := by
        cases pc with
        | ret r0 => exact absurd ⟨r0, rfl⟩ hret
        | _ => rfl
      rw [hstep] at h
      cases hg : get_step ops key args (Susp.alone o) pc c with
      | none => simp [hg] at h
      | some x =>
        obtain ⟨pc1, c2⟩ := x
        simp only [hg] at h
        have hgr := get_step_grows hf hg
        obtain ⟨hp2, hs2⟩ := hgr.grows_bad hp hs
        exact ih pc1 c2 c1 r (hgr.fresh hf) hp2 hs2 h

theorem Safe.safe_bad {c c1 : upcall_cache} (h : Safe true c c1) {p : Nat}
    (hs : c.heap p = none ∨ ∃ e, c.heap p = some e ∧ SettledBad e) :
    c1.heap p = none ∨ ∃ e, c1.heap p = some e ∧ SettledBad e := by
  rcases hs with hs | ⟨e, he, hse⟩
  · exact Or.inl (h.2.2.1 p hs)
  · rcases h.2.1 p e he with h1 | ⟨e1, h1, hev⟩
    · exact Or.inl h1
    · exact Or.inr ⟨e1, h1, hev.2.2 rfl hse⟩

/-- When `upcall_cache_downcall` drops the lock to call `parse_downcall`, the entry is
allocated and neither INVALID nor EXPIRED. -/
theorem downcall_start_parse {ops : upcall_cache_ops} {c c1 : upcall_cache}
    {err key args entry : Nat}
    (h : downcall_start ops c err key args = some (DownPC.do_parse entry, c1)) :
    ∃ e, c1.heap entry = some e ∧ ¬ SettledBad e := by
  have hout : ∀ (c2 c3 : upcall_cache) (q : Nat) (rc : Int),
      downcall_out c2 q rc ≠ some (DownPC.do_parse entry, c3) := by
    intro c2 c3 q rc hh
    cases hq : c2.heap q with
    | none => simp [downcall_out, hq] at hh
    | some e =>
      simp only [downcall_out, hq] at hh
      split at hh <;> simp at hh
  simp only [downcall_start] at h
  cases hl : downcall_loop ops key args (emit c Event.lock)
      ((emit c Event.lock).uc_hashtable (UC_CACHE_HASH_INDEX key c.uc_hashsize)) with
  | none => simp [hl] at h
  | some res =>
    cases res with
    | none => simp [hl] at h
    | some q =>
      simp only [hl] at h
      cases hge : get_entry (emit c Event.lock) q with
      | none => simp [hge] at h
      | some c2 =>
        simp only [hge] at h
        cases hp : c2.heap q with
        | none => simp [hp] at h
        | some e =>
          simp only [hp] at h
          split at h
          · exact absurd h (hout _ _ _ _)
          · split at h
            · exact absurd h (hout _ _ _ _)
            · split at h
              · exact absurd h (hout _ _ _ _)
              · rename_i hbad
                simp only [Option.some.injEq, Prod.mk.injEq, DownPC.do_parse.injEq] at h
                obtain ⟨h1, h2⟩ := h
                subst h1 h2
                refine ⟨e, hp, ?_⟩
                intro hb
                apply hbad
                rcases hb with hb | hb <;> simp only [hb, Bool.or_true, Bool.true_or]

theorem settledBad_not_valid {e : upcall_cache_entry} (h : SettledBad e) :
    UC_CACHE_IS_VALID e = false := by
  have hne : e.ue_flags ≠ 0 := by
    rcases h with h | h
    · exact testBit_ne_zero (k := 2) (by simpa using h)
    · exact testBit_ne_zero (k := 3) (by simpa using h)
  simpa using hne

theorem update_entry_bad {c c1 : upcall_cache} {entry : Nat} {expire : Int} {state p : Nat}
    (hst : state ≠ 0) (h : upcall_cache_update_entry c entry expire state = some c1)
    (hs : c.heap p = none ∨ ∃ e, c.heap p = some e ∧ SettledBad e) :
    c1.heap p = none ∨ ∃ e, c1.heap p = some e ∧ SettledBad e := by
  simp only [upcall_cache_update_entry] at h
  cases hq : (emit c Event.lock).heap entry with
  | none => simp [hq] at h
  | some e0 =>
    have hq0 : c.heap entry = some e0 := hq
    simp only [hq, Option.some.injEq] at h
    subst h
    have hz : (state == 0) = false := by simpa using hst
    simp only [hz, Bool.false_eq_true, if_false]
    by_cases hpe : p = entry
    · subst hpe
      rcases hs with hs | ⟨e, he, hse⟩
      · rw [hq0] at hs; cases hs
      · rw [hq0] at he; cases he
        refine Or.inr ⟨{ e0 with ue_expire := expire, ue_flags := e0.ue_flags ||| state },
          by simp [emit, store], ?_⟩
        unfold SettledBad at hse ⊢
        simp at hse ⊢
        tauto
    · rcases hs with hs | ⟨e, he, hse⟩
      · left
        simp [emit, store, Function.update, hpe, hs]
      · exact Or.inr ⟨e, by simp [emit, store, Function.update, hpe, he], hse⟩

theorem downcall_quiet_bad {ops : upcall_cache_ops} {c c1 : upcall_cache}
    {err key args p : Nat} {rc : Int}
    (h : upcall_cache_downcall ops DownEnv.quiet c err key args = some (rc, c1))
    (hs : c.heap p = none ∨ ∃ e, c.heap p = some e ∧ SettledBad e) :
    c1.heap p = none ∨ ∃ e, c1.heap p = some e ∧ SettledBad e := by
  simp only [upcall_cache_downcall] at h
  cases hst : downcall_start ops c err key args with
  | none => simp [hst] at h
  | some x =>
    obtain ⟨pc, c2⟩ := x
    simp only [hst] at h
    have hs2 := (Safe.of_downcall_start (s := true) hst).safe_bad hs
    cases pc with
    | ret r =>
      simp only [downcall_run, Option.some.injEq, Prod.mk.injEq] at h
      rw [← h.2]; exact hs2
    | do_test entry r => simp [downcall_run] at h
    | do_free entry r => simp [downcall_run] at h
    | do_put entry r =>
      have h1 : downcall_finish id id c2 entry r = some (rc, c1) := h
      exact (Safe.of_downcall_finish (s := true) h1).safe_bad hs2
    | do_parse entry =>
      obtain ⟨e, he, hgood⟩ := downcall_start_parse hst
      have h1 : (match downcall_parse ops c2 entry args with
          | none => none
          | some (DownPC.do_put entry1 r, c3) => downcall_finish id id c3 entry1 r
          | some (DownPC.ret r, c3) => some (r, c3)
          | some (_, _) => none) = some (rc, c1) := h
      cases hpa : downcall_parse ops c2 entry args with
      | none => simp [hpa] at h1
      | some y =>
        obtain ⟨pc3, c3⟩ := y
        have hs3 := (Safe.of_downcall_parse (s := true) he (fun _ => hgood) hpa).safe_bad hs2
        cases pc3 with
        | ret r =>
          simp only [hpa, Option.some.injEq, Prod.mk.injEq] at h1
          rw [← h1.2]; exact hs3
        | do_put entry1 r =>
          simp only [hpa] at h1
          exact (Safe.of_downcall_finish (s := true) h1).safe_bad hs3
        | do_parse entry1 => simp [hpa] at h1
        | do_test entry1 r => simp [hpa] at h1
        | do_free entry1 r => simp [hpa] at h1

/-- C17 (amended): settled-bad is absorbing for every public operation that runs alone
(no other thread acts while it runs), except `upcall_cache_update_entry` called with
`state = 0`.  In a state whose memory above the allocator is unused, an entry that is
INVALID or EXPIRED before such an operation (a lookup with any outcomes of its blocking
calls, a put, an update with `state ≠ 0`, a downcall, a flush, a flush_one) is afterwards
either freed or still INVALID or EXPIRED, hence not VALID. -/
theorem settled_bad_absorbing (ops : upcall_cache_ops) (c c1 : upcall_cache) (op : Op)
    (p : Nat) (e : upcall_cache_entry) (hfresh : Fresh c)
    (hop : ∀ entry expire, op ≠ Op.update entry expire 0)
    (hrun : run_op ops c op = some c1) (hp : c.heap p = some e) (hbad : SettledBad e) :
    c1.heap p = none ∨
      ∃ e1, c1.heap p = some e1 ∧ SettledBad e1 ∧ UC_CACHE_IS_VALID e1 = false := by
  have hs : c.heap p = none ∨ ∃ e0, c.heap p = some e0 ∧ SettledBad e0 := Or.inr ⟨e, hp, hbad⟩
  have key : c1.heap p = none ∨ ∃ e1, c1.heap p = some e1 ∧ SettledBad e1 := by
    cases op with
    | get key args outs =>
      simp only [run_op, upcall_cache_get_entry] at hrun
      cases hg : get_find ops c key args none false with
      | none => simp [hg] at hrun
      | some x =>
        obtain ⟨pc, c2⟩ := x
        simp only [hg] at hrun
        cases hr : get_run ops key args (List.map Susp.alone outs) pc c2 with
        | none => simp [hr] at hrun
        | some y =>
          obtain ⟨r, c3⟩ := y
          simp only [hr, Option.map_some', Option.some.injEq] at hrun
          subst hrun
          have hsafe : Safe true c c2 := Safe.of_get_find hg
          have hp0 : p < c.brk := by
            by_contra hlt
            rw [hfresh p (by omega)] at hp
            cases hp
          exact get_run_alone outs pc c2 c3 r (hsafe.grows.fresh hfresh)
            (by rw [hsafe.1]; exact hp0) (hsafe.safe_bad hs) hr
    | put entry => exact (Safe.of_put (s := true) hrun).safe_bad hs
    | update entry expire state =>
      have hst : state ≠ 0 := by
        rintro rfl
        exact hop entry expire rfl
      exact update_entry_bad hst hrun hs
    | downcall err key args =>
      simp only [run_op] at hrun
      cases hd : upcall_cache_downcall ops DownEnv.quiet c err key args with
      | none => simp [hd] at hrun
      | some x =>
        obtain ⟨rc, c2⟩ := x
        simp only [hd, Option.map_some', Option.some.injEq] at hrun
        subst hrun
        exact downcall_quiet_bad hd hs
    | flush force => exact (Safe.of_flush (s := true) hrun).safe_bad hs
    | flush_one key args => exact (Safe.of_flush_one (s := true) hrun).safe_bad hs
  rcases key with h | ⟨e1, h1, h2⟩
  · exact Or.inl h
  · exact Or.inr ⟨e1, h1, h2, settledBad_not_valid h2⟩

/-- Witness for C17 (amended): the EXPIRED demo entry, held by one caller, is still
EXPIRED after a lookup of its key (which unlinks it and allocates a new entry). -/
theorem settled_bad_absorbing_witness :
    ∃ c1, run_op demo_ops (demo_cache_with (UC_CACHE_SET_EXPIRED demo_valid))
        (Op.get 42 0 [(true, 0, 0), (true, 0, 0), (true, 0, 0)]) = some c1 ∧
      (c1.heap 100 = none ∨
        ∃ e1, c1.heap 100 = some e1 ∧ SettledBad e1 ∧ UC_CACHE_IS_VALID e1 = false) :=
  ⟨_, rfl, settled_bad_absorbing demo_ops (demo_cache_with (UC_CACHE_SET_EXPIRED demo_valid)) _
    (Op.get 42 0 [(true, 0, 0), (true, 0, 0), (true, 0, 0)]) 100
    (UC_CACHE_SET_EXPIRED demo_valid) (demo_cache_fresh _) (by intro _ _ h; cases h) rfl rfl
    (Or.inr rfl)⟩

/-- Counterexample to C17 as stated.  (1) `upcall_cache_update_entry` with `state = 0` on
the EXPIRED demo entry makes it VALID again.  (2) A downcall finds the demo entry
ACQUIRING and calls `parse_downcall` without the lock; meanwhile a non-forced flush marks
the entry EXPIRED; the downcall takes the lock again and sets the entry VALID. -/
theorem settled_bad_revived :
    SettledBad (UC_CACHE_SET_EXPIRED demo_valid) ∧
    (upcall_cache_update_entry (demo_cache_with (UC_CACHE_SET_EXPIRED demo_valid)) 100 3000 0).map
      (fun c => (c.heap 100).map UC_CACHE_IS_VALID) = some (some true) ∧
    (sys_run demo_ops (demo_sys (demo_cache_with demo_acquiring))
      [Action.down_call 0 42 0, Action.flush 0]).map
      (fun σ => (σ.cache.heap 100).map UC_CACHE_IS_EXPIRED) = some (some true) ∧
    (sys_run demo_ops (demo_sys (demo_cache_with demo_acquiring))
      [Action.down_call 0 42 0, Action.flush 0, Action.down_resume 0]).map
      (fun σ => (σ.cache.heap 100).map UC_CACHE_IS_VALID) = some (some true) :=
  ⟨Or.inr rfl, rfl, rfl, rfl⟩

/-! ## The keep/evict policy of check_unlink_entry -/

theorem keep_entry_iff (now : Int) (e : upcall_cache_entry) :
    keep_entry now e = true ↔
      (UC_CACHE_IS_VALID e = true ∧ now < e.ue_expire) ∨
      (UC_CACHE_IS_ACQUIRING e = true ∧ (e.ue_acquire_expire = 0 ∨ now < e.ue_acquire_expire)) := by
  simp [keep_entry]

theorem expire_entry_bad (e : upcall_cache_entry) : SettledBad (expire_entry e) := by
  unfold expire_entry SettledBad
  by_cases ha : e.ue_flags.testBit 1 = true <;> by_cases hi : e.ue_flags.testBit 2 = true <;>
    simp [ha, hi]

/-- C21: the keep/evict policy of `check_unlink_entry` on an allocated entry.  It returns
0 exactly when the entry is VALID with `now < ue_expire`, or ACQUIRING with
`ue_acquire_expire == 0` or `now < ue_acquire_expire`, and then the state is unchanged.
In every other case it returns 1, the entry is on no chain any more (all chains are the
old ones without it), no other entry is touched, the entry is freed (at refcount 0) if and
only if its refcount was 0, and when it is not freed it carries INVALID or EXPIRED, its
refcount unchanged. -/
theorem check_unlink_policy (c : upcall_cache) (p : Nat) (e : upcall_cache_entry)
    (hp : c.heap p = some e) :
    (∃ r c1, check_unlink_entry c p = some (r, c1) ∧
      (r = false ↔
        ((UC_CACHE_IS_VALID e = true ∧ c.now < e.ue_expire) ∨
         (UC_CACHE_IS_ACQUIRING e = true ∧
          (e.ue_acquire_expire = 0 ∨ c.now < e.ue_acquire_expire)))) ∧
      (r = false → c1 = c) ∧
      (r = true →
        (∀ i, p ∉ c1.uc_hashtable i) ∧
        (∀ i, c1.uc_hashtable i = (c.uc_hashtable i).filter (fun q => q != p)) ∧
        (∀ q, q ≠ p → c1.heap q = c.heap q) ∧
        (c1.heap p = none ↔ e.ue_refcount = 0) ∧
        (e.ue_refcount = 0 → frees c1.trace = frees c.trace ++ [(p, 0)]) ∧
        (e.ue_refcount ≠ 0 → frees c1.trace = frees c.trace ∧
          ∃ e1, c1.heap p = some e1 ∧ SettledBad e1 ∧ e1.ue_refcount = e.ue_refcount))) := by
  cases hk : keep_entry c.now e with
  | true =>
    refine ⟨false, c, check_unlink_entry_keep hp hk, ?_, fun _ => rfl, (fun h => by cases h)⟩
    simp only [true_iff]
    exact (keep_entry_iff c.now e).1 hk
  | false =>
    obtain ⟨c1, h1, -, hoth, htab, -, -, -, hz, hnz⟩ := check_unlink_entry_evict hp hk
    refine ⟨true, c1, h1, ?_, (fun h => by cases h), fun _ => ⟨?_, htab, hoth, ?_, fun h => (hz h).2,
      fun h => ⟨(hnz h).2, expire_entry e, (hnz h).1, expire_entry_bad e, by simp⟩⟩⟩
    · constructor
      · intro h; cases h
      · intro h
        rw [(keep_entry_iff c.now e).2 h] at hk
        cases hk
    · intro i
      rw [htab i]
      simp
    · constructor
      · intro h
        by_contra hr
        rw [(hnz hr).1] at h
        cases h
      · intro h; exact (hz h).1

/-- Witness for C21: at time 2000 the demo entry has expired; `check_unlink_entry` unlinks
it and, its refcount being 1, leaves it allocated with EXPIRED set. -/
theorem check_unlink_policy_witness :
    ∃ c1, check_unlink_entry (tick 1000 demo_cache) 100 = some (true, c1) ∧
      c1.uc_hashtable 2 = [] ∧ (c1.heap 100).map UC_CACHE_IS_EXPIRED = some true := by
  obtain ⟨r, c1, h1, h2, -, h4⟩ := check_unlink_policy (tick 1000 demo_cache) 100 demo_valid rfl
  have hr : r = true := by
    cases r with
    | true => rfl
    | false =>
      have h5 := h2.1 rfl
      simp [demo_valid, tick, demo_cache, demo_cache_with] at h5
  subst hr
  have h6 : check_unlink_entry (tick 1000 demo_cache) 100 = some (true, c1) := h1
  have h7 : c1 = (list_del (store (tick 1000 demo_cache) 100 (UC_CACHE_SET_EXPIRED demo_valid))
      100) := by
    have h8 : check_unlink_entry (tick 1000 demo_cache) 100 = some (true,
      list_del (store (tick 1000 demo_cache) 100 (UC_CACHE_SET_EXPIRED demo_valid)) 100) := rfl
    rw [h8] at h6
    simp only [Option.some.injEq, Prod.mk.injEq, true_and] at h6
    exact h6.symm
  subst h7
  exact ⟨_, h1, rfl, rfl⟩

/-- C23 (amended): acquire-deadline expiry.  When `check_unlink_entry` is applied to an
allocated ACQUIRING entry with `ue_acquire_expire != 0` and `now >= ue_acquire_expire`, it
returns 1, the waiters of the entry are woken, and the entry is on no chain any more.  If
somebody holds the entry (refcount not 0) it stays allocated with EXPIRED set and
ACQUIRING still set: the flag is not cleared.  If nobody holds it, it is freed. -/
theorem acquire_deadline_expiry (c : upcall_cache) (p : Nat) (e : upcall_cache_entry)
    (hp : c.heap p = some e) (ha : UC_CACHE_IS_ACQUIRING e = true)
    (hne : e.ue_acquire_expire ≠ 0) (hdl : e.ue_acquire_expire ≤ c.now) :
    ∃ c1, check_unlink_entry c p = some (true, c1) ∧
      (∀ i, p ∉ c1.uc_hashtable i) ∧
      c1.trace = c.trace ++ [Event.wake p] ++
        (if e.ue_refcount = 0 then [Event.free p 0] else []) ∧
      (e.ue_refcount ≠ 0 →
        c1.heap p = some (UC_CACHE_SET_EXPIRED e) ∧
        UC_CACHE_IS_EXPIRED (UC_CACHE_SET_EXPIRED e) = true ∧
        UC_CACHE_IS_ACQUIRING (UC_CACHE_SET_EXPIRED e) = true) ∧
      (e.ue_refcount = 0 → c1.heap p = none) := by
  have ha1 : e.ue_flags.testBit 1 = true := by simpa using ha
  have hf : e.ue_flags ≠ 0 := testBit_ne_zero ha1
  have hk : keep_entry c.now e = false := by
    simp [keep_entry, hf, ha1, hne, not_lt.2 hdl]
  rw [check_unlink_entry_eq hp, hk]
  by_cases hr : e.ue_refcount = 0
  · simp [hr, ha1, free_entry, list_del, store, emit]
  · simp [hr, ha1, list_del, store, emit]

/-- Witness for C23 (amended): the in-flight demo entry at its deadline (time 1005). -/
theorem acquire_deadline_expiry_witness :
    ∃ c1, check_unlink_entry (tick 5 (demo_cache_with demo_acquiring)) 100 = some (true, c1) ∧
      c1.trace = [Event.wake 100] ∧ c1.heap 100 = some (UC_CACHE_SET_EXPIRED demo_acquiring) := by
  obtain ⟨c1, h1, -, h3, h4, -⟩ :=
    acquire_deadline_expiry (tick 5 (demo_cache_with demo_acquiring)) 100 demo_acquiring rfl rfl
      (by decide) (by decide)
  exact ⟨c1, h1, h3, (h4 (by decide)).1⟩

/-- Counterexample to C23 as stated: after `check_unlink_entry` has expired the in-flight
demo entry at its deadline, the entry is EXPIRED and still ACQUIRING. -/
theorem expired_entry_still_acquiring :
    (check_unlink_entry (tick 5 (demo_cache_with demo_acquiring)) 100).map
      (fun r => (r.1, (r.2.heap 100).map
        (fun e => (UC_CACHE_IS_EXPIRED e, UC_CACHE_IS_ACQUIRING e)))) =
      some (true, some (true, true)) := by
  decide

/-- C26: a stale downcall.  With `err = 0` on a matched entry that is ACQUIRING and also
INVALID or EXPIRED, `upcall_cache_downcall` returns `-EINVAL` without calling
`parse_downcall`; the entry is taken off its chain and marked INVALID with ACQUIRING
cleared; the final `put_entry` frees it when nobody else holds it (refcount 0 before the
call) and otherwise leaves it in that state with its refcount unchanged.  (Stated for a
downcall during which no other thread runs.) -/
theorem downcall_stale (ops : upcall_cache_ops) (c : upcall_cache) (key args : Nat)
    (pre post : List Nat) (p : Nat) (e : upcall_cache_entry)
    (hchain : c.uc_hashtable (UC_CACHE_HASH_INDEX key c.uc_hashsize) = pre ++ p :: post)
    (hpre : ∀ q ∈ pre, ∃ eq, c.heap q = some eq ∧ downcall_compare ops eq key args ≠ 0)
    (hp : c.heap p = some e) (hm : downcall_compare ops e key args = 0)
    (hacq : UC_CACHE_IS_ACQUIRING e = true) (hbad : SettledBad e) :
    ∃ c', upcall_cache_downcall ops DownEnv.quiet c 0 key args = some (-EINVAL, c') ∧
      parses c'.trace = parses c.trace ∧
      (∀ i, p ∉ c'.uc_hashtable i) ∧
      (∀ i, c'.uc_hashtable i = (c.uc_hashtable i).filter (fun q => q != p)) ∧
      c'.heap p = (if e.ue_refcount = 0 then none
        else some (UC_CACHE_CLEAR_ACQUIRING (UC_CACHE_SET_INVALID e))) ∧
      (∀ q, q ≠ p → c'.heap q = c.heap q) ∧
      UC_CACHE_IS_INVALID (UC_CACHE_CLEAR_ACQUIRING (UC_CACHE_SET_INVALID e)) = true ∧
      UC_CACHE_IS_ACQUIRING (UC_CACHE_CLEAR_ACQUIRING (UC_CACHE_SET_INVALID e)) = false ∧
      (UC_CACHE_CLEAR_ACQUIRING (UC_CACHE_SET_INVALID e)).ue_refcount = e.ue_refcount := by
  have ha1 : e.ue_flags.testBit 1 = true := by simpa using hacq
  have hb : (e.ue_flags.testBit 2 || e.ue_flags.testBit 3) = true := by
    rcases hbad with h | h
    · have h2 : e.ue_flags.testBit 2 = true := by simpa using h
      simp [h2]
    · have h3 : e.ue_flags.testBit 3 = true := by simpa using h
      simp [h3]
  have hs := downcall_start_found 0 hchain hpre hp hm
  have hne : (-EINVAL : Int) ≠ 0 := by decide
  simp only [Nat.zero_mod, bne_self_eq_false, Bool.false_eq_true, if_false, is_acquiring_eq,
    ha1, Bool.not_true, is_invalid_eq, is_expired_eq, hb, if_true] at hs
  simp [downcall_out, store, hne] at hs
  have hupd : ∀ (f : Nat → Option upcall_cache_entry) (v : Option upcall_cache_entry) (q : Nat),
      q ≠ p → Function.update f p v q = f q := fun f v q hq => Function.update_noteq hq v f
  by_cases hr : e.ue_refcount = 0
  · simp [upcall_cache_downcall, hs, downcall_run, downcall_finish_quiet, put_entry, resume,
      DownEnv.quiet, emit, list_del, store, free_entry, hr, parses]
    intro q hq
    simp [hupd _ _ q hq]
  · simp [upcall_cache_downcall, hs, downcall_run, downcall_finish_quiet, put_entry, resume,
      DownEnv.quiet, emit, list_del, store, free_entry, hr, parses]
    refine ⟨?_, ?_⟩
    · rfl
    · intro q hq
      simp [hupd _ _ q hq]

/-- Witness for C26: the downcall arrives after the in-flight demo entry was marked
EXPIRED at its deadline. -/
theorem downcall_stale_witness :
    ∃ c', upcall_cache_downcall demo_ops DownEnv.quiet
        (demo_cache_with (UC_CACHE_SET_EXPIRED demo_acquiring)) 0 42 0 = some (-EINVAL, c') ∧
      c'.uc_hashtable 2 = [] ∧
      c'.heap 100 = some (UC_CACHE_CLEAR_ACQUIRING (UC_CACHE_SET_INVALID
        (UC_CACHE_SET_EXPIRED demo_acquiring))) := by
  obtain ⟨c', h1, -, -, h4, h5, -⟩ :=
    downcall_stale demo_ops (demo_cache_with (UC_CACHE_SET_EXPIRED demo_acquiring)) 42 0 [] []
      100 (UC_CACHE_SET_EXPIRED demo_acquiring) rfl (by simp) rfl rfl (by decide)
      (Or.inr (by decide))
  exact ⟨c', h1, by rw [h4 2]; rfl, h5⟩

/-! ## The final expiry check of upcall_cache_get_entry -/

theorem get_tail_fires {c : upcall_cache} {q : Nat} {e : upcall_cache_entry} (new : Option Nat)
    (fa : Bool) (hq : c.heap q = some e) (hacq : UC_CACHE_IS_ACQUIRING e = false)
    (hinv : UC_CACHE_IS_INVALID e = false) (hk : keep_entry c.now e = false)
    (hr : 1 ≤ e.ue_refcount) :
    (new = some q →
      get_tail c q new fa = some (GetPC.ret (Except.ok q),
        emit (list_del (store c q (UC_CACHE_SET_EXPIRED e)) q) Event.unlock)) ∧
    (new ≠ some q →
      ∃ c1, get_tail c q new fa = some (GetPC.find_again fa, c1) ∧
        (∀ i, q ∉ c1.uc_hashtable i) ∧
        c1.heap q = (if e.ue_refcount = 1 then none
          else some { UC_CACHE_SET_EXPIRED e with ue_refcount := e.ue_refcount - 1 }) ∧
        frees c1.trace = frees c.trace ++ (if e.ue_refcount = 1 then [(q, 0)] else [])) := by
  have ha1 : e.ue_flags.testBit 1 = false := by simpa using hacq
  have hi2 : e.ue_flags.testBit 2 = false := by simpa using hinv
  have hr0 : e.ue_refcount ≠ 0 := by omega
  have hcu : check_unlink_entry c q =
      some (true, list_del (store c q (UC_CACHE_SET_EXPIRED e)) q) := by
    rw [check_unlink_entry_eq hq, hk]
    simp [ha1, hi2, hr0]
  constructor
  · intro hn
    simp [get_tail, hq, hi2, hcu, hn]
  · intro hn
    have hn1 : (new != some q) = true := by simpa using hn
    by_cases h1 : e.ue_refcount = 1
    · simp [get_tail, hq, hi2, hcu, hn1, put_entry, list_del, store, free_entry, emit, h1, frees]
    · have h2 : ¬ e.ue_refcount - 1 = 0 := by omega
      simp [get_tail, hq, hi2, hcu, hn1, put_entry, list_del, store, free_entry, emit, h1, h2,
        frees]

/-- C27: the creator's first use.  A `upcall_cache_get_entry` call comes back from its
sleep on an entry it holds (refcount at least 1) that is neither ACQUIRING nor INVALID,
and the final `check_unlink_entry` fires on it (the entry has expired).  If the call
created the entry (`entry == new`), the entry is returned to the caller: it is taken off
its chain and marked EXPIRED, but not freed, and its refcount (the caller's reference
included) is unchanged.  If the call did not create the entry, the reference is released
(the entry is freed when that was the last one) and the lookup restarts at `find_again`
with the retry flag unchanged; the entry is not returned. -/
theorem creator_first_use (ops : upcall_cache_ops) (key args : Nat) (s : Susp)
    (c : upcall_cache) (q : Nat) (new : Option Nat) (fa : Bool) (e : upcall_cache_entry)
    (hq : c.heap q = some e) (hacq : UC_CACHE_IS_ACQUIRING e = false)
    (hinv : UC_CACHE_IS_INVALID e = false) (hk : keep_entry c.now e = false)
    (hr : 1 ≤ e.ue_refcount) :
    (new = some q →
      ∃ c1, get_step ops key args s (GetPC.do_wait q new fa) c =
          some (GetPC.ret (Except.ok q), c1) ∧
        c1.heap q = some (UC_CACHE_SET_EXPIRED e) ∧
        (UC_CACHE_SET_EXPIRED e).ue_refcount = e.ue_refcount ∧
        (∀ i, q ∉ c1.uc_hashtable i) ∧ frees c1.trace = frees c.trace) ∧
    (new ≠ some q →
      ∃ c1, get_step ops key args s (GetPC.do_wait q new fa) c =
          some (GetPC.find_again fa, c1) ∧
        (∀ i, q ∉ c1.uc_hashtable i) ∧
        c1.heap q = (if e.ue_refcount = 1 then none
          else some { UC_CACHE_SET_EXPIRED e with ue_refcount := e.ue_refcount - 1 }) ∧
        frees c1.trace = frees c.trace ++ (if e.ue_refcount = 1 then [(q, 0)] else [])) := by
  have ha1 : e.ue_flags.testBit 1 = false := by simpa using hacq
  have hq1 : (emit c Event.lock).heap q = some e := hq
  have hstep : get_step ops key args s (GetPC.do_wait q new fa) c =
      get_tail (emit c Event.lock) q new fa := by
    simp [get_step, get_after_wait, hq1, ha1]
  obtain ⟨h1, h2⟩ := get_tail_fires (c := emit c Event.lock) new fa hq1 hacq hinv hk hr
  constructor
  · intro hn
    refine ⟨_, by rw [hstep]; exact h1 hn, ?_, by simp, ?_, ?_⟩
    · simp [emit, list_del, store]
    · intro i
      simp [emit, list_del, store]
    · simp [emit, list_del, store, frees]
  · intro hn
    obtain ⟨c1, h3, h4, h5, h6⟩ := h2 hn
    refine ⟨c1, by rw [hstep]; exact h3, h4, h5, ?_⟩
    rw [h6]
    simp [emit, frees]

/-- Witness for C27: the VALID demo entry has expired when its creator (the only holder)
comes back from the sleep: the creator gets it, EXPIRED and unlinked. -/
theorem creator_first_use_witness :
    ∃ c1, get_step demo_ops 42 0 Susp.quiet (GetPC.do_wait 100 (some 100) false)
        (tick 1000 demo_cache) = some (GetPC.ret (Except.ok 100), c1) ∧
      c1.heap 100 = some (UC_CACHE_SET_EXPIRED demo_valid) := by
  obtain ⟨c1, h1, h2, -⟩ :=
    (creator_first_use demo_ops 42 0 Susp.quiet (tick 1000 demo_cache) 100 (some 100) false
      demo_valid rfl rfl rfl (by decide) (by decide)).1 rfl
  exact ⟨c1, h1, h2⟩

/-! ## The refcount assertion of upcall_cache_flush -/

theorem flush_chain_forced_zero {force : Int} (hf : force ≠ 0) :
    ∀ (l : List Nat) (c c1 : upcall_cache), l.Nodup → flush_chain force l c = some c1 →
      ∀ p ∈ l, zero_ref c p = true := by
  intro l
  induction l with
  | nil => intro c c1 _ _ p hp; simp at hp
  | cons q rest ih =>
    intro c c1 hnd h p hp
    obtain ⟨hq, hndrest⟩ := List.nodup_cons.1 hnd
    have hf0 : (force == 0) = false := by simpa using hf
    cases hh : c.heap q with
    | none => simp [flush_chain, hh] at h
    | some e =>
      simp only [flush_chain, hh, hf0, Bool.false_and, Bool.false_eq_true, if_false] at h
      split at h
      · cases h
      · rename_i hr
        have hr0 : e.ue_refcount = 0 := by simpa using hr
        cases hfe : free_entry c q with
        | none => simp [hfe] at h
        | some c2 =>
          simp only [hfe] at h
          rcases List.mem_cons.1 hp with rfl | hp1
          · simp [zero_ref, hh, hr0]
          · have hne : p ≠ q := fun hpq => hq (hpq ▸ hp1)
            have h2 := ih c2 c1 hndrest h p hp1
            simp only [free_entry, hh, Option.some.injEq] at hfe
            subst hfe
            simpa [zero_ref, Function.update, hne] using h2

theorem flush_buckets_forced_zero {force : Int} (hf : force ≠ 0) :
    ∀ (is : List Nat) (c c1 : upcall_cache), (chain_ptrs c is).Nodup →
      (∀ p ∈ chain_ptrs c is, ∃ e, c.heap p = some e) →
      flush_buckets force is c = some c1 → ∀ p ∈ chain_ptrs c is, zero_ref c p = true := by
  intro is
  induction is with
  | nil => intro c c1 _ _ _ p hp; simp [chain_ptrs] at hp
  | cons i rest ih =>
    intro c c1 hnd halive h p hp
    simp only [chain_ptrs] at hnd halive hp
    obtain ⟨hnd1, hnd2, hdisj⟩ := List.nodup_append.1 hnd
    simp only [flush_buckets] at h
    cases hfc : flush_chain force (c.uc_hashtable i) c with
    | none => simp [hfc] at h
    | some c2 =>
      simp only [hfc] at h
      have hz := flush_chain_forced_zero hf (c.uc_hashtable i) c c2 hnd1 hfc
      rcases List.mem_append.1 hp with hp1 | hp2
      · exact hz p hp1
      · obtain ⟨c3, h1, -, htab1, -, hoth1, -⟩ :=
          flush_chain_spec force (c.uc_hashtable i) c hnd1
            (fun q hq => halive q (List.mem_append_left _ hq)) (fun _ => hz)
        rw [hfc] at h1
        cases h1
        have hnot1 : ∀ q, q ∈ chain_ptrs c rest → q ∉ c.uc_hashtable i :=
          fun q hq hqi => hdisj hqi hq
        have htabrest : ∀ j ∈ rest, c2.uc_hashtable j = c.uc_hashtable j := by
          intro j hj
          rw [htab1 j, List.filter_eq_self]
          intro q hq
          have : q ∉ c.uc_hashtable i := hnot1 q (mem_chain_ptrs.2 ⟨j, hj, hq⟩)
          simp [this]
        have hcp : chain_ptrs c2 rest = chain_ptrs c rest := chain_ptrs_congr htabrest
        have h2 := ih c2 c1 (by rw [hcp]; exact hnd2)
          (by
            intro q hq
            rw [hcp] at hq
            rw [hoth1 q (hnot1 q hq)]
            exact halive q (List.mem_append_right _ hq))
          h p (by rw [hcp]; exact hp2)
        rw [zero_ref_congr (hoth1 p (hnot1 p hp2))] at h2
        exact h2

/-- C30: validity of the refcount assertion in `upcall_cache_flush`, on a well-formed
table (the chains hold pointers to allocated entries, none twice).  With `force = 0` the
flush always completes: the `LASSERT` is only reached for entries whose refcount is 0.
With `force != 0` the flush completes if and only if every entry linked in the table has
refcount 0, and so does `upcall_cache_cleanup` (a forced flush). -/
theorem flush_assertion (c : upcall_cache) (hok : TableOk c) :
    (∃ c1, upcall_cache_flush c 0 = some c1) ∧
    (∀ force : Int, force ≠ 0 →
      ((∃ c1, upcall_cache_flush c force = some c1) ↔
        ∀ i, i < c.uc_hashsize → ∀ p ∈ c.uc_hashtable i,
          ∃ e, c.heap p = some e ∧ e.ue_refcount = 0)) ∧
    ((∃ c1, upcall_cache_cleanup c = some c1) ↔
      ∀ i, i < c.uc_hashsize → ∀ p ∈ c.uc_hashtable i,
        ∃ e, c.heap p = some e ∧ e.ue_refcount = 0) := by
  obtain ⟨hnd, halive⟩ := hok
  have hcp : chain_ptrs (emit c Event.lock) (List.range c.uc_hashsize) =
      chain_ptrs c (List.range c.uc_hashsize) := chain_ptrs_congr (fun _ _ => rfl)
  have hzf : zero_ref (emit c Event.lock) = zero_ref c := rfl
  have hzero : (∀ p ∈ chain_ptrs c (List.range c.uc_hashsize), zero_ref c p = true) ↔
      ∀ i, i < c.uc_hashsize → ∀ p ∈ c.uc_hashtable i,
        ∃ e, c.heap p = some e ∧ e.ue_refcount = 0 := by
    constructor
    · intro h i hi p hp
      have hz := h p (mem_chain_ptrs.2 ⟨i, List.mem_range.2 hi, hp⟩)
      cases hh : c.heap p with
      | none => simp [zero_ref, hh] at hz
      | some e => exact ⟨e, rfl, by simpa [zero_ref, hh] using hz⟩
    · intro h p hp
      obtain ⟨i, hi, hpi⟩ := mem_chain_ptrs.1 hp
      obtain ⟨e, he, hr⟩ := h i (List.mem_range.1 hi) p hpi
      simp [zero_ref, he, hr]
  have hforced : ∀ force : Int, force ≠ 0 →
      ((∃ c1, upcall_cache_flush c force = some c1) ↔
        ∀ p ∈ chain_ptrs c (List.range c.uc_hashsize), zero_ref c p = true) := by
    intro force hf
    constructor
    · rintro ⟨c1, h1⟩
      simp only [upcall_cache_flush] at h1
      cases hfb : flush_buckets force (List.range c.uc_hashsize) (emit c Event.lock) with
      | none => simp [hfb] at h1
      | some c2 =>
        have := flush_buckets_forced_zero hf (List.range c.uc_hashsize) (emit c Event.lock) c2
          (by rw [hcp]; exact hnd) (by rw [hcp]; exact halive) hfb
        rw [hcp, hzf] at this
        exact this
    · intro hz
      obtain ⟨c2, h2, -⟩ := flush_buckets_spec force (List.range c.uc_hashsize)
        (emit c Event.lock) (by rw [hcp]; exact hnd) (by rw [hcp]; exact halive)
        (by rw [hcp, hzf]; exact fun _ => hz)
      exact ⟨emit c2 Event.unlock, by simp only [upcall_cache_flush, h2]; rfl⟩
  refine ⟨?_, fun force hf => (hforced force hf).trans hzero, ?_⟩
  · obtain ⟨c2, h2, -⟩ := flush_buckets_spec 0 (List.range c.uc_hashsize)
      (emit c Event.lock) (by rw [hcp]; exact hnd) (by rw [hcp]; exact halive)
      (fun h => absurd rfl h)
    exact ⟨emit c2 Event.unlock, by simp only [upcall_cache_flush, h2]; rfl⟩
  · exact (hforced 1 (by decide)).trans hzero

/-- Witness for C30: the demo cache is well formed and its entry is held, so the
non-forced flush completes and the forced flush does not. -/
theorem flush_assertion_witness :
    (∃ c1, upcall_cache_flush demo_cache 0 = some c1) ∧
    ¬ (∃ c1, upcall_cache_flush demo_cache 1 = some c1) := by
  have hok : TableOk demo_cache := by
    constructor
    · decide
    · intro p hp
      have : p = 100 := by
        simpa [chain_ptrs, demo_cache, demo_cache_with, List.range, List.range.loop] using hp
      subst this
      exact ⟨demo_valid, rfl⟩
  obtain ⟨h1, h2, -⟩ := flush_assertion demo_cache hok
  refine ⟨h1, fun h => ?_⟩
  obtain ⟨e, he, hr⟩ := (h2 1 (by decide)).1 h 2 (by decide) 100 (by decide)
  have he1 : demo_cache.heap 100 = some demo_valid := rfl
  rw [he1] at he
  cases he
  exact absurd hr (by decide)

/-! ## Where each locked section of the lookup can end -/

theorem get_tail_pc {c c1 : upcall_cache} {q : Nat} {new : Option Nat} {fa : Bool} {pc : GetPC}
    (h : get_tail c q new fa = some (pc, c1)) :
    pc = GetPC.ret (Except.ok q) ∨ pc = GetPC.ret (Except.error (-EIDRM)) ∨
      pc = GetPC.find_again fa := by
  cases hq : c.heap q with
  | none => simp [get_tail, hq] at h
  | some e =>
    simp only [get_tail, hq] at h
    split at h
    · cases hpe : put_entry c q with
      | none => simp [hpe] at h
      | some c2 =>
        simp only [hpe, Option.map_some', Option.some.injEq, Prod.mk.injEq] at h
        exact Or.inr (Or.inl h.1.symm)
    · cases hcu : check_unlink_entry c q with
      | none => simp [hcu] at h
      | some x =>
        obtain ⟨r, c2⟩ := x
        simp only [hcu] at h
        split at h
        · cases hpe : put_entry c2 q with
          | none => simp [hpe] at h
          | some c3 =>
            simp only [hpe, Option.map_some', Option.some.injEq, Prod.mk.injEq] at h
            exact Or.inr (Or.inr h.1.symm)
        · simp only [Option.some.injEq, Prod.mk.injEq] at h
          exact Or.inl h.1.symm

theorem get_acquiring_pc {c c1 : upcall_cache} {q : Nat} {new : Option Nat} {fa : Bool}
    {pc : GetPC} (h : get_acquiring c q new fa = some (pc, c1)) :
    pc = GetPC.do_wait q new fa ∨ pc = GetPC.ret (Except.ok q) ∨
      pc = GetPC.ret (Except.error (-EIDRM)) ∨ pc = GetPC.find_again fa := by
  cases hq : c.heap q with
  | none => simp [get_acquiring, hq] at h
  | some e =>
    simp only [get_acquiring, hq] at h
    split at h
    · simp only [Option.some.injEq, Prod.mk.injEq] at h
      exact Or.inl h.1.symm
    · exact Or.inr (get_tail_pc h)

theorem get_hold_pc {c c1 : upcall_cache} {q : Nat} {new : Option Nat} {fa : Bool}
    {pc : GetPC} (h : get_hold c q new fa = some (pc, c1)) :
    pc = GetPC.do_upcall q new fa ∨ pc = GetPC.do_wait q new fa ∨
      pc = GetPC.ret (Except.ok q) ∨ pc = GetPC.ret (Except.error (-EIDRM)) ∨
      pc = GetPC.find_again fa := by
  cases hge : get_entry c q with
  | none => simp [get_hold, hge] at h
  | some c2 =>
    cases hq : c2.heap q with
    | none => simp [get_hold, hge, hq] at h
    | some e =>
      simp only [get_hold, hge, hq] at h
      split at h
      · simp only [Option.some.injEq, Prod.mk.injEq] at h
        exact Or.inl h.1.symm
      · exact Or.inr (get_acquiring_pc h)

theorem get_after_upcall_pc {c c1 : upcall_cache} {q : Nat} {new : Option Nat} {fa : Bool}
    {rc : Int} {pc : GetPC} (h : get_after_upcall c q new fa rc = some (pc, c1)) :
    pc = GetPC.ret (Except.error rc) ∨ pc = GetPC.do_wait q new fa ∨
      pc = GetPC.ret (Except.ok q) ∨ pc = GetPC.ret (Except.error (-EIDRM)) ∨
      pc = GetPC.find_again fa := by
  cases hq : (emit c Event.lock).heap q with
  | none => simp [get_after_upcall, hq] at h
  | some e =>
    simp only [get_after_upcall, hq] at h
    split at h
    · split at h
      · cases hpe : put_entry (emit (store (emit c Event.lock) q (UC_CACHE_SET_INVALID
            (UC_CACHE_CLEAR_ACQUIRING { e with ue_acquire_expire := (emit c Event.lock).now +
              (emit c Event.lock).uc_acquire_expire }))) (Event.wake q)) q with
        | none => simp [hpe] at h
        | some c2 =>
          simp only [hpe, Option.map_some', Option.some.injEq, Prod.mk.injEq] at h
          exact Or.inl h.1.symm
      · exact Or.inr (get_acquiring_pc h)
    · exact Or.inr (get_acquiring_pc h)

theorem get_after_wait_pc {c c1 : upcall_cache} {q : Nat} {new : Option Nat} {fa : Bool}
    {left : Int} {pc : GetPC} (h : get_after_wait c q new fa left = some (pc, c1)) :
    (failed_wait (GetPC.do_wait q new fa) c = true ∧
      ((fa = false ∧ pc = GetPC.find_again true) ∨ pc = GetPC.ret (Except.error (-EINTR)) ∨
        pc = GetPC.ret (Except.error (-ETIMEDOUT)))) ∨
    (failed_wait (GetPC.do_wait q new fa) c = false ∧
      (pc = GetPC.ret (Except.ok q) ∨ pc = GetPC.ret (Except.error (-EIDRM)) ∨
        pc = GetPC.find_again fa)) := by
  cases hq : (emit c Event.lock).heap q with
  | none => simp [get_after_wait, hq] at h
  | some e =>
    have hq0 : c.heap q = some e := hq
    simp only [get_after_wait, hq] at h
    split at h
    · rename_i hacq
      left
      refine ⟨by simp only [failed_wait, hq0]; exact hacq, ?_⟩
      cases hpe : put_entry (emit c Event.lock) q with
      | none => simp [hpe] at h
      | some c2 =>
        simp only [hpe] at h
        cases fa <;> split_ifs at h <;>
          simp only [Option.some.injEq, Prod.mk.injEq] at h <;>
          first
            | (simp [← h.1]; done)
            | simp_all
    · rename_i hacq
      right
      refine ⟨by simp only [failed_wait, hq0]; simpa using hacq, get_tail_pc h⟩

theorem get_find_pc {ops : upcall_cache_ops} {c c1 : upcall_cache} {key args : Nat}
    {new : Option (Nat × upcall_cache_entry)} {fa : Bool} {pc : GetPC}
    (h : get_find ops c key args new fa = some (pc, c1)) :
    pc = GetPC.do_alloc fa ∨ pc = GetPC.find_again fa ∨
      pc = GetPC.ret (Except.error (-EIDRM)) ∨
      ∃ q, (pc = GetPC.do_upcall q none fa ∨ pc = GetPC.do_upcall q (some q) fa ∨
        pc = GetPC.do_wait q none fa ∨ pc = GetPC.do_wait q (some q) fa ∨
        pc = GetPC.ret (Except.ok q)) := by
  simp only [get_find] at h
  cases hfl : find_loop ops key args
      ((emit c Event.lock).uc_hashtable (UC_CACHE_HASH_INDEX key c.uc_hashsize))
      (emit c Event.lock) with
  | none => simp [hfl] at h
  | some x =>
    obtain ⟨res, c2⟩ := x
    simp only [hfl] at h
    have hh : ∀ (c3 : upcall_cache) (q : Nat) (nw : Option Nat),
        (nw = none ∨ nw = some q) → get_hold c3 q nw fa = some (pc, c1) →
        pc = GetPC.do_alloc fa ∨ pc = GetPC.find_again fa ∨
          pc = GetPC.ret (Except.error (-EIDRM)) ∨
          ∃ q, (pc = GetPC.do_upcall q none fa ∨ pc = GetPC.do_upcall q (some q) fa ∨
            pc = GetPC.do_wait q none fa ∨ pc = GetPC.do_wait q (some q) fa ∨
            pc = GetPC.ret (Except.ok q)) := by
      intro c3 q nw hnw hg
      rcases get_hold_pc hg with h1 | h1 | h1 | h1 | h1
      · rcases hnw with rfl | rfl
        · exact Or.inr (Or.inr (Or.inr ⟨q, Or.inl h1⟩))
        · exact Or.inr (Or.inr (Or.inr ⟨q, Or.inr (Or.inl h1)⟩))
      · rcases hnw with rfl | rfl
        · exact Or.inr (Or.inr (Or.inr ⟨q, Or.inr (Or.inr (Or.inl h1))⟩))
        · exact Or.inr (Or.inr (Or.inr ⟨q, Or.inr (Or.inr (Or.inr (Or.inl h1)))⟩))
      · exact Or.inr (Or.inr (Or.inr ⟨q, Or.inr (Or.inr (Or.inr (Or.inr h1)))⟩))
      · exact Or.inr (Or.inr (Or.inl h1))
      · exact Or.inr (Or.inl h1)
    cases res with
    | none =>
      cases new with
      | none =>
        simp only [Option.some.injEq, Prod.mk.injEq] at h
        exact Or.inl h.1.symm
      | some x =>
        obtain ⟨p, obj⟩ := x
        exact hh _ p (some p) (Or.inr rfl) h
    | some entry =>
      cases new with
      | none => exact hh _ entry none (Or.inl rfl) h
      | some x =>
        obtain ⟨p, obj⟩ := x
        exact hh _ entry none (Or.inl rfl) h

/-! ## The retry flag -/

theorem get_step_flag {ops : upcall_cache_ops} {key args : Nat} {s : Susp} {pc pc1 : GetPC}
    {c c1 : upcall_cache} (h : get_step ops key args s pc c = some (pc1, c1)) :
    (pc_failed pc = true → pc_failed pc1 = true) ∧
    (failed_wait pc c = true → pc_is_find_again pc1 = true →
      pc_failed pc = false ∧ pc_failed pc1 = true) := by
  cases pc with
  | ret r =>
    simp only [get_step, Option.some.injEq, Prod.mk.injEq] at h
    rw [← h.1]
    simp [pc_failed, failed_wait]
  | find_again fa =>
    have h0 : get_find ops c key args none fa = some (pc1, c1) := h
    refine ⟨fun hf => ?_, fun hw => by simp [failed_wait] at hw⟩
    rcases get_find_pc h0 with h1 | h1 | h1 | ⟨q, h1 | h1 | h1 | h1 | h1⟩ <;>
      subst h1 <;> first | exact hf | rfl
  | do_alloc fa =>
    refine ⟨fun hf => ?_, fun hw => by simp [failed_wait] at hw⟩
    simp only [get_step] at h
    split at h
    · rcases get_find_pc h with h1 | h1 | h1 | ⟨q, h1 | h1 | h1 | h1 | h1⟩ <;>
        subst h1 <;> first | exact hf | rfl
    · simp only [Option.some.injEq, Prod.mk.injEq] at h
      rw [← h.1]; rfl
  | do_upcall q new fa =>
    have h0 : get_after_upcall c q new fa s.rc = some (pc1, c1) := h
    refine ⟨fun hf => ?_, fun hw => by simp [failed_wait] at hw⟩
    rcases get_after_upcall_pc h0 with h1 | h1 | h1 | h1 | h1 <;>
      subst h1 <;> first | exact hf | rfl
  | do_wait q new fa =>
    have h0 : get_after_wait c q new fa (wait_left c q new s.left) = some (pc1, c1) := h
    rcases get_after_wait_pc h0 with ⟨hw, ⟨hfa, h1⟩ | h1 | h1⟩ | ⟨hw, h1 | h1 | h1⟩
    · subst h1; subst hfa
      exact ⟨fun hf => rfl, fun _ _ => ⟨rfl, rfl⟩⟩
    · subst h1
      exact ⟨fun _ => rfl, fun _ hfa => by simp [pc_is_find_again] at hfa⟩
    · subst h1
      exact ⟨fun _ => rfl, fun _ hfa => by simp [pc_is_find_again] at hfa⟩
    · subst h1
      exact ⟨fun _ => rfl, fun hw1 => by rw [hw] at hw1; cases hw1⟩
    · subst h1
      exact ⟨fun _ => rfl, fun hw1 => by rw [hw] at hw1; cases hw1⟩
    · subst h1
      exact ⟨fun hf => hf, fun hw1 => by rw [hw] at hw1; cases hw1⟩

theorem wait_restarts_bound {ops : upcall_cache_ops} {key args : Nat} :
    ∀ (env : List Susp) (pc : GetPC) (c : upcall_cache),
      wait_restarts ops key args env pc c ≤ (if pc_failed pc = true then 0 else 1) := by
  intro env
  induction env with
  | nil => intro pc c; cases pc <;> simp [wait_restarts]
  | cons s rest ih =>
    intro pc c
    by_cases hret : ∃ r, pc = GetPC.ret r
    · obtain ⟨r, rfl⟩ := hret
      simp [wait_restarts]
    · have hw : wait_restarts ops key args (s :: rest) pc c =
          match get_step ops key args s pc (resume s.interfere c) with
          | none => 0
          | some (pc1, c1) =>
            (if failed_wait pc (resume s.interfere c) && pc_is_find_again pc1 then 1 else 0) +
              wait_restarts ops key args rest pc1 c1 := by
        cases pc with
        | ret r => exact absurd ⟨r, rfl⟩ hret
        | _ => rfl
      rw [hw]
      cases hg : get_step ops key args s pc (resume s.interfere c) with
      | none => simp
      | some x =>
        obtain ⟨pc1, c1⟩ := x
        simp only []
        obtain ⟨h1, h2⟩ := get_step_flag hg
        have ih1 := ih pc1 c1
        by_cases hfw : (failed_wait pc (resume s.interfere c) && pc_is_find_again pc1) = true
        · simp only [Bool.and_eq_true] at hfw
          obtain ⟨h3, h4⟩ := h2 hfw.1 hfw.2
          simp only [h4, if_true] at ih1
          simp [hfw.1, hfw.2, h3]
          omega
        · simp only [hfw, Bool.false_eq_true, if_false, Nat.zero_add]
          by_cases hf : pc_failed pc = true
          · simp only [h1 hf, if_true] at ih1
            simp [hf]; omega
          · simp only [hf, Bool.false_eq_true, if_false]
            split at ih1 <;> omega

theorem get_reach_flag {ops : upcall_cache_ops} {key args : Nat} :
    ∀ (env : List Susp) (pc pc1 : GetPC) (c c1 : upcall_cache),
      get_reach ops key args env pc c = some (pc1, c1) →
      (pc_failed pc = true → pc_failed pc1 = true) ∧
      (1 ≤ wait_restarts ops key args env pc c → pc_failed pc1 = true) := by
  intro env
  induction env with
  | nil =>
    intro pc pc1 c c1 h
    cases pc <;> simp only [get_reach, Option.some.injEq, Prod.mk.injEq] at h <;>
      rw [← h.1] <;> simp [wait_restarts, pc_failed]
  | cons s rest ih =>
    intro pc pc1 c c1 h
    by_cases hret : ∃ r, pc = GetPC.ret r
    · obtain ⟨r, rfl⟩ := hret
      simp only [get_reach, Option.some.injEq, Prod.mk.injEq] at h
      rw [← h.1]
      simp [pc_failed]
    · have hw : wait_restarts ops key args (s :: rest) pc c =
          match get_step ops key args s pc (resume s.interfere c) with
          | none => 0
          | some (pc2, c2) =>
            (if failed_wait pc (resume s.interfere c) && pc_is_find_again pc2 then 1 else 0) +
              wait_restarts ops key args rest pc2 c2 := by
        cases pc with
        | ret r => exact absurd ⟨r, rfl⟩ hret
        | _ => rfl
      have hr : get_reach ops key args (s :: rest) pc c =
          match get_step ops key args s pc (resume s.interfere c) with
          | none => none
          | some (pc2, c2) => get_reach ops key args rest pc2 c2 := by
        cases pc with
        | ret r => exact absurd ⟨r, rfl⟩ hret
        | _ => rfl
      rw [hr] at h
      rw [hw]
      cases hg : get_step ops key args s pc (resume s.interfere c) with
      | none => simp [hg] at h
      | some x =>
        obtain ⟨pc2, c2⟩ := x
        simp only [hg] at h
        simp only []
        obtain ⟨h1, h2⟩ := get_step_flag hg
        obtain ⟨ih1, ih2⟩ := ih pc2 pc1 c2 c1 h
        refine ⟨fun hf => ih1 (h1 hf), fun hcount => ?_⟩
        by_cases hfw : (failed_wait pc (resume s.interfere c) && pc_is_find_again pc2) = true
        · simp only [Bool.and_eq_true] at hfw
          exact ih1 (h2 hfw.1 hfw.2).2
        · simp only [hfw, Bool.false_eq_true, if_false, Nat.zero_add] at hcount
          exact ih2 hcount

/-- C25: bounded retry.  Within one `upcall_cache_get_entry` call, whatever the
environment does and whatever the blocking calls return, the lookup is restarted because
of a failed wait (the entry still ACQUIRING after the sleep) at most once.  Once it has
been restarted for that reason the retry flag is set, and a further failed wait ends the
call at once with `-EINTR` (the sleep was cut short: `schedule_timeout` returned a
positive value) or `-ETIMEDOUT`.  (`pc0`, `c0`: the place and state of the call after its
first locked section, or any later ones.) -/
theorem bounded_retry (ops : upcall_cache_ops) (key args : Nat) (env : List Susp)
    (pc0 : GetPC) (c0 : upcall_cache) :
    wait_restarts ops key args env pc0 c0 ≤ 1 ∧
    (∀ q new fa c1 s, get_reach ops key args env pc0 c0 = some (GetPC.do_wait q new fa, c1) →
      wait_restarts ops key args env pc0 c0 = 1 →
      failed_wait (GetPC.do_wait q new fa) (resume s.interfere c1) = true →
      ∃ c2, get_step ops key args s (GetPC.do_wait q new fa) (resume s.interfere c1) =
        some (GetPC.ret (Except.error
          (if 0 < wait_left (resume s.interfere c1) q new s.left
            then -EINTR else -ETIMEDOUT)), c2)) := by
  constructor
  · have h := @wait_restarts_bound ops key args env pc0 c0
    split at h <;> omega
  · intro q new fa c1 s hreach hcount hfw
    have hflag := (get_reach_flag env pc0 _ c0 c1 hreach).2 (by omega)
    have hfa : fa = true := hflag
    subst hfa
    cases hq : (resume s.interfere c1).heap q with
    | none => simp [failed_wait, hq] at hfw
    | some e =>
      have ha : UC_CACHE_IS_ACQUIRING e = true := by simpa [failed_wait, hq] using hfw
      have hq1 : (emit (resume s.interfere c1) Event.lock).heap q = some e := hq
      obtain ⟨c2, hc2⟩ := put_entry_isSome hq1
      refine ⟨emit c2 Event.unlock, ?_⟩
      simp only [get_step, get_after_wait_acquiring new true _ hq ha, hc2,
        Option.map_some']
      simp

/-- Witness for C25: a waiter on the in-flight demo entry whose sleep is cut short twice
restarts the lookup once and then returns `-EINTR`. -/
theorem bounded_retry_witness :
    ∃ pc0 c0, get_find demo_ops (demo_cache_with demo_acquiring) 42 0 none false =
        some (pc0, c0) ∧
      wait_restarts demo_ops 42 0 demo_two_waits pc0 c0 = 1 ∧
      (get_run demo_ops 42 0 demo_two_waits pc0 c0).map (fun r => r.1) =
        some (Except.error (-EINTR)) ∧
      wait_restarts demo_ops 42 0 demo_two_waits pc0 c0 ≤ 1 :=
  ⟨_, _, rfl, rfl, rfl, (bounded_retry demo_ops 42 0 demo_two_waits _ _).1⟩

/-! ## Waiters at the acquire deadline -/

/-- C24 (amended): with `uc_acquire_replay` off, a `upcall_cache_get_entry` call that comes
back from its sleep and finds the entry still ACQUIRING (no downcall arrived) behaves
according to what `schedule_timeout` returned.  If it returned 0 or less the call returns
`-ETIMEDOUT` and does not retry; if it returned a positive value the wait counts as
interrupted: a first such failure restarts the lookup, a second one returns `-EINTR`.
The creator of the entry sleeps with the timer `uc_acquire_expire`: its sleep returns 0
exactly when nobody woke it before the timer ran out (or the timer is not positive).
Every other waiter sleeps without a bound: whatever happens, also when it is woken at the
deadline, its sleep returns a positive value, so it is never given `-ETIMEDOUT`; it
restarts the lookup, or returns `-EINTR` when this is its second failed wait. -/
theorem acquire_timeout_waiters (ops : upcall_cache_ops) (key args : Nat) (s : Susp)
    (c : upcall_cache) (q : Nat) (new : Option Nat) (fa : Bool) (e : upcall_cache_entry)
    (hq : c.heap q = some e) (ha : UC_CACHE_IS_ACQUIRING e = true)
    (hrep : c.uc_acquire_replay = false) :
    (∃ c1, get_step ops key args s (GetPC.do_wait q new fa) c =
      some (if 0 < wait_left c q new s.left
        then (if fa = false then GetPC.find_again true
          else GetPC.ret (Except.error (-EINTR)))
        else GetPC.ret (Except.error (-ETIMEDOUT)), c1)) ∧
    (new = some q →
      (wait_left c q new s.left ≤ 0 ↔ s.left ≤ 0 ∨ c.uc_acquire_expire ≤ 0)) ∧
    (new ≠ some q →
      0 < wait_left c q new s.left ∧
      ∃ c1, get_step ops key args s (GetPC.do_wait q new fa) c =
        some (if fa = false then GetPC.find_again true
          else GetPC.ret (Except.error (-EINTR)), c1)) := by
  have hq1 : (emit c Event.lock).heap q = some e := hq
  obtain ⟨c2, hc2⟩ := put_entry_isSome hq1
  have hstep : get_step ops key args s (GetPC.do_wait q new fa) c =
      some (if 0 < wait_left c q new s.left
        then (if fa = false then GetPC.find_again true
          else GetPC.ret (Except.error (-EINTR)))
        else GetPC.ret (Except.error (-ETIMEDOUT)), emit c2 Event.unlock) := by
    simp only [get_step, get_after_wait_acquiring new fa _ hq ha, hc2, Option.map_some']
    by_cases hl : 0 < wait_left c q new s.left <;> cases fa <;> simp [hrep, hl]
  refine ⟨⟨_, hstep⟩, fun hn => ?_, fun hn => ?_⟩
  · subst hn
    rw [schedule_timeout_creator]
    unfold cfs_time_seconds HZ
    constructor
    · intro h
      by_contra hc
      push_neg at hc
      have h1 : 0 < min s.left (c.uc_acquire_expire * 1000) := lt_min hc.1 (by omega)
      have h2 := le_max_right 0 (min s.left (c.uc_acquire_expire * 1000))
      omega
    · intro h
      have h1 : min s.left (c.uc_acquire_expire * 1000) ≤ 0 := by
        rcases h with h | h
        · exact le_trans (min_le_left _ _) h
        · exact le_trans (min_le_right _ _) (by omega)
      rw [max_eq_left h1]
  · have hpos : 0 < wait_left c q new s.left := by
      rw [schedule_timeout_waiter hn]; exact max_schedule_timeout_pos
    refine ⟨hpos, emit c2 Event.unlock, ?_⟩
    rw [hstep, if_pos hpos]

/-- Witness for C24 (amended): a waiter that did not create the in-flight demo entry is
not given `-ETIMEDOUT` even when the environment offers no wake-up: its sleep has no
timer, and the call restarts the lookup. -/
theorem acquire_timeout_waiters_witness :
    0 < wait_left (demo_cache_with demo_acquiring) 100 none 0 ∧
    ∃ c1, get_step demo_ops 42 0 Susp.quiet (GetPC.do_wait 100 none false)
        (demo_cache_with demo_acquiring) = some (GetPC.find_again true, c1) :=
  (acquire_timeout_waiters demo_ops 42 0 Susp.quiet (demo_cache_with demo_acquiring) 100
    none false demo_acquiring rfl rfl rfl).2.2 (by decide)

/-- Counterexample to C24 as stated: replay is off; a waiter that did not create the
in-flight demo entry sleeps on it without a bound; at the deadline another lookup marks
the entry EXPIRED (ACQUIRING still set) and wakes the waiter; the waiter's sleep returns
with time remaining, so the waiter is not given `-ETIMEDOUT`: it restarts the lookup. -/
theorem woken_waiter_retries :
    (demo_cache_with demo_acquiring).uc_acquire_replay = false ∧
    wait_expiry (demo_cache_with demo_acquiring) 100 none = MAX_SCHEDULE_TIMEOUT ∧
    (sys_run demo_ops (demo_sys (demo_cache_with demo_acquiring))
      [Action.get_call 42 0, Action.tick 5, Action.get_call 6 0]).map
      (fun σ => (σ.gets.map (fun t => t.pc), (σ.cache.heap 100).map
        (fun e => (UC_CACHE_IS_EXPIRED e, UC_CACHE_IS_ACQUIRING e)),
        decide (Event.wake 100 ∈ σ.cache.trace))) =
      some ([GetPC.do_wait 100 none false, GetPC.do_alloc false], some (true, true), true) ∧
    (sys_run demo_ops (demo_sys (demo_cache_with demo_acquiring)) demo_deadline_run).map
      (fun σ => σ.gets.map (fun t => t.pc)) =
      some [GetPC.find_again true, GetPC.do_alloc false] :=
  ⟨rfl, rfl, rfl, rfl⟩

/-! ## The sweep of the lookup loop -/

theorem find_congr_mem {f g : Nat → Bool} :
    ∀ (l : List Nat), (∀ x ∈ l, f x = g x) → l.find? f = l.find? g := by
  intro l
  induction l with
  | nil => intro _; rfl
  | cons a rest ih =>
    intro h
    have ha := h a (List.mem_cons_self _ _)
    have hr := ih (fun x hx => h x (List.mem_cons_of_mem _ hx))
    simp only [List.find?_cons, ha, hr]

theorem takeWhile_congr_mem {f g : Nat → Bool} :
    ∀ (l : List Nat), (∀ x ∈ l, f x = g x) → l.takeWhile f = l.takeWhile g := by
  intro l
  induction l with
  | nil => intro _; rfl
  | cons a rest ih =>
    intro h
    have ha := h a (List.mem_cons_self _ _)
    have hr := ih (fun x hx => h x (List.mem_cons_of_mem _ hx))
    simp only [List.takeWhile_cons, ha, hr]

theorem mem_of_mem_takeWhile {f : Nat → Bool} {x : Nat} :
    ∀ (l : List Nat), x ∈ l.takeWhile f → x ∈ l := by
  intro l
  induction l with
  | nil => intro h; simp at h
  | cons a rest ih =>
    intro h
    simp only [List.takeWhile_cons] at h
    split at h
    · rcases List.mem_cons.1 h with h1 | h1
      · exact h1 ▸ List.mem_cons_self _ _
      · exact List.mem_cons_of_mem _ (ih h1)
    · simp at h

theorem hits_congr {ops : upcall_cache_ops} {key args : Nat} {c c1 : upcall_cache} {x : Nat}
    (hh : c1.heap x = c.heap x) (hn : c1.now = c.now) :
    hits ops key args c1 x = hits ops key args c x := by
  simp [hits, hh, hn]

theorem kept_congr {c c1 : upcall_cache} {x : Nat}
    (hh : c1.heap x = c.heap x) (hn : c1.now = c.now) : kept c1 x = kept c x := by
  simp [kept, hh, hn]

theorem find_loop_sweep {ops : upcall_cache_ops} {key args : Nat} :
    ∀ (l : List Nat) (c : upcall_cache), l.Nodup → (∀ q ∈ l, ∃ e, c.heap q = some e) →
      ∃ c1, find_loop ops key args l c = some (l.find? (hits ops key args c), c1) ∧
        SameFrame c c1 ∧
        (∀ i, c1.uc_hashtable i = survivors ops key args c l (c.uc_hashtable i)) ∧
        (∀ q ∈ examined ops key args c l, c1.heap q = sweep_entry c.now (c.heap q)) ∧
        (∀ q, q ∉ examined ops key args c l → c1.heap q = c.heap q) ∧
        upcalls c1.trace = upcalls c.trace ∧ allocs c1.trace = allocs c.trace ∧
        frees c1.trace = frees c.trace ++
          ((examined ops key args c l).filter (fun q => !kept c q && zero_ref c q)).map
            (fun q => (q, 0)) := by
  intro l
  induction l with
  | nil =>
    intro c _ _
    exact ⟨c, rfl, SameFrame.refl c, by simp [survivors, examined], by simp [examined],
      fun _ _ => rfl, rfl, rfl, by simp [examined]⟩
  | cons q rest ih =>
    intro c hnd halive
    obtain ⟨hqrest, hndrest⟩ := List.nodup_cons.1 hnd
    obtain ⟨e, he⟩ := halive q (List.mem_cons_self _ _)
    cases hk : keep_entry c.now e with
    | true =>
      have hkq : kept c q = true := by simp [kept, he, hk]
      by_cases hm : upcall_compare ops e key args = 0
      · have hh : hits ops key args c q = true := by simp [hits, he, hk, hm]
        refine ⟨c, ?_, SameFrame.refl c, ?_, ?_, fun _ _ => rfl, rfl, rfl, ?_⟩
        · simp [find_loop, check_unlink_entry_keep he hk, he, hm, List.find?_cons, hh]
        · intro i
          simp [survivors, examined, List.takeWhile_cons, hh]
        · simp [examined, List.takeWhile_cons, hh]
        · simp [examined, List.takeWhile_cons, hh]
      · have hh : hits ops key args c q = false := by simp [hits, he, hk, hm]
        obtain ⟨c1, h1, hsf, htab, hheap, hoth, hu, hal, hfr⟩ :=
          ih c hndrest (fun x hx => halive x (List.mem_cons_of_mem _ hx))
        have hex : examined ops key args c (q :: rest) = q :: examined ops key args c rest := by
          simp [examined, List.takeWhile_cons, hh]
        have hqex : q ∉ examined ops key args c rest :=
          fun h => hqrest (mem_of_mem_takeWhile rest h)
        refine ⟨c1, ?_, hsf, ?_, ?_, ?_, hu, hal, ?_⟩
        · simp [find_loop, check_unlink_entry_keep he hk, he, hm, List.find?_cons, hh, h1]
        · intro i
          rw [htab i]
          simp only [survivors, hex]
          apply List.filter_congr
          intro x _
          by_cases hxq : x = q
          · subst hxq
            simp [hkq]
          · simp [hxq]
        · intro x hx
          rw [hex] at hx
          rcases List.mem_cons.1 hx with rfl | hx1
          · rw [hoth x hqex, he]
            simp [sweep_entry, hk]
          · exact hheap x hx1
        · intro x hx
          rw [hex] at hx
          exact hoth x (fun h => hx (List.mem_cons_of_mem _ h))
        · rw [hfr, hex]
          simp [List.filter_cons, hkq]
    | false =>
      have hkq : kept c q = false := by simp [kept, he, hk]
      have hh : hits ops key args c q = false := by simp [hits, he, hk]
      obtain ⟨c2, h2, hsf2, hoth2, htab2, hu2, -, hal2, hz2, hnz2⟩ :=
        check_unlink_entry_evict he hk
      have hne : ∀ x ∈ rest, x ≠ q := fun x hx hxq => hqrest (hxq ▸ hx)
      obtain ⟨c1, h1, hsf, htab, hheap, hoth, hu, hal, hfr⟩ :=
        ih c2 hndrest (fun x hx => by
          rw [hoth2 x (hne x hx)]
          exact halive x (List.mem_cons_of_mem _ hx))
      have hhits : ∀ x ∈ rest, hits ops key args c2 x = hits ops key args c x :=
        fun x hx => hits_congr (hoth2 x (hne x hx)) hsf2.1
      have hkept : ∀ x, x ≠ q → kept c2 x = kept c x :=
        fun x hx => kept_congr (hoth2 x hx) hsf2.1
      have hex2 : examined ops key args c2 rest = examined ops key args c rest :=
        takeWhile_congr_mem rest (fun x hx => by rw [hhits x hx])
      have hex : examined ops key args c (q :: rest) = q :: examined ops key args c rest := by
        simp [examined, List.takeWhile_cons, hh]
      have hqex : q ∉ examined ops key args c rest :=
        fun h => hqrest (mem_of_mem_takeWhile rest h)
      rw [hex2] at hheap hoth hfr
      refine ⟨c1, ?_, hsf2.trans hsf, ?_, ?_, ?_, hu.trans hu2, hal.trans hal2, ?_⟩
      · simp only [find_loop, h2, h1, List.find?_cons, hh]
        rw [find_congr_mem rest hhits]
      · intro i
        rw [htab i, htab2 i]
        simp only [survivors, hex, hex2, List.filter_filter]
        apply List.filter_congr
        intro x _
        by_cases hxq : x = q
        · subst hxq
          simp [hkq]
        · simp [hxq, hkept x hxq]
      · intro x hx
        rw [hex] at hx
        rcases List.mem_cons.1 hx with rfl | hx1
        · rw [hoth x hqex, he]
          by_cases hr : e.ue_refcount = 0
          · rw [(hz2 hr).1]
            simp [sweep_entry, hk, hr]
          · rw [(hnz2 hr).1]
            simp [sweep_entry, hk, hr]
        · have hxq : x ≠ q := fun h => hqex (h ▸ hx1)
          rw [hheap x hx1, hoth2 x hxq, hsf2.1]
      · intro x hx
        rw [hex] at hx
        have hxq : x ≠ q := fun h => hx (h ▸ List.mem_cons_self _ _)
        rw [hoth x (fun h => hx (List.mem_cons_of_mem _ h)), hoth2 x hxq]
      · rw [hfr, hex]
        have hfil : List.filter (fun x => !kept c2 x && zero_ref c2 x)
            (examined ops key args c rest) =
            List.filter (fun x => !kept c x && zero_ref c x) (examined ops key args c rest) := by
          apply List.filter_congr
          intro x hx
          have hxq : x ≠ q := fun h => hqex (h ▸ hx)
          rw [hkept x hxq, zero_ref_congr (hoth2 x hxq)]
        rw [hfil]
        by_cases hr : e.ue_refcount = 0
        · rw [(hz2 hr).2]
          simp [List.filter_cons, hkq, zero_ref, he, hr]
        · rw [(hnz2 hr).2]
          simp [List.filter_cons, hkq, zero_ref, he, hr]

theorem find_first {f : Nat → Bool} {p : Nat} (post : List Nat) :
    ∀ (pre : List Nat), (∀ q ∈ pre, f q = false) → f p = true →
      (pre ++ p :: post).find? f = some p ∧
      (pre ++ p :: post).takeWhile (fun q => !f q) = pre := by
  intro pre
  induction pre with
  | nil => intro _ hp; simp [List.find?_cons, List.takeWhile_cons, hp]
  | cons a rest ih =>
    intro hpre hp
    have ha := hpre a (List.mem_cons_self _ _)
    obtain ⟨h1, h2⟩ := ih (fun q hq => hpre q (List.mem_cons_of_mem _ hq)) hp
    simp [List.find?_cons, List.takeWhile_cons, ha, h1, h2]

theorem keep_entry_refcount (now : Int) (e : upcall_cache_entry) (r : Int) :
    keep_entry now { e with ue_refcount := r } = keep_entry now e := rfl

/-- A lookup that takes a reference on an entry `check_unlink_entry` keeps leaves the
chains as they are and goes on holding that entry. -/
theorem get_hold_kept {c : upcall_cache} {p : Nat} {e : upcall_cache_entry}
    (new : Option Nat) (fa : Bool) (hp : c.heap p = some e)
    (hk : keep_entry c.now e = true) :
    ∃ pc c1, get_hold c p new fa = some (pc, c1) ∧ pc_entry pc = some p ∧
      c1.uc_hashtable = c.uc_hashtable := by
  by_cases hn : e.ue_flags.testBit 0 = true
  · refine ⟨GetPC.do_upcall p new fa,
      refresh_entry (emit (store (store c p { e with ue_refcount := e.ue_refcount + 1 }) p
        (UC_CACHE_CLEAR_NEW (UC_CACHE_SET_ACQUIRING
          { e with ue_refcount := e.ue_refcount + 1 }))) Event.unlock) p, ?_, rfl, ?_⟩
    · simp only [get_hold, get_entry, hp, store, Function.update_same, is_new_eq, hn, if_true]
    · simp [refresh_entry, emit, store]
  · have hn0 : UC_CACHE_IS_NEW e = false := by simpa [-Nat.testBit_zero] using hn
    by_cases ha : e.ue_flags.testBit 1 = true
    · exact ⟨GetPC.do_wait p new fa, _,
        get_hold_acquiring new fa hp hn0 (by simpa using ha), rfl, by simp [emit, store]⟩
    · have ha1 : e.ue_flags.testBit 1 = false := by simpa using ha
      have hv : e.ue_flags = 0 ∧ c.now < e.ue_expire := by
        simpa [keep_entry, ha1] using hk
      exact ⟨GetPC.ret (Except.ok p), _, get_hold_valid new fa hp hv.1 hv.2, rfl,
        by simp [emit, store]⟩

theorem upcall_compare_eq_zero (ops : upcall_cache_ops) (e : upcall_cache_entry)
    (key args : Nat) :
    upcall_compare ops e key args = 0 ↔
      e.ue_key = key ∧ ∀ f, ops.upcall_compare = some f → f e key args = 0 := by
  unfold upcall_compare
  by_cases hk : e.ue_key = key
  · cases hf : ops.upcall_compare with
    | none => simp [hk]
    | some g => simp [hk]
  · simp [hk]

/-- C28: first match wins and is promoted.  The chain of `key` is `pre ++ p :: post`
(pointers to allocated entries, none twice); every entry of `pre` is swept out by
`check_unlink_entry` or fails `upcall_compare`; `p` survives the sweep and satisfies
`upcall_compare` (its key equals `key` and the optional hook returns 0).  Then the lookup
settles on `p`: it holds a reference on `p` when it drops the lock (to return it, to wait
on it, or to upcall it).  Afterwards `p` heads the chain, followed by the entries of `pre`
that survived the sweep and by the entries of `post`, all in their former order. -/
theorem first_match_promoted (ops : upcall_cache_ops) (c : upcall_cache) (key args : Nat)
    (fa : Bool) (pre post : List Nat) (p : Nat) (e : upcall_cache_entry)
    (hchain : c.uc_hashtable (UC_CACHE_HASH_INDEX key c.uc_hashsize) = pre ++ p :: post)
    (hnd : (pre ++ p :: post).Nodup)
    (hpre : ∀ q ∈ pre, ∃ eq, c.heap q = some eq ∧
      (keep_entry c.now eq = false ∨ upcall_compare ops eq key args ≠ 0))
    (hpost : ∀ q ∈ post, ∃ eq, c.heap q = some eq)
    (hp : c.heap p = some e) (hk : keep_entry c.now e = true)
    (hm : upcall_compare ops e key args = 0) :
    (e.ue_key = key ∧ ∀ f, ops.upcall_compare = some f → f e key args = 0) ∧
    ∃ pc c1, get_find ops c key args none fa = some (pc, c1) ∧ pc_entry pc = some p ∧
      c1.uc_hashtable (UC_CACHE_HASH_INDEX key c.uc_hashsize) =
        p :: (pre.filter (kept c) ++ post) := by
  refine ⟨(upcall_compare_eq_zero ops e key args).1 hm, ?_⟩
  have hpl : c.heap p = (emit c Event.lock).heap p := rfl
  have hhp : hits ops key args (emit c Event.lock) p = true := by
    simp [hits, emit, hp, hk, hm]
  have hhpre : ∀ q ∈ pre, hits ops key args (emit c Event.lock) q = false := by
    intro q hq
    obtain ⟨eq, h1, h2⟩ := hpre q hq
    rcases h2 with h2 | h2 <;> simp [hits, emit, h1, h2]
  obtain ⟨hfind, htw⟩ := find_first post pre hhpre hhp
  have halive : ∀ q ∈ pre ++ p :: post, ∃ eq, (emit c Event.lock).heap q = some eq := by
    intro q hq
    rcases List.mem_append.1 hq with h | h
    · obtain ⟨eq, h1, -⟩ := hpre q h
      exact ⟨eq, h1⟩
    · rcases List.mem_cons.1 h with rfl | h
      · exact ⟨e, hp⟩
      · exact hpost q h
  obtain ⟨c1, h1, hsf, htab, -, hoth, -, -, -⟩ :=
    @find_loop_sweep ops key args (pre ++ p :: post)
      (emit c Event.lock) hnd halive
  have hex : examined ops key args (emit c Event.lock) (pre ++ p :: post) = pre := htw
  rw [hfind] at h1
  have hpnot : p ∉ pre := by
    intro h
    have := List.nodup_append.1 hnd
    exact this.2.2 h (List.mem_cons_self _ _)
  have hp1 : c1.heap p = some e := by
    rw [hoth p (by rw [hex]; exact hpnot)]
    exact hp
  have hk1 : keep_entry (list_move c1 p (UC_CACHE_HASH_INDEX key c.uc_hashsize)).now e = true := by
    show keep_entry c1.now e = true
    rw [hsf.1]
    exact hk
  obtain ⟨pc, c2, h2, h3, h4⟩ := get_hold_kept (c := list_move c1 p
    (UC_CACHE_HASH_INDEX key c.uc_hashsize)) none fa hp1 hk1
  refine ⟨pc, c2, ?_, h3, ?_⟩
  · have hchain1 : (emit c Event.lock).uc_hashtable (UC_CACHE_HASH_INDEX key c.uc_hashsize) =
        pre ++ p :: post := hchain
    simp only [get_find, hchain1, h1]
    exact h2
  · rw [h4]
    have hch : c1.uc_hashtable (UC_CACHE_HASH_INDEX key c.uc_hashsize) =
        pre.filter (kept c) ++ p :: post := by
      rw [htab]
      have hchain1 : (emit c Event.lock).uc_hashtable (UC_CACHE_HASH_INDEX key c.uc_hashsize) =
          pre ++ p :: post := hchain
      rw [hchain1]
      simp only [survivors, hex, List.filter_append, List.filter_cons]
      have hkc : kept (emit c Event.lock) = kept c := rfl
      have h5 : List.filter (fun q => !(decide (q ∈ pre) && !kept (emit c Event.lock) q)) pre =
          List.filter (kept c) pre := by
        apply List.filter_congr
        intro x hx
        simp [hx, hkc]
      have h6 : List.filter (fun q => !(decide (q ∈ pre) && !kept (emit c Event.lock) q)) post =
          post := by
        rw [List.filter_eq_self]
        intro x hx
        have hxp : x ∉ pre := by
          intro h
          exact (List.nodup_append.1 hnd).2.2 h (List.mem_cons_of_mem _ hx)
        simp [hxp]
      rw [h5, h6]
      simp [hpnot]
    simp only [list_move, list_add, list_del, Function.update_same, hch]
    have hpost_ne : ∀ x ∈ post, x ≠ p := by
      intro x hx hxp
      have h7 := (List.nodup_append.1 hnd).2.1
      exact (List.nodup_cons.1 h7).1 (hxp ▸ hx)
    have h8 : List.filter (fun q => q != p) (List.filter (kept c) pre ++ p :: post) =
        List.filter (kept c) pre ++ post := by
      rw [List.filter_append, List.filter_cons]
      have h9 : List.filter (fun q => q != p) (List.filter (kept c) pre) =
          List.filter (kept c) pre := by
        rw [List.filter_eq_self]
        intro x hx
        have : x ≠ p := fun h => hpnot (h ▸ (List.mem_filter.1 hx).1)
        simpa using this
      have h10 : List.filter (fun q => q != p) post = post := by
        rw [List.filter_eq_self]
        intro x hx
        simpa using hpost_ne x hx
      rw [h9, h10]
      simp
    rw [h8]

/-- Witness for C28: the chain of key 42 in `demo_chain` is 100 (another key), 101 (swept
out: expired and unreferenced), 102 (the first live match), 103 (a later match).  The
lookup settles on 102; afterwards the chain is 102, 100, 103. -/
theorem first_match_promoted_witness :
    ∃ pc c1, get_find demo_ops demo_chain 42 0 none false = some (pc, c1) ∧
      pc_entry pc = some 102 ∧ c1.uc_hashtable 2 = [102, 100, 103] := by
  obtain ⟨-, pc, c1, h1, h2, h3⟩ :=
    first_match_promoted demo_ops demo_chain 42 0 false [100, 101] [103] 102 demo_valid rfl
      (by decide)
      (by
        intro q hq
        simp only [List.mem_cons, List.mem_singleton, List.not_mem_nil, or_false] at hq
        rcases hq with rfl | rfl
        · exact ⟨_, rfl, Or.inr (by decide)⟩
        · exact ⟨_, rfl, Or.inl (by decide)⟩)
      (by
        intro q hq
        simp only [List.mem_singleton] at hq
        subst hq
        exact ⟨_, rfl⟩)
      rfl (by decide) rfl
  exact ⟨pc, c1, h1, h2, by rw [show (2 : Nat) = UC_CACHE_HASH_INDEX 42 demo_chain.uc_hashsize from rfl, h3]; rfl⟩

/-! ## A lookup that finds nothing -/

theorem find_none {f : Nat → Bool} :
    ∀ (l : List Nat), (∀ q ∈ l, f q = false) →
      l.find? f = none ∧ l.takeWhile (fun q => !f q) = l := by
  intro l
  induction l with
  | nil => intro _; simp
  | cons a rest ih =>
    intro h
    have ha := h a (List.mem_cons_self _ _)
    obtain ⟨h1, h2⟩ := ih (fun q hq => h q (List.mem_cons_of_mem _ hq))
    simp [List.find?_cons, List.takeWhile_cons, ha, h1, h2]

/-- The sweep of a chain on which no entry stops the loop. -/
theorem find_loop_miss {ops : upcall_cache_ops} {key args : Nat} {l : List Nat}
    {c : upcall_cache} (hnd : l.Nodup) (halive : ∀ q ∈ l, ∃ e, c.heap q = some e)
    (hmiss : ∀ q ∈ l, hits ops key args c q = false) :
    ∃ c1, find_loop ops key args l c = some (none, c1) ∧ SameFrame c c1 ∧
      (∀ i, c1.uc_hashtable i =
        (c.uc_hashtable i).filter (fun q => !(decide (q ∈ l) && !kept c q))) ∧
      (∀ q ∈ l, c1.heap q = sweep_entry c.now (c.heap q)) ∧
      (∀ q, q ∉ l → c1.heap q = c.heap q) ∧
      upcalls c1.trace = upcalls c.trace ∧ allocs c1.trace = allocs c.trace ∧
      frees c1.trace = frees c.trace ++
        (l.filter (fun q => !kept c q && zero_ref c q)).map (fun q => (q, 0)) := by
  obtain ⟨hfind, htw⟩ := find_none l hmiss
  obtain ⟨c1, h1, hsf, htab, hheap, hoth, hu, hal, hfr⟩ :=
    @find_loop_sweep ops key args l c hnd halive
  have hex : examined ops key args c l = l := htw
  rw [hfind] at h1
  rw [hex] at hheap hoth hfr
  refine ⟨c1, h1, hsf, ?_, hheap, hoth, hu, hal, hfr⟩
  intro i
  rw [htab i]
  simp only [survivors, hex]

theorem get_hold_new_eq {c : upcall_cache} {q : Nat} {e : upcall_cache_entry}
    (new : Option Nat) (fa : Bool) (hq : c.heap q = some e)
    (hn : UC_CACHE_IS_NEW e = true) :
    get_hold c q new fa = some (GetPC.do_upcall q new fa,
      refresh_entry (emit (store (store c q { e with ue_refcount := e.ue_refcount + 1 }) q
        (UC_CACHE_CLEAR_NEW (UC_CACHE_SET_ACQUIRING
          { e with ue_refcount := e.ue_refcount + 1 }))) Event.unlock) q) := by
  have hn0 : e.ue_flags.testBit 0 = true := by simpa [-Nat.testBit_zero] using hn
  simp only [get_hold, get_entry, hq, store, Function.update_same, is_new_eq, hn0, if_true]

theorem sweep_entry_kept {c : upcall_cache} {q : Nat} (h : kept c q = true) :
    sweep_entry c.now (c.heap q) = c.heap q := by
  cases hq : c.heap q with
  | none => simp [kept, hq] at h
  | some e =>
    have hk : keep_entry c.now e = true := by simpa [kept, hq] using h
    simp [sweep_entry, hk]

theorem alloc_entry_fields (ops : upcall_cache_ops) (key args : Nat) :
    (alloc_entry ops key args).ue_key = key ∧ (alloc_entry ops key args).ue_refcount = 0 := by
  unfold alloc_entry
  cases ops.init_entry <;> exact ⟨rfl, rfl⟩

/-- The two locked sections of a lookup that sweeps out a stale entry and finds no other
match: the sweep frees the stale entry, the second section links a fresh entry and starts
its acquisition. -/
theorem stale_refresh_steps {ops : upcall_cache_ops} {c : upcall_cache} {key args : Nat}
    {pre post : List Nat} {p : Nat} {e : upcall_cache_entry} (s : Susp)
    (hchain : c.uc_hashtable (UC_CACHE_HASH_INDEX key c.uc_hashsize) = pre ++ p :: post)
    (hnd : (pre ++ p :: post).Nodup) (hfresh : c.heap c.brk = none)
    (hothers : ∀ q ∈ pre ++ post, ∃ eq, c.heap q = some eq ∧
      (keep_entry c.now eq = false ∨ upcall_compare ops eq key args ≠ 0))
    (hp : c.heap p = some e) (hv : UC_CACHE_IS_VALID e = true) (hr : e.ue_refcount = 0)
    (hx : e.ue_expire ≤ c.now) (hs : s.alloc_ok = true) :
    ∃ c1 c2, get_find ops c key args none false = some (GetPC.do_alloc false, c1) ∧
      c1.heap p = none ∧ (p, 0) ∈ frees c1.trace ∧ (∀ i, p ∉ c1.uc_hashtable i) ∧
      c1.brk = c.brk ∧
      get_step ops key args s (GetPC.do_alloc false) c1 =
        some (GetPC.do_upcall c.brk (some c.brk) false, c2) ∧
      c2.heap p = none ∧ c2.brk = c.brk + 1 ∧
      c2.heap c.brk = some (UC_CACHE_CLEAR_NEW (UC_CACHE_SET_ACQUIRING
        { alloc_entry ops key args with ue_refcount := 1 })) ∧
      c2.uc_hashtable (UC_CACHE_HASH_INDEX key c.uc_hashsize) =
        c.brk :: (pre ++ post).filter (kept c) ∧
      upcalls c2.trace = upcalls c.trace ++ [c.brk] ∧
      allocs c2.trace = allocs c.trace ++ [c.brk] := by
  have hf0 : e.ue_flags = 0 := by simpa using hv
  have hkp : keep_entry c.now e = false := by
    simp [keep_entry, hf0, not_lt.2 hx]
  have hkeptp : kept c p = false := by simp [kept, hp, hkp]
  have hpb : p ≠ c.brk := by
    rintro rfl
    rw [hfresh] at hp; cases hp
  -- the chain and its entries
  have halive : ∀ q ∈ pre ++ p :: post, ∃ eq, c.heap q = some eq := by
    intro q hq
    rcases List.mem_append.1 hq with h | h
    · obtain ⟨eq, h1, -⟩ := hothers q (List.mem_append_left _ h)
      exact ⟨eq, h1⟩
    · rcases List.mem_cons.1 h with rfl | h
      · exact ⟨e, hp⟩
      · obtain ⟨eq, h1, -⟩ := hothers q (List.mem_append_right _ h)
        exact ⟨eq, h1⟩
  have hmiss : ∀ q ∈ pre ++ p :: post, hits ops key args c q = false := by
    intro q hq
    have hcase : q = p ∨ q ∈ pre ++ post := by
      rcases List.mem_append.1 hq with h | h
      · exact Or.inr (List.mem_append_left _ h)
      · rcases List.mem_cons.1 h with h | h
        · exact Or.inl h
        · exact Or.inr (List.mem_append_right _ h)
    rcases hcase with rfl | h
    · simp [hits, hp, hkp]
    · obtain ⟨eq, h1, h2⟩ := hothers q h
      rcases h2 with h2 | h2 <;> simp [hits, h1, h2]
  -- first locked section
  obtain ⟨c1, h1, hsf1, htab1, hheap1, hoth1, hu1, hal1, hfr1⟩ :=
    @find_loop_miss ops key args _ (emit c Event.lock)
      hnd halive hmiss
  have hpl : p ∈ pre ++ p :: post := List.mem_append_right _ (List.mem_cons_self _ _)
  have hc1p : c1.heap p = none := by
    rw [hheap1 p hpl]
    show sweep_entry c.now (c.heap p) = none
    simp [hp, sweep_entry, hkp, hr]
  have hkc : ∀ q, kept (emit c Event.lock) q = kept c q := fun _ => rfl
  have hzc : ∀ q, zero_ref (emit c Event.lock) q = zero_ref c q := fun _ => rfl
  have hfind1 : get_find ops c key args none false =
      some (GetPC.do_alloc false, emit c1 Event.unlock) := by
    have hchain1 : (emit c Event.lock).uc_hashtable (UC_CACHE_HASH_INDEX key c.uc_hashsize) =
        pre ++ p :: post := hchain
    simp only [get_find, hchain1, h1]
  have hl2 : c1.uc_hashtable (UC_CACHE_HASH_INDEX key c.uc_hashsize) =
      (pre ++ post).filter (kept c) := by
    rw [htab1]
    have hchain1 : (emit c Event.lock).uc_hashtable (UC_CACHE_HASH_INDEX key c.uc_hashsize) =
        pre ++ p :: post := hchain
    rw [hchain1]
    have hcongr : List.filter (fun q => !(decide (q ∈ pre ++ p :: post) &&
        !kept (emit c Event.lock) q)) (pre ++ p :: post) =
        List.filter (kept c) (pre ++ p :: post) := by
      apply List.filter_congr
      intro x hx
      simp [hx, hkc]
    rw [hcongr]
    simp [List.filter_append, List.filter_cons, hkeptp]
  -- second locked section
  have hnd2 : ((pre ++ post).filter (kept c)).Nodup := by
    apply List.Nodup.filter
    have h3 := List.nodup_append.1 hnd
    rw [List.nodup_append]
    refine ⟨h3.1, (List.nodup_cons.1 h3.2.1).2, ?_⟩
    intro x hx1 hx2
    exact h3.2.2 hx1 (List.mem_cons_of_mem _ hx2)
  have hmem2 : ∀ q ∈ (pre ++ post).filter (kept c),
      q ∈ pre ++ p :: post ∧ q ∈ pre ++ post ∧ kept c q = true := by
    intro q hq
    obtain ⟨h3, h4⟩ := List.mem_filter.1 hq
    refine ⟨?_, h3, h4⟩
    rcases List.mem_append.1 h3 with h | h
    · exact List.mem_append_left _ h
    · exact List.mem_append_right _ (List.mem_cons_of_mem _ h)
  have hc1q : ∀ q ∈ (pre ++ post).filter (kept c), c1.heap q = c.heap q := by
    intro q hq
    obtain ⟨h3, -, h4⟩ := hmem2 q hq
    rw [hheap1 q h3]
    exact sweep_entry_kept (c := emit c Event.lock) h4
  have hnow1 : c1.now = c.now := hsf1.1
  have hbrk1 : c1.brk = c.brk := hsf1.2.1
  have hsize1 : c1.uc_hashsize = c.uc_hashsize := hsf1.2.2.1
  obtain ⟨c3, h3, hsf3, htab3, hheap3, hoth3, hu3, hal3, -⟩ :=
    @find_loop_miss ops key args
      ((pre ++ post).filter (kept c))
      (emit (emit { emit c1 Event.unlock with brk := (emit c1 Event.unlock).brk + 1 }
        (Event.alloc (emit c1 Event.unlock).brk)) Event.lock) hnd2
      (by
        intro q hq
        obtain ⟨h4, -, -⟩ := hmem2 q hq
        obtain ⟨eq, h5⟩ := halive q h4
        exact ⟨eq, by show c1.heap q = some eq; rw [hc1q q hq]; exact h5⟩)
      (by
        intro q hq
        obtain ⟨h4, -, -⟩ := hmem2 q hq
        have h5 := hmiss q h4
        have h6 : hits ops key args (emit (emit { emit c1 Event.unlock with
            brk := (emit c1 Event.unlock).brk + 1 }
            (Event.alloc (emit c1 Event.unlock).brk)) Event.lock) q =
            hits ops key args c q := hits_congr (hc1q q hq) hnow1
        rw [h6]; exact h5)
  have hkept3 : ∀ q ∈ (pre ++ post).filter (kept c),
      kept (emit (emit { emit c1 Event.unlock with brk := (emit c1 Event.unlock).brk + 1 }
        (Event.alloc (emit c1 Event.unlock).brk)) Event.lock) q = true := by
    intro q hq
    obtain ⟨-, -, h4⟩ := hmem2 q hq
    have h5 : kept (emit (emit { emit c1 Event.unlock with
        brk := (emit c1 Event.unlock).brk + 1 }
        (Event.alloc (emit c1 Event.unlock).brk)) Event.lock) q = kept c q :=
      kept_congr (hc1q q hq) hnow1
    rw [h5]; exact h4
  have hl3 : c3.uc_hashtable (UC_CACHE_HASH_INDEX key c.uc_hashsize) =
      (pre ++ post).filter (kept c) := by
    rw [htab3]
    show List.filter _ (c1.uc_hashtable (UC_CACHE_HASH_INDEX key c.uc_hashsize)) = _
    rw [hl2, List.filter_eq_self]
    intro q hq
    simp [hkept3 q hq]
  have hp3 : c3.heap p = none := by
    have hpn : p ∉ (pre ++ post).filter (kept c) := by
      intro h
      have := (hmem2 p h).2.2
      rw [hkeptp] at this
      cases this
    rw [hoth3 p hpn]
    exact hc1p
  have hu3c : upcalls c3.trace = upcalls c.trace := by
    rw [hu3]
    show upcalls (((c1.trace ++ [Event.unlock]) ++ [Event.alloc _]) ++ [Event.lock]) = _
    simp only [upcalls_append, upcalls, List.append_nil]
    rw [hu1]
    show upcalls (c.trace ++ [Event.lock]) = _
    simp [upcalls]
  have hal3c : allocs c3.trace = allocs c.trace ++ [c.brk] := by
    rw [hal3]
    show allocs (((c1.trace ++ [Event.unlock]) ++ [Event.alloc c1.brk]) ++ [Event.lock]) = _
    simp only [allocs_append, allocs, List.append_nil]
    rw [hal1, hbrk1]
    show allocs (c.trace ++ [Event.lock]) ++ [c.brk] = _
    simp [allocs]
  obtain ⟨c2, hc2⟩ : ∃ c2, c2 = refresh_entry (emit (store (store
      (list_add (store c3 c.brk (alloc_entry ops key args)) c.brk
        (UC_CACHE_HASH_INDEX key c.uc_hashsize)) c.brk
      { alloc_entry ops key args with
        ue_refcount := (alloc_entry ops key args).ue_refcount + 1 }) c.brk
      (UC_CACHE_CLEAR_NEW (UC_CACHE_SET_ACQUIRING { alloc_entry ops key args with
        ue_refcount := (alloc_entry ops key args).ue_refcount + 1 }))) Event.unlock) c.brk :=
    ⟨_, rfl⟩
  refine ⟨emit c1 Event.unlock, c2, hfind1, hc1p, ?_, ?_, hbrk1, ?_, ?_, ?_, ?_, ?_, ?_, ?_⟩
  · show (p, (0 : Int)) ∈ frees (c1.trace ++ [Event.unlock])
    have hmemf : p ∈ List.filter (fun q => !kept (emit c Event.lock) q &&
        zero_ref (emit c Event.lock) q) (pre ++ p :: post) := by
      rw [List.mem_filter]
      have hpe : (emit c Event.lock).heap p = some e := hp
      exact ⟨hpl, by simp [hkc, hkeptp, zero_ref, hpe, hr]⟩
    rw [frees_append, hfr1]
    apply List.mem_append_left
    apply List.mem_append_right
    exact List.mem_map.2 ⟨p, hmemf, rfl⟩
  · intro i
    show p ∉ c1.uc_hashtable i
    rw [htab1 i]
    simp [hkc, hkeptp, hpl]
  · have hchainB : (emit (emit { emit c1 Event.unlock with
        brk := (emit c1 Event.unlock).brk + 1 }
        (Event.alloc (emit c1 Event.unlock).brk)) Event.lock).uc_hashtable
        (UC_CACHE_HASH_INDEX key (emit { emit c1 Event.unlock with
          brk := (emit c1 Event.unlock).brk + 1 }
          (Event.alloc (emit c1 Event.unlock).brk)).uc_hashsize) =
        (pre ++ post).filter (kept c) := by
      show c1.uc_hashtable (UC_CACHE_HASH_INDEX key c1.uc_hashsize) = _
      rw [hsize1]; exact hl2
    have hstep : get_step ops key args s (GetPC.do_alloc false) (emit c1 Event.unlock) =
        get_hold (list_add (store c3 c1.brk (alloc_entry ops key args)) c1.brk
          (UC_CACHE_HASH_INDEX key c1.uc_hashsize)) c1.brk (some c1.brk) false := by
      simp only [get_step, hs, if_true, get_find, hchainB, h3]
      rfl
    rw [hstep, hbrk1, hsize1, hc2]
    exact get_hold_new_eq (some c.brk) false (by simp [list_add, store])
      (alloc_entry_is_new ops key args)
  · rw [hc2]
    simp [refresh_entry, emit, store, list_add, Function.update, hpb, hp3]
  · rw [hc2]
    show c3.brk = c.brk + 1
    rw [hsf3.2.1]
    show c1.brk + 1 = c.brk + 1
    rw [hbrk1]
  · rw [hc2]
    simp [refresh_entry, emit, store, (alloc_entry_fields ops key args).2]
  · rw [hc2]
    simp [refresh_entry, emit, store, list_add, hl3]
  · rw [hc2]
    simp [refresh_entry, emit, store, list_add, upcalls, hu3c]
  · rw [hc2]
    simp [refresh_entry, emit, store, list_add, allocs, hal3c]

/-! ## A freed entry is not handed out again -/

theorem get_find_not_entry {ops : upcall_cache_ops} {c c1 : upcall_cache} {key args p : Nat}
    {new : Option (Nat × upcall_cache_entry)} {fa : Bool} {pc : GetPC}
    (hp : c.heap p = none) (hnew : ∀ b obj, new = some (b, obj) → b ≠ p)
    (h : get_find ops c key args new fa = some (pc, c1)) : pc_entry pc ≠ some p := by
  have hhold : ∀ (c3 : upcall_cache) (x : Nat) (nw : Option Nat), x ≠ p →
      get_hold c3 x nw fa = some (pc, c1) → pc_entry pc ≠ some p := by
    intro c3 x nw hx hg
    rcases get_hold_pc hg with h1 | h1 | h1 | h1 | h1 <;> subst h1 <;>
      simp [pc_entry] <;> exact hx
  simp only [get_find] at h
  cases hfl : find_loop ops key args
      ((emit c Event.lock).uc_hashtable (UC_CACHE_HASH_INDEX key c.uc_hashsize))
      (emit c Event.lock) with
  | none => simp [hfl] at h
  | some x =>
    obtain ⟨res, c2⟩ := x
    simp only [hfl] at h
    have hdead : c2.heap p = none := (Safe.of_find_loop (s := false) hfl).2.2.1 p hp
    cases res with
    | none =>
      cases new with
      | none =>
        simp only [Option.some.injEq, Prod.mk.injEq] at h
        rw [← h.1]
        simp [pc_entry]
      | some y =>
        obtain ⟨b, obj⟩ := y
        exact hhold _ b (some b) (hnew b obj rfl) h
    | some entry =>
      obtain ⟨e, he⟩ := find_loop_found_alive _ _ _ _ hfl
      have hne : entry ≠ p := by
        rintro rfl
        rw [hdead] at he; cases he
      cases new with
      | none => exact hhold _ entry none hne h
      | some y =>
        obtain ⟨b, obj⟩ := y
        exact hhold _ entry none hne h

theorem get_step_not_entry {ops : upcall_cache_ops} {key args p : Nat} {s : Susp}
    {pc pc1 : GetPC} {c c1 : upcall_cache} (hf : Fresh c) (hp : c.heap p = none)
    (hlt : p < c.brk) (hpc : pc_entry pc ≠ some p)
    (h : get_step ops key args s pc c = some (pc1, c1)) :
    pc_entry pc1 ≠ some p ∧ Fresh c1 ∧ c1.heap p = none ∧ p < c1.brk := by
  have hg := get_step_grows hf h
  have hdead : c1.heap p = none := by
    rcases hg.2.2.1 p hp with h1 | ⟨h1, -, -⟩
    · exact h1
    · omega
  have hlt1 : p < c1.brk := by
    rcases hg.1 with h1 | h1 <;> omega
  refine ⟨?_, hg.fresh hf, hdead, hlt1⟩
  cases pc with
  | ret r =>
    simp only [get_step, Option.some.injEq, Prod.mk.injEq] at h
    rw [← h.1]; exact hpc
  | find_again fa =>
    have h0 : get_find ops c key args none fa = some (pc1, c1) := h
    exact get_find_not_entry hp (fun b obj hb => by cases hb) h0
  | do_alloc fa =>
    simp only [get_step] at h
    split at h
    · refine get_find_not_entry (c := emit { c with brk := c.brk + 1 } (Event.alloc c.brk)) hp
        (fun b obj hb => ?_) h
      simp only [Option.some.injEq, Prod.mk.injEq] at hb
      omega
    · simp only [Option.some.injEq, Prod.mk.injEq] at h
      rw [← h.1]
      simp [pc_entry]
  | do_upcall q new fa =>
    have h0 : get_after_upcall c q new fa s.rc = some (pc1, c1) := h
    have hq : q ≠ p := fun hqp => hpc (by simp [pc_entry, hqp])
    rcases get_after_upcall_pc h0 with h1 | h1 | h1 | h1 | h1 <;> subst h1 <;>
      simp [pc_entry] <;> exact hq
  | do_wait q new fa =>
    have h0 : get_after_wait c q new fa (wait_left c q new s.left) = some (pc1, c1) := h
    have hq : q ≠ p := fun hqp => hpc (by simp [pc_entry, hqp])
    rcases get_after_wait_pc h0 with ⟨-, ⟨-, h1⟩ | h1 | h1⟩ | ⟨-, h1 | h1 | h1⟩ <;>
      subst h1 <;> first
        | (simp [pc_entry]; done)
        | (simp [pc_entry]; exact hq)

theorem get_run_not_entry {ops : upcall_cache_ops} {key args p : Nat} :
    ∀ (outs : List (Bool × Int × Int)) (pc : GetPC) (c c1 : upcall_cache) (r : Except Int Nat),
      Fresh c → c.heap p = none → p < c.brk → pc_entry pc ≠ some p →
      get_run ops key args (outs.map Susp.alone) pc c = some (r, c1) → r ≠ Except.ok p := by
  intro outs
  induction outs with
  | nil =>
    intro pc c c1 r _ _ _ hpc h
    cases pc with
    | ret r0 =>
      simp only [List.map_nil, get_run, Option.some.injEq, Prod.mk.injEq] at h
      rw [← h.1]
      intro hr
      exact hpc (by simp [pc_entry, hr])
    | _ => simp [get_run] at h
  | cons o rest ih =>
    intro pc c c1 r hf hp hlt hpc h
    by_cases hret : ∃ r0, pc = GetPC.ret r0
    · obtain ⟨r0, rfl⟩ := hret
      simp only [List.map_cons, get_run, Option.some.injEq, Prod.mk.injEq] at h
      rw [← h.1]
      intro hr
      exact hpc (by simp [pc_entry, hr])
    · have hstep : get_run ops key args (List.map Susp.alone (o :: rest)) pc c =
          match get_step ops key args (Susp.alone o) pc c with
          | none => none
          | some (pc1, c2) => get_run ops key args (rest.map Susp.alone) pc1 c2 := by
        cases pc with
        | ret r0 => exact absurd ⟨r0, rfl⟩ hret
        | _ => rfl
      rw [hstep] at h
      cases hg : get_step ops key args (Susp.alone o) pc c with
      | none => simp [hg] at h
      | some x =>
        obtain ⟨pc1, c2⟩ := x
        simp only [hg] at h
        obtain ⟨h1, h2, h3, h4⟩ := get_step_not_entry hf hp hlt hpc hg
        exact ih pc1 c2 c1 r h2 h3 h4 h1 h

/-- C22: stale refresh.  The chain of `key` holds a VALID entry `p` with refcount 0 whose
expiry has passed (`ue_expire <= now`), and no other entry of the chain is a live match
(each is swept out by `check_unlink_entry` or fails `upcall_compare`); the table is well
formed and memory above the allocator is unused.  Then `upcall_cache_get_entry(key)`
sweeps `p` out in its first locked section: `p` is unlinked and freed, at refcount 0, and
the call drops the lock to allocate.  Back from a successful allocation it links the new
entry, at the address just handed out, at the head of the chain (followed by the
survivors of the old chain in order), takes its reference, moves it from NEW to ACQUIRING
and invokes `do_upcall` on it, once; `p` is still freed.  However the call goes on (with
no other thread acting), it never returns `p`. -/
theorem stale_refresh (ops : upcall_cache_ops) (c : upcall_cache) (key args : Nat)
    (pre post : List Nat) (p : Nat) (e : upcall_cache_entry) (s : Susp)
    (hchain : c.uc_hashtable (UC_CACHE_HASH_INDEX key c.uc_hashsize) = pre ++ p :: post)
    (hnd : (pre ++ p :: post).Nodup) (hfresh : Fresh c)
    (hothers : ∀ q ∈ pre ++ post, ∃ eq, c.heap q = some eq ∧
      (keep_entry c.now eq = false ∨ upcall_compare ops eq key args ≠ 0))
    (hp : c.heap p = some e) (hv : UC_CACHE_IS_VALID e = true) (hr : e.ue_refcount = 0)
    (hx : e.ue_expire ≤ c.now) (hs : s.alloc_ok = true) :
    ∃ c1 c2 e2, get_find ops c key args none false = some (GetPC.do_alloc false, c1) ∧
      c1.heap p = none ∧ (p, 0) ∈ frees c1.trace ∧ (∀ i, p ∉ c1.uc_hashtable i) ∧
      get_step ops key args s (GetPC.do_alloc false) c1 =
        some (GetPC.do_upcall c.brk (some c.brk) false, c2) ∧
      c2.heap p = none ∧ c.heap c.brk = none ∧
      c2.heap c.brk = some e2 ∧ e2.ue_key = key ∧ e2.ue_refcount = 1 ∧
      UC_CACHE_IS_ACQUIRING e2 = true ∧ UC_CACHE_IS_NEW e2 = false ∧
      c2.uc_hashtable (UC_CACHE_HASH_INDEX key c.uc_hashsize) =
        c.brk :: (pre ++ post).filter (kept c) ∧
      upcalls c2.trace = upcalls c.trace ++ [c.brk] ∧
      allocs c2.trace = allocs c.trace ++ [c.brk] ∧
      (∀ outs r c3, get_run ops key args (List.map Susp.alone outs)
          (GetPC.do_upcall c.brk (some c.brk) false) c2 = some (r, c3) →
        r ≠ Except.ok p) := by
  have hb : c.heap c.brk = none := hfresh c.brk (le_refl _)
  obtain ⟨c1, c2, h1, h2, h3, h4, h5, h6, h7, h8, h9, h10, h11, h12⟩ :=
    stale_refresh_steps s hchain hnd hb hothers hp hv hr hx hs
  have hplt : p < c.brk := by
    by_contra hlt
    rw [hfresh p (by omega)] at hp
    cases hp
  have hf1 : Fresh c1 := (Safe.of_get_find (s := true) h1).grows.fresh hfresh
  have hstep := get_step_not_entry (p := p) hf1 h2 (by rw [h5]; exact hplt)
    (by simp [pc_entry]) h6
  refine ⟨c1, c2, _, h1, h2, h3, h4, h6, h7, hb, h9, ?_, rfl, start_acquiring _,
    start_not_new _, h10, h11, h12, ?_⟩
  · simp [(alloc_entry_fields ops key args).1]
  · intro outs r c3 hrun
    exact get_run_not_entry outs _ c2 c3 r hstep.2.1 hstep.2.2.1 hstep.2.2.2 hstep.1 hrun

/-- Witness for C22: the lookup of key 42 in the demo cache at time 3000 frees the stale
entry at 100 and upcalls a fresh entry at 101. -/
theorem stale_refresh_witness :
    ∃ c1 c2, get_find demo_ops demo_stale 42 0 none false = some (GetPC.do_alloc false, c1) ∧
      get_step demo_ops 42 0 Susp.quiet (GetPC.do_alloc false) c1 =
        some (GetPC.do_upcall 101 (some 101) false, c2) ∧
      c2.heap 100 = none ∧ c2.uc_hashtable 2 = [101] ∧ upcalls c2.trace = [101] := by
  obtain ⟨c1, c2, e2, h1, -, -, -, h5, h6, -, -, -, -, -, -, h13, h14, -⟩ :=
    stale_refresh demo_ops demo_stale 42 0 [] [] 100 { demo_valid with ue_refcount := 0 }
      Susp.quiet rfl (by simp) (fun p hp => demo_cache_fresh _ p hp) (by simp) rfl rfl rfl
      (by decide) rfl
  exact ⟨c1, c2, h1, h5, h6, h13, h14⟩

/-! ## Reference counting -/

theorem RefShift.rs_refl (c : upcall_cache) : RefShift (fun _ => 0) c c :=
  fun _ e1 h => ⟨e1, h, by simp⟩

theorem RefShift.rs_trans {d1 d2 : Nat → Int} {a b c : upcall_cache} (h1 : RefShift d1 a b)
    (h2 : RefShift d2 b c) : RefShift (fun q => d1 q + d2 q) a c := by
  intro q e2 hq
  obtain ⟨e1, he1, hr1⟩ := h2 q e2 hq
  obtain ⟨e, he, hr⟩ := h1 q e1 he1
  exact ⟨e, he, by rw [hr1, hr]; ring⟩

theorem RefShift.rs_mono {d d1 : Nat → Int} {a b : upcall_cache} (h : RefShift d a b)
    (hd : ∀ q, d q = d1 q) : RefShift d1 a b := by
  intro q e1 hq
  obtain ⟨e, he, hr⟩ := h q e1 hq
  exact ⟨e, he, by rw [hr, hd q]⟩

/-- Two steps that shift nothing. -/
theorem RefShift.rs_then {d : Nat → Int} {a b c : upcall_cache}
    (h1 : RefShift (fun _ => 0) a b) (h2 : RefShift d b c) : RefShift d a c :=
  (h1.rs_trans h2).rs_mono (fun q => by simp)

theorem RefShift.rs_same {c c1 : upcall_cache} (hh : c1.heap = c.heap) :
    RefShift (fun _ => 0) c c1 :=
  fun q e1 h => ⟨e1, by rw [← hh]; exact h, by simp⟩

theorem RefShift.rs_emit (c : upcall_cache) (ev : Event) :
    RefShift (fun _ => 0) c (emit c ev) := RefShift.rs_same rfl

theorem RefShift.rs_list_del (c : upcall_cache) (p : Nat) :
    RefShift (fun _ => 0) c (list_del c p) := RefShift.rs_same rfl

theorem RefShift.rs_list_move (c : upcall_cache) (p head : Nat) :
    RefShift (fun _ => 0) c (list_move c p head) := RefShift.rs_same rfl

theorem RefShift.rs_store {c : upcall_cache} {p : Nat} {e e1 : upcall_cache_entry} (k : Int)
    (h : c.heap p = some e) (hr : e1.ue_refcount = e.ue_refcount + k) :
    RefShift (fun q => if q = p then k else 0) c (store c p e1) := by
  intro q e2 hq
  by_cases hqp : q = p
  · subst hqp
    simp only [store, Function.update_same, Option.some.injEq] at hq
    subst hq
    exact ⟨e, h, by simp [hr]⟩
  · simp only [store, Function.update_noteq hqp] at hq
    exact ⟨e2, hq, by simp [hqp]⟩

theorem RefShift.rs_store_same {c : upcall_cache} {p : Nat} {e e1 : upcall_cache_entry}
    (h : c.heap p = some e) (hr : e1.ue_refcount = e.ue_refcount) :
    RefShift (fun _ => 0) c (store c p e1) :=
  (RefShift.rs_store 0 h (by rw [hr]; simp)).rs_mono (fun q => by simp)

theorem RefShift.rs_free {c c1 : upcall_cache} {p : Nat} (hf : free_entry c p = some c1) :
    RefShift (fun _ => 0) c c1 := by
  cases hp : c.heap p with
  | none => simp [free_entry, hp] at hf
  | some e =>
    simp only [free_entry, hp, Option.some.injEq] at hf
    subst hf
    intro q e1 hq
    by_cases hqp : q = p
    · subst hqp
      simp at hq
    · simp only [Function.update_noteq hqp] at hq
      exact ⟨e1, hq, by simp⟩

theorem RefShift.rs_get_entry {c c1 : upcall_cache} {p : Nat} (h : get_entry c p = some c1) :
    RefShift (fun q => if q = p then 1 else 0) c c1 := by
  cases hp : c.heap p with
  | none => simp [get_entry, hp] at h
  | some e =>
    simp only [get_entry, hp, Option.some.injEq] at h
    subst h
    exact RefShift.rs_store 1 hp rfl

theorem RefShift.rs_put_entry {c c1 : upcall_cache} {p : Nat} (h : put_entry c p = some c1) :
    RefShift (fun q => if q = p then -1 else 0) c c1 := by
  cases hp : c.heap p with
  | none => simp [put_entry, hp] at h
  | some e =>
    have h1 : RefShift (fun q => if q = p then -1 else 0) c
        (store c p { e with ue_refcount := e.ue_refcount - 1 }) :=
      RefShift.rs_store (-1) hp (by simp; ring)
    simp only [put_entry, hp] at h
    split at h
    · exact (h1.rs_trans (RefShift.rs_free h)).rs_mono (fun q => by simp)
    · cases h
      exact h1

theorem RefShift.rs_check_unlink_entry {c c1 : upcall_cache} {p : Nat} {r : Bool}
    (h : check_unlink_entry c p = some (r, c1)) : RefShift (fun _ => 0) c c1 := by
  cases hp : c.heap p with
  | none => simp [check_unlink_entry, hp] at h
  | some e =>
    have hmid : ∃ c2, RefShift (fun _ => 0) c c2 ∧
        (if UC_CACHE_IS_ACQUIRING e then emit (store c p (UC_CACHE_SET_EXPIRED e)) (Event.wake p)
          else if !UC_CACHE_IS_INVALID e then store c p (UC_CACHE_SET_EXPIRED e) else c) = c2 := by
      split
      · exact ⟨_, (RefShift.rs_store_same hp (by simp)).rs_then
          (RefShift.rs_emit _ (Event.wake p)), rfl⟩
      · split
        · exact ⟨_, RefShift.rs_store_same hp (by simp), rfl⟩
        · exact ⟨_, RefShift.rs_refl c, rfl⟩
    obtain ⟨c2, hs2, hc2⟩ := hmid
    rw [check_unlink_entry_eq hp, hc2] at h
    split at h
    · cases h; exact RefShift.rs_refl c
    · split at h
      · cases hfe : free_entry (list_del c2 p) p with
        | none => simp [hfe] at h
        | some c3 =>
          simp only [hfe, Option.map_some', Option.some.injEq, Prod.mk.injEq] at h
          rw [← h.2]
          exact hs2.rs_then ((RefShift.rs_list_del c2 p).rs_then (RefShift.rs_free hfe))
      · simp only [Option.some.injEq, Prod.mk.injEq] at h
        rw [← h.2]
        exact hs2.rs_then (RefShift.rs_list_del c2 p)

theorem RefShift.rs_find_loop {ops : upcall_cache_ops} {key args : Nat} {l : List Nat}
    {c c1 : upcall_cache} {res : Option Nat}
    (h : find_loop ops key args l c = some (res, c1)) : RefShift (fun _ => 0) c c1 :=
  find_loop_induct (fun x => RefShift (fun _ => 0) c x)
    (fun _ _ _ _ hx hcu => hx.rs_then (RefShift.rs_check_unlink_entry hcu)) l c c1 res
    (RefShift.rs_refl c) h

@[simp] theorem held_ok (q x : Nat) :
    held (GetPC.ret (Except.ok q)) x = if x = q then 1 else 0 := by
  by_cases h : x = q
  · simp [held, pc_entry, h]
  · have h1 : ¬ q = x := fun hq => h hq.symm
    simp [held, pc_entry, h, h1]

@[simp] theorem held_wait (q x : Nat) (new : Option Nat) (fa : Bool) :
    held (GetPC.do_wait q new fa) x = if x = q then 1 else 0 := by
  by_cases h : x = q
  · simp [held, pc_entry, h]
  · have h1 : ¬ q = x := fun hq => h hq.symm
    simp [held, pc_entry, h, h1]

@[simp] theorem held_upcall (q x : Nat) (new : Option Nat) (fa : Bool) :
    held (GetPC.do_upcall q new fa) x = if x = q then 1 else 0 := by
  by_cases h : x = q
  · simp [held, pc_entry, h]
  · have h1 : ¬ q = x := fun hq => h hq.symm
    simp [held, pc_entry, h, h1]

@[simp] theorem held_err (rc : Int) (x : Nat) : held (GetPC.ret (Except.error rc)) x = 0 := by
  simp [held, pc_entry]

@[simp] theorem held_find_again (fa : Bool) (x : Nat) : held (GetPC.find_again fa) x = 0 := by
  simp [held, pc_entry]

@[simp] theorem held_alloc (fa : Bool) (x : Nat) : held (GetPC.do_alloc fa) x = 0 := by
  simp [held, pc_entry]

theorem RefShift.rs_get_tail {c c1 : upcall_cache} {q : Nat} {new : Option Nat} {fa : Bool}
    {pc : GetPC} (h : get_tail c q new fa = some (pc, c1)) :
    RefShift (fun x => held pc x - (if x = q then 1 else 0)) c c1 := by
  cases hp : c.heap q with
  | none => simp [get_tail, hp] at h
  | some e =>
    simp only [get_tail, hp] at h
    split at h
    · cases hpe : put_entry c q with
      | none => simp [hpe] at h
      | some c2 =>
        simp only [hpe, Option.map_some', Option.some.injEq, Prod.mk.injEq] at h
        rw [← h.2, ← h.1]
        exact ((RefShift.rs_put_entry hpe).rs_trans (RefShift.rs_emit _ Event.unlock)).rs_mono
          (fun x => by simp; split_ifs <;> simp)
    · cases hcu : check_unlink_entry c q with
      | none => simp [hcu] at h
      | some x =>
        obtain ⟨r, c2⟩ := x
        simp only [hcu] at h
        have h2 : RefShift (fun _ => 0) c c2 := RefShift.rs_check_unlink_entry hcu
        split at h
        · cases hpe : put_entry c2 q with
          | none => simp [hpe] at h
          | some c3 =>
            simp only [hpe, Option.map_some', Option.some.injEq, Prod.mk.injEq] at h
            rw [← h.2, ← h.1]
            exact (h2.rs_then ((RefShift.rs_put_entry hpe).rs_trans
              (RefShift.rs_emit _ Event.unlock))).rs_mono
                (fun x => by simp; split_ifs <;> simp)
        · simp only [Option.some.injEq, Prod.mk.injEq] at h
          rw [← h.2, ← h.1]
          exact (h2.rs_then (RefShift.rs_emit _ Event.unlock)).rs_mono (fun x => by simp)

theorem RefShift.rs_get_acquiring {c c1 : upcall_cache} {q : Nat} {new : Option Nat}
    {fa : Bool} {pc : GetPC} (h : get_acquiring c q new fa = some (pc, c1)) :
    RefShift (fun x => held pc x - (if x = q then 1 else 0)) c c1 := by
  cases hp : c.heap q with
  | none => simp [get_acquiring, hp] at h
  | some e =>
    simp only [get_acquiring, hp] at h
    split at h
    · simp only [Option.some.injEq, Prod.mk.injEq] at h
      rw [← h.2, ← h.1]
      exact (RefShift.rs_emit _ Event.unlock).rs_mono (fun x => by simp)
    · exact RefShift.rs_get_tail h

theorem RefShift.rs_get_after_wait {c c1 : upcall_cache} {q : Nat} {new : Option Nat}
    {fa : Bool} {left : Int} {pc : GetPC}
    (h : get_after_wait c q new fa left = some (pc, c1)) :
    RefShift (fun x => held pc x - (if x = q then 1 else 0)) c c1 := by
  have h0 : RefShift (fun _ => 0) c (emit c Event.lock) := RefShift.rs_emit _ Event.lock
  cases hp : (emit c Event.lock).heap q with
  | none => simp [get_after_wait, hp] at h
  | some e =>
    simp only [get_after_wait, hp] at h
    split at h
    · cases hpe : put_entry (emit c Event.lock) q with
      | none => simp [hpe] at h
      | some c2 =>
        simp only [hpe] at h
        have h2 : RefShift (fun x => if x = q then -1 else 0) c (emit c2 Event.unlock) :=
          (h0.rs_then ((RefShift.rs_put_entry hpe).rs_trans
            (RefShift.rs_emit _ Event.unlock))).rs_mono (fun x => by simp)
        have hc1 : c1 = emit c2 Event.unlock ∧ ∀ x, held pc x = 0 := by
          split_ifs at h <;> simp only [Option.some.injEq, Prod.mk.injEq] at h <;>
            exact ⟨h.2.symm, fun x => by rw [← h.1]; simp⟩
        rw [hc1.1]
        exact h2.rs_mono (fun x => by rw [hc1.2 x]; split_ifs <;> simp)
    · exact h0.rs_then (RefShift.rs_get_tail h)

theorem RefShift.rs_get_after_upcall {c c1 : upcall_cache} {q : Nat} {new : Option Nat}
    {fa : Bool} {rc : Int} {pc : GetPC}
    (h : get_after_upcall c q new fa rc = some (pc, c1)) :
    RefShift (fun x => held pc x - (if x = q then 1 else 0)) c c1 := by
  have h0 : RefShift (fun _ => 0) c (emit c Event.lock) := RefShift.rs_emit _ Event.lock
  cases hp : (emit c Event.lock).heap q with
  | none => simp [get_after_upcall, hp] at h
  | some e =>
    simp only [get_after_upcall, hp] at h
    split at h
    · have hst : RefShift (fun _ => 0) (emit c Event.lock)
          (store (emit c Event.lock) q (UC_CACHE_SET_INVALID (UC_CACHE_CLEAR_ACQUIRING
            { e with ue_acquire_expire := (emit c Event.lock).now +
              (emit c Event.lock).uc_acquire_expire }))) :=
        RefShift.rs_store_same hp (by simp)
      have h1 := h0.rs_then (hst.rs_then (RefShift.rs_emit _ (Event.wake q)))
      split at h
      · cases hpe : put_entry (emit (store (emit c Event.lock) q (UC_CACHE_SET_INVALID
            (UC_CACHE_CLEAR_ACQUIRING { e with ue_acquire_expire := (emit c Event.lock).now +
              (emit c Event.lock).uc_acquire_expire }))) (Event.wake q)) q with
        | none => simp [hpe] at h
        | some c2 =>
          simp only [hpe, Option.map_some', Option.some.injEq, Prod.mk.injEq] at h
          rw [← h.2, ← h.1]
          exact (h1.rs_then ((RefShift.rs_put_entry hpe).rs_trans
            (RefShift.rs_emit _ Event.unlock))).rs_mono
              (fun x => by simp; split_ifs <;> simp)
      · exact h1.rs_then (RefShift.rs_get_acquiring h)
    · have hst : RefShift (fun _ => 0) (emit c Event.lock)
          (store (emit c Event.lock) q { e with ue_acquire_expire := (emit c Event.lock).now +
            (emit c Event.lock).uc_acquire_expire }) :=
        RefShift.rs_store_same hp rfl
      exact h0.rs_then (hst.rs_then (RefShift.rs_get_acquiring h))

theorem RefShift.rs_get_hold {c c1 : upcall_cache} {q : Nat} {new : Option Nat} {fa : Bool}
    {pc : GetPC} (h : get_hold c q new fa = some (pc, c1)) : RefShift (held pc) c c1 := by
  cases hge : get_entry c q with
  | none => simp [get_hold, hge] at h
  | some c2 =>
    have h2 : RefShift (fun x => if x = q then 1 else 0) c c2 := RefShift.rs_get_entry hge
    cases hp : c2.heap q with
    | none => simp [get_hold, hge, hp] at h
    | some e =>
      simp only [get_hold, hge, hp] at h
      split at h
      · simp only [Option.some.injEq, Prod.mk.injEq] at h
        rw [← h.2, ← h.1]
        have hst : RefShift (fun _ => 0) c2
            (store c2 q (UC_CACHE_CLEAR_NEW (UC_CACHE_SET_ACQUIRING e))) :=
          RefShift.rs_store_same hp (by simp)
        have h3 : RefShift (fun _ => 0) c2 (refresh_entry (emit (store c2 q
            (UC_CACHE_CLEAR_NEW (UC_CACHE_SET_ACQUIRING e))) Event.unlock) q) :=
          hst.rs_then ((RefShift.rs_emit _ Event.unlock).rs_then
            (RefShift.rs_emit _ (Event.upcall q)))
        exact (h2.rs_trans h3).rs_mono (fun x => by simp)
      · exact (h2.rs_trans (RefShift.rs_get_acquiring h)).rs_mono (fun x => by simp)

theorem RefShift.rs_get_find {ops : upcall_cache_ops} {c c1 : upcall_cache} {key args : Nat}
    {fa : Bool} {pc : GetPC} (h : get_find ops c key args none fa = some (pc, c1)) :
    RefShift (held pc) c c1 := by
  have h0 : RefShift (fun _ => 0) c (emit c Event.lock) := RefShift.rs_emit _ Event.lock
  simp only [get_find] at h
  cases hfl : find_loop ops key args
      ((emit c Event.lock).uc_hashtable (UC_CACHE_HASH_INDEX key c.uc_hashsize))
      (emit c Event.lock) with
  | none => simp [hfl] at h
  | some x =>
    obtain ⟨res, c2⟩ := x
    have h2 : RefShift (fun _ => 0) c c2 := h0.rs_then (RefShift.rs_find_loop hfl)
    cases res with
    | none =>
      simp only [hfl, Option.some.injEq, Prod.mk.injEq] at h
      rw [← h.2, ← h.1]
      exact (h2.rs_then (RefShift.rs_emit _ Event.unlock)).rs_mono (fun x => by simp)
    | some entry =>
      simp only [hfl] at h
      exact h2.rs_then ((RefShift.rs_list_move c2 entry _).rs_then (RefShift.rs_get_hold h))

theorem Balanced.step_shift {c0 c c1 : upcall_cache} {pc pc1 : GetPC}
    (hb : Balanced c0 pc c) (hs : RefShift (fun x => held pc1 x - held pc x) c c1) :
    Balanced c0 pc1 c1 := by
  intro q e1 h1
  obtain ⟨e, he, hr⟩ := hs q e1 h1
  rw [hr, hb q e he]
  ring

theorem Balanced.at_start (c0 : upcall_cache) (fa : Bool) :
    Balanced c0 (GetPC.find_again fa) c0 := by
  intro q e1 h1
  simp [refcount_of, h1]

theorem refcount_of_nonneg {c0 : upcall_cache} (hnn : RefsNonneg c0) (q : Nat) :
    0 ≤ refcount_of c0 q := by
  unfold refcount_of
  cases hq : c0.heap q with
  | none => exact le_refl _
  | some e => exact hnn q e hq

theorem held_nonneg (pc : GetPC) (q : Nat) : 0 ≤ held pc q := by
  unfold held
  split_ifs <;> decide

theorem Balanced.refsNonneg {c0 c : upcall_cache} {pc : GetPC} (hb : Balanced c0 pc c)
    (hnn : RefsNonneg c0) : RefsNonneg c := by
  intro q e hq
  rw [hb q e hq]
  exact add_nonneg (refcount_of_nonneg hnn q) (held_nonneg pc q)

theorem Balanced.heldRef {c0 c : upcall_cache} {pc : GetPC} (hb : Balanced c0 pc c)
    (hnn : RefsNonneg c0) : HeldRef pc c := by
  cases pc with
  | do_upcall q new fa =>
    intro e hq
    have h1 := hb q e hq
    have h2 := refcount_of_nonneg hnn q
    simp at h1
    omega
  | do_wait q new fa =>
    intro e hq
    have h1 := hb q e hq
    have h2 := refcount_of_nonneg hnn q
    simp at h1
    omega
  | ret r => trivial
  | find_again fa => trivial
  | do_alloc fa => trivial

theorem get_find_new_shift {ops : upcall_cache_ops} {c0 c1 : upcall_cache}
    {key args p : Nat} {obj : upcall_cache_entry} {fa : Bool} {pc : GetPC}
    (hn : UC_CACHE_IS_NEW obj = true)
    (h : get_find ops c0 key args (some (p, obj)) fa = some (pc, c1)) :
    RefShift (held pc) c0 c1 ∨
    ∃ c2, RefShift (fun _ => 0) c0 c2 ∧ pc = GetPC.do_upcall p (some p) fa ∧
      (∀ q, q ≠ p → c1.heap q = c2.heap q) ∧
      c1.heap p = some (UC_CACHE_CLEAR_NEW (UC_CACHE_SET_ACQUIRING
        { obj with ue_refcount := obj.ue_refcount + 1 })) := by
  have h0 : RefShift (fun _ => 0) c0 (emit c0 Event.lock) := RefShift.rs_emit _ Event.lock
  simp only [get_find] at h
  cases hfl : find_loop ops key args
      ((emit c0 Event.lock).uc_hashtable (UC_CACHE_HASH_INDEX key c0.uc_hashsize))
      (emit c0 Event.lock) with
  | none => simp [hfl] at h
  | some x =>
    obtain ⟨res, c2⟩ := x
    have h2 : RefShift (fun _ => 0) c0 c2 := h0.rs_then (RefShift.rs_find_loop hfl)
    cases res with
    | some entry =>
      simp only [hfl] at h
      left
      exact h2.rs_then ((RefShift.rs_emit _ (Event.free p obj.ue_refcount)).rs_then
        ((RefShift.rs_list_move _ entry _).rs_then (RefShift.rs_get_hold h)))
    | none =>
      simp only [hfl] at h
      right
      have hn0 : obj.ue_flags.testBit 0 = true := by simpa [-Nat.testBit_zero] using hn
      simp [-Nat.testBit_zero, get_hold, get_entry, store, list_add, hn0] at h
      obtain ⟨hpc, hc1⟩ := h
      subst hc1
      refine ⟨c2, h2, hpc.symm, fun q hq => ?_, ?_⟩
      · simp [refresh_entry, emit, Function.update, hq]
      · simp [refresh_entry, emit]

theorem alloc_step_balanced {ops : upcall_cache_ops} {c0 c c1 : upcall_cache}
    {key args : Nat} {fa : Bool} {pc : GetPC} (hf0 : Fresh c0) (hle : c0.brk ≤ c.brk)
    (hb : Balanced c0 (GetPC.do_alloc fa) c)
    (h : get_find ops (emit { c with brk := c.brk + 1 } (Event.alloc c.brk)) key args
      (some (c.brk, alloc_entry ops key args)) fa = some (pc, c1)) :
    Balanced c0 pc c1 := by
  have hr0 : RefShift (fun _ => 0) c (emit { c with brk := c.brk + 1 } (Event.alloc c.brk)) :=
    RefShift.rs_same rfl
  rcases get_find_new_shift (alloc_entry_is_new ops key args) h with
    h1 | ⟨c2, h2, hpc, hoth, hnew⟩
  · exact hb.step_shift ((hr0.rs_then h1).rs_mono (fun x => by simp))
  · intro q e1 hq
    by_cases hqp : q = c.brk
    · subst hqp
      rw [hnew] at hq
      have he1 : e1.ue_refcount = (alloc_entry ops key args).ue_refcount + 1 := by
        cases hq; simp
      have hz : refcount_of c0 c.brk = 0 := by
        simp [refcount_of, hf0 c.brk hle]
      rw [he1, (alloc_entry_fields ops key args).2, hz, hpc]
      simp
    · rw [hoth q hqp] at hq
      obtain ⟨e, he, hr⟩ := (hr0.rs_then h2) q e1 hq
      rw [hr, hb q e he, hpc]
      simp [hqp]

theorem get_step_balanced {ops : upcall_cache_ops} {key args : Nat} {s : Susp}
    {pc pc1 : GetPC} {c0 c c1 : upcall_cache} (hf0 : Fresh c0) (hle : c0.brk ≤ c.brk)
    (hb : Balanced c0 pc c) (h : get_step ops key args s pc c = some (pc1, c1)) :
    Balanced c0 pc1 c1 := by
  cases pc with
  | ret r =>
    simp only [get_step, Option.some.injEq, Prod.mk.injEq] at h
    rw [← h.1, ← h.2]; exact hb
  | find_again fa =>
    have h0 : get_find ops c key args none fa = some (pc1, c1) := h
    exact hb.step_shift ((RefShift.rs_get_find h0).rs_mono (fun x => by simp))
  | do_alloc fa =>
    simp only [get_step] at h
    split at h
    · exact alloc_step_balanced hf0 hle hb h
    · simp only [Option.some.injEq, Prod.mk.injEq] at h
      rw [← h.1, ← h.2]
      exact hb.step_shift ((RefShift.rs_refl c).rs_mono (fun x => by simp))
  | do_upcall entry new fa =>
    have h0 : get_after_upcall c entry new fa s.rc = some (pc1, c1) := h
    exact hb.step_shift ((RefShift.rs_get_after_upcall h0).rs_mono (fun x => by simp))
  | do_wait entry new fa =>
    have h0 : get_after_wait c entry new fa (wait_left c entry new s.left) = some (pc1, c1) := h
    exact hb.step_shift ((RefShift.rs_get_after_wait h0).rs_mono (fun x => by simp))

theorem get_step_alive {ops : upcall_cache_ops} {key args : Nat} {s : Susp}
    {pc pc1 : GetPC} {c0 c c1 : upcall_cache} (hnn : RefsNonneg c0)
    (hb : Balanced c0 pc c) (hal : ∀ q, pc = GetPC.ret (Except.ok q) → ∃ e, c.heap q = some e)
    (h : get_step ops key args s pc c = some (pc1, c1)) :
    ∀ q, pc1 = GetPC.ret (Except.ok q) → ∃ e, c1.heap q = some e := by
  intro q hq
  subst hq
  by_cases hret : ∃ r, pc = GetPC.ret r
  · obtain ⟨r, rfl⟩ := hret
    simp only [get_step, Option.some.injEq, Prod.mk.injEq] at h
    rw [← h.2]
    exact hal q h.1
  · obtain ⟨e, he, -⟩ := get_step_ok h (fun r hr => hret ⟨r, hr⟩) (hb.refsNonneg hnn)
      (hb.heldRef hnn)
    exact ⟨e, he⟩

theorem KeepsRefs.keeps_id : KeepsRefs id := fun c => ⟨le_refl _, RefShift.rs_refl c⟩

theorem KeepsRefs.rs_resume {f : upcall_cache → upcall_cache} (hf : KeepsRefs f)
    (c : upcall_cache) : RefShift (fun _ => 0) c (resume f c) := (hf c).2

theorem KeepsRefs.fresh_resume {f : upcall_cache → upcall_cache} (hf : KeepsRefs f)
    {c : upcall_cache} (hc : Fresh c) : Fresh (resume f c) := by
  intro p hp
  have hp1 : (f c).brk ≤ p := hp
  cases hq : (resume f c).heap p with
  | none => rfl
  | some e1 =>
    obtain ⟨e, he, -⟩ := (hf c).2 p e1 hq
    have := hc p (le_trans (hf c).1 hp1)
    rw [this] at he; cases he

theorem Balanced.of_resume {f : upcall_cache → upcall_cache} (hf : KeepsRefs f)
    {c0 c : upcall_cache} {pc : GetPC} (hb : Balanced c0 pc c) : Balanced c0 pc (resume f c) := by
  intro q e1 hq
  obtain ⟨e, he, hr⟩ := (hf c).2 q e1 hq
  rw [hr, hb q e he]
  simp

/-- One locked section of a lookup, from any state whose next address is unused: every
entry allocated afterwards has the refcount it had before (0 for the entry allocated in
this very section) plus the reference the call holds after the section, less the one it
held before. -/
theorem get_step_shift {ops : upcall_cache_ops} {key args : Nat} {s : Susp}
    {pc pc1 : GetPC} {c c1 : upcall_cache} (hfree : c.heap c.brk = none)
    (h : get_step ops key args s pc c = some (pc1, c1)) :
    ∀ q e1, c1.heap q = some e1 →
      e1.ue_refcount = refcount_of c q + held pc1 q - held pc q := by
  have fin : ∀ (pc0 pc2 : GetPC) (c2 : upcall_cache) (d : Nat → Int), RefShift d c c2 →
      (∀ x, d x = held pc2 x - held pc0 x) →
      ∀ q e1, c2.heap q = some e1 →
        e1.ue_refcount = refcount_of c q + held pc2 q - held pc0 q := by
    intro pc0 pc2 c2 d hd hdx q e1 hq
    obtain ⟨e, he, hr⟩ := hd q e1 hq
    rw [hr, hdx q]
    simp only [refcount_of, he]
    ring
  cases pc with
  | ret r =>
    simp only [get_step, Option.some.injEq, Prod.mk.injEq] at h
    rw [← h.1, ← h.2]
    exact fin _ _ _ _ (RefShift.rs_refl c) (fun x => by simp)
  | find_again fa =>
    have h0 : get_find ops c key args none fa = some (pc1, c1) := h
    exact fin _ _ _ _ (RefShift.rs_get_find h0) (fun x => by simp)
  | do_alloc fa =>
    simp only [get_step] at h
    split at h
    · have hr0 : RefShift (fun _ => 0) c
          (emit { c with brk := c.brk + 1 } (Event.alloc c.brk)) := RefShift.rs_same rfl
      rcases get_find_new_shift (alloc_entry_is_new ops key args) h with
        h1 | ⟨c2, h2, hpc, hoth, hnew⟩
      · exact fin _ _ _ _ (hr0.rs_then h1) (fun x => by simp)
      · intro q e1 hq
        by_cases hqp : q = c.brk
        · subst hqp
          rw [hnew] at hq
          have he1 : e1.ue_refcount = (alloc_entry ops key args).ue_refcount + 1 := by
            cases hq; simp
          rw [he1, (alloc_entry_fields ops key args).2, hpc]
          simp [refcount_of, hfree]
        · rw [hoth q hqp] at hq
          obtain ⟨e, he, hr⟩ := (hr0.rs_then h2) q e1 hq
          rw [hr, hpc]
          simp [refcount_of, he, hqp]
    · simp only [Option.some.injEq, Prod.mk.injEq] at h
      rw [← h.1, ← h.2]
      exact fin _ _ _ _ (RefShift.rs_refl c) (fun x => by simp)
  | do_upcall entry new fa =>
    have h0 : get_after_upcall c entry new fa s.rc = some (pc1, c1) := h
    exact fin _ _ _ _ (RefShift.rs_get_after_upcall h0) (fun x => by simp)
  | do_wait entry new fa =>
    have h0 : get_after_wait c entry new fa (wait_left c entry new s.left) = some (pc1, c1) := h
    exact fin _ _ _ _ (RefShift.rs_get_after_wait h0) (fun x => by simp)

theorem get_run_balanced {ops : upcall_cache_ops} {key args : Nat} {c0 : upcall_cache}
    (hf0 : Fresh c0) :
    ∀ (env : List Susp) (pc : GetPC) (c c1 : upcall_cache) (r : Except Int Nat),
      (∀ s ∈ env, KeepsRefs s.interfere) →
      Fresh c → c0.brk ≤ c.brk → Balanced c0 pc c →
      get_run ops key args env pc c = some (r, c1) →
      Balanced c0 (GetPC.ret r) c1 ∧
        (RefsNonneg c0 → (∀ q, pc = GetPC.ret (Except.ok q) → ∃ e, c.heap q = some e) →
          ∀ q, r = Except.ok q → ∃ e, c1.heap q = some e) := by
  intro env
  induction env with
  | nil =>
    intro pc c c1 r _ _ _ hb h
    cases pc with
    | ret r0 =>
      simp only [get_run, Option.some.injEq, Prod.mk.injEq] at h
      rw [← h.2, ← h.1]
      exact ⟨hb, fun _ hal q hq => hal q (by rw [hq])⟩
    | _ => simp [get_run] at h
  | cons o rest ih =>
    intro pc c c1 r henv hf hle hb h
    by_cases hret : ∃ r0, pc = GetPC.ret r0
    · obtain ⟨r0, rfl⟩ := hret
      simp only [get_run, Option.some.injEq, Prod.mk.injEq] at h
      rw [← h.2, ← h.1]
      exact ⟨hb, fun _ hal q hq => hal q (by rw [hq])⟩
    · have hstep : get_run ops key args (o :: rest) pc c =
          match get_step ops key args o pc (resume o.interfere c) with
          | none => none
          | some (pc1, c2) => get_run ops key args rest pc1 c2 := by
        cases pc with
        | ret r0 => exact absurd ⟨r0, rfl⟩ hret
        | _ => rfl
      rw [hstep] at h
      have hk : KeepsRefs o.interfere := henv o (List.mem_cons_self _ _)
      have hfr : Fresh (resume o.interfere c) := hk.fresh_resume hf
      have hler : c0.brk ≤ (resume o.interfere c).brk := le_trans hle (hk c).1
      have hbr : Balanced c0 pc (resume o.interfere c) := hb.of_resume hk
      cases hg : get_step ops key args o pc (resume o.interfere c) with
      | none => simp [hg] at h
      | some x =>
        obtain ⟨pc2, c2⟩ := x
        simp only [hg] at h
        have hgr := get_step_grows hfr hg
        have hle2 : c0.brk ≤ c2.brk := by
          rcases hgr.1 with hb2 | hb2 <;> omega
        have hb2 := get_step_balanced hf0 hler hbr hg
        obtain ⟨h1, h2⟩ := ih pc2 c2 c1 r
          (fun s hs => henv s (List.mem_cons_of_mem _ hs)) (hgr.fresh hfr) hle2 hb2 h
        refine ⟨h1, fun hnn hal => h2 hnn (get_step_alive hnn hbr (fun q hq => ?_) hg)⟩
        exact absurd ⟨_, hq⟩ hret

theorem RefShift.rs_downcall_out {c c1 : upcall_cache} {entry : Nat} {rc : Int} {pc : DownPC}
    (h : downcall_out c entry rc = some (pc, c1)) :
    RefShift (fun _ => 0) c c1 ∧ pc = DownPC.do_put entry rc := by
  cases hp : c.heap entry with
  | none => simp [downcall_out, hp] at h
  | some e =>
    simp only [downcall_out, hp] at h
    split at h <;> simp only [Option.some.injEq, Prod.mk.injEq] at h <;> rw [← h.2, ← h.1]
    · exact ⟨(RefShift.rs_store_same hp (by simp)).rs_then
        ((RefShift.rs_list_del _ entry).rs_then (RefShift.rs_emit _ Event.unlock)), rfl⟩
    · exact ⟨(RefShift.rs_store_same hp (by simp)).rs_then (RefShift.rs_emit _ Event.unlock),
        rfl⟩

theorem RefShift.rs_downcall_start {ops : upcall_cache_ops} {c c1 : upcall_cache}
    {err key args : Nat} {pc : DownPC}
    (h : downcall_start ops c err key args = some (pc, c1)) :
    RefShift (down_held pc) c c1 := by
  have h0 : RefShift (fun _ => 0) c (emit c Event.lock) := RefShift.rs_emit _ Event.lock
  simp only [downcall_start] at h
  cases hl : downcall_loop ops key args (emit c Event.lock)
      ((emit c Event.lock).uc_hashtable (UC_CACHE_HASH_INDEX key c.uc_hashsize)) with
  | none => simp [hl] at h
  | some res =>
    cases res with
    | none =>
      simp only [hl, Option.some.injEq, Prod.mk.injEq] at h
      rw [← h.2, ← h.1]
      exact (h0.rs_then (RefShift.rs_emit _ Event.unlock)).rs_mono (fun x => by simp [down_held])
    | some entry =>
      simp only [hl] at h
      cases hge : get_entry (emit c Event.lock) entry with
      | none => simp [hge] at h
      | some c2 =>
        have h2 : RefShift (fun x => if x = entry then 1 else 0) c c2 :=
          h0.rs_then (RefShift.rs_get_entry hge)
        simp only [hge] at h
        cases hp : c2.heap entry with
        | none => simp [hp] at h
        | some e =>
          simp only [hp] at h
          have hout : ∀ rc, downcall_out c2 entry rc = some (pc, c1) →
              RefShift (down_held pc) c c1 := by
            intro rc ho
            obtain ⟨h3, hpc⟩ := RefShift.rs_downcall_out ho
            exact (h2.rs_trans h3).rs_mono (fun x => by rw [hpc]; simp [down_held])
          split at h
          · exact hout _ h
          · split at h
            · exact hout _ h
            · split at h
              · exact hout _ h
              · simp only [Option.some.injEq, Prod.mk.injEq] at h
                rw [← h.2, ← h.1]
                exact (h2.rs_trans (RefShift.rs_emit _ Event.unlock)).rs_mono
                  (fun x => by simp [down_held])

theorem RefShift.rs_downcall_parse {ops : upcall_cache_ops} {c c1 : upcall_cache}
    {entry args : Nat} {pc : DownPC}
    (h : downcall_parse ops c entry args = some (pc, c1)) :
    RefShift (fun _ => 0) c c1 ∧ ∃ rc, pc = DownPC.do_put entry rc := by
  have tail : ∀ (c2 : upcall_cache) (rc : Int),
      (if rc != 0 then downcall_out (emit c2 Event.lock) entry rc
        else match (emit c2 Event.lock).heap entry with
          | none => none
          | some e2 =>
            downcall_out (store (emit c2 Event.lock) entry (UC_CACHE_SET_VALID
              (if e2.ue_expire == 0 then
                { e2 with ue_expire := (emit c2 Event.lock).now +
                    (emit c2 Event.lock).uc_entry_expire } else e2))) entry 0) =
        some (pc, c1) → RefShift (fun _ => 0) c2 c1 ∧ ∃ rc, pc = DownPC.do_put entry rc := by
    intro c2 rc h
    have h3 : RefShift (fun _ => 0) c2 (emit c2 Event.lock) := RefShift.rs_emit _ Event.lock
    split at h
    · obtain ⟨h4, hpc⟩ := RefShift.rs_downcall_out h
      exact ⟨h3.rs_then h4, _, hpc⟩
    · cases he3 : (emit c2 Event.lock).heap entry with
      | none => simp [he3] at h
      | some e2 =>
        simp only [he3] at h
        obtain ⟨h4, hpc⟩ := RefShift.rs_downcall_out h
        refine ⟨h3.rs_then ((RefShift.rs_store_same he3 ?_).rs_then h4), _, hpc⟩
        split_ifs <;> simp
  cases hp : c.heap entry with
  | none => simp [downcall_parse, hp] at h
  | some e =>
    cases hpd : ops.parse_downcall with
    | none =>
      simp only [downcall_parse, hp, hpd] at h
      exact tail c 0 h
    | some f =>
      simp only [downcall_parse, hp, hpd] at h
      obtain ⟨h1, h2⟩ := tail _ _ h
      have hst : RefShift (fun _ => 0) c (store c entry
          { e with payload := (f e args).2.1, ue_expire := (f e args).2.2 }) :=
        RefShift.rs_store_same hp rfl
      exact ⟨(hst.rs_then (RefShift.rs_emit _ (Event.parse entry))).rs_then h1, h2⟩

theorem RefShift.rs_downcall_finish {f g : upcall_cache → upcall_cache} {c c1 : upcall_cache}
    {entry : Nat} {rc r : Int} (hf : KeepsRefs f) (hg : KeepsRefs g)
    (h : downcall_finish f g c entry rc = some (r, c1)) :
    RefShift (fun x => if x = entry then -1 else 0) c c1 := by
  have h0 : RefShift (fun _ => 0) c (emit c (Event.wake entry)) := RefShift.rs_emit _ _
  cases hp : (emit c (Event.wake entry)).heap entry with
  | none => simp [downcall_finish, put_dec, hp] at h
  | some e =>
    have h1 : RefShift (fun x => if x = entry then -1 else 0) c
        (store (emit c (Event.wake entry)) entry { e with ue_refcount := e.ue_refcount - 1 }) :=
      h0.rs_then (RefShift.rs_store (-1) hp (by simp; ring))
    obtain ⟨c2, hc2⟩ : ∃ c2, c2 = store (emit c (Event.wake entry)) entry
        { e with ue_refcount := e.ue_refcount - 1 } := ⟨_, rfl⟩
    rw [← hc2] at h1
    cases hd : decide (e.ue_refcount - 1 = 0) with
    | false =>
      simp only [downcall_finish, put_dec, hp, hd, ← hc2, Option.some.injEq, Prod.mk.injEq] at h
      rw [← h.2]; exact h1
    | true =>
      simp only [downcall_finish, put_dec, hp, hd, ← hc2] at h
      have h2 : RefShift (fun x => if x = entry then -1 else 0) c (resume f c2) :=
        (h1.rs_trans (hf.rs_resume c2)).rs_mono (fun x => by simp)
      cases ht : put_test (resume f c2) entry with
      | none => simp [ht] at h
      | some b =>
        cases b with
        | false =>
          simp only [ht, Option.some.injEq, Prod.mk.injEq] at h
          rw [← h.2]; exact h2
        | true =>
          simp only [ht] at h
          cases hfe : free_entry (resume g (resume f c2)) entry with
          | none => simp [hfe] at h
          | some c3 =>
            simp only [hfe, Option.map_some', Option.some.injEq, Prod.mk.injEq] at h
            rw [← h.2]
            exact ((h2.rs_trans (hg.rs_resume _)).rs_trans (RefShift.rs_free hfe)).rs_mono
              (fun x => by simp)

/-- A downcall shifts no refcount of an entry it leaves allocated, provided the other
threads hold no more and no fewer references after each of its unlocked windows than
before. -/
theorem downcall_env_shift {ops : upcall_cache_ops} {env : DownEnv} {c c1 : upcall_cache}
    {err key args : Nat} {rc : Int} (h1e : KeepsRefs env.during_parse)
    (h2e : KeepsRefs env.before_put) (h3e : KeepsRefs env.before_test)
    (h4e : KeepsRefs env.before_free)
    (h : upcall_cache_downcall ops env c err key args = some (rc, c1)) :
    RefShift (fun _ => 0) c c1 := by
  simp only [upcall_cache_downcall] at h
  cases hs : downcall_start ops c err key args with
  | none => simp [hs] at h
  | some x =>
    obtain ⟨pc, c2⟩ := x
    simp only [hs] at h
    have h1 := RefShift.rs_downcall_start hs
    cases pc with
    | ret r0 =>
      simp only [downcall_run, Option.some.injEq, Prod.mk.injEq] at h
      rw [← h.2]
      exact h1.rs_mono (fun x => by simp [down_held])
    | do_test entry r0 => simp [downcall_run] at h
    | do_free entry r0 => simp [downcall_run] at h
    | do_put entry r0 =>
      have h2 : downcall_finish env.before_test env.before_free (resume env.before_put c2)
          entry r0 = some (rc, c1) := h
      exact ((h1.rs_trans (h2e.rs_resume c2)).rs_trans
        (RefShift.rs_downcall_finish h3e h4e h2)).rs_mono
          (fun x => by simp [down_held]; split_ifs <;> simp)
    | do_parse entry =>
      have h2 : (match downcall_parse ops (resume env.during_parse c2) entry args with
          | none => none
          | some (DownPC.do_put entry1 rc, c1) =>
            downcall_finish env.before_test env.before_free (resume env.before_put c1) entry1 rc
          | some (DownPC.ret rc, c1) => some (rc, c1)
          | some (_, _) => none) = some (rc, c1) := h
      cases hpa : downcall_parse ops (resume env.during_parse c2) entry args with
      | none => simp [hpa] at h2
      | some y =>
        obtain ⟨pc3, c3⟩ := y
        obtain ⟨h3, r3, hpc3⟩ := RefShift.rs_downcall_parse hpa
        subst hpc3
        simp only [hpa] at h2
        exact ((((h1.rs_trans (h1e.rs_resume c2)).rs_trans h3).rs_trans
          (h2e.rs_resume c3)).rs_trans (RefShift.rs_downcall_finish h3e h4e h2)).rs_mono
            (fun x => by simp [down_held]; split_ifs <;> simp)

theorem downcall_quiet_brk {ops : upcall_cache_ops} {c c1 : upcall_cache}
    {err key args : Nat} {rc : Int}
    (h : upcall_cache_downcall ops DownEnv.quiet c err key args = some (rc, c1)) :
    c1.brk = c.brk := by
  simp only [upcall_cache_downcall] at h
  cases hst : downcall_start ops c err key args with
  | none => simp [hst] at h
  | some x =>
    obtain ⟨pc, c2⟩ := x
    simp only [hst] at h
    have hs2 : c2.brk = c.brk := (Safe.of_downcall_start (s := false) hst).1
    cases pc with
    | ret r =>
      simp only [downcall_run, Option.some.injEq, Prod.mk.injEq] at h
      rw [← h.2]; exact hs2
    | do_test entry r => simp [downcall_run] at h
    | do_free entry r => simp [downcall_run] at h
    | do_put entry r =>
      have h1 : downcall_finish id id c2 entry r = some (rc, c1) := h
      rw [(Safe.of_downcall_finish (s := false) h1).1, hs2]
    | do_parse entry =>
      obtain ⟨e, he, -⟩ := downcall_start_parse hst
      have h1 : (match downcall_parse ops c2 entry args with
          | none => none
          | some (DownPC.do_put entry1 r, c3) => downcall_finish id id c3 entry1 r
          | some (DownPC.ret r, c3) => some (r, c3)
          | some (_, _) => none) = some (rc, c1) := h
      cases hpa : downcall_parse ops c2 entry args with
      | none => simp [hpa] at h1
      | some y =>
        obtain ⟨pc3, c3⟩ := y
        have hs3 : c3.brk = c2.brk :=
          (Safe.of_downcall_parse (s := false) he (by simp) hpa).1
        cases pc3 with
        | ret r =>
          simp only [hpa, Option.some.injEq, Prod.mk.injEq] at h1
          rw [← h1.2, hs3, hs2]
        | do_put entry1 r =>
          simp only [hpa] at h1
          rw [(Safe.of_downcall_finish (s := false) h1).1, hs3, hs2]
        | do_parse entry1 => simp [hpa] at h1
        | do_test entry1 r => simp [hpa] at h1
        | do_free entry1 r => simp [hpa] at h1

theorem KeepsRefs.keeps_downcall (ops : upcall_cache_ops) (err key args : Nat) :
    KeepsRefs (downcall_by_other ops err key args) := by
  intro c
  unfold downcall_by_other
  cases h : upcall_cache_downcall ops DownEnv.quiet c err key args with
  | none => exact ⟨le_refl _, RefShift.rs_refl c⟩
  | some x =>
    obtain ⟨rc, c1⟩ := x
    exact ⟨le_of_eq (downcall_quiet_brk h).symm,
      downcall_env_shift KeepsRefs.keeps_id KeepsRefs.keeps_id KeepsRefs.keeps_id
        KeepsRefs.keeps_id h⟩

theorem demo_empty_fresh : Fresh demo_empty := fun _ _ => rfl

/-- C29: reference balance.  (1) A whole `upcall_cache_get_entry` call, from every cache
state whose allocator hands out unused memory, for every outcome of the allocation, the
upcall and the waits, and for every behaviour of the other threads in which they hold as
many references when the call takes the lock again as when it dropped it (they may
deliver the downcall, flush, sweep, look entries up and put them again): when the call
returns the entry `q`, the refcount of `q` is the one it had before the call plus 1,
which is 1 for an entry the call created (`refcount_of` is 0 on unused memory); every
other entry that is still allocated afterwards, and every such entry when the call
returns an error, has the refcount it had before; and if no refcount was negative before
the call, the returned entry is allocated.  (2) Whatever the other threads do, each locked
section of the call on its own changes the refcount of an entry only by the reference the
call holds on it after the section less the one it held before.  (3) A
`upcall_cache_downcall`, under the same condition on the other threads, leaves the
refcount of every entry that is still allocated afterwards unchanged, the matched entry
included. -/
theorem reference_balance (ops : upcall_cache_ops) (c0 : upcall_cache) (key args : Nat)
    (hf : Fresh c0) :
    (∀ (env : List Susp) (r : Except Int Nat) (c1 : upcall_cache),
      (∀ s ∈ env, KeepsRefs s.interfere) →
      upcall_cache_get_entry ops env c0 key args = some (r, c1) →
        (∀ q e1, c1.heap q = some e1 → r = Except.ok q →
          e1.ue_refcount = refcount_of c0 q + 1) ∧
        (∀ q e1, c1.heap q = some e1 → r ≠ Except.ok q →
          e1.ue_refcount = refcount_of c0 q) ∧
        (RefsNonneg c0 → ∀ q, r = Except.ok q → ∃ e1, c1.heap q = some e1)) ∧
    (∀ (s : Susp) (pc pc1 : GetPC) (c c1 : upcall_cache), c.heap c.brk = none →
      get_step ops key args s pc c = some (pc1, c1) →
      ∀ q e1, c1.heap q = some e1 →
        e1.ue_refcount = refcount_of c q + held pc1 q - held pc q) ∧
    (∀ (env : DownEnv) (err : Nat) (rc : Int) (c1 : upcall_cache),
      KeepsRefs env.during_parse → KeepsRefs env.before_put → KeepsRefs env.before_test →
      KeepsRefs env.before_free →
      upcall_cache_downcall ops env c0 err key args = some (rc, c1) →
        ∀ q e1, c1.heap q = some e1 →
          ∃ e, c0.heap q = some e ∧ e1.ue_refcount = e.ue_refcount) := by
  refine ⟨fun env r c1 henv h => ?_, fun s pc pc1 c c1 hfree h => get_step_shift hfree h,
    fun env err rc c1 h1 h2 h3 h4 h q e1 hq => ?_⟩
  · unfold upcall_cache_get_entry at h
    cases hfi : get_find ops c0 key args none false with
    | none => simp [hfi] at h
    | some x =>
      obtain ⟨pc, c⟩ := x
      simp only [hfi] at h
      have hst : get_step ops key args Susp.quiet (GetPC.find_again false) c0 =
          some (pc, c) := hfi
      have hb0 : Balanced c0 (GetPC.find_again false) c0 := Balanced.at_start c0 false
      have hgr := get_step_grows hf hst
      have hle : c0.brk ≤ c.brk := by
        rcases hgr.1 with hb2 | hb2 <;> omega
      have hb := get_step_balanced hf (le_refl _) hb0 hst
      obtain ⟨h1, h2⟩ := get_run_balanced hf env pc c c1 r henv (hgr.fresh hf) hle hb h
      refine ⟨fun q e1 hq hr => ?_, fun q e1 hq hr => ?_, fun hnn q hr => ?_⟩
      · rw [h1 q e1 hq, hr]; simp
      · rw [h1 q e1 hq]
        cases r with
        | error rc => simp
        | ok p =>
          have hne : ¬ q = p := fun hqp => hr (by rw [hqp])
          simp [hne]
      · exact h2 hnn (get_step_alive hnn hb0 (fun q hq => by cases hq) hst) q hr
  · obtain ⟨e, he, hr⟩ := downcall_env_shift h1 h2 h3 h4 h q e1 hq
    exact ⟨e, he, by rw [hr]; simp⟩

/-- Witness for C29: a lookup of key 42 in the empty demo cache creates the entry at
address 100, upcalls, sleeps, is woken by the downcall another thread delivers, and
returns the entry it created, with refcount 1. -/
theorem reference_balance_witness :
    Fresh demo_empty ∧ (∀ s ∈ demo_answered_env, KeepsRefs s.interfere) ∧
    ∃ c1, upcall_cache_get_entry demo_ops demo_answered_env demo_empty 42 0 =
        some (Except.ok 100, c1) ∧
      (∀ e1, c1.heap 100 = some e1 → e1.ue_refcount = refcount_of demo_empty 100 + 1) ∧
      (c1.heap 100).map (fun e => (e.ue_refcount, UC_CACHE_IS_VALID e)) = some (1, true) := by
  have henv : ∀ s ∈ demo_answered_env, KeepsRefs s.interfere := by
    intro s hs
    simp only [demo_answered_env, List.mem_cons, List.mem_singleton, List.not_mem_nil,
      or_false] at hs
    rcases hs with rfl | rfl | rfl
    · exact KeepsRefs.keeps_id
    · exact KeepsRefs.keeps_id
    · exact KeepsRefs.keeps_downcall demo_ops 0 42 0
  exact ⟨demo_empty_fresh, henv, _, rfl,
    fun e1 h1 => ((reference_balance demo_ops demo_empty 42 0 demo_empty_fresh).1
      demo_answered_env (Except.ok 100) _ henv rfl).1 100 e1 h1 rfl, rfl⟩

end UpcallCache
